import Mathlib

/-! # vmasm: assembler, bytecode image and execution engine

A shallow embedding of the C++ sources (`vm.hpp`, `vm.cpp`, `vm_serializer.cpp`,
`compiler.cpp`, `disassembler.cpp`) followed by theorems about them.

Conventions of the embedding
* a `uint8_t` / `char` is a `Fin 256`, a `std::string` or `std::vector<uint8_t>` a list of them;
* `long` is a 64-bit two's complement integer, carried as an `Int` and wrapped explicitly;
* a C++ exception is `Fault.error`, behaviour the language leaves undefined (indexing a
  vector out of range, reading past a buffer, advancing an iterator past the end) is
  `Fault.undefined`, a call of `exit` is `Fault.exit`;
* `std::unordered_map` is its iteration sequence; where a new node is linked into that
  sequence is not fixed by the language and is a parameter (`StdLib.link`).
-/

namespace VMAsm

/-! ## Bytes and strings -/

/-- One `uint8_t` (or `char`). -/
abbrev Byte := Fin 256

/-- A `std::string`, also used for `std::vector<uint8_t>`. -/
abbrev Str := List Byte

/-- ASCII text as a `std::string`. -/
def lit (s : String) : Str := s.toList.map (fun c => Fin.ofNat c.toNat)

/-- How a computation of the program can end without a result. -/
inductive Fault where
  /-- a C++ exception with its `what()` text -/
  | error (what : Str)
  /-- behaviour the C++ language leaves undefined -/
  | undefined
  /-- the process was ended by `exit(status)` -/
  | exit (status : Int)
deriving DecidableEq, Repr

/-- The parts of the C++ standard library whose result the language does not fix
(or that need floating point): where `std::unordered_map` links a new node into its
iteration sequence; `std::stod`, which yields the 64 bits of the parsed double; and the
stream output of a double. -/
structure StdLib where
  /-- the iteration sequence after a new node `e` is linked into the sequence `l` -/
  link : {α : Type} → α → List α → List α
  /-- linking adds the node and keeps all others -/
  link_perm : ∀ {α : Type} (e : α) (l : List α), List.Perm (link e l) (e :: l)
  /-- the bits of `std::stod(token)`, or the exception it throws -/
  stod : Str → Except Fault Nat
  /-- the text of `ss << std::fixed << std::setprecision(0) << d` for the double with
  the given bits -/
  fixed0 : Nat → Str
  /-- the text of `ss << d` for the double with the given bits -/
  general : Nat → Str

/-- A library that links a new node at the head of the iteration sequence (its
floating-point functions are placeholders). -/
def StdLib.front : StdLib where
  link := fun e l => e :: l
  link_perm := fun e l => List.Perm.refl (e :: l)
  stod := fun _ => Except.error Fault.undefined
  fixed0 := fun _ => []
  general := fun _ => []

/-- A library that links a new node at the end of the iteration sequence (its
floating-point functions are placeholders). -/
def StdLib.back : StdLib where
  link := fun e l => l ++ [e]
  link_perm := fun e l => by
    exact (List.perm_append_comm : List.Perm (l ++ [e]) ([e] ++ l))
  stod := fun _ => Except.error Fault.undefined
  fixed0 := fun _ => []
  general := fun _ => []

/-! ## `std::unordered_map` -/

/-- A `std::unordered_map<κ, ν>` as its iteration sequence. -/
abbrev UMap (κ ν : Type) := List (κ × ν)

namespace UMap

variable {κ ν : Type} [DecidableEq κ]

/-- The keys in iteration order. -/
def keys (m : UMap κ ν) : List κ := m.map Prod.fst

/-- The mapped value of `find(k)`, when `k` is present. -/
def find : UMap κ ν → κ → Option ν
  | [], _ => none
  | (k1, v) :: m, k => if k1 = k then some v else find m k

/-- The result of `count(k)` as a truth value. -/
def contains (m : UMap κ ν) (k : κ) : Bool := (find m k).isSome

/-- Overwrite the mapped value of an existing key in place. -/
def replace : UMap κ ν → κ → ν → UMap κ ν
  | [], _, _ => []
  | (k1, v1) :: m, k, v => if k1 = k then (k1, v) :: m else (k1, v1) :: replace m k v

/-- The statement `m[k] = v`. -/
def assign (L : StdLib) (m : UMap κ ν) (k : κ) (v : ν) : UMap κ ν :=
  if contains m k then replace m k v else L.link (k, v) m

/-- The expression `m[k]` read as a value: the mapped value, and the map, in which a
missing key has been inserted with the value-initialised `dflt`. -/
def index (L : StdLib) (m : UMap κ ν) (k : κ) (dflt : ν) : ν × UMap κ ν :=
  match find m k with
  | some v => (v, m)
  | none => (dflt, L.link (k, dflt) m)

/-- The call `m.emplace(k, v)`: nothing happens when the key is present. -/
def emplace (L : StdLib) (m : UMap κ ν) (k : κ) (v : ν) : UMap κ ν :=
  if contains m k then m else L.link (k, v) m

end UMap

/-! ## Values and instructions (`vm.hpp`) -/

/-- The little-endian number held in a byte sequence. -/
def leNat : List Byte → Nat
  | [] => 0
  | b :: bs => b.val + 256 * leNat bs

/-- The `w` little-endian bytes of `n` (the low `8 * w` bits). -/
def leBytes : Nat → Nat → List Byte
  | 0, _ => []
  | w + 1, n => Fin.ofNat (n % 256) :: leBytes w (n / 256)

/-- Reinterpret the low `w` bits pattern `n` as a signed two's complement number. -/
def toSigned (w : Nat) (n : Nat) : Int :=
  if n % 2 ^ w < 2 ^ (w - 1) then ((n % 2 ^ w : Nat) : Int) else ((n % 2 ^ w : Nat) : Int) - 2 ^ w

/-- The bit pattern of a signed number in `w` bits. -/
def toBits (w : Nat) (x : Int) : Nat := (x % 2 ^ w).toNat

/-- The result of a `long` computation: wrapped to 64 bits. -/
def wrap64 (x : Int) : Int := toSigned 64 (toBits 64 x)

/-- The opcode byte; `enum class OpCode : uint8_t`. -/
abbrev OpCode := Byte

namespace OpCode
def NOP : OpCode := 0
def JMP : OpCode := 1
def MOV : OpCode := 2
def ADD : OpCode := 3
def SUB : OpCode := 4
def NEG : OpCode := 5
def SNAP_SAVE : OpCode := 6
def SNAP_SWAP : OpCode := 7
def SNAP_CLEAR : OpCode := 8
def REGS_CLEAR : OpCode := 9
def JZ : OpCode := 10
def JNZ : OpCode := 11
def JG : OpCode := 12
def JL : OpCode := 13
def HALT : OpCode := 14
def SYS : OpCode := 15
end OpCode

/-- The struct `Value`. -/
structure Value where
  is_reg : Bool := false
  is_table : Bool := false
  data : List Byte := []
deriving DecidableEq, Repr

namespace Value

/-- The call `to<uint8_t>()`. -/
def to_uint8_t (v : Value) : Nat := leNat (v.data.take 1)

/-- The call `to<long>()`: the first eight bytes, zero-extended, as a signed number. -/
def to_long (v : Value) : Int := toSigned 64 (leNat (v.data.take 8))

/-- The call `to<int>()`. -/
def to_int (v : Value) : Int := toSigned 32 (leNat (v.data.take 4))

/-- The bytes of a C string: those before the first zero byte. -/
def cstr (d : List Byte) : Str := d.takeWhile (fun b => b ≠ 0)

/-- The specialisation `to<std::string>()`. -/
def to_string (v : Value) : Str :=
  match v.data.getLast? with
  | none => []
  | some b => if b = 0 then cstr v.data else v.data

/-- The member `clear()`. -/
def clear (v : Value) : Value := { v with is_reg := false, data := [] }

/-- The call `write<long>(x)`. -/
def write_long (v : Value) (x : Int) : Value := { v with data := leBytes 8 (toBits 64 x) }

/-- The call `write<uint8_t>(b)`. -/
def write_uint8_t (v : Value) (b : Nat) : Value := { v with data := leBytes 1 b }

/-- The call `write<double>(d)`, the double given by its 64 bits. -/
def write_double (v : Value) (bits : Nat) : Value := { v with data := leBytes 8 bits }

/-- The call `write(const std::string&)`: the bytes and a terminating zero. -/
def write_string (v : Value) (s : Str) : Value := { v with data := s ++ [0] }

/-- The call `write_container(bytes)`. -/
def write_container (v : Value) (bytes : List Byte) : Value := { v with data := bytes }

end Value

/-- The struct `Instruction`. -/
structure Instruction where
  code : OpCode := 0
  Args : List Value := []
deriving DecidableEq, Repr

/-- The value-initialised `Value` of a fresh register. -/
def Value.empty : Value := { is_reg := false, is_table := false, data := [] }

/-- The text of `std::to_string(n)` for a natural number: at most `fuel` digits are put
before `acc`. -/
def decDigits : Nat → Nat → Str → Str
  | 0, _, acc => acc
  | fuel + 1, n, acc =>
    if n / 10 = 0 then Fin.ofNat (48 + n % 10) :: acc
    else decDigits fuel (n / 10) (Fin.ofNat (48 + n % 10) :: acc)

/-- The text of `std::to_string` on a non-negative number. -/
def natToString (n : Nat) : Str := decDigits (n + 1) n []

/-- The text of `std::to_string` on a signed number. -/
def intToString (x : Int) : Str :=
  if x < 0 then (45 : Byte) :: natToString x.natAbs else natToString x.toNat

/-! ## The virtual machine (`vm.hpp`, `vm.cpp`) -/

/-- The members of `class VirtualMachine` other than the syscall table; `cout` is the
text the process has written to its standard output. -/
structure VirtualMachine where
  _program_counter : Int := 0
  _tables : UMap Str Int := []
  _regs : List Value := List.replicate 64 Value.empty
  _regs_snap : List Value := List.replicate 64 Value.empty
  _instructions : List Instruction := []
  cout : Str := []
deriving DecidableEq, Repr

/-- The type `VirtualMethod`: a host function that receives the machine and the arguments. -/
abbrev VirtualMethod := VirtualMachine → List Value → Except Fault VirtualMachine

/-- The member `SyscallTable`. -/
abbrev SyscallTable := UMap Int VirtualMethod

/-- The expression `Args.at(i)`; `std::out_of_range` when there is no such argument. The
`what()` text is the one that libstdc++ gives, which names the index and the size. -/
def Args_at (args : List Value) (i : Nat) : Except Fault Value :=
  match args.get? i with
  | some v => Except.ok v
  | none =>
    Except.error (Fault.error
      (lit "vector::_M_range_check: __n (which is " ++ natToString i
        ++ lit ") >= this->size() (which is " ++ natToString args.length ++ lit ")"))

/-- The expression `_regs[i]` read; undefined outside the vector. -/
def reg_read (regs : List Value) (i : Nat) : Except Fault Value :=
  match regs.get? i with
  | some v => Except.ok v
  | none => Except.error Fault.undefined

/-- The expression `_regs[i]` assigned; undefined outside the vector. -/
def reg_write (regs : List Value) (i : Nat) (v : Value) : Except Fault (List Value) :=
  if i < regs.length then Except.ok (regs.set i v) else Except.error Fault.undefined

/-- The expression that `JMP`, `JZ`, `JNZ`, `JG` and `JL` assign to `_program_counter`:
`target.is_reg ? _regs[..].to<long>() : target.is_table ? _tables[..] : target.to<long>()`.
The lookup `_tables[..]` inserts a missing name. -/
def branch_target (L : StdLib) (vm : VirtualMachine) (target : Value) :
    Except Fault (Int × VirtualMachine) :=
  if target.is_reg then do
    let r ← reg_read vm._regs target.to_uint8_t
    pure (r.to_long, vm)
  else if target.is_table then
    let r := UMap.index L vm._tables target.to_string 0
    pure (r.1, { vm with _tables := r.2 })
  else pure (target.to_long, vm)

/-- The expression `src.is_reg ? _regs[..].to<long>() : src.to<long>()` of the arithmetic
and conditional instructions. -/
def operand_long (vm : VirtualMachine) (src : Value) : Except Fault Int :=
  if src.is_reg then do
    let r ← reg_read vm._regs src.to_uint8_t
    pure r.to_long
  else pure src.to_long

/-- A conditional jump: `if (cond(val)) _program_counter = target`. -/
def cond_jump (L : StdLib) (vm : VirtualMachine) (instruction : Instruction)
    (cond : Int → Bool) : Except Fault (Int × VirtualMachine) := do
  let src ← Args_at instruction.Args 0
  let val ← operand_long vm src
  if cond val then
    let target ← Args_at instruction.Args 1
    let r ← branch_target L vm target
    pure (0, { r.2 with _program_counter := r.1 })
  else pure (0, vm)

/-- The member `Interpreter`. `indet` is the value the uninitialised member `is_table` of
the local `Value table` of `MOV` happens to hold. The result is the returned code and the
machine afterwards. -/
def Interpreter (L : StdLib) (sys : SyscallTable) (indet : Bool) (vm : VirtualMachine)
    (instruction : Instruction) : Except Fault (Int × VirtualMachine) :=
  match instruction.code.val with
  | 0 => pure (0, vm)
  | 1 => do
    let target ← Args_at instruction.Args 0
    let r ← branch_target L vm target
    pure (0, { r.2 with _program_counter := r.1 })
  | 2 => do
    let src ← Args_at instruction.Args 0
    let dst ← Args_at instruction.Args 1
    let dst_reg := dst.to_uint8_t
    if src.is_reg then
      let v ← reg_read vm._regs src.to_uint8_t
      let regs ← reg_write vm._regs dst_reg v
      pure (0, { vm with _regs := regs })
    else if src.is_table then
      let r := UMap.index L vm._tables src.to_string 0
      let table : Value := { is_reg := false, is_table := indet, data := [] }
      let regs ← reg_write vm._regs dst_reg (table.write_long r.1)
      pure (0, { vm with _tables := r.2, _regs := regs })
    else
      let regs ← reg_write vm._regs dst_reg src
      pure (0, { vm with _regs := regs })
  | 3 => do
    let dst ← Args_at instruction.Args 2
    let dst_reg := dst.to_uint8_t
    let a ← Args_at instruction.Args 0
    let val1 ← operand_long vm a
    let b ← Args_at instruction.Args 1
    let val2 ← operand_long vm b
    let old ← reg_read vm._regs dst_reg
    let regs ← reg_write vm._regs dst_reg (old.write_long (wrap64 (val1 + val2)))
    pure (0, { vm with _regs := regs })
  | 4 => do
    let dst ← Args_at instruction.Args 2
    let dst_reg := dst.to_uint8_t
    let a ← Args_at instruction.Args 0
    let val1 ← operand_long vm a
    let b ← Args_at instruction.Args 1
    let val2 ← operand_long vm b
    let old ← reg_read vm._regs dst_reg
    let regs ← reg_write vm._regs dst_reg (old.write_long (wrap64 (val1 - val2)))
    pure (0, { vm with _regs := regs })
  | 5 => do
    let src ← Args_at instruction.Args 0
    let dst ← Args_at instruction.Args 1
    let s ← reg_read vm._regs src.to_uint8_t
    let old ← reg_read vm._regs dst.to_uint8_t
    let regs ← reg_write vm._regs dst.to_uint8_t (old.write_long (wrap64 (- s.to_long)))
    pure (0, { vm with _regs := regs })
  | 6 => pure (0, { vm with _regs_snap := vm._regs })
  | 7 => pure (0, { vm with _regs := vm._regs_snap, _regs_snap := vm._regs })
  | 8 => pure (0, { vm with _regs_snap := List.replicate 64 Value.empty })
  | 9 => pure (0, { vm with _regs := List.replicate 64 Value.empty })
  | 10 => cond_jump L vm instruction (fun val => val == 0)
  | 11 => cond_jump L vm instruction (fun val => val != 0)
  | 12 => cond_jump L vm instruction (fun val => decide (val > 0))
  | 13 => cond_jump L vm instruction (fun val => decide (val < 0))
  | 14 => pure (1, vm)
  | 15 =>
    match instruction.Args with
    | [] => Except.error (Fault.error (lit "SYS call requires at least call ID"))
    | id :: args =>
      let syscall_id : Int := id.to_uint8_t
      match UMap.find sys syscall_id with
      | some method =>
        match method vm args with
        | Except.ok vm1 => pure (0, vm1)
        | Except.error (Fault.error what) =>
          Except.error (Fault.error
            (lit "Syscall " ++ intToString syscall_id ++ lit " failed: " ++ what))
        | Except.error f => Except.error f
      | none =>
        Except.error (Fault.error (lit "Undefined syscall: " ++ intToString syscall_id))
  | _ => Except.error (Fault.error (lit "Unknown instruction"))

/-- One pass through the body of the `while` loop of `Run`, entered with the list iterator
`it` at index `i` (so `*it` is `instruction`). The result is the code with which `Run`
returns, if it does, the index of the iterator afterwards, and the machine.
`std::next(begin, n)` is undefined when `n` is negative or beyond the end. -/
def Run.body (L : StdLib) (sys : SyscallTable) (indet : Bool) (start : Int)
    (vm : VirtualMachine) (i : Nat) (instruction : Instruction) :
    Except Fault (Option Int × Nat × VirtualMachine) := do
  let r ← Interpreter L sys indet vm instruction
  if r.1 ≠ 0 then pure (some r.1, i, r.2)
  else if r.2._program_counter ≠ start then
    if 0 ≤ r.2._program_counter ∧ r.2._program_counter ≤ (r.2._instructions.length : Int) then
      pure (none, r.2._program_counter.toNat, { r.2 with _program_counter := start })
    else Except.error Fault.undefined
  else pure (none, i + 1, r.2)

/-- What is known of a run after a bounded number of loop passes: the indices of the
instructions interpreted so far, in order, and how the run ended (`none` while it is
still going). -/
structure RunLog where
  trace : List Nat
  result : Option (Except Fault (Int × VirtualMachine))

/-- The `while` loop of `Run` for at most `fuel` passes, from iterator index `i`. -/
def Run.loop (L : StdLib) (sys : SyscallTable) (indet : Bool) (start : Int) :
    Nat → VirtualMachine → Nat → RunLog
  | 0, _, _ => { trace := [], result := none }
  | fuel + 1, vm, i =>
    match vm._instructions.get? i with
    | none => { trace := [], result := some (Except.ok (0, vm)) }
    | some instruction =>
      match Run.body L sys indet start vm i instruction with
      | Except.error f => { trace := [i], result := some (Except.error f) }
      | Except.ok (some code, _, vm1) => { trace := [i], result := some (Except.ok (code, vm1)) }
      | Except.ok (none, j, vm1) =>
        let rest := Run.loop L sys indet start fuel vm1 j
        { trace := i :: rest.trace, result := rest.result }

/-- The member `Run`, for at most `fuel` loop passes. -/
def Run (L : StdLib) (sys : SyscallTable) (indet : Bool) (fuel : Nat) (vm : VirtualMachine)
    (start : Int) : RunLog :=
  Run.loop L sys indet start fuel { vm with _program_counter := start } 0

/-- The member `Execute`: `Run(_tables[table])`. -/
def Execute (L : StdLib) (sys : SyscallTable) (indet : Bool) (fuel : Nat)
    (vm : VirtualMachine) (table : Str) : RunLog :=
  let r := UMap.index L vm._tables table 0
  Run L sys indet fuel { vm with _tables := r.2 } r.1

/-- The member `RegisterSyscall`. -/
def RegisterSyscall (L : StdLib) (sys : SyscallTable) (id : Int) (method : VirtualMethod) :
    Bool × SyscallTable :=
  if id = 0 then (false, sys) else (true, UMap.assign L sys id method)

/-- The member `AddInstruction`. -/
def AddInstruction (vm : VirtualMachine) (instruction : Instruction) : VirtualMachine :=
  { vm with _instructions := vm._instructions ++ [instruction] }

/-- The member `SetRegisterValue`; `register_index` is a `uint8_t`. -/
def SetRegisterValue (vm : VirtualMachine) (register_index : Nat) (value : Value) :
    Except Fault VirtualMachine :=
  if register_index ≥ vm._regs.length then
    Except.error (Fault.error (lit "Register index out of range"))
  else Except.ok { vm with _regs := vm._regs.set register_index value }

/-- The member `GetRegisterValue`; `register_index` is a `uint8_t`. -/
def GetRegisterValue (vm : VirtualMachine) (register_index : Nat) : Except Fault Value :=
  if register_index ≥ vm._regs.length then
    Except.error (Fault.error (lit "Register index out of range"))
  else reg_read vm._regs register_index

/-! ## The bytecode image (`vm_serializer.cpp`)

A file is the sequence of its bytes. A `file.read` that asks for more bytes than are
left leaves its destination indeterminate; it is modelled as `Fault.undefined`. -/

/-- The call `file.read(dst, n)`: the bytes read and the rest of the file. -/
def file_read (n : Nat) (file : List Byte) : Except Fault (List Byte × List Byte) :=
  if n ≤ file.length then Except.ok (file.take n, file.drop n) else Except.error Fault.undefined

/-- The function `WriteSizedData`; `size` is the `uint32_t` argument. -/
def WriteSizedData (data : List Byte) (size : Nat) : List Byte :=
  leBytes 4 size ++ (if size > 0 then data.take size else [])

/-- The function `ReadSizedData`. -/
def ReadSizedData (file : List Byte) : Except Fault (List Byte × List Byte) := do
  let r ← file_read 4 file
  let size := leNat r.1
  if size > 0 then file_read size r.2 else pure ([], r.2)

/-- The function `SerializeTables`: what the loop over the map writes. -/
def SerializeTables : UMap Str Int → List Byte
  | [] => []
  | (key, value) :: tables =>
    WriteSizedData (key ++ [0]) ((key.length + 1) % 2 ^ 32) ++ leBytes 8 (toBits 64 value)
      ++ SerializeTables tables

/-- The constructor `std::string(const char*)` on the buffer of a `std::vector`: the bytes
before the first zero; undefined when the buffer holds no zero byte. -/
def string_of_buffer (buf : List Byte) : Except Fault Str :=
  if (0 : Byte) ∈ buf then Except.ok (Value.cstr buf) else Except.error Fault.undefined

/-- The function `DeserializeTables`: `num_tables` passes of its loop, starting from the
map `tables`. -/
def DeserializeTables.loop (L : StdLib) :
    Nat → UMap Str Int → List Byte → Except Fault (UMap Str Int × List Byte)
  | 0, tables, file => Except.ok (tables, file)
  | n + 1, tables, file => do
    let kd ← ReadSizedData file
    let key ← string_of_buffer kd.1
    let vd ← file_read 8 kd.2
    let value := toSigned 64 (leNat vd.1)
    DeserializeTables.loop L n (UMap.emplace L tables key value) vd.2

/-- The function `DeserializeTables`. -/
def DeserializeTables (L : StdLib) (file : List Byte) (num_tables : Nat) :
    Except Fault (UMap Str Int × List Byte) :=
  DeserializeTables.loop L num_tables [] file

/-- The function `SerializeValue`: the bytes appended to the buffer. -/
def SerializeValue (value : Value) : List Byte :=
  [if value.is_reg then 1 else 0] ++ leBytes 4 (value.data.length % 2 ^ 32) ++ value.data

/-- The loop of `SerializeInstruction` over the arguments. -/
def SerializeArgs : List Value → List Byte
  | [] => []
  | arg :: args => SerializeValue arg ++ SerializeArgs args

/-- The function `SerializeInstruction`: the bytes appended to the buffer. -/
def SerializeInstruction (instr : Instruction) : List Byte :=
  [instr.code] ++ [Fin.ofNat (instr.Args.length % 256)] ++ SerializeArgs instr.Args

/-- The function `DeserializeValue` on the bytes from the pointer `data` on; the result is
the value and the bytes from the advanced pointer on. `indet` is what the uninitialised
member `is_table` happens to hold. Reading past the buffer is undefined. -/
def DeserializeValue (indet : Bool) (data : List Byte) : Except Fault (Value × List Byte) :=
  match data with
  | [] => Except.error Fault.undefined
  | b :: data1 => do
    let r ← file_read 4 data1
    let data_size := leNat r.1
    let d ← file_read data_size r.2
    pure ({ is_reg := b ≠ 0, is_table := indet, data := d.1 }, d.2)

/-- The loop of `DeserializeInstruction` for `n` more arguments, the next one being
argument number `i`. -/
def DeserializeInstruction.args (indet : Nat → Bool) :
    Nat → Nat → List Byte → Except Fault (List Value)
  | 0, _, _ => Except.ok []
  | n + 1, i, data => do
    let r ← DeserializeValue (indet i) data
    let rest ← DeserializeInstruction.args indet n (i + 1) r.2
    pure (r.1 :: rest)

/-- The function `DeserializeInstruction` on a buffer. -/
def DeserializeInstruction (indet : Nat → Bool) (data : List Byte) : Except Fault Instruction :=
  match data with
  | code :: num_args :: data1 => do
    let args ← DeserializeInstruction.args indet num_args.val 0 data1
    pure { code := code, Args := args }
  | _ => Except.error Fault.undefined

/-- The bytes `'V' 'M' 'C' 0x01`. -/
def header : List Byte := [86, 77, 67, 1]

/-- What the loop over the instructions in `SaveToFile` writes. -/
def SaveInstructions : List Instruction → List Byte
  | [] => []
  | instr :: instructions =>
    WriteSizedData (SerializeInstruction instr) ((SerializeInstruction instr).length % 2 ^ 32)
      ++ SaveInstructions instructions

/-- The function `SaveToFile`: the bytes written to the file (always opened). -/
def SaveToFile (instructions : List Instruction) (tables : UMap Str Int) : List Byte :=
  header
    ++ leBytes 4 (tables.length % 2 ^ 32) ++ SerializeTables tables
    ++ leBytes 4 (instructions.length % 2 ^ 32) ++ SaveInstructions instructions

/-- The instruction loop of `LoadFromFile`: `n` more instructions, the next one being
number `i`. -/
def LoadInstructions (indet : Nat → Nat → Bool) :
    Nat → Nat → List Byte → Except Fault (List Instruction)
  | 0, _, _ => Except.ok []
  | n + 1, i, file => do
    let r ← ReadSizedData file
    let instr ← DeserializeInstruction (indet i) r.1
    let rest ← LoadInstructions indet n (i + 1) r.2
    pure (instr :: rest)

/-- The function `LoadFromFile` on the bytes of the (opened) file: the returned flag and
the machine. `indet i j` is what the uninitialised `is_table` of argument `j` of
instruction `i` happens to hold. -/
def LoadFromFile (L : StdLib) (indet : Nat → Nat → Bool) (vm : VirtualMachine)
    (file : List Byte) : Except Fault (Bool × VirtualMachine) := do
  let h ← file_read 4 file
  if h.1 ≠ header then pure (false, vm)
  else
    let nt ← file_read 4 h.2
    let t ← DeserializeTables L nt.2 (leNat nt.1)
    let vm1 := { vm with _tables := t.1 }
    let ni ← file_read 4 t.2
    let instructions ← LoadInstructions indet (leNat ni.1) 0 ni.2
    pure (true, { vm1 with _instructions := instructions })

/-! ## The assembler (`compiler.cpp`) -/

/-- The C function `isspace` in the "C" locale. -/
def isspace (c : Byte) : Bool := c.val = 32 || (9 ≤ c.val && c.val ≤ 13)

/-- The C function `isdigit`. -/
def isdigit (c : Byte) : Bool := 48 ≤ c.val && c.val ≤ 57

/-- The C function `tolower` in the "C" locale. -/
def tolower (c : Byte) : Byte := if 65 ≤ c.val ∧ c.val ≤ 90 then Fin.ofNat (c.val + 32) else c

/-- The function `ToLower`. -/
def ToLower (s : Str) : Str := s.map tolower

/-- The function `Trim`. -/
def Trim (s : Str) : Str := ((s.dropWhile isspace).reverse.dropWhile isspace).reverse

/-- Whether `s` begins with `pat`. -/
def startsWith : Str → Str → Bool
  | [], _ => true
  | _ :: _, [] => false
  | p :: pat, c :: s => p = c && startsWith pat s

/-- The call `s.find(pat)`: the index of the first occurrence, `none` for `npos`. -/
def str_find (pat : Str) : Str → Option Nat
  | [] => if startsWith pat [] then some 0 else none
  | c :: s =>
    if startsWith pat (c :: s) then some 0 else (str_find pat s).map (fun i => i + 1)

/-- What successive `std::getline(stream, line, delim)` calls return: the pieces between
delimiters, without an empty piece after the last delimiter. `cur` is the piece being read. -/
def getlines.go (delim : Byte) : Str → Str → List Str
  | [], cur => if cur = [] then [] else [cur]
  | c :: s, cur => if c = delim then cur :: getlines.go delim s [] else getlines.go delim s (cur ++ [c])

/-- The lines that a `std::getline` loop reads from the text `s`. -/
def getlines (delim : Byte) (s : Str) : List Str := getlines.go delim s []

/-- The struct `LabelInfo`. -/
structure LabelInfo where
  instruction_index : Nat
  file_index : Nat
  line_number : Int
deriving DecidableEq, Repr

/-- The data members of `class Compiler`. -/
structure Compiler where
  _labels : UMap Str LabelInfo := []
  _tables : UMap Str Int := []
  _instructions : List Instruction := []
  _source_files : List Str := []
deriving DecidableEq, Repr

/-- The loop of `Tokenize` over the characters of the line, with its local variables. -/
def Tokenize.go : Str → List Str → Str → Bool → Bool → List Str
  | [], tokens, token, _, _ => if token ≠ [] then tokens ++ [token] else tokens
  | c :: line, tokens, token, in_string, in_array =>
    if in_string then
      if c = 34 then Tokenize.go line (tokens ++ [token ++ [c]]) [] false in_array
      else Tokenize.go line tokens (token ++ [c]) in_string in_array
    else if in_array then
      if c = 93 then Tokenize.go line (tokens ++ [token ++ [c]]) [] in_string false
      else Tokenize.go line tokens (token ++ [c]) in_string in_array
    else if isspace c || c = 44 then
      let tokens1 := if token ≠ [] then tokens ++ [token] else tokens
      let tokens2 := if c = 44 then tokens1 ++ [[44]] else tokens1
      Tokenize.go line tokens2 [] in_string in_array
    else if c = 34 then
      let tokens1 := if token ≠ [] then tokens ++ [token] else tokens
      Tokenize.go line tokens1 [c] true in_array
    else if c = 91 then
      let tokens1 := if token ≠ [] then tokens ++ [token] else tokens
      Tokenize.go line tokens1 [c] in_string true
    else Tokenize.go line tokens (token ++ [c]) in_string in_array

/-- The function `Tokenize`. -/
def Tokenize (line : Str) : List Str := Tokenize.go line [] [] false false

/-- The function `IsInteger`. -/
def IsInteger (token : Str) : Bool :=
  match token with
  | [] => false
  | c :: rest =>
    if c = 43 ∨ c = 45 then
      if rest = [] then false else rest.all isdigit
    else (c :: rest).all isdigit

/-- The function `IsRegister`. -/
def IsRegister (token : Str) : Bool :=
  match token with
  | first :: c :: rest => if tolower first ≠ 114 then false else IsInteger (c :: rest)
  | _ => false

/-- The function `IsTableRef`. -/
def IsTableRef (token : Str) : Bool :=
  match token with
  | c :: _ => c = 35
  | [] => false

/-- The function `IsByteArray`. -/
def IsByteArray (token : Str) : Bool :=
  token.length ≥ 2 && token.head? = some 91 && token.getLast? = some 93

/-- The function `IsStringLiteral`. -/
def IsStringLiteral (token : Str) : Bool :=
  token.length ≥ 2 && token.head? = some 34 && token.getLast? = some 34

/-- The loop of `IsFloat` from index `start` on, with its local variables; `skip` records
that the loop index was advanced over the sign of an exponent. -/
def IsFloat.go : Str → Bool → Bool → Bool → Bool → Bool
  | [], hasDecimal, hasExponent, digitSeen, _ => digitSeen && (hasDecimal || hasExponent)
  | c :: rest, hasDecimal, hasExponent, digitSeen, skip =>
    if skip then IsFloat.go rest hasDecimal hasExponent digitSeen false
    else if isdigit c then IsFloat.go rest hasDecimal hasExponent true false
    else if c = 46 then
      if hasDecimal || hasExponent then false
      else IsFloat.go rest true hasExponent digitSeen false
    else if c = 101 ∨ c = 69 then
      if hasExponent || !digitSeen then false
      else
        match rest with
        | d :: _ => IsFloat.go rest hasDecimal true false (d = 43 || d = 45)
        | [] => IsFloat.go rest hasDecimal true false false
    else false

/-- The function `IsFloat`. -/
def IsFloat (token : Str) : Bool :=
  match token with
  | [] => false
  | c :: rest =>
    if c = 43 ∨ c = 45 then
      if rest = [] then false else IsFloat.go rest false false false false
    else IsFloat.go (c :: rest) false false false false

/-- The number written by a sequence of decimal digits. -/
def decValue (s : Str) : Nat := s.foldl (fun n c => 10 * n + (c.val - 48)) 0

/-- A signed decimal numeral (as accepted by `IsInteger`) read by `std::stoi` / `std::stol`
into a type of `w` bits; `std::out_of_range` with the text `name` when it does not fit. -/
def sto_signed (name : Str) (w : Nat) (s : Str) : Except Fault Int :=
  let x : Int :=
    match s with
    | c :: rest =>
      if c = 45 then - (decValue rest : Int)
      else if c = 43 then (decValue rest : Int)
      else (decValue (c :: rest) : Int)
    | [] => 0
  if - (2 : Int) ^ (w - 1) ≤ x ∧ x < (2 : Int) ^ (w - 1) then Except.ok x
  else Except.error (Fault.error name)

/-- The function `std::stoi` on a numeral accepted by `IsInteger`. -/
def stoi (s : Str) : Except Fault Int := sto_signed (lit "stoi") 32 s

/-- The function `std::stol` on a numeral accepted by `IsInteger`. -/
def stol (s : Str) : Except Fault Int := sto_signed (lit "stol") 64 s

/-- The value of a hexadecimal digit, if the character is one. -/
def hexDigit (c : Byte) : Option Nat :=
  if 48 ≤ c.val ∧ c.val ≤ 57 then some (c.val - 48)
  else if 97 ≤ c.val ∧ c.val ≤ 102 then some (c.val - 87)
  else if 65 ≤ c.val ∧ c.val ≤ 70 then some (c.val - 55)
  else none

/-- The longest run of hexadecimal digits at the start of `s`: the number read so far,
how many digits were read, and the rest. -/
def hexRun : Str → Nat → Nat → Nat × Nat × Str
  | [], n, k => (n, k, [])
  | c :: s, n, k =>
    match hexDigit c with
    | some d => hexRun s (16 * n + d) (k + 1)
    | none => (n, k, c :: s)

/-- The magnitude and rest of `strtol(.., 16)` after white space and sign: an optional
`0x` or `0X` that is followed by a digit, then the digits; `none` when there is no digit. -/
def strtol16.digits (s : Str) : Option (Nat × Str) :=
  let plain :=
    match hexRun s 0 0 with
    | (_, 0, _) => none
    | (n, _, rest) => some (n, rest)
  match s with
  | z :: x :: s1 =>
    if z = 48 ∧ (x = 120 ∨ x = 88) then
      match hexRun s1 0 0 with
      | (_, 0, _) => plain
      | (n, _, rest) => some (n, rest)
    else plain
  | _ => plain

/-- The call `strtol(str, &end, 16)` on a C string: the value, clamped to the range of
`long`, and the text from `end` on. Without a digit the value is 0 and `end` is `str`. -/
def strtol16 (str : Str) : Int × Str :=
  let s := str.dropWhile isspace
  let neg := s.head? = some 45
  let s1 := if s.head? = some 45 ∨ s.head? = some 43 then s.drop 1 else s
  match strtol16.digits s1 with
  | none => (0, str)
  | some (n, rest) =>
    if neg then (if n ≤ 2 ^ 63 then - (n : Int) else - (2 : Int) ^ 63, rest)
    else (if n < 2 ^ 63 then (n : Int) else (2 : Int) ^ 63 - 1, rest)

/-- The loop of `ParseByteArray` over the pieces that `std::getline(iss, byte_str, ',')`
returns. -/
def ParseByteArray.go : List Str → List Byte → Except Fault (List Byte)
  | [], bytes => Except.ok bytes
  | piece :: pieces, bytes =>
    let byte_str := Trim piece
    if byte_str = [] then ParseByteArray.go pieces bytes
    else
      let byte_str1 :=
        if startsWith [48, 120] byte_str || startsWith [48, 88] byte_str then byte_str.drop 2
        else byte_str
      let r := strtol16 (Value.cstr byte_str1)
      if r.2 ≠ [] then Except.error (Fault.error (lit "Invalid byte format: " ++ byte_str1))
      else if r.1 < 0 ∨ r.1 > 255 then
        Except.error (Fault.error (lit "Byte value out of range (0-255): " ++ byte_str1))
      else ParseByteArray.go pieces (bytes ++ [Fin.ofNat r.1.toNat])

/-- The function `ParseByteArray`. -/
def ParseByteArray (token : Str) : Except Fault (List Byte) :=
  let content := (token.drop 1).take (token.length - 2)
  ParseByteArray.go (getlines 44 content) []

/-- The loop of `UnescapeString` with its local variables. -/
def UnescapeString.go : Str → Str → Bool → Except Fault Str
  | [], result, escape =>
    if escape then Except.error (Fault.error (lit "Unfinished escape sequences"))
    else Except.ok result
  | c :: s, result, escape =>
    if escape then
      if c = 110 then UnescapeString.go s (result ++ [10]) false
      else if c = 116 then UnescapeString.go s (result ++ [9]) false
      else if c = 114 then UnescapeString.go s (result ++ [13]) false
      else if c = 48 then UnescapeString.go s (result ++ [0]) false
      else if c = 34 then UnescapeString.go s (result ++ [34]) false
      else if c = 92 then UnescapeString.go s (result ++ [92]) false
      else Except.error (Fault.error (lit "Invalid escape sequence: " ++ [92, c]))
    else if c = 92 then UnescapeString.go s result true
    else UnescapeString.go s (result ++ [c]) false

/-- The function `UnescapeString`. -/
def UnescapeString (s : Str) : Except Fault Str := UnescapeString.go s [] false

/-- The function `ParseValue`. -/
def ParseValue (L : StdLib) (token : Str) : Except Fault Value :=
  let val : Value := { is_reg := false, is_table := false, data := [] }
  if IsRegister token then do
    let reg_num_str := (ToLower token).drop 1
    let n ← stoi reg_num_str
    let reg_index := (n % 256).toNat
    if reg_index ≥ 64 then
      Except.error (Fault.error (lit "Register index out of range (0-63): " ++ token))
    else pure ({ val with is_reg := true }.write_uint8_t reg_index)
  else if IsTableRef token then
    pure ({ val with is_table := true }.write_string (token.drop 1))
  else if IsByteArray token then do
    let bytes ← ParseByteArray token
    pure (val.write_container bytes)
  else if IsStringLiteral token then do
    let str ← UnescapeString ((token.drop 1).take (token.length - 2))
    pure (val.write_string str)
  else if IsFloat token then do
    let num ← L.stod token
    pure (val.write_double num)
  else if IsInteger token then do
    let num ← stol token
    pure (val.write_long num)
  else pure (val.write_string token)

/-- The opcode that `ParseInstruction` selects for a lower-cased mnemonic. -/
def opcode_of (opcode : Str) : Option OpCode :=
  if opcode = lit "nop" then some OpCode.NOP
  else if opcode = lit "jmp" then some OpCode.JMP
  else if opcode = lit "mov" then some OpCode.MOV
  else if opcode = lit "add" then some OpCode.ADD
  else if opcode = lit "sub" then some OpCode.SUB
  else if opcode = lit "neg" then some OpCode.NEG
  else if opcode = lit "snap_save" then some OpCode.SNAP_SAVE
  else if opcode = lit "snap_swap" then some OpCode.SNAP_SWAP
  else if opcode = lit "snap_clear" then some OpCode.SNAP_CLEAR
  else if opcode = lit "regs_clear" then some OpCode.REGS_CLEAR
  else if opcode = lit "jz" then some OpCode.JZ
  else if opcode = lit "jnz" then some OpCode.JNZ
  else if opcode = lit "jg" then some OpCode.JG
  else if opcode = lit "jl" then some OpCode.JL
  else if opcode = lit "halt" then some OpCode.HALT
  else if opcode = lit "sys" then some OpCode.SYS
  else none

/-- The argument loop of `ParseInstruction` over the tokens after the mnemonic. -/
def ParseInstruction.args (L : StdLib) : List Str → Except Fault (List Value)
  | [] => Except.ok []
  | token :: tokens =>
    if token ≠ [44] then do
      let v ← ParseValue L token
      let rest ← ParseInstruction.args L tokens
      pure (v :: rest)
    else ParseInstruction.args L tokens

/-- The function `ParseInstruction`. -/
def ParseInstruction (L : StdLib) (line : Str) : Except Fault Instruction :=
  match Tokenize line with
  | [] => Except.error (Fault.error (lit "Null instructions"))
  | t0 :: tokens =>
    match opcode_of (ToLower t0) with
    | none => Except.error (Fault.error (lit "Unknown opcodes:" ++ t0))
    | some code => do
      let args ← ParseInstruction.args L tokens
      pure { code := code, Args := args }

/-- The first part of `ProcessLine`: trimming and the removal of comments. The result is
the text left to assemble (`none` when the function has returned) and the new value of
`in_comment_block`. -/
def ProcessLine.strip (line : Str) (in_comment_block : Bool) : Option Str × Bool :=
  let line1 := Trim line
  let r1 : Str × Bool :=
    match str_find (lit "/*") line1 with
    | some block_start => (line1.take block_start, true)
    | none => (line1, in_comment_block)
  let r2 : Option Str × Bool :=
    if r1.2 then
      match str_find (lit "*/") r1.1 with
      | some block_end => (some (r1.1.drop (block_end + 2)), false)
      | none => (none, true)
    else (some r1.1, false)
  match r2.1 with
  | none => (none, r2.2)
  | some line2 =>
    let line3 :=
      match str_find (lit "//") line2 with
      | some comment_pos => line2.take comment_pos
      | none => line2
    let line4 := Trim line3
    if line4 = [] then (none, r2.2) else (some line4, r2.2)

/-- The function `ProcessLine`: the compiler afterwards and the new `in_comment_block`. -/
def ProcessLine (L : StdLib) (c : Compiler) (line : Str) (file_idx : Nat) (line_num : Int)
    (in_comment_block : Bool) : Except Fault (Compiler × Bool) :=
  match ProcessLine.strip line in_comment_block with
  | (none, icb) => Except.ok (c, icb)
  | (some line1, icb) =>
    if startsWith (lit "#table") line1 then
      match Tokenize (line1.drop 6) with
      | [token] => Except.ok ({ c with _tables := UMap.assign L c._tables (ToLower token) 0 }, icb)
      | _ => Except.error (Fault.error (lit "Invalid table definition syntax"))
    else if line1.getLast? = some 58 then
      let label := ToLower (line1.take (line1.length - 1))
      let info : LabelInfo :=
        { instruction_index := c._instructions.length, file_index := file_idx,
          line_number := line_num }
      Except.ok ({ c with _labels := UMap.assign L c._labels label info }, icb)
    else
      match ParseInstruction L line1 with
      | Except.ok instr => Except.ok ({ c with _instructions := c._instructions ++ [instr] }, icb)
      | Except.error (Fault.error what) => Except.error (Fault.error what)
      | Except.error f => Except.error f

/-- The `while (std::getline(..))` loop of `ParseString` and `ParseFiles` over the lines. -/
def ParseLines (L : StdLib) (file_idx : Nat) :
    List Str → Compiler → Int → Bool → Except Fault Compiler
  | [], c, _, _ => Except.ok c
  | line :: lines, c, line_num, in_comment_block => do
    let r ← ProcessLine L c line file_idx (line_num + 1) in_comment_block
    ParseLines L file_idx lines r.1 (line_num + 1) r.2

/-- The function `ParseString`; the file index `-1` converts to the largest `size_t`. -/
def ParseString (L : StdLib) (c : Compiler) (source : Str) : Except Fault Compiler :=
  ParseLines L (2 ^ 64 - 1) (getlines 10 source) c 0 false

/-- The loop of `ParseFiles`; `fs` gives the text of the file at a path, `none` when it
cannot be opened. -/
def ParseFiles.go (L : StdLib) (fs : Str → Option Str) :
    List Str → Nat → Compiler → Except Fault Compiler
  | [], _, c => Except.ok c
  | path :: sources, file_idx, c =>
    match fs path with
    | none => Except.error (Fault.error (lit "Unable to open a file: " ++ path))
    | some text => do
      let c1 ← ParseLines L file_idx (getlines 10 text) c 0 false
      ParseFiles.go L fs sources (file_idx + 1) c1

/-- The function `ParseFiles`. -/
def ParseFiles (L : StdLib) (fs : Str → Option Str) (c : Compiler) (sources : List Str) :
    Except Fault Compiler :=
  ParseFiles.go L fs sources 0 c

/-- The body of the inner loop of `ResolveReferences`, acting on its loop variable `arg`:
the value of `arg` when the body ends. -/
def ResolveReferences.body (c : Compiler) (arg : Value) : Value :=
  if !arg.is_reg && !arg.is_table then
    let ref := arg.to_string
    match UMap.find c._labels (ToLower ref) with
    | some info => arg.write_long (info.instruction_index : Int)
    | none =>
      if UMap.contains c._tables (ToLower ref) then
        { arg with is_table := true }.write_string ((35 : Byte) :: ref)
      else arg
  else arg

/-- The function `ResolveReferences`. The inner loop is `for (auto arg : Args)`: `arg` is
a copy of the element, the body changes the copy, and the element keeps its value. -/
def ResolveReferences (c : Compiler) : Compiler :=
  { c with _instructions := c._instructions.map (fun instr =>
      { instr with Args := instr.Args.map (fun arg =>
          let _copy := ResolveReferences.body c arg
          arg) }) }

/-- The function `GenerateTables`: the loop over `_labels` in iteration order. -/
def GenerateTables.go (L : StdLib) : UMap Str LabelInfo → UMap Str Int → UMap Str Int
  | [], tables => tables
  | (label, info) :: labels, tables =>
    GenerateTables.go L labels (UMap.assign L tables label (info.instruction_index : Int))

/-- The function `GenerateTables`. -/
def GenerateTables (L : StdLib) (c : Compiler) : Compiler :=
  { c with _tables := GenerateTables.go L c._labels c._tables }

/-- The function `CompileString(context, vm)`: the machine afterwards (the call returns
`true`), or the exception that leaves it. -/
def CompileString (L : StdLib) (context : Str) (vm : VirtualMachine) :
    Except Fault VirtualMachine := do
  let c0 : Compiler := { _labels := [], _tables := [], _instructions := [], _source_files := [] }
  let c1 ← ParseString L c0 context
  let c2 := ResolveReferences c1
  let c3 := GenerateTables L c2
  pure { vm with _instructions := c3._instructions, _tables := c3._tables }

/-- The function `Compile(sources, vm)`. -/
def Compile (L : StdLib) (fs : Str → Option Str) (sources : List Str) (vm : VirtualMachine) :
    Except Fault VirtualMachine := do
  let c0 : Compiler :=
    { _labels := [], _tables := [], _instructions := [], _source_files := sources }
  let c1 ← ParseFiles L fs c0 sources
  let c2 := ResolveReferences c1
  let c3 := GenerateTables L c2
  pure { vm with _instructions := c3._instructions, _tables := c3._tables }

/-- The function `CompileString(context, outPath)`: the bytes of the written file. -/
def CompileStringToFile (L : StdLib) (context : Str) : Except Fault (List Byte) := do
  let vm ← CompileString L context {}
  pure (SaveToFile vm._instructions vm._tables)

/-! ## The disassembler (`disassembler.cpp`)

A `double` is carried as its 64 bits: sign `bits / 2^63`, exponent field
`bits / 2^52 % 2048`, fraction `bits % 2^52`. -/

/-- The data members of `class Disassembler`. -/
structure Disassembler where
  _labelMap : UMap Int Str := []
  _tableMap : UMap Int Str := []
deriving DecidableEq, Repr

/-- The C function `std::isnan` on the bits of a double. -/
def isnan (bits : Nat) : Bool := bits / 2 ^ 52 % 2048 = 2047 && bits % 2 ^ 52 ≠ 0

/-- The C function `std::isinf` on the bits of a double. -/
def isinf (bits : Nat) : Bool := bits / 2 ^ 52 % 2048 = 2047 && bits % 2 ^ 52 = 0

/-- The bits of the double constant `1e300`. -/
def bits_1e300 : Nat := 9094988921128908188

/-- The function `IsValidDouble` on the bits of `d`. For finite doubles of one sign the
order of the magnitudes is the order of the bits. -/
def IsValidDouble (bits : Nat) : Bool :=
  if isnan bits || isinf bits then true
  else if (bits / 2 ^ 63 = 0 ∧ bits > bits_1e300)
      ∨ (bits / 2 ^ 63 = 1 ∧ bits % 2 ^ 63 > bits_1e300) then false
  else
    let exponent := bits / 2 ^ 52 % 2048
    exponent ≠ 0 || bits = 0

/-- The test `d == floor(d) && fabs(d) < 1e15` of `FormatDouble` on the bits of a finite
double: with `m = 2^52 + fraction` the value of a normal double is `m * 2^(exponent - 1075)`. -/
def is_small_integral (bits : Nat) : Bool :=
  let exponent := bits / 2 ^ 52 % 2048
  let m := 2 ^ 52 + bits % 2 ^ 52
  if exponent = 0 then bits % 2 ^ 52 = 0
  else if exponent ≥ 1075 then m * 2 ^ (exponent - 1075) < 10 ^ 15
  else m % 2 ^ (1075 - exponent) = 0 && m < 10 ^ 15 * 2 ^ (1075 - exponent)

/-- The call `s.find('.')`. -/
def find_char (c : Byte) : Str → Option Nat
  | [] => none
  | x :: s => if x = c then some 0 else (find_char c s).map (fun i => i + 1)

/-- The call `s.find_last_not_of('0')`. -/
def find_last_not_of (c : Byte) : Str → Option Nat
  | [] => none
  | x :: s =>
    match find_last_not_of c s with
    | some i => some (i + 1)
    | none => if x ≠ c then some 0 else none

/-- The function `FormatDouble` on the bits of `d`. -/
def FormatDouble (L : StdLib) (bits : Nat) : Str :=
  if isnan bits then lit "nan"
  else if isinf bits then (if bits / 2 ^ 63 = 1 then lit "-inf" else lit "inf")
  else if bits % 2 ^ 63 = 0 then lit "0"
  else if is_small_integral bits then L.fixed0 bits
  else
    let s := L.general bits
    match find_char 46 s with
    | some dot_pos =>
      match find_last_not_of 48 s with
      | some last_non_zero =>
        if last_non_zero > dot_pos then
          let s1 := s.take (last_non_zero + 1)
          if s1.getLast? = some 46 then s1 ++ lit "0" else s1
        else s
      | none => s
    | none => s

/-- One lower-case hexadecimal digit. -/
def hexChar (n : Nat) : Byte := if n < 10 then Fin.ofNat (48 + n) else Fin.ofNat (87 + n)

/-- The function `FormatHex`. -/
def FormatHex (byte : Byte) : Str := [48, 120, hexChar (byte.val / 16), hexChar (byte.val % 16)]

/-- The loop of `FormatString` over the characters. -/
def FormatString.go : Str → Str
  | [] => []
  | c :: str =>
    (if c = 10 then [92, 110]
     else if c = 9 then [92, 116]
     else if c = 13 then [92, 114]
     else if c = 34 then [92, 34]
     else if c = 92 then [92, 92]
     else [c]) ++ FormatString.go str

/-- The function `FormatString`. -/
def FormatString (str : Str) : Str := [34] ++ FormatString.go str ++ [34]

/-- The loop of `FormatByteArray`; `first` tells whether `i` is still 0. -/
def FormatByteArray.go : List Byte → Bool → Str
  | [], _ => []
  | b :: bytes, first =>
    (if first then [] else lit ", ") ++ FormatHex b ++ FormatByteArray.go bytes false

/-- The function `FormatByteArray`. -/
def FormatByteArray (bytes : List Byte) : Str := [91] ++ FormatByteArray.go bytes true ++ [93]

/-- The function `ValueToString`. -/
def ValueToString (L : StdLib) (d : Disassembler) (val : Value) : Str :=
  if val.is_reg then (82 : Byte) :: natToString val.to_uint8_t
  else if val.is_table then (35 : Byte) :: val.to_string
  else if val.data.length = 8 ∧ IsValidDouble (leNat val.data) then FormatDouble L (leNat val.data)
  else if val.data.length = 8 then
    match UMap.find d._labelMap val.to_long with
    | some name => name
    | none => intToString val.to_long
  else if val.data.getLast? = some 0 then FormatString val.to_string
  else FormatByteArray val.data

/-- The text that the `switch` of `DisassembleInstruction` writes for an opcode; nothing
for a byte that is no opcode. -/
def mnemonic (code : OpCode) : Str :=
  match code.val with
  | 0 => lit "    nop"
  | 1 => lit "    jmp"
  | 2 => lit "    mov"
  | 3 => lit "    add"
  | 4 => lit "    sub"
  | 5 => lit "    neg"
  | 6 => lit "    snap_save"
  | 7 => lit "    snap_swap"
  | 8 => lit "    snap_clear"
  | 9 => lit "    regs_clear"
  | 10 => lit "    jz"
  | 11 => lit "    jnz"
  | 12 => lit "    jg"
  | 13 => lit "    jl"
  | 14 => lit "    halt"
  | 15 => lit "    sys"
  | _ => []

/-- The argument loop of `DisassembleInstruction`; `first` tells whether `i` is still 0. -/
def DisassembleInstruction.args (L : StdLib) (d : Disassembler) : List Value → Bool → Str
  | [], _ => []
  | arg :: args, first =>
    (if first then [] else [44]) ++ [32] ++ ValueToString L d arg
      ++ DisassembleInstruction.args L d args false

/-- The function `DisassembleInstruction`. `instrIndex` is the value of its `static`
local variable when the call begins; the result is the text and the value of the variable
when the call ends (the counter of type `long` is incremented without overflow). -/
def DisassembleInstruction (L : StdLib) (d : Disassembler) (instrIndex : Int)
    (instr : Instruction) : Str × Int :=
  let label : Str :=
    match UMap.find d._labelMap instrIndex with
    | some name => name ++ lit ":\n"
    | none => []
  (label ++ mnemonic instr.code ++ DisassembleInstruction.args L d instr.Args true,
    instrIndex + 1)

/-- The first loop of `BuildReverseMaps`, over the tables map. -/
def BuildReverseMaps.labels (L : StdLib) : UMap Str Int → UMap Int Str → UMap Int Str
  | [], labelMap => labelMap
  | (name, addr) :: tables, labelMap =>
    BuildReverseMaps.labels L tables (UMap.assign L labelMap addr name)

/-- The inner loop of the second loop of `BuildReverseMaps`, over the arguments. -/
def BuildReverseMaps.args (L : StdLib) : List Value → UMap Int Str → UMap Int Str
  | [], tableMap => tableMap
  | arg :: args, tableMap =>
    BuildReverseMaps.args L args
      (if arg.is_table then UMap.assign L tableMap arg.to_long arg.to_string else tableMap)

/-- The second loop of `BuildReverseMaps`, over the instructions. -/
def BuildReverseMaps.tables (L : StdLib) : List Instruction → UMap Int Str → UMap Int Str
  | [], tableMap => tableMap
  | instr :: instructions, tableMap =>
    BuildReverseMaps.tables L instructions (BuildReverseMaps.args L instr.Args tableMap)

/-- The function `BuildReverseMaps`. -/
def BuildReverseMaps (L : StdLib) (d : Disassembler) (vm : VirtualMachine) : Disassembler :=
  { _labelMap := BuildReverseMaps.labels L vm._tables d._labelMap,
    _tableMap := BuildReverseMaps.tables L vm._instructions d._tableMap }

/-- The first loop of `Disassemble`, over the instructions: the text written and the
value of the `static` variable of `DisassembleInstruction` afterwards. -/
def Disassemble.instructions (L : StdLib) (d : Disassembler) :
    List Instruction → Int → Str × Int
  | [], instrIndex => ([], instrIndex)
  | instr :: instructions, instrIndex =>
    let r := DisassembleInstruction L d instrIndex instr
    let rest := Disassemble.instructions L d instructions r.2
    (r.1 ++ [10] ++ rest.1, rest.2)

/-- The second loop of `Disassemble`, over the tables map. -/
def Disassemble.tables (d : Disassembler) : UMap Str Int → Str
  | [] => []
  | (name, addr) :: tables =>
    (if UMap.contains d._labelMap addr then [] else lit "#table " ++ name ++ [10])
      ++ Disassemble.tables d tables

/-- The function `Disassemble`. `instrIndex` is the value of the `static` local variable
of `DisassembleInstruction` when the call begins (0 for the first call in the process).
The result is the returned text, the disassembler afterwards and that variable afterwards. -/
def Disassemble (L : StdLib) (d : Disassembler) (instrIndex : Int) (vm : VirtualMachine) :
    Str × Disassembler × Int :=
  let d1 := BuildReverseMaps L d vm
  let r := Disassemble.instructions L d1 vm._instructions instrIndex
  (r.1 ++ Disassemble.tables d1 vm._tables, d1, r.2)

/-- The function `DisassembleFile` on the bytes of the file. -/
def DisassembleFile (L : StdLib) (indet : Nat → Nat → Bool) (d : Disassembler)
    (instrIndex : Int) (file : List Byte) : Except Fault (Str × Disassembler × Int) := do
  let r ← LoadFromFile L indet {} file
  pure (Disassemble L d instrIndex r.2)

/-! ## Statements of the specification used in the theorems -/

/-- The reading `int(x)` of an operand in the specification: the `int64` reading of
`R[index]` for a register operand, and of the first eight data bytes of the operand itself
(zero-extended when shorter) otherwise. -/
def spec_int (vm : VirtualMachine) (x : Value) : Int :=
  if x.is_reg then toSigned 64 (leNat ((vm._regs.getD x.to_uint8_t Value.empty).data.take 8))
  else toSigned 64 (leNat (x.data.take 8))

/-- The rule `resolve(v)` of the specification: `int(R[v.data[0]])` for a register,
`tables[string(v.data)]` (0 when the name is missing) for a table reference, `int(v.data)`
otherwise. -/
def spec_resolve (vm : VirtualMachine) (v : Value) : Int :=
  if v.is_reg then toSigned 64 (leNat ((vm._regs.getD v.to_uint8_t Value.empty).data.take 8))
  else if v.is_table then (UMap.find vm._tables v.to_string).getD 0
  else toSigned 64 (leNat (v.data.take 8))

/-- The condition of a conditional jump in the specification: `== 0` for `jz`, `≠ 0` for
`jnz`, `> 0` for `jg`, `< 0` for `jl`. -/
def spec_taken (code : OpCode) (x : Int) : Prop :=
  (code = OpCode.JZ ∧ x = 0) ∨ (code = OpCode.JNZ ∧ x ≠ 0) ∨
  (code = OpCode.JG ∧ x > 0) ∨ (code = OpCode.JL ∧ x < 0)

/-! ## Sample inputs -/

/-- The register operand `R<n>` as the assembler writes it. -/
def sample_reg (n : Nat) : Value := { is_reg := true, is_table := false, data := leBytes 1 n }

/-- The integer operand `x` as the assembler writes it. -/
def sample_int (x : Int) : Value := { is_reg := false, is_table := false, data := leBytes 8 (toBits 64 x) }

/-- A machine whose register `R3` holds the integer 0 and `R5` the integer 9. -/
def sample_vm : VirtualMachine :=
  { _regs := ((List.replicate 64 Value.empty).set 3 (sample_int 0)).set 5 (sample_int 9),
    _tables := [(lit "main", 0), (lit "ok", 6)] }

/-- The code with which the run returned, if it has returned. -/
def RunLog.returned (r : RunLog) : Option Int :=
  match r.result with
  | some (Except.ok (code, _)) => some code
  | _ => none

/-- The fault that ended the run, if one did. -/
def RunLog.fault (r : RunLog) : Option Fault :=
  match r.result with
  | some (Except.error f) => some f
  | _ => none

/-- The register file at the end of a run that has returned. -/
def RunLog.regs (r : RunLog) : Option (List Value) :=
  match r.result with
  | some (Except.ok (_, vm)) => some vm._regs
  | _ => none

/-- A source whose entry label `main` is not at the first instruction. -/
def src_entry : Str := lit "mov 1, R0\nhalt\nmain:\nmov 2, R0\nhalt"

/-- A source that jumps back to its entry point, instruction 0. -/
def src_jump_entry : Str := lit "main:\nmov 1, R0\njmp 0\nhalt"

/-- The source of scenario 2 of the specification. -/
def src_scenario2 : Str :=
  lit "main:\nmov 3, R0\nmov 4, R1\nadd R0, R1, R2\nsub R2, 7, R3\njz R3, ok\nhalt\nok:\nmov \"ok\", R4\nsys 1, R4\nhalt"

/-! ## What an image stores -/

/-- What the image stores of a `Value`: the `is_reg` flag and the data bytes. -/
def Value.stored (v : Value) : Bool × List Byte := (v.is_reg, v.data)

/-- What the image stores of an `Instruction`: the opcode and, in order, what it stores of
each argument. -/
def Instruction.stored (i : Instruction) : OpCode × List (Bool × List Byte) :=
  (i.code, i.Args.map Value.stored)

/-- The arguments as `DeserializeInstruction` rebuilds them: `is_table` is whatever the
uninitialised member holds; the first argument has number `i`. -/
def loaded_args (indet : Nat → Bool) : Nat → List Value → List Value
  | _, [] => []
  | i, v :: vs => { v with is_table := indet i } :: loaded_args indet (i + 1) vs

/-- The instructions as `LoadFromFile` rebuilds them; the first one has number `i`. -/
def loaded_instructions (indet : Nat → Nat → Bool) : Nat → List Instruction → List Instruction
  | _, [] => []
  | i, instr :: instrs =>
    { instr with Args := loaded_args (indet i) 0 instr.Args }
      :: loaded_instructions indet (i + 1) instrs

/-- The map that `DeserializeTables` builds from the entries `t`, starting from `acc`. -/
def loaded_tables (L : StdLib) : UMap Str Int → UMap Str Int → UMap Str Int
  | acc, [] => acc
  | acc, (key, value) :: t => loaded_tables L (UMap.emplace L acc key value) t

/-- A program that the image format can hold: each name once (as in any map) and without
a zero byte, table values in the range of `int64`, at most 255 arguments per instruction,
and every count and length below `2^32`. -/
def FitsImage (instructions : List Instruction) (tables : UMap Str Int) : Prop :=
  (UMap.keys tables).Nodup
  ∧ (∀ e ∈ tables, (0 : Byte) ∉ e.1 ∧ e.1.length + 1 < 2 ^ 32
      ∧ - (2 : Int) ^ 63 ≤ e.2 ∧ e.2 < (2 : Int) ^ 63)
  ∧ tables.length < 2 ^ 32
  ∧ instructions.length < 2 ^ 32
  ∧ (∀ i ∈ instructions, i.Args.length ≤ 255 ∧ (SerializeInstruction i).length < 2 ^ 32)

/-- The source `sys 7 7 … 7` with 256 operands. -/
def src_many_operands : Str := lit "sys" ++ (List.replicate 256 (lit " 7")).flatten

/-- The source with the single label line `a<NUL>:`, whose name holds a zero byte. -/
def src_nul_label : Str := [97, 0, 58]

/-- The image of the program assembled from a source, the machine loaded from that image,
and the image of the loaded machine: `(B, P′, B′)`. -/
def save_load_save (L : StdLib) (source : Str) :
    Option (VirtualMachine × List Byte × VirtualMachine × List Byte) :=
  match CompileString L source {} with
  | Except.ok vm =>
    match LoadFromFile L (fun _ _ => false) {} (SaveToFile vm._instructions vm._tables) with
    | Except.ok (true, vm1) =>
      some (vm, SaveToFile vm._instructions vm._tables, vm1,
        SaveToFile vm1._instructions vm1._tables)
    | _ => none
  | _ => none

/-- The instructions `mov 3, R0 / jmp #main / halt`. -/
def sample_program : List Instruction :=
  [{ code := OpCode.MOV, Args := [sample_int 3, sample_reg 0] },
   { code := OpCode.JMP, Args := [{ is_reg := false, is_table := true, data := lit "main" ++ [0] }] },
   { code := OpCode.HALT, Args := [] }]

/-- The tables `main → 0`, `done → 2`. -/
def sample_tables : UMap Str Int := [(lit "main", 0), (lit "done", 2)]

/-! ## The names that `ProcessLine` reads from a source -/

/-- The name that `ProcessLine` reads from a line: after its own removal of comments and
surrounding white space (`ProcessLine.strip`), a line `#table name` gives `name`, and any
other line that ends in a colon gives the text before the colon. A line that `ProcessLine`
skips, as inside what it takes for a block comment, gives nothing. -/
def declared_in_line (line : Str) (in_comment_block : Bool) : List Str :=
  match (ProcessLine.strip line in_comment_block).1 with
  | none => []
  | some text =>
    if startsWith (lit "#table") text then
      match Tokenize (text.drop 6) with
      | [name] => [name]
      | _ => []
    else if text.getLast? = some 58 then [text.take (text.length - 1)]
    else []

/-- The names that `ProcessLine` reads from a sequence of lines, in order. -/
def declared_names.go : List Str → Bool → List Str
  | [], _ => []
  | line :: lines, in_comment_block =>
    declared_in_line line in_comment_block
      ++ declared_names.go lines (ProcessLine.strip line in_comment_block).2

/-- The names of the labels and `#table` directives that `ProcessLine` reads from the lines
of a source. -/
def declared_names (source : Str) : List Str := declared_names.go (getlines 10 source) false

/-- A source with a directive, two labels and an instruction, in mixed case. -/
def src_declarations : Str := lit "#table Start\nMain: // entry\nmov 1, R0\nEND:"

/-- The machine that `CompileString` builds from `src_declarations` with head linking. -/
def vm_declarations : VirtualMachine :=
  { _instructions := [{ code := OpCode.MOV, Args := [sample_int 1, sample_reg 0] }],
    _tables := [(lit "main", 0), (lit "end", 1), (lit "start", 0)] }

/-! ## Canonical sources -/

/-- An operand of a canonical source line. -/
inductive Operand where
  /-- the register `R<n>` -/
  | reg (n : Nat)
  /-- a decimal integer literal -/
  | int (k : Int)
  /-- a string literal, given by the characters it denotes -/
  | str (s : Str)
  /-- a byte array literal `[0x.., 0x..]` -/
  | bytes (bs : List Byte)
  /-- the table reference `#name` -/
  | table (name : Str)
deriving DecidableEq, Repr

/-- A statement of a canonical source: an instruction, with the label that precedes it
if there is one. -/
structure Statement where
  label : Option Str
  code : OpCode
  operands : List Operand
deriving DecidableEq, Repr

/-- The mnemonics in the order of their opcode numbers (specification, section 4.2). -/
def opcode_name (code : OpCode) : Str :=
  (([lit "nop", lit "jmp", lit "mov", lit "add", lit "sub", lit "neg", lit "snap_save",
    lit "snap_swap", lit "snap_clear", lit "regs_clear", lit "jz", lit "jnz", lit "jg",
    lit "jl", lit "halt", lit "sys"] : List Str).get? code.val).getD []

/-- The byte literal `0xNN` with two lower-case hexadecimal digits. -/
def hex_literal (b : Byte) : Str := [48, 120, hexChar (b.val / 16), hexChar (b.val % 16)]

/-- A character of a string as written inside a string literal: newline, tab, carriage
return, double quote and backslash are written as the escapes `\n`, `\t`, `\r`, `\"`,
`\\`. -/
def escape_char (c : Byte) : Str :=
  if c = 10 then [92, 110]
  else if c = 9 then [92, 116]
  else if c = 13 then [92, 114]
  else if c = 34 then [92, 34]
  else if c = 92 then [92, 92]
  else [c]

/-- A string as written inside a string literal. -/
def escape_text : Str → Str
  | [] => []
  | c :: s => escape_char c ++ escape_text s

/-- Texts joined by a comma and a space. -/
def join_comma : List Str → Str
  | [] => []
  | [x] => x
  | x :: y :: ys => x ++ lit ", " ++ join_comma (y :: ys)

/-- The operand as written in canonical form. -/
def Operand.text : Operand → Str
  | Operand.reg n => (82 : Byte) :: natToString n
  | Operand.int k => intToString k
  | Operand.str s => [34] ++ escape_text s ++ [34]
  | Operand.bytes bs => [91] ++ join_comma (bs.map hex_literal) ++ [93]
  | Operand.table name => (35 : Byte) :: name

/-- The canonical line of an instruction: four spaces, the lower-case mnemonic, then the
operands after one space, separated by a comma and a space. -/
def instruction_line (code : OpCode) (operands : List Operand) : Str :=
  lit "    " ++ opcode_name code
    ++ (if operands = [] then [] else (32 : Byte) :: join_comma (operands.map Operand.text))

/-- The canonical text of a statement: the label line, if any, and the instruction line. -/
def Statement.text (st : Statement) : Str :=
  (match st.label with
   | some name => name ++ lit ":\n"
   | none => [])
  ++ instruction_line st.code st.operands ++ lit "\n"

/-- The canonical source text of a sequence of statements. -/
def canonical_text : List Statement → Str
  | [] => []
  | st :: prog => st.text ++ canonical_text prog

/-- The labels of a program with the index of their instruction; the first statement has
index `i`. -/
def labels_from : Nat → List Statement → List (Str × Nat)
  | _, [] => []
  | i, st :: prog =>
    (match st.label with
     | some name => [(name, i)]
     | none => []) ++ labels_from (i + 1) prog

/-- A character that may occur in a table reference: no white space, zero byte, quote,
comma, slash, colon or opening bracket. -/
def plain_char (c : Byte) : Bool :=
  !isspace c && c ≠ 0 && c ≠ 34 && c ≠ 44 && c ≠ 47 && c ≠ 58 && c ≠ 91

/-- A character that may occur in a label name: a plain character other than an
upper-case letter and `#`. -/
def name_char (c : Byte) : Bool := plain_char c && !(65 ≤ c.val && c.val ≤ 90) && c ≠ 35

/-- A character that a string literal of a canonical source may denote: no zero byte,
double quote or slash. -/
def string_char (c : Byte) : Bool := c ≠ 0 && c ≠ 34 && c ≠ 47

/-- The operands that the disassembler renders as they were written, in a program whose
labels sit at the instruction indices `labels`: registers `R0`…`R63`; integers in the
`int64` range that are 0, or whose eight bytes do not pass the sane-double test and that
are not the index of a label; string literals of string characters other than those that
denote seven characters; byte arrays other than those of eight bytes or ending in a zero byte; table
references of plain characters. -/
def Operand.ok (labels : List Int) : Operand → Prop
  | Operand.reg n => n ≤ 63
  | Operand.int k => - (2 : Int) ^ 63 ≤ k ∧ k < (2 : Int) ^ 63
      ∧ (k = 0 ∨ (IsValidDouble (toBits 64 k) = false ∧ k ∉ labels))
  | Operand.str s => s.all string_char = true ∧ s.length ≠ 7
  | Operand.bytes bs => bs.length ≠ 8 ∧ bs.getLast? ≠ some 0
  | Operand.table name => name.all plain_char = true

/-- A canonical program within the reach of the round trip: the label names are distinct
and made of name characters, every opcode is one of the sixteen, and every operand is one
the disassembler renders as written. -/
def Canonical (prog : List Statement) : Prop :=
  ((labels_from 0 prog).map Prod.fst).Nodup
  ∧ ∀ st ∈ prog, st.code.val < 16
      ∧ st.label.all (fun name => name.all name_char) = true
      ∧ ∀ op ∈ st.operands,
          op.ok ((labels_from 0 prog).map (fun e => (e.2 : Int)))

instance (labels : List Int) (op : Operand) : Decidable (op.ok labels) := by
  cases op <;> (unfold Operand.ok; infer_instance)

instance (prog : List Statement) : Decidable (Canonical prog) := by
  unfold Canonical
  infer_instance

/-- The machine code of an operand. -/
def Operand.value : Operand → Value
  | Operand.reg n => { is_reg := true, is_table := false, data := leBytes 1 n }
  | Operand.int k => { is_reg := false, is_table := false, data := leBytes 8 (toBits 64 k) }
  | Operand.str s => { is_reg := false, is_table := false, data := s ++ [0] }
  | Operand.bytes bs => { is_reg := false, is_table := false, data := bs }
  | Operand.table name => { is_reg := false, is_table := true, data := name ++ [0] }

/-- The machine code of a statement. -/
def Statement.instruction (st : Statement) : Instruction :=
  { code := st.code, Args := st.operands.map Operand.value }

/-! ## Auxiliary definitions for the proofs about token sequences -/

/-- What `Tokenize` does with its pending token at a separator or at the end of the line. -/
def flush (tokens : List Str) (token : Str) : List Str :=
  if token ≠ [] then tokens ++ [token] else tokens

/-- A character that `Tokenize` appends to the pending token outside strings and arrays. -/
def tok_char (c : Byte) : Bool := !isspace c && c ≠ 44 && c ≠ 34 && c ≠ 91

/-- The operand part of a canonical instruction line, written operand by operand. -/
def args_text : List Operand → Bool → Str
  | [], _ => []
  | op :: ops, first => (if first then [] else [44]) ++ [32] ++ op.text ++ args_text ops false

/-- The tokens of the operand part of a canonical instruction line. -/
def arg_tokens : List Operand → Bool → List Str
  | [], _ => []
  | op :: ops, first => (if first then [] else [[44]]) ++ [op.text] ++ arg_tokens ops false

/-- A character that neither ends a line nor can start a comment. -/
def clean_char (c : Byte) : Bool := c ≠ 10 && c ≠ 47

/-- The statements `m[k] = v` for a list of pairs, in order. -/
def assign_all {κ ν : Type} [DecidableEq κ] (L : StdLib) : UMap κ ν → List (κ × ν) → UMap κ ν
  | m, [] => m
  | m, (k, v) :: kvs => assign_all L (UMap.assign L m k v) kvs

/-- The lines of a canonical source. -/
def canonical_lines : List Statement → List Str
  | [] => []
  | st :: prog =>
    (match st.label with
     | some name => [name ++ [58]]
     | none => []) ++ [instruction_line st.code st.operands] ++ canonical_lines prog

/-- The text ends in a character that is neither white space nor a colon. -/
def good_last (s : Str) : Prop := ∃ c, s.getLast? = some c ∧ isspace c = false ∧ c ≠ 58

/-! ## Sources as written -/

/-- White space other than the newline. -/
def blank_char (c : Byte) : Bool := isspace c && c ≠ 10

/-- A character that separates operands: white space other than the newline, or a comma. -/
def sep_char (c : Byte) : Bool := blank_char c || c = 44

/-- A character that may occur in a label name as written: a plain character other
than `#`. -/
def label_char (c : Byte) : Bool := plain_char c && c ≠ 35

/-- How a line is laid out around its statement: the white space before and after it, and
the text of a `//` comment if there is one. -/
structure Layout where
  indent : Str
  trailing : Str
  comment : Option Str
deriving DecidableEq, Repr

/-- What follows the statement on its line. -/
def Layout.tail (lay : Layout) : Str :=
  lay.trailing ++
    (match lay.comment with
     | some c => lit "//" ++ c
     | none => [])

/-- The layouts considered: white space without newline, and a comment without newline
and without asterisk (so that it cannot open a block comment). -/
def Layout.ok (lay : Layout) : Prop :=
  lay.indent.all blank_char = true ∧ lay.trailing.all blank_char = true
  ∧ lay.comment.all (fun c => c.all (fun x => x ≠ 10 && x ≠ 42)) = true

instance (lay : Layout) : Decidable lay.ok := by
  unfold Layout.ok
  infer_instance

/-- A line without a statement: white space and possibly a comment. -/
def blank_line (lay : Layout) : Str := lay.indent ++ lay.tail

/-- An operand as written: what separates it from the token before it, whether a
register is written with a lower-case `r`, and the operand. -/
structure WOperand where
  sep : Str
  lower : Bool
  op : Operand
deriving DecidableEq, Repr

/-- The operand as written. -/
def WOperand.text (w : WOperand) : Str :=
  match w.op with
  | Operand.reg n => (if w.lower then (114 : Byte) else 82) :: natToString n
  | op => op.text

/-- The operands as written, each after its separator. -/
def wargs_text : List WOperand → Str
  | [] => []
  | w :: ws => w.sep ++ w.text ++ wargs_text ws

/-- A statement as written: the blank and comment lines before it, the label line if
there is one (the name as written and the layout of its line), the blank and comment
lines between label and instruction, and the instruction line (the mnemonic as written,
the opcode it names, the operands, and the layout of the line). -/
structure WStatement where
  before : List Layout
  label : Option (Str × Layout)
  between : List Layout
  mnemonic : Str
  code : OpCode
  operands : List WOperand
  layout : Layout
deriving DecidableEq, Repr

/-- The lines of a statement as written. -/
def WStatement.lines (w : WStatement) : List Str :=
  w.before.map blank_line
    ++ (match w.label with
        | some p => [p.2.indent ++ (p.1 ++ [58]) ++ p.2.tail]
        | none => [])
    ++ w.between.map blank_line
    ++ [w.layout.indent ++ (w.mnemonic ++ wargs_text w.operands) ++ w.layout.tail]

/-- A source as written: its statements, and the blank and comment lines after the last. -/
structure WSource where
  statements : List WStatement
  after : List Layout
deriving DecidableEq, Repr

/-- The lines of a sequence of statements. -/
def wlines : List WStatement → List Str
  | [] => []
  | w :: ws => w.lines ++ wlines ws

/-- The lines of a source. -/
def WSource.lines (src : WSource) : List Str := wlines src.statements ++ src.after.map blank_line

/-- Lines as a text, each ended by a newline. -/
def unlines : List Str → Str
  | [] => []
  | l :: ls => l ++ [10] ++ unlines ls

/-- The text of a source. -/
def WSource.text (src : WSource) : Str := unlines src.lines

/-- The canonical form of a statement: the label in lower case, the opcode, the
operands. -/
def WStatement.canonical (w : WStatement) : Statement :=
  { label := w.label.map (fun p => ToLower p.1), code := w.code,
    operands := w.operands.map (fun o => o.op) }

/-- The canonical form `C(s)` of a source: comments and blank lines dropped, labels and
mnemonics in lower case, registers with an upper-case `R`, one instruction per line with
the layout of the disassembler. -/
def WSource.canonical (src : WSource) : List Statement :=
  src.statements.map WStatement.canonical

/-- The sources considered: every layout is one of those considered; a label is written
with label characters; a mnemonic is written in any letter case; operands are separated
by white space and commas; and the canonical form is a canonical program within the reach
of the round trip. -/
def WSource.ok (src : WSource) : Prop :=
  Canonical src.canonical
  ∧ (∀ lay ∈ src.after, lay.ok)
  ∧ ∀ w ∈ src.statements,
      (∀ lay ∈ w.before, lay.ok) ∧ (∀ lay ∈ w.between, lay.ok) ∧ w.layout.ok
      ∧ w.label.all (fun p => p.1.all label_char && decide p.2.ok) = true
      ∧ ToLower w.mnemonic = opcode_name w.code
      ∧ ∀ o ∈ w.operands, o.sep ≠ [] ∧ o.sep.all sep_char = true

instance (src : WSource) : Decidable src.ok := by
  unfold WSource.ok
  infer_instance

/-- A machine holding the program `mov 7, R2 / halt / mov 8, R2`. -/
def halt_vm : VirtualMachine :=
  { _instructions :=
      [{ code := OpCode.MOV, Args := [sample_int 7, sample_reg 2] },
       { code := OpCode.HALT, Args := [] },
       { code := OpCode.MOV, Args := [sample_int 8, sample_reg 2] }] }

/-- A host function that appends the text of its first argument to the standard output
and raises `missing argument` when it has none. -/
def sample_handler : VirtualMethod := fun vm args =>
  match args with
  | [] => Except.error (Fault.error (lit "missing argument"))
  | v :: _ => Except.ok { vm with cout := vm.cout ++ v.to_string }

/-- A syscall table with `sample_handler` registered under the id 7. -/
def sample_syscalls : SyscallTable := [(7, sample_handler)]

/-- A source whose `mov` names the integer 200 where the destination register goes. -/
def src_mov_200 : Str := lit "mov 1, 200"


/-! ## The image layout in the words of the specification -/

/-- An unsigned 32-bit number, little-endian. -/
def spec_u32 (n : Nat) : List Byte := leBytes 4 n

/-- A table entry: the name length plus one, the name bytes, one zero byte, and the value as
an 8-byte little-endian `int64`. -/
def spec_table_entry (e : Str × Int) : List Byte :=
  spec_u32 (e.1.length + 1) ++ e.1 ++ [0] ++ leBytes 8 (toBits 64 e.2)

/-- An argument: one `is_reg` byte (0 or 1), the data length, and the data bytes. -/
def spec_argument (v : Value) : List Byte :=
  [if v.is_reg then 1 else 0] ++ spec_u32 v.data.length ++ v.data

/-- The payload of an instruction: the opcode byte, the argument-count byte, and the
arguments. -/
def spec_payload (i : Instruction) : List Byte :=
  [i.code, Fin.ofNat i.Args.length] ++ (i.Args.map spec_argument).flatten

/-- The size of a payload: `2 + Σ (5 + datalen)`. -/
def spec_size (i : Instruction) : Nat := 2 + (i.Args.map (fun v => 5 + v.data.length)).sum

/-- An instruction record: the size, then the payload. -/
def spec_instruction (i : Instruction) : List Byte := spec_u32 (spec_size i) ++ spec_payload i

/-- The image: the four header bytes, the table count and entries, the instruction count and
records. -/
def spec_image (instructions : List Instruction) (tables : UMap Str Int) : List Byte :=
  [86, 77, 67, 1] ++ spec_u32 tables.length ++ (tables.map spec_table_entry).flatten
    ++ spec_u32 instructions.length ++ (instructions.map spec_instruction).flatten

/-- A table whose single name is `2^32 - 1` bytes long. -/
def long_name_tables : UMap Str Int := [(List.replicate (2 ^ 32 - 1) 65, 0)]


/-! ## The branches of `ProcessLine` -/

/-- What `ProcessLine` takes a source line for, once it has removed comments and
surrounding white space with `ProcessLine.strip`: nothing, a directive `#table name`, a
label `name:`, or an instruction. Names are in lower case. -/
inductive LineKind where
  | blank
  | directive (name : Str)
  | label (name : Str)
  | instruction (text : Str)
deriving DecidableEq, Repr

/-- The branch of `ProcessLine` that a line takes, given the value of `in_comment_block`. -/
def line_kind (line : Str) (in_comment_block : Bool) : LineKind :=
  match (ProcessLine.strip line in_comment_block).1 with
  | none => LineKind.blank
  | some text =>
    if startsWith (lit "#table") text then
      match Tokenize (text.drop 6) with
      | [name] => LineKind.directive (ToLower name)
      | _ => LineKind.blank
    else if text.getLast? = some 58 then LineKind.label (ToLower (text.take (text.length - 1)))
    else LineKind.instruction text

/-- The declarations that `ProcessLine` reads from a sequence of lines, in order: a
directive gives `(name, none)`, a label gives `(name, some i)` where `i` is the number of
lines it has taken for instructions before; `count` is that number before the first
line. -/
def declarations.go : List Str → Bool → Nat → List (Str × Option Nat)
  | [], _, _ => []
  | line :: lines, in_comment_block, count =>
    let rest := declarations.go lines (ProcessLine.strip line in_comment_block).2
    match line_kind line in_comment_block with
    | LineKind.blank => rest count
    | LineKind.directive name => (name, none) :: rest count
    | LineKind.label name => (name, some count) :: rest count
    | LineKind.instruction _ => rest (count + 1)

/-- The declarations that `ProcessLine` reads from the lines of a source. -/
def declarations (source : Str) : List (Str × Option Nat) :=
  declarations.go (getlines 10 source) false 0

/-- The index of the last label declaration of `name`, if there is one. -/
def last_label (ds : List (Str × Option Nat)) (name : Str) : Option Nat :=
  (ds.filterMap (fun d => if d.1 = name then d.2 else none)).getLast?

/-- What a list of declarations binds `name` to: the index of its last label declaration;
0 when only a directive declares it; nothing otherwise. -/
def spec_binding (ds : List (Str × Option Nat)) (name : Str) : Option Int :=
  match last_label ds name with
  | some i => some (i : Int)
  | none => if (name, none) ∈ ds then some 0 else none

/-- A source in which `loop` is declared by a directive and then by two labels, and `data`
by a directive only. -/
def src_bindings : Str :=
  lit "#table Loop\n#table data\nmov 1, R0\nloop:\nadd R0, 1, R0\nLOOP: // again\nhalt"

/-- The machine that `CompileString` builds from `src_bindings` with head linking. -/
def vm_bindings : VirtualMachine :=
  { _instructions :=
      [{ code := OpCode.MOV, Args := [sample_int 1, sample_reg 0] },
       { code := OpCode.ADD, Args := [sample_reg 0, sample_int 1, sample_reg 0] },
       { code := OpCode.HALT, Args := [] }],
    _tables := [(lit "data", 0), (lit "loop", 2)] }

/-- A source that names the register `R256`. -/
def src_reg_256 : Str := lit "mov 1, R256"

/-- The tables map at the end of a run that has returned. -/
def RunLog.tables (r : RunLog) : Option (UMap Str Int) :=
  match r.result with
  | some (Except.ok (_, vm)) => some vm._tables
  | _ => none

/-- The instruction sequence at the end of a run that has returned. -/
def RunLog.instructions (r : RunLog) : Option (List Instruction) :=
  match r.result with
  | some (Except.ok (_, vm)) => some vm._instructions
  | _ => none

/-- A source without a label `main`. -/
def src_no_main : Str := lit "mov 1, R0\nhalt"

/-- A source that reads the table entry `data`, which nothing declares. -/
def src_undeclared_table : Str := lit "main:\nmov #data, R0\nhalt"

/-- A source whose string literal holds an escaped double quote: `mov "a\"b", R0`. -/
def src_escaped_quote : Str := lit "mov \"a\\\"b\", R0"

/-- A source whose string literal holds two slashes: `mov "a//b", R0`. -/
def src_slashes_in_string : Str := lit "mov \"a//b\", R0"

/-- A source whose first line ends in a block comment that opens and closes on that line. -/
def src_block_comment : Str := lit "mov 1, R0 /* c */\nhalt"

/-- The source of `src_block_comment` without the comment. -/
def src_without_comment : Str := lit "mov 1, R0\nhalt"

/-- A source that refers to the label `end` as `#END`. -/
def src_upper_reference : Str := lit "mov #END, R0\nhalt\nend:\nnop"

/-- The source of `src_upper_reference` with the reference in lower case. -/
def src_lower_reference : Str := lit "mov #end, R0\nhalt\nend:\nnop"


/-- A program of two instructions whose `jmp` has the target 2, the number of
instructions. -/
def src_jump_to_end : Str := lit "jmp 2\nhalt"

/-- A program of two instructions whose `jmp` has the target 3, beyond the number of
instructions. -/
def src_jump_past_end : Str := lit "jmp 3\nhalt"

/-- The machine holding the program of `src_jump_to_end`. -/
def vm_jump_to_end : VirtualMachine :=
  { _instructions := [{ code := OpCode.JMP, Args := [sample_int 2] },
                      { code := OpCode.HALT, Args := [] }] }

/-! ## Straight-line execution -/

/-- Interpreting a sequence of instructions one after the other, as the loop of `Run` does
while no instruction branches or halts. -/
def steps (L : StdLib) (sys : SyscallTable) (indet : Bool) :
    List Instruction → VirtualMachine → Except Fault VirtualMachine
  | [], vm => Except.ok vm
  | instruction :: rest, vm =>
    match Interpreter L sys indet vm instruction with
    | Except.ok r => steps L sys indet rest r.2
    | Except.error f => Except.error f

/-- The opcodes `mov`, `add`, `sub` and `neg`. -/
def writes_register (code : OpCode) : Prop :=
  code = OpCode.MOV ∨ code = OpCode.ADD ∨ code = OpCode.SUB ∨ code = OpCode.NEG

instance (code : OpCode) : Decidable (writes_register code) := by
  unfold writes_register
  infer_instance

/-- The source `mov 1, R0 / snap_save / mov 2, R0 / snap_swap` of the specification. -/
def src_snapshot : Str := lit "mov 1, R0\nsnap_save\nmov 2, R0\nsnap_swap"


/-- The number that a run of hexadecimal digits denotes. -/
def hex_value (ds : Str) : Nat := ds.foldl (fun n c => 16 * n + (hexDigit c).getD 0) 0

/-- One element of a byte array as it is written between two commas: white space, an
optional prefix, the digits, white space. -/
structure ByteText where
  lead : Str
  pre : Str
  digits : Str
  trail : Str
deriving DecidableEq, Repr

/-- The characters of the element. -/
def ByteText.text (e : ByteText) : Str := e.lead ++ (e.pre ++ (e.digits ++ e.trail))

/-- The element is one or more hexadecimal digits, with or without a `0x` or `0X` prefix,
and with white space only around it. -/
def ByteText.ok (e : ByteText) : Prop :=
  e.lead.all isspace = true ∧ e.trail.all isspace = true
    ∧ (e.pre = [] ∨ e.pre = [48, 120] ∨ e.pre = [48, 88])
    ∧ e.digits ≠ [] ∧ e.digits.all (fun c => (hexDigit c).isSome) = true

instance (e : ByteText) : Decidable e.ok := by
  unfold ByteText.ok
  infer_instance

/-- The byte that the digits of the element denote. -/
def ByteText.value (e : ByteText) : Byte := Fin.ofNat (hex_value e.digits)

/-- The pieces with one comma between neighbours. -/
def join_commas : List Str → Str
  | [] => []
  | [x] => x
  | x :: y :: ys => x ++ 44 :: join_commas (y :: ys)

/-- The token `[p1,p2,…,pn]`. -/
def array_token (pieces : List Str) : Str := [91] ++ join_commas pieces ++ [93]

/-- A character that makes an element ill-formed where it follows the digits `digits` read
so far: not a hexadecimal digit, not white space, not NUL, not a comma, not a sign where no
digit was read, and not `x` or `X` after the single digit `0`. -/
def foreign_char (digits : Str) (c : Byte) : Prop :=
  hexDigit c = none ∧ isspace c = false ∧ c ≠ 0 ∧ c ≠ 44
    ∧ (digits = [] → c ≠ 43 ∧ c ≠ 45) ∧ (digits = [48] → c ≠ 120 ∧ c ≠ 88)

instance (digits : Str) (c : Byte) : Decidable (foreign_char digits c) := by
  unfold foreign_char
  infer_instance

/-- The elements `0x1f` and ` A`. -/
def sample_byte_texts : List ByteText :=
  [{ lead := [], pre := lit "0x", digits := lit "1f", trail := [] },
   { lead := lit " ", pre := [], digits := lit "A", trail := [] }]

/-- A byte array whose elements carry a sign, a second prefix, or no digit at all. -/
def signed_byte_array : Str := lit "[+1f, -0, 0x0x10, 0x]"


/-- The operands of an instruction line as the specification writes them: each text
preceded by a space, with a comma between neighbours. -/
def spec_operands : List Str → Str
  | [] => []
  | [t] => 32 :: t
  | t :: u :: ts => (32 :: t) ++ 44 :: spec_operands (u :: ts)

/-- The line of an instruction in the specification: four spaces, the lower-case mnemonic,
the operands, and the end of the line. -/
def spec_instruction_line (code : OpCode) (operands : List Str) : Str :=
  lit "    " ++ opcode_name code ++ spec_operands operands ++ [10]

/-- A listing in the specification: each instruction line, with the line `name:`
immediately before it where the instruction has the label `name`. -/
def spec_listing : List (Option Str × Str) → Str
  | [] => []
  | (label, line) :: rest =>
    (match label with
     | some name => name ++ lit ":\n"
     | none => []) ++ line ++ spec_listing rest


/-- A string with a zero byte inside, as the literal `"a\0b"` denotes it. -/
def str_with_zero : Str := [97, 0, 98]

/-- The digits of lower-case hexadecimal notation, in order. -/
def hex_digits : Str := lit "0123456789abcdef"


/-- A source that declares the table `data` and no label of this name. -/
def src_table_only : Str := lit "#table data\nmov 1, R0\nhalt"


/-- What a register-writing instruction with destination `d` leaves alone: every register
other than `R[d]`, the snapshot bank and the tables map; and both banks have 64 entries
afterwards. -/
def unchanged_except (d : Nat) (vm vm1 : VirtualMachine) : Prop :=
  (∀ i : Nat, i ≠ d → vm1._regs.get? i = vm._regs.get? i)
    ∧ vm1._regs_snap = vm._regs_snap ∧ vm1._tables = vm._tables
    ∧ vm1._regs.length = 64 ∧ vm1._regs_snap.length = 64


/-! ## The system calls (`syscalls.cpp`) -/

/-- The function template `getValueAs<T>`: the Value that `to<T>()` is applied to. -/
def getValueAs (vm : VirtualMachine) (arg : Value) : Except Fault Value :=
  if arg.is_reg then GetRegisterValue vm arg.to_uint8_t else pure arg

/-- The digits that `output << std::hex` writes for a number, most significant first: at
most `fuel` digits are put before `acc`. -/
def hexDigits : Nat → Nat → Str → Str
  | 0, _, acc => acc
  | fuel + 1, n, acc =>
    if n / 16 = 0 then hexChar (n % 16) :: acc
    else hexDigits fuel (n / 16) (hexChar (n % 16) :: acc)

/-- The text of `output << std::hex << x` for a `long` with the bits `n`: the stream writes
the 64-bit pattern, which has at most 16 digits. -/
def natToHex (n : Nat) : Str := hexDigits 16 n []

/-- The `switch (spec)` of `SysPrint`: the text written to `output` for the conversion
`spec` with the argument `arg`, or the exception. -/
def SysPrint.convert (L : StdLib) (vm : VirtualMachine) (spec : Byte) (arg : Value) :
    Except Fault Str :=
  if spec = 100 then do
    let v ← getValueAs vm arg
    pure (intToString v.to_long)
  else if spec = 102 then do
    let v ← getValueAs vm arg
    pure (L.general (leNat (v.data.take 8)))
  else if spec = 115 then do
    let v ← getValueAs vm arg
    pure v.to_string
  else if spec = 99 then do
    let v ← getValueAs vm arg
    pure [Fin.ofNat (toBits 8 v.to_int)]
  else if spec = 120 then do
    let v ← getValueAs vm arg
    pure (natToHex (toBits 64 v.to_long))
  else if spec = 37 then pure [37]
  else Except.error (Fault.error (lit "Invalid format specifier: %" ++ [spec]))

/-- The loop of `SysPrint` over the characters of `fmt` from index `i` on, with the local
variables `arg_index` and `output`. The argument is taken with `args[arg_index++]` before
the `switch`, and the case `'%'` decrements `arg_index` again. -/
def SysPrint.go (L : StdLib) (vm : VirtualMachine) (args : List Value) :
    Str → Nat → Str → Except Fault Str
  | [], _, output => pure output
  | c :: fmt, arg_index, output =>
    if c = 37 then
      match fmt with
      | [] => pure (output ++ [c])
      | spec :: rest =>
        if arg_index ≥ args.length then
          Except.error (Fault.error (lit "Not enough arguments for format string"))
        else
          match args.get? arg_index with
          | none => Except.error Fault.undefined
          | some arg =>
            match SysPrint.convert L vm spec arg with
            | Except.error f => Except.error f
            | Except.ok text =>
              SysPrint.go L vm args rest (if spec = 37 then arg_index else arg_index + 1)
                (output ++ text)
    else SysPrint.go L vm args fmt arg_index (output ++ [c])

/-- The format string of `SysPrint`: the string read of `args[0]`, or of the register it
names. -/
def SysPrint.fmt (vm : VirtualMachine) (arg0 : Value) : Except Fault Str :=
  if arg0.is_reg then do
    let r ← GetRegisterValue vm arg0.to_uint8_t
    pure r.to_string
  else pure arg0.to_string

/-- The function `SysCallRegistry::SysPrint`: the machine afterwards, whose `cout` has
received the text, or the exception. -/
def SysPrint (L : StdLib) (vm : VirtualMachine) (args : List Value) :
    Except Fault VirtualMachine :=
  match args with
  | [] => Except.error (Fault.error (lit "printf requires format string"))
  | arg0 :: _ => do
    let fmt ← SysPrint.fmt vm arg0
    let output ← SysPrint.go L vm args fmt 1 []
    pure { vm with cout := vm.cout ++ output }

/-- The conversion characters of a format string in the order in which `SysPrint` meets
them: the character after each `%` that is followed by a character. -/
def conversions : Str → List Byte
  | [] => []
  | c :: fmt =>
    if c = 37 then
      match fmt with
      | [] => []
      | spec :: rest => spec :: conversions rest
    else conversions fmt

/-- The specifiers `%d`, `%f`, `%s`, `%c` and `%x`, which consume an argument. -/
def consumes_argument (spec : Byte) : Bool :=
  spec = 100 || spec = 102 || spec = 115 || spec = 99 || spec = 120

/-- The number of argument-consuming specifiers of a format string. -/
def consuming_specifiers (fmt : Str) : Nat := (conversions fmt).countP consumes_argument

/-- The Value that the assembler writes for the string literal with the text `s`. -/
def string_value (s : Str) : Value := { is_reg := false, is_table := false, data := s ++ [0] }


/-- A source whose first line is a block comment that is closed on the same line, followed
by the label `main:` and two instructions. -/
def src_header_comment : Str := lit "/* header */\nmain:\nmov 1, R0\nhalt"

/-- The source `src_header_comment` without its comment line. -/
def src_header_plain : Str := lit "main:\nmov 1, R0\nhalt"

/-- A source with a one-line block comment after its first instruction, followed by the
label `main:` and a second instruction. -/
def src_label_after_comment : Str := lit "mov 1, R0 /* c */\nmain:\nhalt"

/-- The source `src_label_after_comment` without the comment. -/
def src_label_plain : Str := lit "mov 1, R0\nmain:\nhalt"

/-- A machine with the single instruction `nop`. -/
def vm_one_nop : VirtualMachine :=
  { _instructions := [{ code := OpCode.NOP, Args := [] }] }

/-- A machine with the instructions `mov 5, R0` / `halt` and the tables map `y → 1`. -/
def vm_late_label : VirtualMachine :=
  { _instructions :=
      [{ code := OpCode.MOV, Args := [sample_int 5, sample_reg 0] },
       { code := OpCode.HALT, Args := [] }],
    _tables := [(lit "y", 1)] }

/-! # Theorems -/

/-! ## Lemmas on the interpreter -/

theorem reg_read_of_lt (regs : List Value) (i : Nat) (h : i < regs.length) :
    reg_read regs i = Except.ok (regs.getD i Value.empty) := by
  simp [reg_read, List.getD, List.getElem?_eq_getElem h]

theorem operand_long_eq (vm : VirtualMachine) (x : Value)
    (h : x.is_reg = true → x.to_uint8_t < vm._regs.length) :
    operand_long vm x = Except.ok (spec_int vm x) := by
  unfold operand_long spec_int
  by_cases hr : x.is_reg = true
  · simp only [hr, if_true]
    rw [reg_read_of_lt _ _ (h hr)]
    rfl
  · simp only [hr]
    rfl

theorem branch_target_eq (L : StdLib) (vm : VirtualMachine) (t : Value)
    (h : t.is_reg = true → t.to_uint8_t < vm._regs.length) :
    ∃ tables, branch_target L vm t = Except.ok (spec_resolve vm t, { vm with _tables := tables }) := by
  unfold branch_target spec_resolve
  by_cases hr : t.is_reg = true
  · refine ⟨vm._tables, ?_⟩
    simp only [hr, if_true]
    rw [reg_read_of_lt _ _ (h hr)]
    rfl
  · by_cases ht : t.is_table = true
    · simp only [hr, ht, if_true]
      refine ⟨(UMap.index L vm._tables t.to_string 0).2, ?_⟩
      have : (UMap.index L vm._tables t.to_string 0).1 = (UMap.find vm._tables t.to_string).getD 0 := by
        unfold UMap.index
        cases UMap.find vm._tables t.to_string <;> rfl
      simp [pure, Except.pure, this]
    · refine ⟨vm._tables, ?_⟩
      simp only [hr, ht]
      rfl

theorem cond_jump_eq (L : StdLib) (vm : VirtualMachine) (code : OpCode) (src target : Value)
    (rest : List Value) (cond : Int → Bool)
    (hsrc : src.is_reg = true → src.to_uint8_t < vm._regs.length)
    (htgt : target.is_reg = true → target.to_uint8_t < vm._regs.length) :
    ∃ vm1, cond_jump L vm { code := code, Args := src :: target :: rest } cond = Except.ok (0, vm1)
      ∧ vm1._regs = vm._regs ∧ vm1._regs_snap = vm._regs_snap
      ∧ (cond (spec_int vm src) = true → vm1._program_counter = spec_resolve vm target)
      ∧ (cond (spec_int vm src) = false → vm1 = vm) := by
  obtain ⟨tables, ht⟩ := branch_target_eq L vm target htgt
  by_cases hc : cond (spec_int vm src) = true
  · refine ⟨{ vm with _tables := tables, _program_counter := spec_resolve vm target }, ?_, rfl, rfl,
      fun _ => rfl, fun h => ?_⟩
    · simp [cond_jump, Args_at, operand_long_eq vm src hsrc, hc, ht, bind, Except.bind, pure,
        Except.pure]
    · rw [hc] at h
      cases h
  · refine ⟨vm, ?_, rfl, rfl, fun h => absurd h hc, fun _ => rfl⟩
    simp [cond_jump, Args_at, operand_long_eq vm src hsrc, hc, bind, Except.bind, pure,
      Except.pure]

/-- C7. For `jz`, `jnz`, `jg` and `jl` (with the register indices of the operands inside the
register file): the interpreter returns 0; when the `int64` reading of `src` is `== 0`,
`≠ 0`, `> 0`, `< 0` respectively the program counter afterwards is `resolve(target)`, and
otherwise the machine, its program counter included, is left exactly as it was; in both
cases the register file and the snapshot bank are unchanged. -/
theorem conditional_jump_writes_pc_iff_taken (L : StdLib) (sys : SyscallTable) (indet : Bool)
    (vm : VirtualMachine) (code : OpCode) (src target : Value) (rest : List Value)
    (hcode : code = OpCode.JZ ∨ code = OpCode.JNZ ∨ code = OpCode.JG ∨ code = OpCode.JL)
    (hsrc : src.is_reg = true → src.to_uint8_t < vm._regs.length)
    (htgt : target.is_reg = true → target.to_uint8_t < vm._regs.length) :
    ∃ vm1, Interpreter L sys indet vm { code := code, Args := src :: target :: rest }
        = Except.ok (0, vm1)
      ∧ vm1._regs = vm._regs ∧ vm1._regs_snap = vm._regs_snap
      ∧ (spec_taken code (spec_int vm src) → vm1._program_counter = spec_resolve vm target)
      ∧ (¬ spec_taken code (spec_int vm src) → vm1 = vm) := by
  rcases hcode with h | h | h | h
  · subst h
    obtain ⟨vm1, h1, h2, h3, h4, h5⟩ :=
      cond_jump_eq L vm OpCode.JZ src target rest (fun val => val == 0) hsrc htgt
    refine ⟨vm1, h1, h2, h3, fun ht => h4 ?_, fun hn => h5 ?_⟩
    · rcases ht with ⟨_, hx⟩ | ⟨hc, _⟩ | ⟨hc, _⟩ | ⟨hc, _⟩
      · simpa using hx
      all_goals exact absurd hc (by decide)
    · have : ¬ spec_int vm src = 0 := fun hx => hn (Or.inl ⟨rfl, hx⟩)
      simpa using this
  · subst h
    obtain ⟨vm1, h1, h2, h3, h4, h5⟩ :=
      cond_jump_eq L vm OpCode.JNZ src target rest (fun val => val != 0) hsrc htgt
    refine ⟨vm1, h1, h2, h3, fun ht => h4 ?_, fun hn => h5 ?_⟩
    · rcases ht with ⟨hc, _⟩ | ⟨_, hx⟩ | ⟨hc, _⟩ | ⟨hc, _⟩
      · exact absurd hc (by decide)
      · simpa using hx
      all_goals exact absurd hc (by decide)
    · have : ¬ spec_int vm src ≠ 0 := fun hx => hn (Or.inr (Or.inl ⟨rfl, hx⟩))
      simpa using this
  · subst h
    obtain ⟨vm1, h1, h2, h3, h4, h5⟩ :=
      cond_jump_eq L vm OpCode.JG src target rest (fun val => decide (val > 0)) hsrc htgt
    refine ⟨vm1, h1, h2, h3, fun ht => h4 ?_, fun hn => h5 ?_⟩
    · rcases ht with ⟨hc, _⟩ | ⟨hc, _⟩ | ⟨_, hx⟩ | ⟨hc, _⟩
      · exact absurd hc (by decide)
      · exact absurd hc (by decide)
      · simpa using hx
      · exact absurd hc (by decide)
    · have : ¬ spec_int vm src > 0 := fun hx => hn (Or.inr (Or.inr (Or.inl ⟨rfl, hx⟩)))
      simpa using this
  · subst h
    obtain ⟨vm1, h1, h2, h3, h4, h5⟩ :=
      cond_jump_eq L vm OpCode.JL src target rest (fun val => decide (val < 0)) hsrc htgt
    refine ⟨vm1, h1, h2, h3, fun ht => h4 ?_, fun hn => h5 ?_⟩
    · rcases ht with ⟨hc, _⟩ | ⟨hc, _⟩ | ⟨hc, _⟩ | ⟨_, hx⟩
      · exact absurd hc (by decide)
      · exact absurd hc (by decide)
      · exact absurd hc (by decide)
      · simpa using hx
    · have : ¬ spec_int vm src < 0 := fun hx => hn (Or.inr (Or.inr (Or.inr ⟨rfl, hx⟩)))
      simpa using this


/-- Witness for C7: `jz R3, 6` on a machine whose `R3` holds 0. -/
theorem conditional_jump_writes_pc_iff_taken_witness :
    ∃ vm1, Interpreter StdLib.front [] false sample_vm
        { code := OpCode.JZ, Args := [sample_reg 3, sample_int 6] } = Except.ok (0, vm1)
      ∧ vm1._regs = sample_vm._regs ∧ vm1._regs_snap = sample_vm._regs_snap
      ∧ (spec_taken OpCode.JZ (spec_int sample_vm (sample_reg 3)) →
          vm1._program_counter = spec_resolve sample_vm (sample_int 6))
      ∧ (¬ spec_taken OpCode.JZ (spec_int sample_vm (sample_reg 3)) → vm1 = sample_vm) :=
  conditional_jump_writes_pc_iff_taken StdLib.front [] false sample_vm OpCode.JZ (sample_reg 3)
    (sample_int 6) [] (Or.inl rfl) (by decide) (by decide)


theorem toBits_wrap64 (x : Int) : toBits 64 (wrap64 x) = toBits 64 x := by
  unfold wrap64 toSigned toBits
  split <;> omega

theorem reg_write_of_lt (regs : List Value) (i : Nat) (v : Value) (h : i < regs.length) :
    reg_write regs i v = Except.ok (regs.set i v) := by
  simp [reg_write, h]

/-- C8. For `mov src, dst` with destination index `d ≤ 63` (and source register index
`≤ 63`): the interpreter returns 0 and afterwards `R[d]` is the value `R[s]` held before
when `src` is register `s`; has as data the 8 little-endian bytes of `tables[name]` (0 when
the name is missing) and `is_reg` false when `src` is a table reference; and is `src`
itself, field by field, otherwise. -/
theorem mov_writes_evaluated_source (L : StdLib) (sys : SyscallTable) (indet : Bool)
    (vm : VirtualMachine) (src dst : Value) (rest : List Value)
    (hlen : vm._regs.length = 64) (hdst : dst.to_uint8_t ≤ 63)
    (hsrc : src.is_reg = true → src.to_uint8_t ≤ 63) :
    ∃ vm1 r, Interpreter L sys indet vm { code := OpCode.MOV, Args := src :: dst :: rest }
        = Except.ok (0, vm1)
      ∧ vm1._regs[dst.to_uint8_t]? = some r
      ∧ (src.is_reg = true → vm._regs[src.to_uint8_t]? = some r)
      ∧ (src.is_reg = false → src.is_table = true →
          r.data = leBytes 8 (toBits 64 ((UMap.find vm._tables src.to_string).getD 0))
          ∧ r.is_reg = false)
      ∧ (src.is_reg = false → src.is_table = false → r = src) := by
  have hd : dst.to_uint8_t < vm._regs.length := by omega
  have hInt : Interpreter L sys indet vm { code := OpCode.MOV, Args := src :: dst :: rest } =
      (if src.is_reg then do
        let v ← reg_read vm._regs src.to_uint8_t
        let regs ← reg_write vm._regs dst.to_uint8_t v
        pure (0, { vm with _regs := regs })
      else if src.is_table then do
        let regs ← reg_write vm._regs dst.to_uint8_t
          (({ is_reg := false, is_table := indet, data := [] } : Value).write_long
            (UMap.index L vm._tables src.to_string 0).1)
        pure (0, { vm with _tables := (UMap.index L vm._tables src.to_string 0).2, _regs := regs })
      else do
        let regs ← reg_write vm._regs dst.to_uint8_t src
        pure (0, { vm with _regs := regs })) := rfl
  rw [hInt]
  by_cases hr : src.is_reg = true
  · have hs : src.to_uint8_t < vm._regs.length := by have := hsrc hr; omega
    refine ⟨{ vm with _regs := vm._regs.set dst.to_uint8_t (vm._regs.getD src.to_uint8_t Value.empty) },
      vm._regs.getD src.to_uint8_t Value.empty, ?_, ?_, ?_, ?_, ?_⟩
    · simp [hr, reg_read_of_lt _ _ hs, reg_write_of_lt _ _ _ hd, bind, Except.bind, pure,
        Except.pure]
    · simp [List.getElem?_set, hd]
    · intro _
      simp [List.getD, List.getElem?_eq_getElem hs]
    · intro h; rw [hr] at h; cases h
    · intro h; rw [hr] at h; cases h
  · have hr1 : src.is_reg = false := by simpa using hr
    by_cases ht : src.is_table = true
    · refine ⟨{ vm with _tables := (UMap.index L vm._tables src.to_string 0).2,
                         _regs := vm._regs.set dst.to_uint8_t
                          (({ is_reg := false, is_table := indet, data := [] } : Value).write_long
                            (UMap.index L vm._tables src.to_string 0).1) },
          (({ is_reg := false, is_table := indet, data := [] } : Value).write_long
            (UMap.index L vm._tables src.to_string 0).1), ?_, ?_, ?_, ?_, ?_⟩
      · simp [hr1, ht, reg_write_of_lt _ _ _ hd, bind, Except.bind, pure, Except.pure]
      · simp [List.getElem?_set, hd]
      · intro h; rw [hr1] at h; cases h
      · intro _ _
        have : (UMap.index L vm._tables src.to_string 0).1
            = (UMap.find vm._tables src.to_string).getD 0 := by
          unfold UMap.index
          cases UMap.find vm._tables src.to_string <;> rfl
        rw [this]
        exact ⟨rfl, rfl⟩
      · intro _ h; rw [ht] at h; cases h
    · have ht1 : src.is_table = false := by simpa using ht
      refine ⟨{ vm with _regs := vm._regs.set dst.to_uint8_t src }, src, ?_, ?_, ?_, ?_, ?_⟩
      · simp [hr1, ht1, reg_write_of_lt _ _ _ hd, bind, Except.bind, pure, Except.pure]
      · simp [List.getElem?_set, hd]
      · intro h; rw [hr1] at h; cases h
      · intro _ h; rw [ht1] at h; cases h
      · intro _ _; rfl

/-- Witness for C8: `mov R5, R3` on the sample machine. -/
theorem mov_writes_evaluated_source_witness :
    sample_vm._regs.length = 64 ∧ (sample_reg 3).to_uint8_t ≤ 63 ∧
    ∃ vm1 r, Interpreter StdLib.front [] false sample_vm
        { code := OpCode.MOV, Args := [sample_reg 5, sample_reg 3] } = Except.ok (0, vm1)
      ∧ vm1._regs[(sample_reg 3).to_uint8_t]? = some r
      ∧ ((sample_reg 5).is_reg = true → sample_vm._regs[(sample_reg 5).to_uint8_t]? = some r)
      ∧ ((sample_reg 5).is_reg = false → (sample_reg 5).is_table = true →
          r.data = leBytes 8 (toBits 64
            ((UMap.find sample_vm._tables (sample_reg 5).to_string).getD 0))
          ∧ r.is_reg = false)
      ∧ ((sample_reg 5).is_reg = false → (sample_reg 5).is_table = false → r = sample_reg 5) :=
  ⟨by decide, by decide,
    mov_writes_evaluated_source StdLib.front [] false sample_vm (sample_reg 5) (sample_reg 3) []
      (by decide) (by decide) (fun _ => by decide)⟩

/-- C9. For `add a, b, dst` and `sub a, b, dst` (with the register indices of the
operands inside the register file): the interpreter returns 0 and afterwards the data of
`R[dst]` is the 8 little-endian bytes of `int(a) + int(b)`, respectively
`int(a) − int(b)`, reduced modulo `2^64`, where `int(x)` reads `R[x]` for a register operand
and the first eight data bytes of the operand itself (zero-extended) otherwise. -/
theorem add_sub_write_wrapped_result (L : StdLib) (sys : SyscallTable) (indet : Bool)
    (vm : VirtualMachine) (a b dst : Value) (rest : List Value)
    (hdst : dst.to_uint8_t < vm._regs.length)
    (ha : a.is_reg = true → a.to_uint8_t < vm._regs.length)
    (hb : b.is_reg = true → b.to_uint8_t < vm._regs.length) :
    (∃ vm1 r, Interpreter L sys indet vm { code := OpCode.ADD, Args := a :: b :: dst :: rest }
        = Except.ok (0, vm1)
      ∧ vm1._regs[dst.to_uint8_t]? = some r
      ∧ r.data = leBytes 8 (((spec_int vm a + spec_int vm b) % 2 ^ 64).toNat))
    ∧ (∃ vm1 r, Interpreter L sys indet vm { code := OpCode.SUB, Args := a :: b :: dst :: rest }
        = Except.ok (0, vm1)
      ∧ vm1._regs[dst.to_uint8_t]? = some r
      ∧ r.data = leBytes 8 (((spec_int vm a - spec_int vm b) % 2 ^ 64).toNat)) := by
  have hAdd : Interpreter L sys indet vm { code := OpCode.ADD, Args := a :: b :: dst :: rest } =
      (do
        let val1 ← operand_long vm a
        let val2 ← operand_long vm b
        let old ← reg_read vm._regs dst.to_uint8_t
        let regs ← reg_write vm._regs dst.to_uint8_t (old.write_long (wrap64 (val1 + val2)))
        pure (0, { vm with _regs := regs })) := rfl
  have hSub : Interpreter L sys indet vm { code := OpCode.SUB, Args := a :: b :: dst :: rest } =
      (do
        let val1 ← operand_long vm a
        let val2 ← operand_long vm b
        let old ← reg_read vm._regs dst.to_uint8_t
        let regs ← reg_write vm._regs dst.to_uint8_t (old.write_long (wrap64 (val1 - val2)))
        pure (0, { vm with _regs := regs })) := rfl
  constructor
  · refine ⟨{ vm with _regs := vm._regs.set dst.to_uint8_t
                          ((vm._regs.getD dst.to_uint8_t Value.empty).write_long
                            (wrap64 (spec_int vm a + spec_int vm b))) },
      (vm._regs.getD dst.to_uint8_t Value.empty).write_long
        (wrap64 (spec_int vm a + spec_int vm b)), ?_, ?_, ?_⟩
    · rw [hAdd]
      simp only [operand_long_eq vm a ha, operand_long_eq vm b hb, reg_read_of_lt _ _ hdst,
        reg_write_of_lt _ _ _ hdst, bind, Except.bind, pure, Except.pure]
    · simp [List.getElem?_set, hdst]
    · simp only [Value.write_long, toBits_wrap64]
      rfl
  · refine ⟨{ vm with _regs := vm._regs.set dst.to_uint8_t
                          ((vm._regs.getD dst.to_uint8_t Value.empty).write_long
                            (wrap64 (spec_int vm a - spec_int vm b))) },
      (vm._regs.getD dst.to_uint8_t Value.empty).write_long
        (wrap64 (spec_int vm a - spec_int vm b)), ?_, ?_, ?_⟩
    · rw [hSub]
      simp only [operand_long_eq vm a ha, operand_long_eq vm b hb, reg_read_of_lt _ _ hdst,
        reg_write_of_lt _ _ _ hdst, bind, Except.bind, pure, Except.pure]
    · simp [List.getElem?_set, hdst]
    · simp only [Value.write_long, toBits_wrap64]
      rfl


/-- Witness for C9: `add R5, -2, R3` and `sub R5, -2, R3` on the sample machine. -/
theorem add_sub_write_wrapped_result_witness :
    (sample_reg 3).to_uint8_t < sample_vm._regs.length ∧
    ((∃ vm1 r, Interpreter StdLib.front [] false sample_vm
        { code := OpCode.ADD, Args := [sample_reg 5, sample_int (-2), sample_reg 3] }
        = Except.ok (0, vm1)
      ∧ vm1._regs[(sample_reg 3).to_uint8_t]? = some r
      ∧ r.data = leBytes 8
          (((spec_int sample_vm (sample_reg 5) + spec_int sample_vm (sample_int (-2))) % 2 ^ 64).toNat))
    ∧ (∃ vm1 r, Interpreter StdLib.front [] false sample_vm
        { code := OpCode.SUB, Args := [sample_reg 5, sample_int (-2), sample_reg 3] }
        = Except.ok (0, vm1)
      ∧ vm1._regs[(sample_reg 3).to_uint8_t]? = some r
      ∧ r.data = leBytes 8
          (((spec_int sample_vm (sample_reg 5) - spec_int sample_vm (sample_int (-2))) % 2 ^ 64).toNat))) :=
  ⟨by decide,
    add_sub_write_wrapped_result StdLib.front [] false sample_vm (sample_reg 5) (sample_int (-2))
      (sample_reg 3) [] (by decide) (fun _ => by decide) (fun h => by cases h)⟩

/-- The sum written by `add R5, -2, R3` on the sample machine is 7. -/
theorem add_sample_value :
    ((spec_int sample_vm (sample_reg 5) + spec_int sample_vm (sample_int (-2))) % 2 ^ 64).toNat = 7 := by
  decide!


/-! ## The step loop -/

/-- The loop of `Run` starts at the first instruction whatever `start` is. -/
theorem Run_trace_head (L : StdLib) (sys : SyscallTable) (indet : Bool) (fuel : Nat)
    (vm : VirtualMachine) (start : Int) (instr : Instruction) (rest : List Instruction)
    (h : vm._instructions = instr :: rest) :
    (Run L sys indet (fuel + 1) vm start).trace.head? = some 0 := by
  unfold Run Run.loop
  simp only [h, List.get?]
  split <;> rfl

/-- C5, the code at the failing input. The source `mov 1, R0 / halt / main: / mov 2, R0 /
halt` assembles with `tables["main"] = 2`, yet `Execute("main")` interprets instruction 0
first and then instruction 1 (`halt`), and returns with `R0` holding 1: the instruction at
index `tables["main"]` is never interpreted. -/
theorem execute_main_starts_at_index_zero :
    (CompileString StdLib.front src_entry {}).toOption.map (fun vm =>
      (UMap.find vm._tables (lit "main"),
       (Execute StdLib.front [] false 10 vm (lit "main")).trace,
       (Execute StdLib.front [] false 10 vm (lit "main")).returned,
       ((Execute StdLib.front [] false 10 vm (lit "main")).regs.map
          (fun regs => (regs.getD 0 Value.empty).to_long))))
    = some (some 2, [0, 1], some 1, some 1) := by
  decide!

/-- C6, the code at the failing input. In `main: / mov 1, R0 / jmp 0 / halt` the `jmp` at
index 1 has the target 0, in range for the three instructions, which is also the entry
index; `Execute("main")` interprets instruction 2 after the `jmp`, not instruction 0. -/
theorem jmp_to_entry_index_falls_through :
    (CompileString StdLib.front src_jump_entry {}).toOption.map (fun vm =>
      (UMap.find vm._tables (lit "main"), vm._instructions.length,
        (vm._instructions.getD 1 {}).code.val)) = some (some 0, 3, OpCode.JMP.val)
    ∧ (CompileString StdLib.front src_jump_entry {}).toOption.map (fun vm =>
      (vm._instructions.getD 1 {}).Args.map (fun t => spec_resolve vm t)) = some [0]
    ∧ (CompileString StdLib.front src_jump_entry {}).toOption.map (fun vm =>
      ((Execute StdLib.front [] false 10 vm (lit "main")).trace,
       (Execute StdLib.front [] false 10 vm (lit "main")).returned)) = some ([0, 1, 2], some 1) := by
  decide!


/-! ## The assembler -/

/-- The pass `ResolveReferences` leaves the compiler as it found it. -/
theorem ResolveReferences_unchanged (c : Compiler) : ResolveReferences c = c := by
  unfold ResolveReferences
  have h : (fun instr : Instruction => ({ instr with Args := instr.Args.map (fun arg =>
      let _copy := ResolveReferences.body c arg
      arg) } : Instruction)) = id := by
    funext instr
    simp
  rw [h]
  simp

/-- C4, the code at the failing input. After `CompileString` on the source of scenario 2 the
label `ok` is bound to instruction 6, yet the second argument of instruction 4
(`jz R3, ok`) is still the plain immediate holding the text `ok` and a zero byte, not the
`int64` 6 that the body of the resolving loop computes for it. -/
theorem bare_identifier_left_unresolved :
    (CompileString StdLib.front src_scenario2 {}).toOption.map (fun vm =>
      (UMap.find vm._tables (lit "ok"), (vm._instructions.getD 4 {}).code.val,
        (vm._instructions.getD 4 {}).Args.getD 1 Value.empty))
      = some (some 6, OpCode.JZ.val, { is_reg := false, is_table := false, data := lit "ok" ++ [0] })
    ∧ (ParseString StdLib.front {} src_scenario2).toOption.map (fun c =>
        ResolveReferences.body c { is_reg := false, is_table := false, data := lit "ok" ++ [0] })
      = some (sample_int 6) := by
  decide!


/-! ## The image: encoding lemmas -/

theorem leBytes_length (w n : Nat) : (leBytes w n).length = w := by
  induction w generalizing n with
  | zero => rfl
  | succ w ih => simp [leBytes, ih]

theorem leNat_leBytes (w n : Nat) : leNat (leBytes w n) = n % 256 ^ w := by
  induction w generalizing n with
  | zero => simp [leBytes, leNat, Nat.mod_one]
  | succ w ih =>
    have h1 : ((Fin.ofNat (n % 256) : Byte) : Nat) = n % 256 := by
      show n % 256 % 256 = n % 256
      exact Nat.mod_mod _ _
    simp only [leBytes, leNat, ih, h1]
    rw [pow_succ', Nat.mod_mul]

theorem leNat_leBytes_of_lt (w n : Nat) (h : n < 256 ^ w) : leNat (leBytes w n) = n := by
  rw [leNat_leBytes, Nat.mod_eq_of_lt h]

theorem toSigned_toBits (x : Int) (h1 : - (2 : Int) ^ 63 ≤ x) (h2 : x < (2 : Int) ^ 63) :
    toSigned 64 (toBits 64 x) = x := by
  unfold toSigned toBits
  split <;> omega

theorem toBits_lt (x : Int) : toBits 64 x < 2 ^ 64 := by
  unfold toBits
  omega

theorem file_read_append (a b : List Byte) (n : Nat) (h : a.length = n) :
    file_read n (a ++ b) = Except.ok (a, b) := by
  subst h
  simp [file_read]

theorem ReadSizedData_WriteSizedData (d rest : List Byte) (h : d.length < 2 ^ 32) :
    ReadSizedData (WriteSizedData d (d.length % 2 ^ 32) ++ rest) = Except.ok (d, rest) := by
  have hm : d.length % 2 ^ 32 = d.length := Nat.mod_eq_of_lt h
  have hl : leNat (leBytes 4 d.length) = d.length :=
    leNat_leBytes_of_lt 4 d.length (by norm_num at h ⊢; omega)
  unfold ReadSizedData WriteSizedData
  rw [hm, List.append_assoc, file_read_append _ _ 4 (leBytes_length 4 _)]
  simp only [bind, Except.bind, hl]
  by_cases h0 : d.length > 0
  · simp only [h0, if_true, List.take_length]
    exact file_read_append d rest d.length rfl
  · have hd : d = [] := List.length_eq_zero.mp (by omega)
    subst hd
    simp [pure, Except.pure]


theorem DeserializeValue_SerializeValue (indet : Bool) (v : Value) (rest : List Byte)
    (h : v.data.length < 2 ^ 32) :
    DeserializeValue indet (SerializeValue v ++ rest)
      = Except.ok ({ v with is_table := indet }, rest) := by
  have hm : v.data.length % 2 ^ 32 = v.data.length := Nat.mod_eq_of_lt h
  have hl : leNat (leBytes 4 v.data.length) = v.data.length :=
    leNat_leBytes_of_lt 4 v.data.length (by norm_num at h ⊢; omega)
  have hflag : (decide ((if v.is_reg = true then (1 : Byte) else 0) ≠ 0)) = v.is_reg := by
    cases v.is_reg <;> decide
  unfold DeserializeValue SerializeValue
  rw [hm]
  simp only [List.singleton_append, List.append_assoc, List.cons_append, List.nil_append]
  rw [file_read_append _ _ 4 (leBytes_length 4 _)]
  simp only [bind, Except.bind, hl]
  rw [file_read_append v.data rest _ rfl]
  simp only [pure, Except.pure, hflag]

theorem SerializeValue_length (v : Value) : (SerializeValue v).length = 5 + v.data.length := by
  simp [SerializeValue, leBytes_length]
  omega

theorem SerializeArgs_length_ge (args : List Value) (a : Value) (h : a ∈ args) :
    a.data.length ≤ (SerializeArgs args).length := by
  induction args with
  | nil => cases h
  | cons b bs ih =>
    simp only [SerializeArgs, List.length_append, SerializeValue_length]
    rcases List.mem_cons.mp h with h1 | h1
    · subst h1; omega
    · have := ih h1; omega

theorem DeserializeArgs_SerializeArgs (indet : Nat → Bool) (args : List Value) (i : Nat)
    (rest : List Byte) (h : ∀ a ∈ args, a.data.length < 2 ^ 32) :
    DeserializeInstruction.args indet args.length i (SerializeArgs args ++ rest)
      = Except.ok (loaded_args indet i args) := by
  induction args generalizing i with
  | nil => rfl
  | cons a as ih =>
    simp only [List.length_cons, DeserializeInstruction.args, SerializeArgs, List.append_assoc]
    rw [DeserializeValue_SerializeValue _ a _ (h a (List.mem_cons_self _ _))]
    simp only [bind, Except.bind]
    rw [ih (i + 1) (fun b hb => h b (List.mem_cons_of_mem _ hb))]
    rfl

theorem DeserializeInstruction_SerializeInstruction (indet : Nat → Bool) (instr : Instruction)
    (hargs : instr.Args.length ≤ 255) (hsize : (SerializeInstruction instr).length < 2 ^ 32) :
    DeserializeInstruction indet (SerializeInstruction instr)
      = Except.ok { instr with Args := loaded_args indet 0 instr.Args } := by
  have hdata : ∀ a ∈ instr.Args, a.data.length < 2 ^ 32 := by
    intro a ha
    have h1 := SerializeArgs_length_ge instr.Args a ha
    have h2 : (SerializeInstruction instr).length = 2 + (SerializeArgs instr.Args).length := by
      simp [SerializeInstruction]
      omega
    omega
  have hn : ((Fin.ofNat (instr.Args.length % 256) : Byte) : Nat) = instr.Args.length := by
    show instr.Args.length % 256 % 256 = instr.Args.length
    omega
  unfold DeserializeInstruction SerializeInstruction
  simp only [List.singleton_append, List.cons_append, List.nil_append, hn]
  have := DeserializeArgs_SerializeArgs indet instr.Args 0 [] hdata
  rw [List.append_nil] at this
  rw [this]
  rfl

theorem LoadInstructions_SaveInstructions (indet : Nat → Nat → Bool)
    (instructions : List Instruction) (i : Nat)
    (h : ∀ x ∈ instructions, x.Args.length ≤ 255 ∧ (SerializeInstruction x).length < 2 ^ 32) :
    LoadInstructions indet instructions.length i (SaveInstructions instructions)
      = Except.ok (loaded_instructions indet i instructions) := by
  induction instructions generalizing i with
  | nil => rfl
  | cons x xs ih =>
    obtain ⟨h1, h2⟩ := h x (List.mem_cons_self _ _)
    simp only [List.length_cons, LoadInstructions, SaveInstructions]
    rw [ReadSizedData_WriteSizedData _ _ h2]
    simp only [bind, Except.bind]
    rw [DeserializeInstruction_SerializeInstruction _ x h1 h2]
    simp only []
    rw [ih (i + 1) (fun y hy => h y (List.mem_cons_of_mem _ hy))]
    rfl

theorem loaded_args_stored (indet : Nat → Bool) (i : Nat) (args : List Value) :
    (loaded_args indet i args).map Value.stored = args.map Value.stored := by
  induction args generalizing i with
  | nil => rfl
  | cons a as ih => simp [loaded_args, ih, Value.stored]

theorem loaded_instructions_stored (indet : Nat → Nat → Bool) (i : Nat)
    (instructions : List Instruction) :
    (loaded_instructions indet i instructions).map Instruction.stored
      = instructions.map Instruction.stored := by
  induction instructions generalizing i with
  | nil => rfl
  | cons a as ih => simp [loaded_instructions, ih, Instruction.stored, loaded_args_stored]

theorem SerializeArgs_stored (a b : List Value) (h : a.map Value.stored = b.map Value.stored) :
    SerializeArgs a = SerializeArgs b := by
  induction a generalizing b with
  | nil =>
    cases b with
    | nil => rfl
    | cons y ys => simp at h
  | cons x xs ih =>
    cases b with
    | nil => simp at h
    | cons y ys =>
      simp only [List.map_cons, List.cons.injEq, Value.stored, Prod.mk.injEq] at h
      obtain ⟨⟨h1, h2⟩, h3⟩ := h
      simp only [SerializeArgs, SerializeValue, h1, h2, ih ys h3]

theorem SaveInstructions_stored (a b : List Instruction)
    (h : a.map Instruction.stored = b.map Instruction.stored) :
    SaveInstructions a = SaveInstructions b := by
  induction a generalizing b with
  | nil =>
    cases b with
    | nil => rfl
    | cons y ys => simp at h
  | cons x xs ih =>
    cases b with
    | nil => simp at h
    | cons y ys =>
      simp only [List.map_cons, List.cons.injEq, Instruction.stored, Prod.mk.injEq] at h
      obtain ⟨⟨h1, h2⟩, h3⟩ := h
      have hlen : x.Args.length = y.Args.length := by
        have := congrArg List.length h2
        simpa using this
      have hs : SerializeInstruction x = SerializeInstruction y := by
        simp only [SerializeInstruction, h1, hlen, SerializeArgs_stored _ _ h2]
      simp only [SaveInstructions, hs, ih ys h3]


/-! ## Lemmas on `std::unordered_map` -/

theorem UMap.contains_iff {κ ν : Type} [DecidableEq κ] (m : UMap κ ν) (k : κ) :
    UMap.contains m k = true ↔ k ∈ UMap.keys m := by
  induction m with
  | nil => simp [UMap.contains, UMap.find, UMap.keys]
  | cons e m ih =>
    obtain ⟨k1, v1⟩ := e
    by_cases h : k1 = k
    · simp [UMap.contains, UMap.find, UMap.keys, h]
    · have ih1 : (UMap.find m k).isSome = true ↔ k ∈ List.map Prod.fst m := ih
      have h2 : ¬ k = k1 := fun h3 => h h3.symm
      simp [UMap.contains, UMap.find, UMap.keys, h, h2, ih1]

theorem UMap.keys_link {κ ν : Type} (L : StdLib) (e : κ × ν) (m : UMap κ ν) :
    List.Perm (UMap.keys (L.link e m)) (e.1 :: UMap.keys m) := by
  have := (L.link_perm e m).map Prod.fst
  simpa [UMap.keys] using this

theorem UMap.keys_replace {κ ν : Type} [DecidableEq κ] (m : UMap κ ν) (k : κ) (v : ν) :
    UMap.keys (UMap.replace m k v) = UMap.keys m := by
  induction m with
  | nil => rfl
  | cons e m ih =>
    obtain ⟨k1, v1⟩ := e
    by_cases h : k1 = k
    · simp [UMap.replace, UMap.keys, h]
    · have ih1 : List.map Prod.fst (UMap.replace m k v) = List.map Prod.fst m := ih
      simp [UMap.replace, UMap.keys, h, ih1]

theorem UMap.mem_keys_assign {κ ν : Type} [DecidableEq κ] (L : StdLib) (m : UMap κ ν)
    (k0 : κ) (v : ν) (k : κ) :
    k ∈ UMap.keys (UMap.assign L m k0 v) ↔ k = k0 ∨ k ∈ UMap.keys m := by
  unfold UMap.assign
  by_cases h : UMap.contains m k0 = true
  · have hk := (UMap.contains_iff m k0).mp h
    simp only [h, if_true, UMap.keys_replace]
    constructor
    · exact Or.inr
    · rintro (h1 | h1)
      · subst h1; exact hk
      · exact h1
  · have hf : UMap.contains m k0 = false := by simpa using h
    simp only [hf]
    rw [if_neg (by decide), (UMap.keys_link L (k0, v) m).mem_iff]
    simp

theorem UMap.find_perm {κ ν : Type} [DecidableEq κ] (a b : UMap κ ν) (h : List.Perm a b)
    (hn : (UMap.keys a).Nodup) (k : κ) : UMap.find a k = UMap.find b k := by
  induction h with
  | nil => rfl
  | cons x _ ih =>
    obtain ⟨k1, v1⟩ := x
    simp only [UMap.keys, List.map_cons, List.nodup_cons] at hn
    simp only [UMap.find]
    rw [ih hn.2]
  | swap x y l =>
    obtain ⟨k1, v1⟩ := x
    obtain ⟨k2, v2⟩ := y
    simp only [UMap.keys, List.map_cons, List.nodup_cons, List.mem_cons, not_or] at hn
    simp only [UMap.find]
    by_cases h1 : k1 = k
    · by_cases h2 : k2 = k
      · exact absurd (h2.trans h1.symm) hn.1.1
      · simp [h1, h2]
    · simp [h1]
  | trans h1 _ ih1 ih2 =>
    have hn2 := (List.Perm.nodup_iff (h1.map Prod.fst)).mp hn
    rw [ih1 hn, ih2 hn2]

/-! ## The image: the tables section -/

theorem cstr_append_zero (key : Str) (h : (0 : Byte) ∉ key) : Value.cstr (key ++ [0]) = key := by
  induction key with
  | nil => simp [Value.cstr]
  | cons c cs ih =>
    have hc : c ≠ 0 := fun h0 => h (by simp [h0])
    have hcs : (0 : Byte) ∉ cs := fun h0 => h (List.mem_cons_of_mem _ h0)
    have ih1 := ih hcs
    simp only [Value.cstr] at ih1 ⊢
    simp only [List.cons_append, List.takeWhile, hc, ne_eq, not_false_eq_true, decide_True]
    exact congrArg (List.cons c) ih1

theorem string_of_buffer_append_zero (key : Str) (h : (0 : Byte) ∉ key) :
    string_of_buffer (key ++ [0]) = Except.ok key := by
  unfold string_of_buffer
  simp [cstr_append_zero key h]

theorem DeserializeTables_SerializeTables (L : StdLib) (t acc : UMap Str Int) (rest : List Byte)
    (h : ∀ e ∈ t, (0 : Byte) ∉ e.1 ∧ e.1.length + 1 < 2 ^ 32
      ∧ - (2 : Int) ^ 63 ≤ e.2 ∧ e.2 < (2 : Int) ^ 63) :
    DeserializeTables.loop L t.length acc (SerializeTables t ++ rest)
      = Except.ok (loaded_tables L acc t, rest) := by
  induction t generalizing acc with
  | nil => rfl
  | cons e t ih =>
    obtain ⟨key, value⟩ := e
    obtain ⟨h1, h2, h3, h4⟩ := h (key, value) (List.mem_cons_self _ _)
    have hlen : (key ++ [(0 : Byte)]).length = key.length + 1 := by simp
    have hw : WriteSizedData (key ++ [0]) ((key.length + 1) % 2 ^ 32)
        = WriteSizedData (key ++ [0]) ((key ++ [(0 : Byte)]).length % 2 ^ 32) := by rw [hlen]
    have hv : toSigned 64 (leNat (leBytes 8 (toBits 64 value))) = value := by
      rw [leNat_leBytes_of_lt 8 _ (by have := toBits_lt value; norm_num at this ⊢; omega)]
      exact toSigned_toBits value h3 h4
    simp only [List.length_cons, DeserializeTables.loop, SerializeTables, List.append_assoc]
    rw [hw, ReadSizedData_WriteSizedData _ _ (by rw [hlen]; exact h2)]
    simp only [bind, Except.bind]
    rw [string_of_buffer_append_zero key h1]
    simp only []
    rw [file_read_append _ _ 8 (leBytes_length 8 _)]
    simp only [hv]
    rw [ih _ (fun x hx => h x (List.mem_cons_of_mem _ hx))]
    rfl

theorem loaded_tables_perm (L : StdLib) (t acc : UMap Str Int)
    (h : (UMap.keys acc ++ UMap.keys t).Nodup) :
    List.Perm (loaded_tables L acc t) (acc ++ t) := by
  induction t generalizing acc with
  | nil => simp [loaded_tables]
  | cons e t ih =>
    obtain ⟨key, value⟩ := e
    have hk : key ∉ UMap.keys acc := by
      intro hmem
      have := List.disjoint_of_nodup_append h
      exact this hmem (by simp [UMap.keys])
    have hc : UMap.contains acc key = false := by
      cases hx : UMap.contains acc key
      · rfl
      · exact absurd ((UMap.contains_iff acc key).mp hx) hk
    have he : UMap.emplace L acc key value = L.link (key, value) acc := by
      simp [UMap.emplace, hc]
    have hp : List.Perm (L.link (key, value) acc) ((key, value) :: acc) := L.link_perm _ _
    have hn : (UMap.keys (L.link (key, value) acc) ++ UMap.keys t).Nodup := by
      have h1 : List.Perm (UMap.keys (L.link (key, value) acc) ++ UMap.keys t)
          (UMap.keys acc ++ UMap.keys ((key, value) :: t)) := by
        have := (UMap.keys_link L (key, value) acc).append_right (UMap.keys t)
        refine this.trans ?_
        simp only [UMap.keys, List.map_cons, List.cons_append]
        exact List.perm_middle.symm
      exact (List.Perm.nodup_iff h1).mpr h
    simp only [loaded_tables, he]
    refine (ih _ hn).trans ?_
    refine (hp.append_right t).trans ?_
    simp only [List.cons_append]
    exact List.perm_middle.symm

theorem loaded_tables_of_link_back (L : StdLib) (hL : ∀ (e : Str × Int) l, L.link e l = l ++ [e])
    (t acc : UMap Str Int) (h : (UMap.keys acc ++ UMap.keys t).Nodup) :
    loaded_tables L acc t = acc ++ t := by
  induction t generalizing acc with
  | nil => simp [loaded_tables]
  | cons e t ih =>
    obtain ⟨key, value⟩ := e
    have hk : key ∉ UMap.keys acc := by
      intro hmem
      have := List.disjoint_of_nodup_append h
      exact this hmem (by simp [UMap.keys])
    have hc : UMap.contains acc key = false := by
      cases hx : UMap.contains acc key
      · rfl
      · exact absurd ((UMap.contains_iff acc key).mp hx) hk
    have he : UMap.emplace L acc key value = acc ++ [(key, value)] := by
      simp [UMap.emplace, hc, hL]
    have hn : (UMap.keys (acc ++ [(key, value)]) ++ UMap.keys t).Nodup := by
      simpa [UMap.keys] using h
    simp only [loaded_tables, he]
    rw [ih _ hn]
    simp


/-! ## The image: round trip -/

theorem LoadFromFile_SaveToFile (L : StdLib) (indet : Nat → Nat → Bool) (vm0 : VirtualMachine)
    (instructions : List Instruction) (tables : UMap Str Int)
    (h : FitsImage instructions tables) :
    LoadFromFile L indet vm0 (SaveToFile instructions tables)
      = Except.ok (true, { vm0 with _tables := loaded_tables L [] tables,
                                    _instructions := loaded_instructions indet 0 instructions }) := by
  obtain ⟨_, ht, htl, hil, hi⟩ := h
  have h1 : leNat (leBytes 4 (tables.length % 2 ^ 32)) = tables.length := by
    rw [Nat.mod_eq_of_lt htl]
    exact leNat_leBytes_of_lt 4 _ (by norm_num at htl ⊢; omega)
  have h2 : leNat (leBytes 4 (instructions.length % 2 ^ 32)) = instructions.length := by
    rw [Nat.mod_eq_of_lt hil]
    exact leNat_leBytes_of_lt 4 _ (by norm_num at hil ⊢; omega)
  unfold LoadFromFile SaveToFile
  simp only [List.append_assoc]
  rw [file_read_append header _ 4 rfl]
  simp only [bind, Except.bind, ne_eq, not_true_eq_false, if_false]
  rw [file_read_append _ _ 4 (leBytes_length 4 _)]
  simp only [h1, DeserializeTables]
  rw [DeserializeTables_SerializeTables L tables [] _ ht]
  simp only []
  rw [file_read_append _ _ 4 (leBytes_length 4 _)]
  simp only [h2]
  rw [LoadInstructions_SaveInstructions indet instructions 0 hi]
  rfl

/-- C1, amended. For every program that the image format can hold (each instruction at
most 255 arguments, no zero byte in a table name, table values in the `int64` range, all
counts and lengths below `2^32`), `LoadFromFile` on the image written by `SaveToFile`
returns true and yields the same instruction sequence (same opcodes, same arguments in
order with the same `is_reg` flag and data bytes) and the same tables map (the same
name/index pairs, so every lookup gives the same result). -/
theorem load_of_saved_image_restores_program (L : StdLib) (indet : Nat → Nat → Bool)
    (vm0 : VirtualMachine) (instructions : List Instruction) (tables : UMap Str Int)
    (h : FitsImage instructions tables) :
    ∃ vm1, LoadFromFile L indet vm0 (SaveToFile instructions tables) = Except.ok (true, vm1)
      ∧ vm1._instructions.map Instruction.stored = instructions.map Instruction.stored
      ∧ List.Perm vm1._tables tables
      ∧ ∀ name, UMap.find vm1._tables name = UMap.find tables name := by
  have hp : List.Perm (loaded_tables L [] tables) tables := by
    have := loaded_tables_perm L tables [] (by simpa [UMap.keys] using h.1)
    simpa using this
  refine ⟨_, LoadFromFile_SaveToFile L indet vm0 instructions tables h,
    loaded_instructions_stored indet 0 instructions, hp, fun name => ?_⟩
  exact (UMap.find_perm _ _ hp.symm h.1 name).symm

/-- C3, amended. For every program that the image format can hold, saving, loading and
saving again writes the image of the same program with its table entries in the iteration
order of the reloaded map, which holds the same entries: the two images differ at most in
the order of the table entries. They are byte-for-byte equal when there is at most one
table entry, and when the reloaded map iterates in the order of insertion. -/
theorem resaved_image_differs_only_in_table_order (L : StdLib) (indet : Nat → Nat → Bool)
    (vm0 : VirtualMachine) (instructions : List Instruction) (tables : UMap Str Int)
    (h : FitsImage instructions tables) :
    ∃ vm1, LoadFromFile L indet vm0 (SaveToFile instructions tables) = Except.ok (true, vm1)
      ∧ List.Perm vm1._tables tables
      ∧ SaveToFile vm1._instructions vm1._tables = SaveToFile instructions vm1._tables
      ∧ (tables.length ≤ 1 →
          SaveToFile vm1._instructions vm1._tables = SaveToFile instructions tables)
      ∧ ((∀ (e : Str × Int) l, L.link e l = l ++ [e]) →
          SaveToFile vm1._instructions vm1._tables = SaveToFile instructions tables) := by
  have hp : List.Perm (loaded_tables L [] tables) tables := by
    have := loaded_tables_perm L tables [] (by simpa [UMap.keys] using h.1)
    simpa using this
  have hs : SaveInstructions (loaded_instructions indet 0 instructions)
      = SaveInstructions instructions :=
    SaveInstructions_stored _ _ (loaded_instructions_stored indet 0 instructions)
  have hl : (loaded_instructions indet 0 instructions).length = instructions.length := by
    have := congrArg List.length (loaded_instructions_stored indet 0 instructions)
    simpa using this
  have h3 : SaveToFile (loaded_instructions indet 0 instructions) (loaded_tables L [] tables)
      = SaveToFile instructions (loaded_tables L [] tables) := by
    simp only [SaveToFile, hs, hl]
  refine ⟨_, LoadFromFile_SaveToFile L indet vm0 instructions tables h, hp, h3, ?_, ?_⟩
  · intro h1
    show SaveToFile (loaded_instructions indet 0 instructions) (loaded_tables L [] tables) = _
    rw [h3]
    have : loaded_tables L [] tables = tables := by
      match tables, h1, hp with
      | [], _, hp => exact List.Perm.eq_nil hp
      | [e], _, hp => exact List.perm_singleton.mp hp
      | _ :: _ :: _, h1, _ => simp at h1
    rw [this]
  · intro hL
    show SaveToFile (loaded_instructions indet 0 instructions) (loaded_tables L [] tables) = _
    rw [h3, loaded_tables_of_link_back L hL tables [] (by simpa [UMap.keys] using h.1)]
    simp


theorem sample_fits_image : FitsImage sample_program sample_tables := by
  unfold FitsImage
  decide!

/-- Witness for C1 (amended): the sample program. -/
theorem load_of_saved_image_restores_program_witness :
    FitsImage sample_program sample_tables ∧
    ∃ vm1, LoadFromFile StdLib.front (fun _ _ => true) {} (SaveToFile sample_program sample_tables)
        = Except.ok (true, vm1)
      ∧ vm1._instructions.map Instruction.stored = sample_program.map Instruction.stored
      ∧ List.Perm vm1._tables sample_tables
      ∧ ∀ name, UMap.find vm1._tables name = UMap.find sample_tables name :=
  ⟨sample_fits_image,
    load_of_saved_image_restores_program StdLib.front (fun _ _ => true) {} sample_program
      sample_tables sample_fits_image⟩

/-- C1, counterexample. The source `sys 7 7 … 7` with 256 operands assembles to one
instruction with 256 arguments; loading its saved image returns true and yields an
instruction with no argument. The source `a<NUL>:` assembles to a tables map with the key
`a<NUL>`; loading its saved image yields the key `a`. -/
theorem load_of_saved_image_can_differ :
    (save_load_save StdLib.back src_many_operands).map (fun r =>
      (r.1._instructions.map (fun i => i.Args.length),
       r.2.2.1._instructions.map (fun i => i.Args.length),
       decide (r.2.2.1._instructions.map Instruction.stored
          = r.1._instructions.map Instruction.stored)))
      = some ([256], [0], false)
    ∧ (save_load_save StdLib.back src_nul_label).map (fun r =>
      (UMap.keys r.1._tables, UMap.keys r.2.2.1._tables)) = some ([[97, 0]], [[97]]) := by
  decide!

/-- Witness for C3 (amended): the sample program. -/
theorem resaved_image_differs_only_in_table_order_witness :
    FitsImage sample_program sample_tables ∧
    ∃ vm1, LoadFromFile StdLib.front (fun _ _ => true) {} (SaveToFile sample_program sample_tables)
        = Except.ok (true, vm1)
      ∧ List.Perm vm1._tables sample_tables
      ∧ SaveToFile vm1._instructions vm1._tables = SaveToFile sample_program vm1._tables
      ∧ (sample_tables.length ≤ 1 →
          SaveToFile vm1._instructions vm1._tables = SaveToFile sample_program sample_tables)
      ∧ ((∀ (e : Str × Int) l, StdLib.front.link e l = l ++ [e]) →
          SaveToFile vm1._instructions vm1._tables = SaveToFile sample_program sample_tables) :=
  ⟨sample_fits_image,
    resaved_image_differs_only_in_table_order StdLib.front (fun _ _ => true) {} sample_program
      sample_tables sample_fits_image⟩

/-- C3, counterexample. With a library that links a new map node at the head of the
iteration sequence, the program assembled from the source of scenario 2 (labels `main`
and `ok`) is saved with `main` first, reloaded, and saved again with `ok` first: the two
images differ. With any library, the second image of the 256-operand program differs from
the first. -/
theorem resaved_image_can_differ :
    (save_load_save StdLib.front src_scenario2).map (fun r =>
      (UMap.keys r.1._tables, UMap.keys r.2.2.1._tables, decide (r.2.2.2 = r.2.1)))
      = some ([lit "main", lit "ok"], [lit "ok", lit "main"], false)
    ∧ (save_load_save StdLib.back src_many_operands).map (fun r =>
      decide (r.2.2.2 = r.2.1)) = some false := by
  decide!


/-! ## The tables map of an assembled program -/

theorem ProcessLine_keys (L : StdLib) (c c1 : Compiler) (line : Str) (file_idx : Nat)
    (line_num : Int) (icb icb1 : Bool)
    (h : ProcessLine L c line file_idx line_num icb = Except.ok (c1, icb1)) :
    icb1 = (ProcessLine.strip line icb).2 ∧
    ∀ k, (k ∈ UMap.keys c1._tables ∨ k ∈ UMap.keys c1._labels) ↔
      (k ∈ UMap.keys c._tables ∨ k ∈ UMap.keys c._labels
        ∨ k ∈ (declared_in_line line icb).map ToLower) := by
  unfold ProcessLine at h
  unfold declared_in_line
  rcases hs : ProcessLine.strip line icb with ⟨o, b⟩
  rw [hs] at h
  cases o with
  | none =>
    simp only [Except.ok.injEq, Prod.mk.injEq] at h
    obtain ⟨h1, h2⟩ := h
    subst h1 h2
    simp
  | some text =>
    simp only [] at h
    by_cases ht : startsWith (lit "#table") text = true
    · simp only [ht, if_true] at h ⊢
      split at h
      · rename_i token htok
        simp only [Except.ok.injEq, Prod.mk.injEq] at h
        obtain ⟨h1, h2⟩ := h
        subst h1 h2
        refine ⟨rfl, fun k => ?_⟩
        simp only [htok, List.map_cons, List.map_nil, List.mem_singleton,
          UMap.mem_keys_assign]
        tauto
      · cases h
    · have ht1 : startsWith (lit "#table") text = false := by simpa using ht
      simp only [ht1, Bool.false_eq_true, if_false] at h ⊢
      by_cases hl : text.getLast? = some 58
      · simp only [hl, if_true] at h ⊢
        simp only [Except.ok.injEq, Prod.mk.injEq] at h
        obtain ⟨h1, h2⟩ := h
        subst h1 h2
        refine ⟨rfl, fun k => ?_⟩
        simp only [List.map_cons, List.map_nil, List.mem_singleton, UMap.mem_keys_assign]
        tauto
      · simp only [hl, if_false] at h ⊢
        split at h
        · simp only [Except.ok.injEq, Prod.mk.injEq] at h
          obtain ⟨h1, h2⟩ := h
          subst h1 h2
          simp
        · cases h
        · rename_i f _ hf
          cases h

theorem ParseLines_keys (L : StdLib) (file_idx : Nat) (lines : List Str) (c c1 : Compiler)
    (line_num : Int) (icb : Bool)
    (h : ParseLines L file_idx lines c line_num icb = Except.ok c1) :
    ∀ k, (k ∈ UMap.keys c1._tables ∨ k ∈ UMap.keys c1._labels) ↔
      (k ∈ UMap.keys c._tables ∨ k ∈ UMap.keys c._labels
        ∨ k ∈ (declared_names.go lines icb).map ToLower) := by
  induction lines generalizing c line_num icb with
  | nil =>
    simp only [ParseLines, Except.ok.injEq] at h
    subst h
    simp [declared_names.go]
  | cons line lines ih =>
    simp only [ParseLines, bind, Except.bind] at h
    split at h
    · cases h
    · rename_i r hr
      obtain ⟨c2, icb2⟩ := r
      obtain ⟨hi, hk⟩ := ProcessLine_keys L c c2 line file_idx _ icb icb2 hr
      have := ih c2 _ icb2 h
      intro k
      rw [this k, declared_names.go, List.map_append, List.mem_append, ← hi]
      have hk1 := hk k
      tauto

theorem GenerateTables_keys (L : StdLib) (labels : UMap Str LabelInfo) (tables : UMap Str Int)
    (k : Str) :
    k ∈ UMap.keys (GenerateTables.go L labels tables) ↔
      (k ∈ UMap.keys tables ∨ k ∈ UMap.keys labels) := by
  induction labels generalizing tables with
  | nil => simp [GenerateTables.go, UMap.keys]
  | cons e labels ih =>
    obtain ⟨label, info⟩ := e
    simp only [GenerateTables.go]
    rw [ih, UMap.mem_keys_assign]
    simp only [UMap.keys, List.map_cons, List.mem_cons]
    tauto

/-- The keys of the tables map, for the lines as `ProcessLine` reads them. For every source
that `CompileString` assembles without error, the keys of the resulting tables map are
exactly the lower-cased names of the label and `#table` lines that `ProcessLine` reads:
each of them is a key and there is no other key. A label that `ProcessLine` skips inside
what it takes for a block comment is not among them. -/
theorem tables_keys_are_declared_names (L : StdLib) (source : Str) (vm0 vm : VirtualMachine)
    (h : CompileString L source vm0 = Except.ok vm) :
    ∀ name, name ∈ UMap.keys vm._tables ↔ name ∈ (declared_names source).map ToLower := by
  unfold CompileString at h
  simp only [bind, Except.bind] at h
  split at h
  · cases h
  · rename_i c1 hc
    simp only [pure, Except.pure, Except.ok.injEq] at h
    subst h
    intro name
    have := ParseLines_keys L _ _ _ c1 _ _ hc name
    simp only [ResolveReferences_unchanged, GenerateTables]
    rw [GenerateTables_keys, this]
    simp [UMap.keys, declared_names]


/-- An instance: a source with a directive `#table Start` and the labels `Main:` and
`END:`; the keys are `main`, `end` and `start`. -/
theorem tables_keys_are_declared_names_witness :
    CompileString StdLib.front src_declarations {} = Except.ok vm_declarations ∧
    ∀ name, name ∈ UMap.keys vm_declarations._tables ↔
      name ∈ (declared_names src_declarations).map ToLower :=
  ⟨by rfl, tables_keys_are_declared_names StdLib.front src_declarations {} vm_declarations (by rfl)⟩


/-! ## Decimal text -/

theorem decDigits_append (fuel n : Nat) (acc : Str) (h : n < fuel) :
    decDigits fuel n acc = decDigits fuel n [] ++ acc := by
  induction fuel generalizing n acc with
  | zero => omega
  | succ fuel ih =>
    simp only [decDigits]
    by_cases h0 : n / 10 = 0
    · simp [h0]
    · simp only [h0, if_false]
      have hlt : n / 10 < fuel := by omega
      rw [ih (n / 10) _ hlt, ih (n / 10) [_] hlt]
      simp

theorem decDigits_fuel (f1 f2 n : Nat) (h1 : n < f1) (h2 : n < f2) :
    decDigits f1 n [] = decDigits f2 n [] := by
  induction f1 generalizing n f2 with
  | zero => omega
  | succ f1 ih =>
    cases f2 with
    | zero => omega
    | succ f2 =>
      simp only [decDigits]
      by_cases h0 : n / 10 = 0
      · simp [h0]
      · simp only [h0, if_false]
        have hlt1 : n / 10 < f1 := by omega
        have hlt2 : n / 10 < f2 := by omega
        rw [decDigits_append f1 _ _ hlt1, decDigits_append f2 _ _ hlt2, ih _ _ hlt1 hlt2]

theorem natToString_lt_ten (n : Nat) (h : n < 10) :
    natToString n = [Fin.ofNat (48 + n)] := by
  have h0 : n / 10 = 0 := by omega
  have h1 : n % 10 = n := by omega
  simp [natToString, decDigits, h0, h1]

theorem natToString_ge_ten (n : Nat) (h : 10 ≤ n) :
    natToString n = natToString (n / 10) ++ [Fin.ofNat (48 + n % 10)] := by
  have h0 : ¬ n / 10 = 0 := by omega
  have e1 : natToString n = decDigits n (n / 10) [Fin.ofNat (48 + n % 10)] := by
    simp [natToString, decDigits, h0]
  rw [e1, decDigits_append n _ _ (by omega), decDigits_fuel n (n / 10 + 1) _ (by omega) (by omega)]
  rfl

theorem decValue_append (s : Str) (c : Byte) :
    decValue (s ++ [c]) = 10 * decValue s + (c.val - 48) := by
  simp [decValue, List.foldl_append]

theorem digit_val (d : Nat) (h : d < 10) : ((Fin.ofNat (48 + d) : Byte) : Nat) = 48 + d := by
  show (48 + d) % 256 = 48 + d
  omega

theorem decValue_natToString (n : Nat) : decValue (natToString n) = n := by
  induction n using Nat.strong_induction_on with
  | _ n ih =>
    by_cases h : n < 10
    · rw [natToString_lt_ten n h]
      simp [decValue, digit_val n h]
    · rw [natToString_ge_ten n (by omega), decValue_append, ih (n / 10) (by omega),
        digit_val _ (Nat.mod_lt _ (by decide))]
      omega

theorem natToString_digits (n : Nat) : ∀ c ∈ natToString n, isdigit c = true := by
  induction n using Nat.strong_induction_on with
  | _ n ih =>
    by_cases h : n < 10
    · rw [natToString_lt_ten n h]
      intro c hc
      simp only [List.mem_singleton] at hc
      subst hc
      simp [isdigit, digit_val n h]
      omega
    · rw [natToString_ge_ten n (by omega)]
      intro c hc
      rcases List.mem_append.mp hc with h1 | h1
      · exact ih (n / 10) (by omega) c h1
      · simp only [List.mem_singleton] at h1
        subst h1
        have := Nat.mod_lt n (show 10 > 0 by decide)
        simp [isdigit, digit_val _ this]
        omega

theorem natToString_ne_nil (n : Nat) : natToString n ≠ [] := by
  by_cases h : n < 10
  · rw [natToString_lt_ten n h]; simp
  · rw [natToString_ge_ten n (by omega)]; simp

/-! ## Tokens of a canonical line -/

theorem tok_plain (w rest : Str) (tokens : List Str) (token : Str)
    (h : ∀ c ∈ w, tok_char c = true) :
    Tokenize.go (w ++ rest) tokens token false false
      = Tokenize.go rest tokens (token ++ w) false false := by
  induction w generalizing token with
  | nil => simp
  | cons c w ih =>
    have hc := h c (List.mem_cons_self _ _)
    simp only [tok_char, Bool.and_eq_true, Bool.not_eq_true', decide_eq_true_eq] at hc
    obtain ⟨⟨⟨h1, h2⟩, h3⟩, h4⟩ := hc
    rw [List.cons_append]
    simp only [Tokenize.go, Bool.false_eq_true, if_false, h1, h2, h3, h4,
      Bool.or_self, decide_False]
    rw [ih _ (fun x hx => h x (List.mem_cons_of_mem _ hx))]
    simp

theorem tok_space (rest : Str) (tokens : List Str) (token : Str) :
    Tokenize.go (32 :: rest) tokens token false false
      = Tokenize.go rest (flush tokens token) [] false false := by
  simp only [Tokenize.go, Bool.false_eq_true, if_false, flush]
  rfl

theorem tok_comma (rest : Str) (tokens : List Str) (token : Str) :
    Tokenize.go (44 :: rest) tokens token false false
      = Tokenize.go rest (flush tokens token ++ [[44]]) [] false false := by
  simp only [Tokenize.go, Bool.false_eq_true, if_false, flush]
  rfl

theorem tok_end (tokens : List Str) (token : Str) (a b : Bool) :
    Tokenize.go [] tokens token a b = flush tokens token := by
  simp [Tokenize.go, flush]

theorem tok_string_body (s rest : Str) (tokens : List Str) (token : Str) (ia : Bool)
    (h : (34 : Byte) ∉ s) :
    Tokenize.go (s ++ 34 :: rest) tokens token true ia
      = Tokenize.go rest (tokens ++ [token ++ s ++ [34]]) [] false ia := by
  induction s generalizing token with
  | nil => simp [Tokenize.go]
  | cons c s ih =>
    have hc : c ≠ 34 := fun h0 => h (by simp [h0])
    rw [List.cons_append]
    simp only [Tokenize.go, if_true, hc, if_false]
    rw [ih _ (fun h0 => h (List.mem_cons_of_mem _ h0))]
    simp

theorem tok_string (s rest : Str) (tokens : List Str) (h : (34 : Byte) ∉ s) :
    Tokenize.go (([34] ++ s ++ [34]) ++ rest) tokens [] false false
      = Tokenize.go rest (tokens ++ [[34] ++ s ++ [34]]) [] false false := by
  have e : ([34] ++ s ++ [34]) ++ rest = 34 :: (s ++ 34 :: rest) := by simp
  rw [e]
  have : Tokenize.go (34 :: (s ++ 34 :: rest)) tokens [] false false
      = Tokenize.go (s ++ 34 :: rest) tokens [34] true false := by
    have hs : isspace (34 : Byte) = false := by decide
    simp [Tokenize.go, hs]
  rw [this, tok_string_body s rest tokens [34] false h]

theorem tok_array_body (s rest : Str) (tokens : List Str) (token : Str)
    (h : (93 : Byte) ∉ s) :
    Tokenize.go (s ++ 93 :: rest) tokens token false true
      = Tokenize.go rest (tokens ++ [token ++ s ++ [93]]) [] false false := by
  induction s generalizing token with
  | nil => simp [Tokenize.go]
  | cons c s ih =>
    have hc : c ≠ 93 := fun h0 => h (by simp [h0])
    rw [List.cons_append]
    simp only [Tokenize.go, Bool.false_eq_true, if_false, if_true, hc]
    rw [ih _ (fun h0 => h (List.mem_cons_of_mem _ h0))]
    simp

theorem tok_array (s rest : Str) (tokens : List Str) (h : (93 : Byte) ∉ s) :
    Tokenize.go (([91] ++ s ++ [93]) ++ rest) tokens [] false false
      = Tokenize.go rest (tokens ++ [[91] ++ s ++ [93]]) [] false false := by
  have e : ([91] ++ s ++ [93]) ++ rest = 91 :: (s ++ 93 :: rest) := by simp
  rw [e]
  have : Tokenize.go (91 :: (s ++ 93 :: rest)) tokens [] false false
      = Tokenize.go (s ++ 93 :: rest) tokens [91] false true := by
    have hs : isspace (91 : Byte) = false := by decide
    simp [Tokenize.go, hs]
  rw [this, tok_array_body s rest tokens [91] h]

/-! ## The characters of canonical operands -/

theorem isdigit_range (c : Byte) (h : isdigit c = true) : 48 ≤ c.val ∧ c.val ≤ 57 := by
  simpa [isdigit] using h

theorem intToString_cases (k : Int) :
    (k < 0 ∧ intToString k = (45 : Byte) :: natToString k.natAbs)
    ∨ (0 ≤ k ∧ intToString k = natToString k.toNat) := by
  unfold intToString
  by_cases h : k < 0
  · left; simp [h]
  · right; simp [h]; omega

/-- A character of a register, integer or hexadecimal literal. -/
theorem intToString_chars (k : Int) :
    ∀ c ∈ intToString k, c = 45 ∨ isdigit c = true := by
  rcases intToString_cases k with ⟨_, h⟩ | ⟨_, h⟩
  · rw [h]
    intro c hc
    rcases List.mem_cons.mp hc with h1 | h1
    · exact Or.inl h1
    · exact Or.inr (natToString_digits _ c h1)
  · rw [h]
    intro c hc
    exact Or.inr (natToString_digits _ c hc)

theorem intToString_ne_nil (k : Int) : intToString k ≠ [] := by
  rcases intToString_cases k with ⟨_, h⟩ | ⟨_, h⟩
  · rw [h]; simp
  · rw [h]; exact natToString_ne_nil _

theorem digit_char_facts (c : Byte) (h : c = 45 ∨ isdigit c = true) :
    tok_char c = true ∧ clean_char c = true ∧ isspace c = false ∧ c ≠ 58 ∧ c ≠ 44 := by
  rcases h with h | h
  · subst h; decide
  · have := isdigit_range c h
    have e10 : c ≠ 10 := by intro hc; rw [hc] at this; revert this; decide
    have e47 : c ≠ 47 := by intro hc; rw [hc] at this; revert this; decide
    have e58 : c ≠ 58 := by intro hc; rw [hc] at this; revert this; decide
    have e44 : c ≠ 44 := by intro hc; rw [hc] at this; revert this; decide
    have e34 : c ≠ 34 := by intro hc; rw [hc] at this; revert this; decide
    have e91 : c ≠ 91 := by intro hc; rw [hc] at this; revert this; decide
    have esp : isspace c = false := by
      simp only [isspace, Bool.or_eq_false_iff, decide_eq_false_iff_not, Bool.and_eq_false_iff]
      omega
    refine ⟨?_, ?_, esp, e58, e44⟩
    · simp [tok_char, esp, e44, e34, e91]
    · simp [clean_char, e10, e47]

theorem plain_char_facts (c : Byte) (h : plain_char c = true) :
    tok_char c = true ∧ clean_char c = true ∧ isspace c = false ∧ c ≠ 58 ∧ c ≠ 0 := by
  simp only [plain_char, Bool.and_eq_true, Bool.not_eq_true', decide_eq_true_eq] at h
  obtain ⟨⟨⟨⟨⟨⟨h1, h2⟩, h3⟩, h4⟩, h5⟩, h6⟩, h7⟩ := h
  have e10 : c ≠ 10 := by
    intro hc; subst hc; revert h1; decide
  refine ⟨?_, ?_, h1, h6, h2⟩
  · simp [tok_char, h1, h4, h3, h7]
  · simp [clean_char, e10, h5]

theorem name_char_facts (c : Byte) (h : name_char c = true) :
    plain_char c = true ∧ tolower c = c ∧ c ≠ 35 := by
  simp only [name_char, Bool.and_eq_true, Bool.not_eq_true', decide_eq_true_eq,
    Bool.and_eq_false_iff, decide_eq_false_iff_not] at h
  obtain ⟨⟨h1, h2⟩, h3⟩ := h
  refine ⟨h1, ?_, h3⟩
  unfold tolower
  rw [if_neg]
  omega

theorem string_char_facts (c : Byte) (h : string_char c = true) :
    c ≠ 0 ∧ c ≠ 34 ∧ c ≠ 47 := by
  simp only [string_char, Bool.and_eq_true, decide_eq_true_eq] at h
  exact ⟨h.1.1, h.1.2, h.2⟩

theorem escape_char_facts (c : Byte) (h : string_char c = true) :
    ∀ x ∈ escape_char c, clean_char x = true ∧ x ≠ 34 := by
  obtain ⟨h0, h34, h47⟩ := string_char_facts c h
  intro x hx
  by_cases e10 : c = 10
  · subst e10
    have : x = 92 ∨ x = 110 := by simpa [escape_char] using hx
    rcases this with h1 | h1 <;> subst h1 <;> decide
  by_cases e9 : c = 9
  · subst e9
    have : x = 92 ∨ x = 116 := by simpa [escape_char] using hx
    rcases this with h1 | h1 <;> subst h1 <;> decide
  by_cases e13 : c = 13
  · subst e13
    have : x = 92 ∨ x = 114 := by simpa [escape_char] using hx
    rcases this with h1 | h1 <;> subst h1 <;> decide
  by_cases e92 : c = 92
  · subst e92
    have : x = 92 := by simpa [escape_char] using hx
    subst this
    decide
  have : x = c := by simpa [escape_char, e10, e9, e13, h34, e92] using hx
  subst this
  exact ⟨by simp [clean_char, e10, h47], h34⟩

theorem escape_text_facts (s : Str) (h : s.all string_char = true) :
    ∀ x ∈ escape_text s, clean_char x = true ∧ x ≠ 34 := by
  induction s with
  | nil => simp [escape_text]
  | cons c s ih =>
    intro x hx
    simp only [escape_text, List.mem_append] at hx
    rcases hx with h1 | h1
    · exact escape_char_facts c (List.all_eq_true.mp h c (List.mem_cons_self _ _)) x h1
    · exact ih (List.all_eq_true.mpr
        (fun y hy => List.all_eq_true.mp h y (List.mem_cons_of_mem _ hy))) x h1

theorem alnum_char_facts (c : Byte)
    (h : (48 ≤ c.val ∧ c.val ≤ 57) ∨ (97 ≤ c.val ∧ c.val ≤ 122)) :
    clean_char c = true ∧ c ≠ 93 ∧ c ≠ 44 ∧ isspace c = false ∧ c ≠ 0 := by
  have ne : ∀ x : Byte, c.val ≠ x.val → c ≠ x := fun x hx hc => hx (by rw [hc])
  have e10 : c ≠ 10 := ne 10 (by show c.val ≠ 10; omega)
  have e47 : c ≠ 47 := ne 47 (by show c.val ≠ 47; omega)
  have e93 : c ≠ 93 := ne 93 (by show c.val ≠ 93; omega)
  have e44 : c ≠ 44 := ne 44 (by show c.val ≠ 44; omega)
  have e0 : c ≠ 0 := ne 0 (by show c.val ≠ 0; omega)
  have esp : isspace c = false := by
    simp only [isspace, Bool.or_eq_false_iff, decide_eq_false_iff_not, Bool.and_eq_false_iff]
    omega
  refine ⟨?_, e93, e44, esp, e0⟩
  simp [clean_char, e10, e47]

theorem hexChar_range (n : Nat) (h : n < 16) :
    (48 ≤ (hexChar n).val ∧ (hexChar n).val ≤ 57)
      ∨ (97 ≤ (hexChar n).val ∧ (hexChar n).val ≤ 122) := by
  unfold hexChar
  by_cases h10 : n < 10
  · rw [if_pos h10]
    left
    show 48 ≤ (48 + n) % 256 ∧ (48 + n) % 256 ≤ 57
    omega
  · rw [if_neg h10]
    right
    show 97 ≤ (87 + n) % 256 ∧ (87 + n) % 256 ≤ 122
    omega

theorem hex_literal_chars (b : Byte) :
    ∀ c ∈ hex_literal b,
      clean_char c = true ∧ c ≠ 93 ∧ c ≠ 44 ∧ isspace c = false ∧ c ≠ 0 := by
  intro c hc
  simp only [hex_literal, List.mem_cons, List.mem_singleton, List.not_mem_nil, or_false] at hc
  rcases hc with h | h | h | h
  · subst h; decide
  · subst h; decide
  · subst h
    exact alnum_char_facts _ (hexChar_range _ (by have := b.isLt; omega))
  · subst h
    exact alnum_char_facts _ (hexChar_range _ (by omega))

theorem join_comma_cons (x : Str) (xs : List Str) :
    join_comma (x :: xs) = x ++ (xs.map (fun y => lit ", " ++ y)).flatten := by
  induction xs generalizing x with
  | nil => simp [join_comma]
  | cons y ys ih =>
    rw [join_comma, ih y]
    simp

theorem join_hex_chars (bs : List Byte) :
    ∀ c ∈ join_comma (bs.map hex_literal), clean_char c = true ∧ c ≠ 93 := by
  induction bs with
  | nil => simp [join_comma]
  | cons b bs ih =>
    cases bs with
    | nil =>
      intro c hc
      simp only [List.map_cons, List.map_nil, join_comma] at hc
      exact ⟨(hex_literal_chars b c hc).1, (hex_literal_chars b c hc).2.1⟩
    | cons b2 bs2 =>
      intro c hc
      simp only [List.map_cons, join_comma, List.mem_append] at hc
      rcases hc with (h1 | h1) | h1
      · exact ⟨(hex_literal_chars b c h1).1, (hex_literal_chars b c h1).2.1⟩
      · have : c = 44 ∨ c = 32 := by
          have h2 : c ∈ ([44, 32] : List Byte) := h1
          simpa using h2
        rcases this with h2 | h2 <;> subst h2 <;> decide
      · exact ih c (by simpa using h1)

theorem last_of_all (l : Str) (P : Byte → Prop) (hne : l ≠ []) (h : ∀ c ∈ l, P c) :
    ∃ c, l.getLast? = some c ∧ P c :=
  ⟨l.getLast hne, List.getLast?_eq_getLast l hne, h _ (List.getLast_mem hne)⟩

theorem getLast?_wrap (a x : Byte) (l : Str) : (a :: (l ++ [x])).getLast? = some x := by
  rw [← List.cons_append, List.getLast?_concat]

theorem reg_text_chars (n : Nat) :
    ∀ c ∈ (Operand.reg n).text,
      tok_char c = true ∧ clean_char c = true ∧ isspace c = false ∧ c ≠ 58 := by
  intro c hc
  rcases List.mem_cons.mp hc with h | h
  · subst h; decide
  · have := digit_char_facts c (Or.inr (natToString_digits n c h))
    exact ⟨this.1, this.2.1, this.2.2.1, this.2.2.2.1⟩

theorem int_text_chars (k : Int) :
    ∀ c ∈ (Operand.int k).text,
      tok_char c = true ∧ clean_char c = true ∧ isspace c = false ∧ c ≠ 58 := by
  intro c hc
  have := digit_char_facts c (intToString_chars k c hc)
  exact ⟨this.1, this.2.1, this.2.2.1, this.2.2.2.1⟩

theorem table_text_chars (name : Str) (h : name.all plain_char = true) :
    ∀ c ∈ (Operand.table name).text,
      tok_char c = true ∧ clean_char c = true ∧ isspace c = false ∧ c ≠ 58 := by
  intro c hc
  rcases List.mem_cons.mp hc with h1 | h1
  · subst h1; decide
  · have := plain_char_facts c (List.all_eq_true.mp h c h1)
    exact ⟨this.1, this.2.1, this.2.2.1, this.2.2.2.1⟩

theorem string_no_quote (s : Str) (h : s.all string_char = true) :
    (34 : Byte) ∉ escape_text s :=
  fun hm => (escape_text_facts s h _ hm).2 rfl

theorem operand_tok (labels : List Int) (op : Operand) (h : op.ok labels) (rest : Str)
    (tokens : List Str) :
    ∃ tokens1 token1, Tokenize.go (op.text ++ rest) tokens [] false false
        = Tokenize.go rest tokens1 token1 false false
      ∧ flush tokens1 token1 = tokens ++ [op.text] := by
  cases op with
  | reg n =>
    refine ⟨tokens, (Operand.reg n).text, ?_, ?_⟩
    · rw [tok_plain _ _ _ _ (fun c hc => (reg_text_chars n c hc).1)]
      simp
    · simp [flush, Operand.text]
  | int k =>
    refine ⟨tokens, (Operand.int k).text, ?_, ?_⟩
    · rw [tok_plain _ _ _ _ (fun c hc => (int_text_chars k c hc).1)]
      simp
    · simp [flush, Operand.text, intToString_ne_nil]
  | str s =>
    refine ⟨tokens ++ [(Operand.str s).text], [], ?_, ?_⟩
    · exact tok_string (escape_text s) rest tokens (string_no_quote s h.1)
    · simp [flush]
  | bytes bs =>
    refine ⟨tokens ++ [(Operand.bytes bs).text], [], ?_, ?_⟩
    · exact tok_array _ rest tokens (fun hm => (join_hex_chars bs _ hm).2 rfl)
    · simp [flush]
  | table name =>
    refine ⟨tokens, (Operand.table name).text, ?_, ?_⟩
    · rw [tok_plain _ _ _ _ (fun c hc => (table_text_chars name h c hc).1)]
      simp
    · simp [flush, Operand.text]

theorem operand_clean (labels : List Int) (op : Operand) (h : op.ok labels) :
    ∀ c ∈ op.text, clean_char c = true := by
  cases op with
  | reg n => exact fun c hc => (reg_text_chars n c hc).2.1
  | int k => exact fun c hc => (int_text_chars k c hc).2.1
  | str s =>
    intro c hc
    simp only [Operand.text, List.mem_append, List.mem_singleton] at hc
    rcases hc with (h1 | h1) | h1
    · subst h1; decide
    · exact (escape_text_facts s h.1 c h1).1
    · subst h1; decide
  | bytes bs =>
    intro c hc
    simp only [Operand.text, List.mem_append, List.mem_singleton] at hc
    rcases hc with (h1 | h1) | h1
    · subst h1; decide
    · exact (join_hex_chars bs c h1).1
    · subst h1; decide
  | table name => exact fun c hc => (table_text_chars name h c hc).2.1

theorem operand_last (labels : List Int) (op : Operand) (h : op.ok labels) :
    ∃ c, op.text.getLast? = some c ∧ isspace c = false ∧ c ≠ 58 := by
  cases op with
  | reg n =>
    exact last_of_all _ _ (by simp [Operand.text])
      (fun c hc => ⟨(reg_text_chars n c hc).2.2.1, (reg_text_chars n c hc).2.2.2⟩)
  | int k =>
    exact last_of_all _ _ (intToString_ne_nil k)
      (fun c hc => ⟨(int_text_chars k c hc).2.2.1, (int_text_chars k c hc).2.2.2⟩)
  | str s => exact ⟨34, getLast?_wrap 34 34 _, by decide, by decide⟩
  | bytes bs => exact ⟨93, getLast?_wrap 91 93 _, by decide, by decide⟩
  | table name =>
    exact last_of_all _ _ (by simp [Operand.text])
      (fun c hc => ⟨(table_text_chars name h c hc).2.2.1, (table_text_chars name h c hc).2.2.2⟩)

theorem operand_ne_comma (op : Operand) : op.text ≠ [44] := by
  cases op with
  | reg n => simp [Operand.text]
  | int k =>
    intro h
    have := intToString_chars k 44 (by rw [show (Operand.int k).text = intToString k from rfl] at h; rw [h]; simp)
    rcases this with h1 | h1
    · revert h1; decide
    · revert h1; decide
  | str s => simp [Operand.text]
  | bytes bs => simp [Operand.text]
  | table name => simp [Operand.text]

/-! ## `ParseValue` on canonical operands -/

theorem IsRegister_of_head (a : Byte) (r : Str) (h : tolower a ≠ 114) :
    IsRegister (a :: r) = false := by
  cases r with
  | nil => rfl
  | cons c rest => simp [IsRegister, h]

theorem IsByteArray_of_head (a : Byte) (r : Str) (h : a ≠ 91) : IsByteArray (a :: r) = false := by
  simp [IsByteArray, h]

theorem IsStringLiteral_of_head (a : Byte) (r : Str) (h : a ≠ 34) :
    IsStringLiteral (a :: r) = false := by
  simp [IsStringLiteral, h]

theorem IsFloat_go_digits (ds : Str) (h : ∀ c ∈ ds, isdigit c = true) (seen : Bool) :
    IsFloat.go ds false false seen false = false := by
  induction ds generalizing seen with
  | nil => simp [IsFloat.go]
  | cons c ds ih =>
    simp only [IsFloat.go, Bool.false_eq_true, if_false, h c (List.mem_cons_self _ _), if_true]
    exact ih (fun x hx => h x (List.mem_cons_of_mem _ hx)) true

theorem ParseValue_reg (L : StdLib) (n : Nat) (h : n ≤ 63) :
    ParseValue L (Operand.reg n).text = Except.ok (Operand.reg n).value := by
  interval_cases n <;> rfl

theorem digit_head_facts (c : Byte) (h : c = 45 ∨ isdigit c = true) :
    tolower c ≠ 114 ∧ c ≠ 35 ∧ c ≠ 91 ∧ c ≠ 34 ∧ c ≠ 43 := by
  rcases h with h | h
  · subst h; decide
  · have hr := isdigit_range c h
    have ne : ∀ x : Byte, c.val ≠ x.val → c ≠ x := fun x hx hc => hx (by rw [hc])
    have hl : tolower c = c := by
      unfold tolower
      rw [if_neg]
      omega
    rw [hl]
    exact ⟨ne 114 (by show c.val ≠ 114; omega), ne 35 (by show c.val ≠ 35; omega),
      ne 91 (by show c.val ≠ 91; omega), ne 34 (by show c.val ≠ 34; omega),
      ne 43 (by show c.val ≠ 43; omega)⟩

theorem digit_ne_minus (c : Byte) (h : isdigit c = true) : c ≠ 45 := by
  have hr := isdigit_range c h
  intro hc
  rw [hc] at hr
  revert hr
  decide

theorem ParseValue_int (L : StdLib) (k : Int) (h1 : - (2 : Int) ^ 63 ≤ k)
    (h2 : k < (2 : Int) ^ 63) :
    ParseValue L (Operand.int k).text = Except.ok (Operand.int k).value := by
  show ParseValue L (intToString k) = _
  rcases intToString_cases k with ⟨hk, ht⟩ | ⟨hk, ht⟩
  · -- a minus sign and digits
    have hd := natToString_digits k.natAbs
    have hne := natToString_ne_nil k.natAbs
    rw [ht]
    have e1 : IsRegister (45 :: natToString k.natAbs) = false :=
      IsRegister_of_head _ _ (by decide)
    have e2 : IsTableRef (45 :: natToString k.natAbs) = false := by simp [IsTableRef]
    have e3 : IsByteArray (45 :: natToString k.natAbs) = false :=
      IsByteArray_of_head _ _ (by decide)
    have e4 : IsStringLiteral (45 :: natToString k.natAbs) = false :=
      IsStringLiteral_of_head _ _ (by decide)
    have e5 : IsFloat (45 :: natToString k.natAbs) = false := by
      simp [IsFloat, hne, IsFloat_go_digits _ hd]
    have e6 : IsInteger (45 :: natToString k.natAbs) = true := by
      simp only [IsInteger, hne, if_false]
      simpa using hd
    have e7 : stol (45 :: natToString k.natAbs) = Except.ok k := by
      simp only [stol, sto_signed, decValue_natToString, if_true]
      have : -((k.natAbs : Nat) : Int) = k := by omega
      rw [this, if_pos ⟨by simpa using h1, by simpa using h2⟩]
    simp only [ParseValue, e1, e2, e3, e4, e5, e6, e7, Bool.false_eq_true, if_false, if_true,
      bind, Except.bind, pure, Except.pure]
    rfl
  · -- digits only
    have hd := natToString_digits k.toNat
    have hne := natToString_ne_nil k.toNat
    rw [ht]
    obtain ⟨c, r, hcr⟩ := List.exists_cons_of_ne_nil hne
    have hc : isdigit c = true := hd c (by rw [hcr]; simp)
    have hf := digit_head_facts c (Or.inr hc)
    have hm := digit_ne_minus c hc
    rw [hcr] at hd ⊢
    have e1 : IsRegister (c :: r) = false := IsRegister_of_head _ _ hf.1
    have e2 : IsTableRef (c :: r) = false := by simp [IsTableRef, hf.2.1]
    have e3 : IsByteArray (c :: r) = false := IsByteArray_of_head _ _ hf.2.2.1
    have e4 : IsStringLiteral (c :: r) = false := IsStringLiteral_of_head _ _ hf.2.2.2.1
    have e5 : IsFloat (c :: r) = false := by
      simp [IsFloat, hf.2.2.2.2, hm, IsFloat_go_digits _ hd]
    have e6 : IsInteger (c :: r) = true := by
      simp only [IsInteger, hf.2.2.2.2, hm, or_self, if_false]
      simpa using hd
    have e7 : stol (c :: r) = Except.ok k := by
      simp only [stol, sto_signed, hm, hf.2.2.2.2, if_false]
      rw [← hcr, decValue_natToString]
      have : ((k.toNat : Nat) : Int) = k := by omega
      rw [this, if_pos ⟨by simpa using h1, by simpa using h2⟩]
    simp only [ParseValue, e1, e2, e3, e4, e5, e6, e7, Bool.false_eq_true, if_false, if_true,
      bind, Except.bind, pure, Except.pure]
    rfl

theorem UnescapeString_go_escape (s result : Str) :
    UnescapeString.go (escape_text s) result false = Except.ok (result ++ s) := by
  induction s generalizing result with
  | nil => simp [escape_text, UnescapeString.go]
  | cons c s ih =>
    have hstep : UnescapeString.go (escape_char c ++ escape_text s) result false
        = UnescapeString.go (escape_text s) (result ++ [c]) false := by
      unfold escape_char
      split
      · rename_i h; subst h; simp [UnescapeString.go]
      · split
        · rename_i h; subst h; simp [UnescapeString.go]
        · split
          · rename_i h; subst h; simp [UnescapeString.go]
          · split
            · rename_i h; subst h; simp [UnescapeString.go]
            · split
              · rename_i h; subst h; simp [UnescapeString.go]
              · rename_i h92
                simp [UnescapeString.go, h92]
    rw [escape_text, hstep, ih]
    simp

theorem ParseValue_str (L : StdLib) (s : Str) :
    ParseValue L (Operand.str s).text = Except.ok (Operand.str s).value := by
  have ht : (Operand.str s).text = 34 :: (escape_text s ++ [34]) := rfl
  rw [ht]
  have e1 : IsRegister (34 :: (escape_text s ++ [34])) = false :=
    IsRegister_of_head _ _ (by decide)
  have e2 : IsTableRef (34 :: (escape_text s ++ [34])) = false := by simp [IsTableRef]
  have e3 : IsByteArray (34 :: (escape_text s ++ [34])) = false :=
    IsByteArray_of_head _ _ (by decide)
  have e4 : IsStringLiteral (34 :: (escape_text s ++ [34])) = true := by
    simp [IsStringLiteral, getLast?_wrap]
  have e5 : (List.drop 1 (34 :: (escape_text s ++ [34]))).take
      ((34 :: (escape_text s ++ [34])).length - 2) = escape_text s := by
    simp
  have e6 : UnescapeString (escape_text s) = Except.ok s := by
    rw [UnescapeString, UnescapeString_go_escape s []]
    rfl
  unfold ParseValue
  rw [e1, e2, e3, e4, e5, e6]
  rfl

theorem ParseValue_table (L : StdLib) (name : Str) :
    ParseValue L (Operand.table name).text = Except.ok (Operand.table name).value := by
  have ht : (Operand.table name).text = 35 :: name := rfl
  rw [ht]
  have e1 : IsRegister (35 :: name) = false := IsRegister_of_head _ _ (by decide)
  have e2 : IsTableRef (35 :: name) = true := by simp [IsTableRef]
  simp only [ParseValue, e1, e2, Bool.false_eq_true, if_false, if_true, pure, Except.pure]
  rfl

/-! ## Byte array literals -/

theorem hexChar_facts (n : Nat) (h : n < 16) :
    hexDigit (hexChar n) = some n ∧ isspace (hexChar n) = false ∧ hexChar n ≠ 0
      ∧ hexChar n ≠ 120 ∧ hexChar n ≠ 88 ∧ hexChar n ≠ 45 ∧ hexChar n ≠ 43 := by
  interval_cases n <;> decide

theorem getlines_go_piece (d : Byte) (w rest cur : Str) (h : d ∉ w) :
    getlines.go d (w ++ d :: rest) cur = (cur ++ w) :: getlines.go d rest [] := by
  induction w generalizing cur with
  | nil => simp [getlines.go]
  | cons c w ih =>
    have hc : c ≠ d := fun h0 => h (by simp [h0])
    rw [List.cons_append]
    simp only [getlines.go, hc, if_false]
    rw [ih _ (fun h0 => h (List.mem_cons_of_mem _ h0))]
    simp

theorem getlines_go_last (d : Byte) (w cur : Str) (h : d ∉ w) (hne : cur ++ w ≠ []) :
    getlines.go d w cur = [cur ++ w] := by
  induction w generalizing cur with
  | nil =>
    have : cur ≠ [] := by simpa using hne
    simp [getlines.go, this]
  | cons c w ih =>
    have hc : c ≠ d := fun h0 => h (by simp [h0])
    simp only [getlines.go, hc, if_false]
    rw [ih _ (fun h0 => h (List.mem_cons_of_mem _ h0)) (by simp)]
    simp

theorem getlines_joined (w : Str) (ys : List Str) (hw : (44 : Byte) ∉ w) (hne : w ≠ [])
    (hys : ∀ y ∈ ys, (44 : Byte) ∉ y) :
    getlines.go 44 (w ++ (ys.map (fun y => lit ", " ++ y)).flatten) []
      = w :: ys.map (fun y => (32 : Byte) :: y) := by
  induction ys generalizing w with
  | nil =>
    simp only [List.map_nil, List.flatten_nil, List.append_nil]
    rw [getlines_go_last 44 w [] hw (by simpa using hne)]
    simp
  | cons y ys ih =>
    have e : w ++ (List.map (fun y => lit ", " ++ y) (y :: ys)).flatten
        = w ++ 44 :: ((32 :: y) ++ (ys.map (fun y => lit ", " ++ y)).flatten) := by
      simp only [List.map_cons, List.flatten_cons, List.append_assoc]
      rfl
    rw [e, getlines_go_piece 44 w _ [] hw]
    have hy : (44 : Byte) ∉ (32 :: y) := by
      intro hm
      rcases List.mem_cons.mp hm with h1 | h1
      · revert h1; decide
      · exact hys y (List.mem_cons_self _ _) h1
    rw [ih (32 :: y) hy (by simp) (fun z hz => hys z (List.mem_cons_of_mem _ hz))]
    simp

theorem hex_literal_no_comma (b : Byte) : (44 : Byte) ∉ hex_literal b :=
  fun hm => (hex_literal_chars b _ hm).2.2.1 rfl

theorem strtol16_hex (b : Byte) :
    strtol16 (Value.cstr [hexChar (b.val / 16), hexChar (b.val % 16)]) = ((b.val : Int), []) := by
  have hb := b.isLt
  obtain ⟨a1, a2, a3, a4, a5, a6, a7⟩ := hexChar_facts (b.val / 16) (by omega)
  obtain ⟨b1, b2, b3, b4, b5, b6, b7⟩ := hexChar_facts (b.val % 16) (by omega)
  have hc : Value.cstr [hexChar (b.val / 16), hexChar (b.val % 16)]
      = [hexChar (b.val / 16), hexChar (b.val % 16)] := by
    simp [Value.cstr, List.takeWhile, a3, b3]
  rw [hc]
  have hrun : hexRun [hexChar (b.val / 16), hexChar (b.val % 16)] 0 0
      = (16 * (b.val / 16) + b.val % 16, 2, []) := by
    simp [hexRun, a1, b1]
  have hd : strtol16.digits [hexChar (b.val / 16), hexChar (b.val % 16)]
      = some (16 * (b.val / 16) + b.val % 16, []) := by
    simp [strtol16.digits, hrun, b4, b5]
  simp only [strtol16, List.dropWhile, a2, List.head?, Option.some.injEq, a6, a7, or_self,
    if_false, hd, decide_False]
  have h1 : 16 * (b.val / 16) + b.val % 16 = b.val := by omega
  rw [h1, if_pos (by omega)]

theorem Trim_hex (b : Byte) (sp : Bool) :
    Trim ((if sp then [32] else []) ++ hex_literal b) = hex_literal b := by
  obtain ⟨_, b2, _⟩ := hexChar_facts (b.val % 16) (by omega)
  have h32 : isspace (32 : Byte) = true := by decide
  have h48 : isspace (48 : Byte) = false := by decide
  cases sp <;> simp [Trim, hex_literal, List.dropWhile, h32, h48, b2]

theorem ParseByteArray_go_piece (b : Byte) (sp : Bool) (pieces : List Str) (bytes : List Byte) :
    ParseByteArray.go (((if sp then [32] else []) ++ hex_literal b) :: pieces) bytes
      = ParseByteArray.go pieces (bytes ++ [b]) := by
  have hs := strtol16_hex b
  have hb := b.isLt
  have hof : (Fin.ofNat b.val : Byte) = b := by
    apply Fin.ext
    show b.val % 256 = b.val
    omega
  rw [ParseByteArray.go]
  simp only [Trim_hex]
  have h1 : hex_literal b ≠ [] := by simp [hex_literal]
  have h2 : startsWith [48, 120] (hex_literal b) = true := by simp [hex_literal, startsWith]
  have h3 : (hex_literal b).drop 2 = [hexChar (b.val / 16), hexChar (b.val % 16)] := rfl
  simp only [h1, if_false, h2, Bool.true_or, if_true, h3, hs, ne_eq, not_true_eq_false]
  rw [if_neg (by omega)]
  simp [hof]

theorem ParseByteArray_go_all (bs : List Byte) (sp : Bool) (bytes : List Byte) :
    ParseByteArray.go (bs.map (fun b => (if sp then [32] else []) ++ hex_literal b)) bytes
      = Except.ok (bytes ++ bs) := by
  induction bs generalizing bytes with
  | nil => simp [ParseByteArray.go]
  | cons b bs ih =>
    rw [List.map_cons, ParseByteArray_go_piece, ih]
    simp

theorem ParseByteArray_text (bs : List Byte) :
    ParseByteArray (Operand.bytes bs).text = Except.ok bs := by
  have ht : (Operand.bytes bs).text = 91 :: (join_comma (bs.map hex_literal) ++ [93]) := rfl
  rw [ht]
  unfold ParseByteArray
  have e : (List.drop 1 (91 :: (join_comma (bs.map hex_literal) ++ [93]))).take
      ((91 :: (join_comma (bs.map hex_literal) ++ [93])).length - 2)
      = join_comma (bs.map hex_literal) := by
    simp
  simp only [e]
  cases bs with
  | nil => rfl
  | cons b bs =>
    rw [List.map_cons, join_comma_cons, getlines,
      getlines_joined _ _ (hex_literal_no_comma b) (by simp [hex_literal])
        (by
          intro y hy
          obtain ⟨b2, _, rfl⟩ := List.mem_map.mp hy
          exact hex_literal_no_comma b2)]
    have h1 := ParseByteArray_go_piece b false
      ((bs.map hex_literal).map (fun y => (32 : Byte) :: y)) []
    simp only [Bool.false_eq_true, if_false, List.nil_append] at h1
    rw [h1]
    have h2 := ParseByteArray_go_all bs true [b]
    simp only [if_true, List.singleton_append] at h2
    have h3 : (bs.map hex_literal).map (fun y => (32 : Byte) :: y)
        = bs.map (fun b => 32 :: hex_literal b) := by simp
    rw [h3, h2]

theorem ParseValue_bytes (L : StdLib) (bs : List Byte) :
    ParseValue L (Operand.bytes bs).text = Except.ok (Operand.bytes bs).value := by
  have hp := ParseByteArray_text bs
  have ht : (Operand.bytes bs).text = 91 :: (join_comma (bs.map hex_literal) ++ [93]) := rfl
  rw [ht] at hp ⊢
  have e1 : IsRegister (91 :: (join_comma (bs.map hex_literal) ++ [93])) = false :=
    IsRegister_of_head _ _ (by decide)
  have e2 : IsTableRef (91 :: (join_comma (bs.map hex_literal) ++ [93])) = false := by
    simp [IsTableRef]
  have e3 : IsByteArray (91 :: (join_comma (bs.map hex_literal) ++ [93])) = true := by
    simp [IsByteArray, getLast?_wrap]
  unfold ParseValue
  rw [e1, e2, e3, hp]
  rfl

theorem ParseValue_operand (L : StdLib) (labels : List Int) (op : Operand) (h : op.ok labels) :
    ParseValue L op.text = Except.ok op.value := by
  cases op with
  | reg n => exact ParseValue_reg L n h
  | int k => exact ParseValue_int L k h.1 h.2.1
  | str s => exact ParseValue_str L s
  | bytes bs => exact ParseValue_bytes L bs
  | table name => exact ParseValue_table L name

/-! ## Assembling a canonical line -/

theorem args_text_false (ops : List Operand) :
    args_text ops false = (ops.map (fun op => lit ", " ++ op.text)).flatten := by
  induction ops with
  | nil => rfl
  | cons op ops ih =>
    simp only [args_text, Bool.false_eq_true, if_false, ih, List.map_cons, List.flatten_cons]
    rfl

theorem instruction_line_eq (code : OpCode) (ops : List Operand) :
    instruction_line code ops = lit "    " ++ (opcode_name code ++ args_text ops true) := by
  unfold instruction_line
  cases ops with
  | nil => simp [args_text]
  | cons op ops =>
    simp only [List.map_cons, join_comma_cons, args_text, if_true, args_text_false,
      List.map_map]
    simp [Function.comp_def]

theorem opcode_name_table :
    ∀ v : Nat, v < 16 →
      (∀ c ∈ opcode_name (Fin.ofNat v), tok_char c = true ∧ clean_char c = true
          ∧ isspace c = false ∧ c ≠ 58)
      ∧ opcode_of (ToLower (opcode_name (Fin.ofNat v))) = some (Fin.ofNat v)
      ∧ mnemonic (Fin.ofNat v) = lit "    " ++ opcode_name (Fin.ofNat v)
      ∧ (opcode_name (Fin.ofNat v)).head?.map (fun a => decide (a ≠ 35)) = some true := by
  decide!

theorem opcode_name_facts (code : OpCode) (h : code.val < 16) :
    (∀ c ∈ opcode_name code, tok_char c = true ∧ clean_char c = true ∧ isspace c = false
        ∧ c ≠ 58)
    ∧ opcode_name code ≠ []
    ∧ opcode_of (ToLower (opcode_name code)) = some code
    ∧ mnemonic code = lit "    " ++ opcode_name code
    ∧ (∀ r, startsWith (lit "#table") (opcode_name code ++ r) = false) := by
  have hc : (Fin.ofNat code.val : Byte) = code := by
    apply Fin.ext
    show code.val % 256 = code.val
    omega
  have := opcode_name_table code.val h
  rw [hc] at this
  obtain ⟨h1, h2, h3, h4⟩ := this
  cases hn : opcode_name code with
  | nil => rw [hn] at h4; simp at h4
  | cons a r =>
    rw [hn] at h1 h2 h3 h4
    have ha : a ≠ 35 := by simpa using h4
    refine ⟨h1, by simp, h2, h3, fun r2 => ?_⟩
    have : lit "#table" = 35 :: lit "table" := by decide
    rw [this, List.cons_append]
    simp only [startsWith, Bool.and_eq_false_iff, decide_eq_false_iff_not]
    exact Or.inl (fun h0 => ha h0.symm)

theorem args_tok (labels : List Int) (ops : List Operand) (h : ∀ op ∈ ops, op.ok labels)
    (first : Bool) (tokens : List Str) (token : Str) :
    Tokenize.go (args_text ops first) tokens token false false
      = flush tokens token ++ arg_tokens ops first := by
  induction ops generalizing first tokens token with
  | nil => simp [args_text, arg_tokens, tok_end]
  | cons op ops ih =>
    obtain ⟨tokens1, token1, e1, e2⟩ :=
      operand_tok labels op (h op (List.mem_cons_self _ _)) (args_text ops false)
        (flush tokens token ++ (if first then [] else [[44]]))
    have hstep : Tokenize.go (args_text (op :: ops) first) tokens token false false
        = Tokenize.go (op.text ++ args_text ops false)
            (flush tokens token ++ (if first then [] else [[44]])) [] false false := by
      cases first with
      | true =>
        simp only [args_text, if_true, List.nil_append, List.singleton_append, List.cons_append,
          List.append_nil]
        rw [tok_space]
      | false =>
        simp only [args_text, Bool.false_eq_true, if_false, List.singleton_append,
          List.cons_append, List.nil_append]
        rw [tok_comma, tok_space]
        simp [flush]
    rw [hstep, e1, ih (fun x hx => h x (List.mem_cons_of_mem _ hx)) false tokens1 token1, e2]
    cases first <;> simp [arg_tokens]

theorem ParseInstruction_args_cons (L : StdLib) (t : Str) (ts : List Str) (v : Value)
    (vs : List Value) (hn : t ≠ [44]) (hp : ParseValue L t = Except.ok v)
    (hr : ParseInstruction.args L ts = Except.ok vs) :
    ParseInstruction.args L (t :: ts) = Except.ok (v :: vs) := by
  rw [ParseInstruction.args]
  simp only [ne_eq, hn, not_false_eq_true, if_true, hp, hr, bind, Except.bind]
  rfl

theorem ParseInstruction_args_comma (L : StdLib) (ts : List Str) :
    ParseInstruction.args L ([44] :: ts) = ParseInstruction.args L ts := by
  rw [ParseInstruction.args]
  simp

theorem ParseInstruction_args_tokens (L : StdLib) (labels : List Int) (ops : List Operand)
    (h : ∀ op ∈ ops, op.ok labels) (first : Bool) :
    ParseInstruction.args L (arg_tokens ops first) = Except.ok (ops.map Operand.value) := by
  induction ops generalizing first with
  | nil => rfl
  | cons op ops ih =>
    have hp := ParseValue_operand L labels op (h op (List.mem_cons_self _ _))
    have hn := operand_ne_comma op
    have ih1 := ih (fun x hx => h x (List.mem_cons_of_mem _ hx)) false
    cases first with
    | true =>
      have e : arg_tokens (op :: ops) true = op.text :: arg_tokens ops false := rfl
      rw [e, List.map_cons]
      exact ParseInstruction_args_cons L _ _ _ _ hn hp ih1
    | false =>
      have e : arg_tokens (op :: ops) false = [44] :: op.text :: arg_tokens ops false := rfl
      rw [e, List.map_cons, ParseInstruction_args_comma]
      exact ParseInstruction_args_cons L _ _ _ _ hn hp ih1

theorem ParseInstruction_body (L : StdLib) (labels : List Int) (code : OpCode)
    (ops : List Operand) (hc : code.val < 16) (h : ∀ op ∈ ops, op.ok labels) :
    ParseInstruction L (opcode_name code ++ args_text ops true)
      = Except.ok { code := code, Args := ops.map Operand.value } := by
  obtain ⟨f1, f2, f3, _, _⟩ := opcode_name_facts code hc
  have ht : Tokenize (opcode_name code ++ args_text ops true)
      = opcode_name code :: arg_tokens ops true := by
    unfold Tokenize
    rw [tok_plain _ _ _ _ (fun c hx => (f1 c hx).1), args_tok labels ops h]
    simp [flush, f2]
  unfold ParseInstruction
  rw [ht]
  simp only [f3, ParseInstruction_args_tokens L labels ops h true, bind, Except.bind]
  rfl

/-! ## `ProcessLine` on canonical lines -/

theorem str_find_none (p0 : Byte) (p s : Str) (h : p0 ∉ s) : str_find (p0 :: p) s = none := by
  induction s with
  | nil => simp [str_find, startsWith]
  | cons c s ih =>
    have hc : ¬ p0 = c := fun h0 => h (by simp [h0])
    have ih1 := ih (fun h0 => h (List.mem_cons_of_mem _ h0))
    simp [str_find, startsWith, hc, ih1]

theorem dropWhile_of_head (l : Str) (c : Byte) (h : l.head? = some c) (hc : isspace c = false) :
    l.dropWhile isspace = l := by
  cases l with
  | nil => rfl
  | cons a r =>
    simp only [List.head?_cons, Option.some.injEq] at h
    subst h
    simp [List.dropWhile, hc]

theorem Trim_id (s : Str) (a c : Byte) (h1 : s.head? = some a) (ha : isspace a = false)
    (h2 : s.getLast? = some c) (hc : isspace c = false) : Trim s = s := by
  unfold Trim
  rw [dropWhile_of_head s a h1 ha,
    dropWhile_of_head s.reverse c (by rw [List.head?_reverse]; exact h2) hc, List.reverse_reverse]

theorem Trim_indent (s : Str) : Trim (lit "    " ++ s) = Trim s := by
  have h32 : isspace (32 : Byte) = true := by decide
  have e : lit "    " ++ s = 32 :: 32 :: 32 :: 32 :: s := rfl
  unfold Trim
  rw [e]
  simp [List.dropWhile, h32]

theorem good_last_append (a b : Str) (h : good_last b) : good_last (a ++ b) := by
  obtain ⟨c, h1, h2, h3⟩ := h
  exact ⟨c, by simp [List.getLast?_append, h1], h2, h3⟩

theorem strip_clean (line t : Str) (hT : Trim line = t) (h47 : (47 : Byte) ∉ t)
    (hT2 : Trim t = t) (hne : t ≠ []) : ProcessLine.strip line false = (some t, false) := by
  have e1 : str_find (lit "/*") t = none := str_find_none 47 [42] t h47
  have e2 : str_find (lit "//") t = none := str_find_none 47 [47] t h47
  unfold ProcessLine.strip
  simp only [hT, e1, e2, Bool.false_eq_true, if_false, hT2, hne]

theorem args_text_clean (labels : List Int) (ops : List Operand) (h : ∀ op ∈ ops, op.ok labels)
    (first : Bool) : ∀ c ∈ args_text ops first, clean_char c = true := by
  induction ops generalizing first with
  | nil => simp [args_text]
  | cons op ops ih =>
    intro c hc
    simp only [args_text, List.mem_append] at hc
    rcases hc with ((h1 | h1) | h1) | h1
    · cases first
      · simp only [Bool.false_eq_true, if_false, List.mem_singleton] at h1
        subst h1; decide
      · simp at h1
    · simp only [List.mem_singleton] at h1
      subst h1; decide
    · exact operand_clean labels op (h op (List.mem_cons_self _ _)) c h1
    · exact ih (fun x hx => h x (List.mem_cons_of_mem _ hx)) false c h1

theorem args_text_last (labels : List Int) (ops : List Operand) (h : ∀ op ∈ ops, op.ok labels)
    (first : Bool) (hne : ops ≠ []) : good_last (args_text ops first) := by
  induction ops generalizing first with
  | nil => exact absurd rfl hne
  | cons op ops ih =>
    cases ops with
    | nil =>
      simp only [args_text, List.append_nil]
      exact good_last_append _ _ (operand_last labels op (h op (List.mem_cons_self _ _)))
    | cons op2 ops2 =>
      rw [args_text]
      exact good_last_append _ _
        (ih (fun x hx => h x (List.mem_cons_of_mem _ hx)) false (by simp))

theorem body_facts (labels : List Int) (code : OpCode) (ops : List Operand) (hc : code.val < 16)
    (h : ∀ op ∈ ops, op.ok labels) :
    (10 : Byte) ∉ (opcode_name code ++ args_text ops true)
    ∧ (47 : Byte) ∉ (opcode_name code ++ args_text ops true)
    ∧ Trim (opcode_name code ++ args_text ops true) = opcode_name code ++ args_text ops true
    ∧ opcode_name code ++ args_text ops true ≠ []
    ∧ (opcode_name code ++ args_text ops true).getLast? ≠ some 58 := by
  obtain ⟨f1, f2, _, _, _⟩ := opcode_name_facts code hc
  have hclean : ∀ c ∈ opcode_name code ++ args_text ops true, clean_char c = true := by
    intro c hx
    rcases List.mem_append.mp hx with h1 | h1
    · exact (f1 c h1).2.1
    · exact args_text_clean labels ops h true c h1
  have hlast : good_last (opcode_name code ++ args_text ops true) := by
    by_cases hops : ops = []
    · subst hops
      simp only [args_text, List.append_nil]
      obtain ⟨c, e1, e2⟩ := last_of_all (opcode_name code)
        (fun c => isspace c = false ∧ c ≠ 58) f2 (fun c hx => ⟨(f1 c hx).2.2.1, (f1 c hx).2.2.2⟩)
      exact ⟨c, e1, e2.1, e2.2⟩
    · exact good_last_append _ _ (args_text_last labels ops h true hops)
  obtain ⟨a, r, har⟩ := List.exists_cons_of_ne_nil f2
  have ha : isspace a = false := (f1 a (by rw [har]; simp)).2.2.1
  obtain ⟨c, e1, e2, e3⟩ := hlast
  refine ⟨fun hm => ?_, fun hm => ?_, ?_, by simp [f2], ?_⟩
  · have := hclean _ hm
    revert this; decide
  · have := hclean _ hm
    revert this; decide
  · exact Trim_id _ a c (by rw [har]; rfl) ha e1 e2
  · rw [e1]
    intro h0
    exact e3 (Option.some.inj h0)

theorem ProcessLine_instruction (L : StdLib) (labels : List Int) (c : Compiler) (code : OpCode)
    (ops : List Operand) (file_idx : Nat) (line_num : Int) (hc : code.val < 16)
    (h : ∀ op ∈ ops, op.ok labels) :
    ProcessLine L c (instruction_line code ops) file_idx line_num false
      = Except.ok ({ c with _instructions :=
          c._instructions ++ [{ code := code, Args := ops.map Operand.value }] }, false) := by
  obtain ⟨_, b2, b3, b4, b5⟩ := body_facts labels code ops hc h
  obtain ⟨_, _, _, _, f5⟩ := opcode_name_facts code hc
  have hs : ProcessLine.strip (instruction_line code ops) false
      = (some (opcode_name code ++ args_text ops true), false) :=
    strip_clean _ _ (by rw [instruction_line_eq, Trim_indent, b3]) b2 b3 b4
  unfold ProcessLine
  rw [hs]
  simp only [f5, Bool.false_eq_true, if_false, b5, ParseInstruction_body L labels code ops hc h]

theorem ProcessLine_label (L : StdLib) (c : Compiler) (name : Str) (file_idx : Nat)
    (line_num : Int) (h : name.all name_char = true) :
    ProcessLine L c (name ++ [58]) file_idx line_num false
      = Except.ok ({ c with
          _labels := UMap.assign L c._labels name
                      (LabelInfo.mk c._instructions.length file_idx line_num) }, false) := by
  have hch : ∀ x ∈ name, plain_char x = true ∧ tolower x = x ∧ x ≠ 35 :=
    fun x hx => name_char_facts x (List.all_eq_true.mp h x hx)
  have hclean : (47 : Byte) ∉ name ++ [58] := by
    intro hm
    rcases List.mem_append.mp hm with h1 | h1
    · have := (plain_char_facts _ (hch _ h1).1).2.1
      revert this; decide
    · revert h1; decide
  have hhead : ∃ a, (name ++ [58]).head? = some a ∧ isspace a = false ∧ a ≠ 35 := by
    cases name with
    | nil => exact ⟨58, rfl, by decide, by decide⟩
    | cons a r =>
      have ha := hch a (List.mem_cons_self _ _)
      exact ⟨a, rfl, (plain_char_facts a ha.1).2.2.1, ha.2.2⟩
  obtain ⟨a, ha1, ha2, ha3⟩ := hhead
  have hlast : (name ++ [58]).getLast? = some 58 := List.getLast?_concat _
  have hT : Trim (name ++ [58]) = name ++ [58] := Trim_id _ a 58 ha1 ha2 hlast (by decide)
  have hs : ProcessLine.strip (name ++ [58]) false = (some (name ++ [58]), false) :=
    strip_clean _ _ hT hclean hT (by simp)
  have hst : startsWith (lit "#table") (name ++ [58]) = false := by
    obtain ⟨r, hr⟩ : ∃ r, name ++ [58] = a :: r := by
      cases hn : name ++ [58] with
      | nil => simp at hn
      | cons b r =>
        rw [hn] at ha1
        simp only [List.head?_cons, Option.some.injEq] at ha1
        exact ⟨r, by rw [ha1]⟩
    have e : lit "#table" = 35 :: lit "table" := by decide
    rw [hr, e]
    simp only [startsWith, Bool.and_eq_false_iff, decide_eq_false_iff_not]
    exact Or.inl (fun h0 => ha3 h0.symm)
  have hlow : ToLower name = name := by
    unfold ToLower
    conv_rhs => rw [← List.map_id name]
    exact List.map_congr_left (fun x hx => (hch x hx).2.1)
  unfold ProcessLine
  rw [hs]
  simp only [hst, Bool.false_eq_true, if_false, hlast, if_true, List.length_append,
    List.length_singleton, Nat.add_sub_cancel, List.take_left', hlow]

/-! ## The lines of a canonical source -/

theorem instruction_line_no_newline (labels : List Int) (code : OpCode) (ops : List Operand)
    (hc : code.val < 16) (h : ∀ op ∈ ops, op.ok labels) :
    (10 : Byte) ∉ instruction_line code ops := by
  obtain ⟨b1, _⟩ := body_facts labels code ops hc h
  rw [instruction_line_eq]
  intro hm
  rcases List.mem_append.mp hm with h1 | h1
  · revert h1; decide
  · exact b1 h1

theorem getlines_go_cons (w rest : Str) (h : (10 : Byte) ∉ w) :
    getlines.go 10 (w ++ 10 :: rest) [] = w :: getlines.go 10 rest [] := by
  rw [getlines_go_piece 10 w rest [] h]
  simp

theorem getlines_canonical (prog : List Statement)
    (h : ∀ st ∈ prog, (∀ name, st.label = some name → (10 : Byte) ∉ name)
      ∧ (10 : Byte) ∉ instruction_line st.code st.operands) :
    getlines 10 (canonical_text prog) = canonical_lines prog := by
  unfold getlines
  induction prog with
  | nil => rfl
  | cons st prog ih =>
    obtain ⟨h1, h2⟩ := h st (List.mem_cons_self _ _)
    have ih1 := ih (fun x hx => h x (List.mem_cons_of_mem _ hx))
    have enl : lit "\n" = [10] := by decide
    have ecl : lit ":\n" = [58, 10] := by decide
    cases hl : st.label with
    | none =>
      simp only [canonical_text, Statement.text, hl, canonical_lines, List.nil_append, enl,
        List.append_assoc, List.singleton_append]
      rw [getlines_go_cons _ _ h2, ih1]
    | some name =>
      have hn : (10 : Byte) ∉ name ++ [58] := by
        intro hm
        rcases List.mem_append.mp hm with h3 | h3
        · exact h1 name hl h3
        · revert h3; decide
      have e : canonical_text (st :: prog)
          = (name ++ [58]) ++ 10 :: (instruction_line st.code st.operands
              ++ 10 :: canonical_text prog) := by
        simp [canonical_text, Statement.text, hl, enl, ecl]
      rw [e, getlines_go_cons _ _ hn, getlines_go_cons _ _ h2, ih1]
      simp [canonical_lines, hl]

/-! ## Assembling a canonical source -/

theorem ParseLines_cons (L : StdLib) (file_idx : Nat) (line : Str) (lines : List Str)
    (c c1 : Compiler) (n : Int) (icb icb1 : Bool)
    (h : ProcessLine L c line file_idx (n + 1) icb = Except.ok (c1, icb1)) :
    ParseLines L file_idx (line :: lines) c n icb = ParseLines L file_idx lines c1 (n + 1) icb1 := by
  rw [ParseLines]
  simp only [h, bind, Except.bind]

theorem ParseLines_canonical (L : StdLib) (labels : List Int) (file_idx : Nat)
    (prog : List Statement)
    (h : ∀ st ∈ prog, st.code.val < 16
      ∧ st.label.all (fun name => name.all name_char) = true
      ∧ ∀ op ∈ st.operands, op.ok labels)
    (c : Compiler) (n : Int) :
    ∃ kvs : List (Str × LabelInfo),
      ParseLines L file_idx (canonical_lines prog) c n false
        = Except.ok { c with _instructions := c._instructions ++ prog.map Statement.instruction,
                             _labels := assign_all L c._labels kvs }
      ∧ kvs.map (fun e => (e.1, e.2.instruction_index))
          = labels_from c._instructions.length prog := by
  induction prog generalizing c n with
  | nil =>
    refine ⟨[], ?_, rfl⟩
    simp [canonical_lines, ParseLines, assign_all]
  | cons st prog ih =>
    obtain ⟨h1, h2, h3⟩ := h st (List.mem_cons_self _ _)
    have hrest := fun x hx => h x (List.mem_cons_of_mem _ hx)
    cases hl : st.label with
    | none =>
      have hi := ProcessLine_instruction L labels c st.code st.operands file_idx (n + 1) h1 h3
      obtain ⟨kvs, e1, e2⟩ := ih hrest
        { c with _instructions := c._instructions
            ++ [{ code := st.code, Args := st.operands.map Operand.value }] } (n + 1)
      refine ⟨kvs, ?_, ?_⟩
      · simp only [canonical_lines, hl, List.nil_append, List.singleton_append]
        rw [ParseLines_cons L file_idx _ _ c _ n false false hi, e1]
        simp [Statement.instruction]
      · rw [e2]
        simp [labels_from, hl]
    | some name =>
      have hlab := ProcessLine_label L c name file_idx (n + 1) (by simpa [hl] using h2)
      have hi := ProcessLine_instruction L labels
        { c with _labels := UMap.assign L c._labels name
                              (LabelInfo.mk c._instructions.length file_idx (n + 1)) }
        st.code st.operands file_idx (n + 1 + 1) h1 h3
      obtain ⟨kvs, e1, e2⟩ := ih hrest
        { c with _labels := UMap.assign L c._labels name
                              (LabelInfo.mk c._instructions.length file_idx (n + 1)),
                 _instructions := c._instructions
                    ++ [{ code := st.code, Args := st.operands.map Operand.value }] } (n + 1 + 1)
      refine ⟨(name, LabelInfo.mk c._instructions.length file_idx (n + 1)) :: kvs, ?_, ?_⟩
      · simp only [canonical_lines, hl, List.singleton_append, List.cons_append,
          List.nil_append]
        rw [ParseLines_cons L file_idx _ _ c _ n false false hlab,
          ParseLines_cons L file_idx _ _ _ _ (n + 1) false false hi, e1]
        simp [Statement.instruction, assign_all]
      · simp only [List.map_cons, e2]
        simp [labels_from, hl]

theorem GenerateTables_go_eq (L : StdLib) (labels : UMap Str LabelInfo) (tables : UMap Str Int) :
    GenerateTables.go L labels tables
      = assign_all L tables (labels.map (fun e => (e.1, (e.2.instruction_index : Int)))) := by
  induction labels generalizing tables with
  | nil => rfl
  | cons e labels ih =>
    obtain ⟨label, info⟩ := e
    simp only [GenerateTables.go, List.map_cons, assign_all, ih]

theorem BuildReverseMaps_labels_eq (L : StdLib) (tables : UMap Str Int) (m : UMap Int Str) :
    BuildReverseMaps.labels L tables m = assign_all L m (tables.map (fun e => (e.2, e.1))) := by
  induction tables generalizing m with
  | nil => rfl
  | cons e tables ih =>
    obtain ⟨name, addr⟩ := e
    simp only [BuildReverseMaps.labels, List.map_cons, assign_all, ih]

theorem assign_all_perm {κ ν : Type} [DecidableEq κ] (L : StdLib) (kvs : List (κ × ν))
    (m : UMap κ ν) (h : (UMap.keys m ++ UMap.keys kvs).Nodup) :
    List.Perm (assign_all L m kvs) (m ++ kvs) := by
  induction kvs generalizing m with
  | nil => simp [assign_all]
  | cons e kvs ih =>
    obtain ⟨k, v⟩ := e
    have hk : k ∉ UMap.keys m := by
      intro hmem
      have := List.disjoint_of_nodup_append h
      exact this hmem (by simp [UMap.keys])
    have hc : UMap.contains m k = false := by
      cases hx : UMap.contains m k
      · rfl
      · exact absurd ((UMap.contains_iff m k).mp hx) hk
    have he : UMap.assign L m k v = L.link (k, v) m := by
      simp [UMap.assign, hc]
    have hp : List.Perm (L.link (k, v) m) ((k, v) :: m) := L.link_perm _ _
    have hn : (UMap.keys (L.link (k, v) m) ++ UMap.keys kvs).Nodup := by
      have h1 : List.Perm (UMap.keys (L.link (k, v) m) ++ UMap.keys kvs)
          (UMap.keys m ++ UMap.keys ((k, v) :: kvs)) := by
        have := (UMap.keys_link L (k, v) m).append_right (UMap.keys kvs)
        refine this.trans ?_
        simp only [UMap.keys, List.map_cons, List.cons_append]
        exact List.perm_middle.symm
      exact (List.Perm.nodup_iff h1).mpr h
    simp only [assign_all, he]
    refine (ih _ hn).trans ?_
    refine (hp.append_right kvs).trans ?_
    simp only [List.cons_append]
    exact List.perm_middle.symm

/-! ## `ValueToString` on the machine code of canonical operands -/

theorem FormatString_go_eq (s : Str) : FormatString.go s = escape_text s := by
  induction s with
  | nil => rfl
  | cons c s ih => simp only [FormatString.go, escape_text, escape_char, ih]

theorem FormatByteArray_go_false (bs : List Byte) :
    FormatByteArray.go bs false = (bs.map (fun b => lit ", " ++ hex_literal b)).flatten := by
  induction bs with
  | nil => rfl
  | cons b bs ih =>
    simp only [FormatByteArray.go, Bool.false_eq_true, if_false, ih, List.map_cons,
      List.flatten_cons, List.append_assoc]
    rfl

theorem FormatByteArray_eq (bs : List Byte) :
    FormatByteArray bs = (Operand.bytes bs).text := by
  unfold FormatByteArray
  cases bs with
  | nil => rfl
  | cons b bs =>
    simp only [FormatByteArray.go, if_true, List.nil_append, FormatByteArray_go_false,
      Operand.text, List.map_cons, join_comma_cons, List.map_map]
    rfl

theorem leBytes8_data (n : Nat) (h : n < 2 ^ 64) :
    (leBytes 8 n).length = 8 ∧ leNat (leBytes 8 n) = n ∧ leNat ((leBytes 8 n).take 8) = n := by
  have h1 := leBytes_length 8 n
  have h2 : leNat (leBytes 8 n) = n := leNat_leBytes_of_lt 8 n (by norm_num at h ⊢; omega)
  refine ⟨h1, h2, ?_⟩
  rw [List.take_of_length_le (by omega), h2]

theorem ValueToString_operand (L : StdLib) (d : Disassembler) (labels : List Int) (op : Operand)
    (h : op.ok labels) (hd : ∀ k : Int, k ∉ labels → UMap.find d._labelMap k = none) :
    ValueToString L d op.value = op.text := by
  cases op with
  | reg n =>
    have hn : n ≤ 63 := h
    have e : (Operand.reg n).value.to_uint8_t = n := by
      show leNat ((leBytes 1 n).take 1) = n
      rw [List.take_of_length_le (by rw [leBytes_length]), leNat_leBytes]
      omega
    unfold ValueToString
    simp only [show (Operand.reg n).value.is_reg = true from rfl, if_true, e]
    rfl
  | int k =>
    obtain ⟨h1, h2, h3⟩ := h
    obtain ⟨e1, e2, e3⟩ := leBytes8_data (toBits 64 k) (toBits_lt k)
    rcases h3 with h0 | ⟨hv, hl⟩
    · subst h0
      rfl
    · have el : (Operand.int k).value.to_long = k := by
        show toSigned 64 (leNat ((leBytes 8 (toBits 64 k)).take 8)) = k
        rw [e3]
        exact toSigned_toBits k h1 h2
      unfold ValueToString
      simp only [show (Operand.int k).value.is_reg = false from rfl,
        show (Operand.int k).value.is_table = false from rfl,
        show (Operand.int k).value.data = leBytes 8 (toBits 64 k) from rfl,
        Bool.false_eq_true, if_false, e1, e2, hv, and_false, if_true, el, hd k hl]
      rfl
  | str s =>
    obtain ⟨h1, h2⟩ := h
    have h0 : (0 : Byte) ∉ s :=
      fun hm => (string_char_facts _ (List.all_eq_true.mp h1 _ hm)).1 rfl
    have e1 : (s ++ [(0 : Byte)]).length ≠ 8 := by
      simp only [List.length_append, List.length_singleton]
      omega
    have e2 : (s ++ [(0 : Byte)]).getLast? = some 0 := List.getLast?_concat _
    have e3 : (Operand.str s).value.to_string = s := by
      show Value.to_string (Value.mk false false (s ++ [0])) = s
      simp only [Value.to_string, e2, if_true]
      exact cstr_append_zero s h0
    unfold ValueToString
    simp only [show (Operand.str s).value.is_reg = false from rfl,
      show (Operand.str s).value.is_table = false from rfl,
      show (Operand.str s).value.data = s ++ [0] from rfl,
      Bool.false_eq_true, if_false, e1, false_and, e2,
      if_true, e3, FormatString, FormatString_go_eq]
    rfl
  | bytes bs =>
    obtain ⟨h1, h2⟩ := h
    unfold ValueToString
    simp only [show (Operand.bytes bs).value.is_reg = false from rfl,
      show (Operand.bytes bs).value.is_table = false from rfl,
      show (Operand.bytes bs).value.data = bs from rfl,
      Bool.false_eq_true, if_false, h1, false_and, h2, FormatByteArray_eq]
  | table name =>
    have h0 : (0 : Byte) ∉ name :=
      fun hm => (plain_char_facts _ (List.all_eq_true.mp h _ hm)).2.2.2.2 rfl
    have e2 : (name ++ [(0 : Byte)]).getLast? = some 0 := List.getLast?_concat _
    have e3 : (Operand.table name).value.to_string = name := by
      show Value.to_string (Value.mk false true (name ++ [0])) = name
      simp only [Value.to_string, e2, if_true]
      exact cstr_append_zero name h0
    unfold ValueToString
    simp only [show (Operand.table name).value.is_reg = false from rfl,
      show (Operand.table name).value.is_table = true from rfl,
      Bool.false_eq_true, if_false, if_true, e3]
    rfl

theorem Disassemble_args_eq (L : StdLib) (d : Disassembler) (labels : List Int)
    (ops : List Operand) (h : ∀ op ∈ ops, op.ok labels)
    (hd : ∀ k : Int, k ∉ labels → UMap.find d._labelMap k = none) (first : Bool) :
    DisassembleInstruction.args L d (ops.map Operand.value) first = args_text ops first := by
  induction ops generalizing first with
  | nil => rfl
  | cons op ops ih =>
    simp only [List.map_cons, DisassembleInstruction.args, args_text,
      ValueToString_operand L d labels op (h op (List.mem_cons_self _ _)) hd,
      ih (fun x hx => h x (List.mem_cons_of_mem _ hx)) false]

/-! ## The label map of a canonical program -/

theorem UMap.find_eq_none {κ ν : Type} [DecidableEq κ] (m : UMap κ ν) (k : κ)
    (h : k ∉ UMap.keys m) : UMap.find m k = none := by
  cases hf : UMap.find m k with
  | none => rfl
  | some v =>
    exact absurd ((UMap.contains_iff m k).mp (by simp [UMap.contains, hf])) h

theorem labels_from_ge (i : Nat) (prog : List Statement) :
    ∀ e ∈ labels_from i prog, i ≤ e.2 := by
  induction prog generalizing i with
  | nil => simp [labels_from]
  | cons st prog ih =>
    intro e he
    simp only [labels_from, List.mem_append] at he
    rcases he with h1 | h1
    · cases hl : st.label with
      | none => simp [hl] at h1
      | some name =>
        simp only [hl, List.mem_singleton] at h1
        subst h1
        exact Nat.le_refl _
    · have := ih (i + 1) e h1
      omega

theorem labels_from_snd_nodup (i : Nat) (prog : List Statement) :
    ((labels_from i prog).map Prod.snd).Nodup := by
  induction prog generalizing i with
  | nil => simp [labels_from]
  | cons st prog ih =>
    cases hl : st.label with
    | none => simpa [labels_from, hl] using ih (i + 1)
    | some name =>
      simp only [labels_from, hl, List.singleton_append, List.map_cons, List.nodup_cons]
      refine ⟨?_, ih (i + 1)⟩
      intro hm
      obtain ⟨e, he, hei⟩ := List.mem_map.mp hm
      have := labels_from_ge (i + 1) prog e he
      omega

theorem find_label_list (prog : List Statement) (i j : Nat) :
    UMap.find ((labels_from i prog).map (fun e => ((e.2 : Int), e.1))) ((i + j : Nat) : Int)
      = (prog.get? j).bind (fun st => st.label) := by
  induction prog generalizing i j with
  | nil => simp [labels_from, UMap.find]
  | cons st prog ih =>
    cases j with
    | zero =>
      simp only [Nat.add_zero, List.get?_cons_zero, Option.some_bind]
      cases hl : st.label with
      | none =>
        simp only [labels_from, hl, List.nil_append]
        apply UMap.find_eq_none
        intro hm
        simp only [UMap.keys, List.map_map] at hm
        obtain ⟨e, he, hei⟩ := List.mem_map.mp hm
        have := labels_from_ge (i + 1) prog e he
        simp only [Function.comp_apply] at hei
        omega
      | some name =>
        simp [labels_from, hl, UMap.find]
    | succ j =>
      have e : i + (j + 1) = (i + 1) + j := by omega
      simp only [List.get?_cons_succ]
      rw [e, ← ih (i + 1) j]
      cases hl : st.label with
      | none => simp [labels_from, hl]
      | some name =>
        have hne : ¬ ((i : Int) = ((i + 1 + j : Nat) : Int)) := by omega
        simp only [labels_from, hl, List.singleton_append, List.map_cons, UMap.find, hne,
          if_false]

/-! ## Disassembling the machine code of a canonical program -/

theorem Disassemble_instructions_canonical (L : StdLib) (d : Disassembler) (labels : List Int)
    (suf : List Statement) (i : Nat)
    (hd : ∀ k : Int, k ∉ labels → UMap.find d._labelMap k = none)
    (hf : ∀ j st, suf.get? j = some st →
      UMap.find d._labelMap ((i + j : Nat) : Int) = st.label)
    (h : ∀ st ∈ suf, st.code.val < 16 ∧ ∀ op ∈ st.operands, op.ok labels) :
    Disassemble.instructions L d (suf.map Statement.instruction) (i : Int)
      = (canonical_text suf, ((i + suf.length : Nat) : Int)) := by
  induction suf generalizing i with
  | nil => simp [Disassemble.instructions, canonical_text]
  | cons st suf ih =>
    obtain ⟨h1, h2⟩ := h st (List.mem_cons_self _ _)
    obtain ⟨_, _, _, f4, _⟩ := opcode_name_facts st.code h1
    have hl := hf 0 st rfl
    simp only [Nat.add_zero] at hl
    have ih1 := ih (i + 1)
      (fun j st2 hj => by
        have := hf (j + 1) st2 (by simpa using hj)
        rw [show i + 1 + j = i + (j + 1) by omega]
        exact this)
      (fun x hx => h x (List.mem_cons_of_mem _ hx))
    have e1 : ((i : Nat) : Int) + 1 = ((i + 1 : Nat) : Int) := by push_cast; rfl
    simp only [List.map_cons, Disassemble.instructions, DisassembleInstruction, hl,
      Statement.instruction, f4, Disassemble_args_eq L d labels st.operands h2 hd true, e1]
    have ih2 : Disassemble.instructions L d (List.map Statement.instruction suf) ((i + 1 : Nat) : Int)
        = (canonical_text suf, ((i + 1 + suf.length : Nat) : Int)) := ih1
    simp only [Statement.instruction] at ih2
    rw [ih2]
    have enl : lit "\n" = [10] := by decide
    simp only [canonical_text, Statement.text, instruction_line_eq, enl, List.length_cons,
      List.append_assoc, Prod.mk.injEq]
    constructor
    · cases st.label <;> simp
    · congr 1
      omega

theorem Disassemble_tables_nil (d : Disassembler) (tables : UMap Str Int)
    (h : ∀ e ∈ tables, UMap.contains d._labelMap e.2 = true) :
    Disassemble.tables d tables = [] := by
  induction tables with
  | nil => rfl
  | cons e tables ih =>
    obtain ⟨name, addr⟩ := e
    have h1 : UMap.contains d._labelMap addr = true := h (name, addr) (List.mem_cons_self _ _)
    simp only [Disassemble.tables, h1, if_true, List.nil_append]
    exact ih (fun x hx => h x (List.mem_cons_of_mem _ hx))

theorem Canonical_lines_ok (prog : List Statement) (h : Canonical prog) :
    ∀ st ∈ prog, (∀ name, st.label = some name → (10 : Byte) ∉ name)
      ∧ (10 : Byte) ∉ instruction_line st.code st.operands := by
  intro st hst
  obtain ⟨h1, h2, h3⟩ := h.2 st hst
  refine ⟨fun name hn hm => ?_, instruction_line_no_newline _ st.code st.operands h1 h3⟩
  have h2n : name.all name_char = true := by simpa [hn] using h2
  have := (plain_char_facts _
    (name_char_facts _ (List.all_eq_true.mp h2n _ hm)).1).2.1
  revert this
  decide

theorem CompileString_canonical (L : StdLib) (prog : List Statement) (h : Canonical prog)
    (vm0 : VirtualMachine) :
    ∃ tables : UMap Str Int,
      CompileString L (canonical_text prog) vm0
        = Except.ok { vm0 with _instructions := prog.map Statement.instruction,
                               _tables := tables }
      ∧ List.Perm tables ((labels_from 0 prog).map (fun e => (e.1, (e.2 : Int)))) := by
  obtain ⟨kvs, e1, e2⟩ := ParseLines_canonical L
    ((labels_from 0 prog).map (fun e => (e.2 : Int))) (2 ^ 64 - 1) prog h.2
    { _labels := [], _tables := [], _instructions := [], _source_files := [] } 0
  simp only [List.nil_append, List.length_nil] at e1 e2
  have hk : UMap.keys kvs = (labels_from 0 prog).map Prod.fst := by
    rw [← e2]
    simp [UMap.keys]
  have hn1 : (UMap.keys ([] : UMap Str LabelInfo) ++ UMap.keys kvs).Nodup := by
    rw [hk]
    simpa [UMap.keys] using h.1
  have hp1 : List.Perm (assign_all L [] kvs) kvs := by
    simpa using assign_all_perm L kvs [] hn1
  have hn2 : (UMap.keys ([] : UMap Str Int) ++ UMap.keys
      ((assign_all L [] kvs).map (fun e => (e.1, (e.2.instruction_index : Int))))).Nodup := by
    have : UMap.keys ((assign_all L [] kvs).map (fun e => (e.1, (e.2.instruction_index : Int))))
        = UMap.keys (assign_all L [] kvs) := by
      simp [UMap.keys]
    rw [this]
    have hp : List.Perm (UMap.keys (assign_all L [] kvs)) (UMap.keys kvs) := hp1.map Prod.fst
    have hn : (UMap.keys kvs).Nodup := by rw [hk]; exact h.1
    simpa [UMap.keys] using (List.Perm.nodup_iff hp).mpr hn
  have hp2 := assign_all_perm L _ [] hn2
  refine ⟨GenerateTables.go L (assign_all L [] kvs) [], ?_, ?_⟩
  · unfold CompileString ParseString
    rw [getlines_canonical prog (Canonical_lines_ok prog h)]
    simp only [e1, bind, Except.bind, pure, Except.pure, ResolveReferences_unchanged,
      GenerateTables]
  · rw [GenerateTables_go_eq]
    refine hp2.trans ?_
    simp only [List.nil_append]
    refine (hp1.map _).trans ?_
    rw [← e2]
    simp [List.map_map, Function.comp_def]

theorem Disassemble_canonical (L : StdLib) (prog : List Statement) (h : Canonical prog)
    (instructions : List Instruction) (tables : UMap Str Int)
    (hi : instructions = prog.map Statement.instruction)
    (ht : List.Perm tables ((labels_from 0 prog).map (fun e => (e.1, (e.2 : Int)))))
    (vm : VirtualMachine) (hvi : vm._instructions = instructions) (hvt : vm._tables = tables) :
    (Disassemble L {} 0 vm).1 = canonical_text prog := by
  subst hi
  have hsw : List.Perm (tables.map (fun e => (e.2, e.1)))
      ((labels_from 0 prog).map (fun e => ((e.2 : Int), e.1))) := by
    have := ht.map (fun e => (e.2, e.1))
    simpa [List.map_map, Function.comp_def] using this
  have hkeys : UMap.keys ((labels_from 0 prog).map (fun e => ((e.2 : Int), e.1)))
      = (labels_from 0 prog).map (fun e => (e.2 : Int)) := by
    simp [UMap.keys, List.map_map, Function.comp_def]
  have hnd : ((labels_from 0 prog).map (fun e => (e.2 : Int))).Nodup := by
    have := (labels_from_snd_nodup 0 prog).map (f := fun n : Nat => (n : Int))
      (fun a b hab => by simpa using hab)
    simpa [List.map_map, Function.comp_def] using this
  have hn : (UMap.keys ([] : UMap Int Str) ++ UMap.keys (tables.map (fun e => (e.2, e.1)))).Nodup := by
    have hp : List.Perm (UMap.keys (tables.map (fun e => (e.2, e.1))))
        (UMap.keys ((labels_from 0 prog).map (fun e => ((e.2 : Int), e.1)))) := hsw.map Prod.fst
    rw [hkeys] at hp
    simpa [UMap.keys] using (List.Perm.nodup_iff hp).mpr hnd
  have hlm : List.Perm (BuildReverseMaps.labels L tables [])
      ((labels_from 0 prog).map (fun e => ((e.2 : Int), e.1))) := by
    rw [BuildReverseMaps_labels_eq]
    have := assign_all_perm L (tables.map (fun e => (e.2, e.1))) [] hn
    simp only [List.nil_append] at this
    exact this.trans hsw
  have hlk : List.Perm (UMap.keys (BuildReverseMaps.labels L tables []))
      ((labels_from 0 prog).map (fun e => (e.2 : Int))) := by
    have := hlm.map Prod.fst
    rw [← hkeys]
    exact this
  have hlnd : (UMap.keys (BuildReverseMaps.labels L tables [])).Nodup :=
    (List.Perm.nodup_iff hlk).mpr hnd
  have hd : ∀ k : Int, k ∉ (labels_from 0 prog).map (fun e => (e.2 : Int)) →
      UMap.find (BuildReverseMaps L {} vm)._labelMap k = none := by
    intro k hk
    apply UMap.find_eq_none
    show k ∉ UMap.keys (BuildReverseMaps.labels L vm._tables [])
    rw [hvt]
    exact fun hm => hk (hlk.mem_iff.mp hm)
  have hf : ∀ j st, prog.get? j = some st →
      UMap.find (BuildReverseMaps L {} vm)._labelMap ((0 + j : Nat) : Int) = st.label := by
    intro j st hj
    show UMap.find (BuildReverseMaps.labels L vm._tables []) _ = _
    rw [hvt, UMap.find_perm _ _ hlm hlnd, find_label_list prog 0 j, hj]
    rfl
  have htab : Disassemble.tables (BuildReverseMaps L {} vm) vm._tables = [] := by
    apply Disassemble_tables_nil
    intro e he
    apply (UMap.contains_iff _ _).mpr
    show e.2 ∈ UMap.keys (BuildReverseMaps.labels L vm._tables [])
    rw [hvt] at he ⊢
    apply hlk.mem_iff.mpr
    have := (ht.mem_iff).mp he
    obtain ⟨x, hx, hxe⟩ := List.mem_map.mp this
    exact List.mem_map.mpr ⟨x, hx, by rw [← hxe]⟩
  have hins := Disassemble_instructions_canonical L (BuildReverseMaps L {} vm)
    ((labels_from 0 prog).map (fun e => (e.2 : Int))) prog 0 hd hf
    (fun st hst => ⟨(h.2 st hst).1, (h.2 st hst).2.2⟩)
  unfold Disassemble
  simp only [hvi, htab, List.append_nil]
  have e0 : ((0 : Nat) : Int) = 0 := rfl
  rw [e0] at hins
  rw [hins]

/-- A source in canonical form assembles, and the first `Disassemble` of the assembled
program returns the source text itself. -/
theorem Disassemble_CompileString_canonical (L : StdLib) (prog : List Statement)
    (h : Canonical prog) (vm0 : VirtualMachine) :
    ∃ vm, CompileString L (canonical_text prog) vm0 = Except.ok vm
      ∧ (Disassemble L {} 0 vm).1 = canonical_text prog := by
  obtain ⟨tables, e1, e2⟩ := CompileString_canonical L prog h vm0
  exact ⟨_, e1, Disassemble_canonical L prog h _ tables rfl e2 _ rfl rfl⟩

theorem dropWhile_stop (z r : Str) (x : Byte) (hx : isspace x = false) :
    (z ++ x :: r).dropWhile isspace = z.dropWhile isspace ++ x :: r := by
  induction z with
  | nil => simp [List.dropWhile, hx]
  | cons a z ih =>
    by_cases ha : isspace a = true
    · simp [List.dropWhile, ha, ih]
    · simp [List.dropWhile, ha]

theorem rtrim_keep (pre post : Str) (x : Byte) (hx : isspace x = false) :
    ((pre ++ x :: post).reverse.dropWhile isspace).reverse
      = pre ++ x :: (post.reverse.dropWhile isspace).reverse := by
  have e : (pre ++ x :: post).reverse = post.reverse ++ x :: pre.reverse := by simp
  rw [e, dropWhile_stop _ _ _ hx]
  simp

theorem rtrim_spaces (core ws : Str) (hws : ws.all isspace = true)
    (hcore : core = [] ∨ ∃ c, core.getLast? = some c ∧ isspace c = false) :
    ((core ++ ws).reverse.dropWhile isspace).reverse = core := by
  have h1 : ∀ a ∈ ws.reverse, isspace a = true := fun a ha =>
    List.all_eq_true.mp hws a (List.mem_reverse.mp ha)
  rw [List.reverse_append, List.dropWhile_append_of_pos h1]
  rcases hcore with h | ⟨c, h2, h3⟩
  · subst h
    rfl
  · rw [dropWhile_of_head core.reverse c (by rw [List.head?_reverse]; exact h2) h3,
      List.reverse_reverse]

theorem Trim_pad (ind core ws : Str) (hind : ind.all isspace = true)
    (hws : ws.all isspace = true)
    (hcore : core = [] ∨ ((∃ a, core.head? = some a ∧ isspace a = false)
      ∧ ∃ c, core.getLast? = some c ∧ isspace c = false)) :
    Trim (ind ++ (core ++ ws)) = core := by
  unfold Trim
  rw [List.dropWhile_append_of_pos (fun a ha => List.all_eq_true.mp hind a ha)]
  rcases hcore with h | ⟨⟨a, h1, h2⟩, h3⟩
  · subst h
    have e : ws.dropWhile isspace = [] :=
      List.dropWhile_eq_nil_iff.mpr (fun a ha => List.all_eq_true.mp hws a ha)
    rw [List.nil_append, e]
    rfl
  · have e : (core ++ ws).dropWhile isspace = core ++ ws := by
      apply dropWhile_of_head _ a _ h2
      cases core with
      | nil => simp at h1
      | cons b r => simpa using h1
    rw [e]
    exact rtrim_spaces core ws hws (Or.inr h3)

theorem cond_jump_returns_zero (L : StdLib) (vm : VirtualMachine) (instruction : Instruction)
    (cond : Int → Bool) (r : Int × VirtualMachine)
    (hr : cond_jump L vm instruction cond = Except.ok r) : r.1 = 0 := by
  unfold cond_jump at hr
  simp only [bind, Except.bind, pure, Except.pure] at hr
  repeat' split at hr
  all_goals first
    | (injection hr with hr; rw [← hr])
    | (injection hr)

theorem Interpreter_returns_zero_or_halt (L : StdLib) (sys : SyscallTable) (indet : Bool)
    (vm vm1 : VirtualMachine) (instruction : Instruction) (code : Int)
    (h : Interpreter L sys indet vm instruction = Except.ok (code, vm1)) :
    code = 0 ∨ (code = 1 ∧ vm1 = vm ∧ instruction.code = OpCode.HALT) := by
  unfold Interpreter at h
  split at h
  all_goals try (simp only [bind, Except.bind, pure, Except.pure] at h)
  all_goals try (repeat' split at h)
  all_goals first
    | (left; exact cond_jump_returns_zero L vm instruction _ _ h)
    | (injection h with h; simp only [Prod.mk.injEq] at h; left; exact h.1.symm)
    | (injection h with h; simp only [Prod.mk.injEq] at h; right;
       exact ⟨h.1.symm, h.2.symm, Fin.ext (by assumption)⟩)
    | (injection h)

theorem Interpreter_halt (L : StdLib) (sys : SyscallTable) (indet : Bool) (vm : VirtualMachine)
    (instr : Instruction) (hc : instr.code = OpCode.HALT) :
    Interpreter L sys indet vm instr = Except.ok (1, vm) := by
  unfold Interpreter
  rw [hc]
  rfl

theorem Run_loop_halt (L : StdLib) (sys : SyscallTable) (indet : Bool) (start : Int)
    (fuel : Nat) (vm : VirtualMachine) (i : Nat) (instr : Instruction)
    (hi : vm._instructions.get? i = some instr) (hc : instr.code = OpCode.HALT) :
    Run.loop L sys indet start (fuel + 1) vm i
      = { trace := [i], result := some (Except.ok (1, vm)) } := by
  have hb : Run.body L sys indet start vm i instr = Except.ok (some 1, i, vm) := by
    unfold Run.body
    rw [Interpreter_halt L sys indet vm instr hc]
    rfl
  unfold Run.loop
  simp only [hi, hb]

theorem Run_loop_end (L : StdLib) (sys : SyscallTable) (indet : Bool) (start : Int)
    (fuel : Nat) (vm : VirtualMachine) (i : Nat) (hi : vm._instructions.get? i = none) :
    Run.loop L sys indet start (fuel + 1) vm i
      = { trace := [], result := some (Except.ok (0, vm)) } := by
  unfold Run.loop
  simp only [hi]

theorem Run_loop_returns (L : StdLib) (sys : SyscallTable) (indet : Bool) (start : Int)
    (fuel : Nat) (vm : VirtualMachine) (i : Nat) (code : Int) (vm1 : VirtualMachine)
    (h : (Run.loop L sys indet start fuel vm i).result = some (Except.ok (code, vm1))) :
    code = 0 ∨ (code = 1 ∧ ∃ j halt,
      (Run.loop L sys indet start fuel vm i).trace.getLast? = some j
      ∧ vm1._instructions.get? j = some halt ∧ halt.code = OpCode.HALT) := by
  induction fuel generalizing vm i with
  | zero => simp [Run.loop] at h
  | succ fuel ih =>
    cases hi : vm._instructions.get? i with
    | none =>
      rw [Run_loop_end L sys indet start fuel vm i hi] at h
      simp only [Option.some.injEq, Except.ok.injEq, Prod.mk.injEq] at h
      exact Or.inl h.1.symm
    | some instr =>
      unfold Run.loop at h ⊢
      simp only [hi] at h ⊢
      cases hb : Run.body L sys indet start vm i instr with
      | error f => simp [hb] at h
      | ok r =>
        obtain ⟨o, j, vm2⟩ := r
        cases o with
        | some c =>
          simp only [hb, Option.some.injEq, Except.ok.injEq, Prod.mk.injEq] at h ⊢
          obtain ⟨h1, h2⟩ := h
          subst h1 h2
          unfold Run.body at hb
          cases hint : Interpreter L sys indet vm instr with
          | error f => simp [hint, bind, Except.bind] at hb
          | ok r =>
            obtain ⟨c1, vm3⟩ := r
            simp only [hint, bind, Except.bind, pure, Except.pure] at hb
            rcases Interpreter_returns_zero_or_halt L sys indet vm vm3 instr c1 hint with
              h0 | ⟨h1, h2, h3⟩
            · subst h0
              simp only [ne_eq, not_true_eq_false, if_false] at hb
              split at hb
              · split at hb
                · simp at hb
                · simp at hb
              · simp at hb
            · subst h1 h2
              simp only [ne_eq, one_ne_zero, not_false_eq_true, if_true, Except.ok.injEq,
                Prod.mk.injEq, Option.some.injEq] at hb
              obtain ⟨hb1, _, hb3⟩ := hb
              subst hb1 hb3
              exact Or.inr ⟨rfl, i, instr, rfl, hi, h3⟩
        | none =>
          simp only [hb] at h ⊢
          rcases ih vm2 j h with h0 | ⟨h1, k, halt, h2, h3, h4⟩
          · exact Or.inl h0
          · refine Or.inr ⟨h1, k, halt, ?_, h3, h4⟩
            rw [List.getLast?_cons, h2]
            rfl

/-- C17. A run that comes to a `halt` stops there: `Interpreter` returns 1 and leaves the
machine (registers, snapshot, tables) as it was, and the loop of `Run` returns 1 at once,
with no further instruction interpreted and no error raised. A run whose iterator has
advanced past the last instruction returns 0 in the same way. And whenever `Execute`
returns, it returns 0, or it returns 1 and the last instruction interpreted was a `halt`. -/
theorem halt_ends_the_run (L : StdLib) (sys : SyscallTable) (indet : Bool) (start : Int)
    (fuel : Nat) (vm : VirtualMachine) (i : Nat) (instr : Instruction)
    (hi : vm._instructions.get? i = some instr) (hc : instr.code = OpCode.HALT) :
    Interpreter L sys indet vm instr = Except.ok (1, vm)
    ∧ Run.loop L sys indet start (fuel + 1) vm i
        = { trace := [i], result := some (Except.ok (1, vm)) }
    ∧ (∀ (vm0 : VirtualMachine) (j : Nat), vm0._instructions.get? j = none →
        Run.loop L sys indet start (fuel + 1) vm0 j
          = { trace := [], result := some (Except.ok (0, vm0)) })
    ∧ (∀ (vm0 : VirtualMachine) (table : Str) (code : Int) (vm1 : VirtualMachine),
        (Execute L sys indet fuel vm0 table).result = some (Except.ok (code, vm1)) →
        code = 0 ∨ (code = 1 ∧ ∃ j halt,
          (Execute L sys indet fuel vm0 table).trace.getLast? = some j
          ∧ vm1._instructions.get? j = some halt ∧ halt.code = OpCode.HALT)) :=
  ⟨Interpreter_halt L sys indet vm instr hc, Run_loop_halt L sys indet start fuel vm i instr hi hc,
    fun vm0 j hj => Run_loop_end L sys indet start fuel vm0 j hj,
    fun _ _ code vm1 h => Run_loop_returns L sys indet _ fuel _ 0 code vm1 h⟩

/-- Witness for C17: in `mov 7, R2 / halt / mov 8, R2` the `halt` at index 1 ends the run
with 1, and `Execute` interprets instructions 0 and 1 only. -/
theorem halt_ends_the_run_witness :
    halt_vm._instructions.get? 1 = some { code := OpCode.HALT, Args := [] }
    ∧ Run.loop StdLib.front [] false 0 1 halt_vm 1
        = { trace := [1], result := some (Except.ok (1, halt_vm)) }
    ∧ (Execute StdLib.front [] false 5 halt_vm (lit "main")).trace = [0, 1]
    ∧ (Execute StdLib.front [] false 5 halt_vm (lit "main")).returned = some 1 :=
  ⟨rfl, (halt_ends_the_run StdLib.front [] false 0 0 halt_vm 1 { code := OpCode.HALT, Args := [] }
      rfl rfl).2.1, by decide!, by decide!⟩

theorem intToString_natCast (n : Nat) : intToString (n : Int) = natToString n := by
  unfold intToString
  rw [if_neg (by omega)]
  rfl

theorem Run_loop_error (L : StdLib) (sys : SyscallTable) (indet : Bool) (start : Int)
    (fuel : Nat) (vm : VirtualMachine) (i : Nat) (instr : Instruction) (f : Fault)
    (hi : vm._instructions.get? i = some instr)
    (he : Interpreter L sys indet vm instr = Except.error f) :
    Run.loop L sys indet start (fuel + 1) vm i
      = { trace := [i], result := some (Except.error f) } := by
  have hb : Run.body L sys indet start vm i instr = Except.error f := by
    unfold Run.body
    rw [he]
    rfl
  unfold Run.loop
  simp only [hi, hb]

theorem Interpreter_sys (L : StdLib) (sys : SyscallTable) (indet : Bool) (vm : VirtualMachine)
    (instr : Instruction) (hc : instr.code = OpCode.SYS) :
    Interpreter L sys indet vm instr =
      match instr.Args with
      | [] => Except.error (Fault.error (lit "SYS call requires at least call ID"))
      | id :: args =>
        match UMap.find sys (id.to_uint8_t : Int) with
        | some method =>
          match method vm args with
          | Except.ok vm1 => Except.ok (0, vm1)
          | Except.error (Fault.error what) =>
            Except.error (Fault.error
              (lit "Syscall " ++ natToString id.to_uint8_t ++ lit " failed: " ++ what))
          | Except.error f => Except.error f
        | none =>
          Except.error (Fault.error (lit "Undefined syscall: " ++ natToString id.to_uint8_t)) := by
  unfold Interpreter
  rw [hc]
  simp only [show ((OpCode.SYS : OpCode) : Nat) = 15 from rfl]
  cases instr.Args with
  | nil => rfl
  | cons id args =>
    simp only [intToString_natCast]
    rfl

/-- C18. A `sys` instruction without arguments fails. With arguments `id :: args`, the id is
`id.to<uint8_t>()`: when a handler is registered under it, the handler is applied to the
machine and to `args`, the arguments after the first in their order; the instruction
succeeds with the machine the handler leaves when the handler returns, and fails with
`Syscall <id> failed: <message>` when the handler raises an error with that message. When
no handler is registered under the id, the instruction fails with `Undefined syscall: <id>`.
A failure of the instruction ends the run with that failure. -/
theorem sys_invokes_registered_handler (L : StdLib) (sys : SyscallTable) (indet : Bool)
    (vm : VirtualMachine) (instr : Instruction) (hc : instr.code = OpCode.SYS) :
    (instr.Args = [] →
      Interpreter L sys indet vm instr
        = Except.error (Fault.error (lit "SYS call requires at least call ID")))
    ∧ (∀ (id : Value) (args : List Value), instr.Args = id :: args →
        (∀ method, UMap.find sys (id.to_uint8_t : Int) = some method →
          (∀ vm1, method vm args = Except.ok vm1 →
            Interpreter L sys indet vm instr = Except.ok (0, vm1))
          ∧ (∀ what, method vm args = Except.error (Fault.error what) →
            Interpreter L sys indet vm instr = Except.error (Fault.error
              (lit "Syscall " ++ natToString id.to_uint8_t ++ lit " failed: " ++ what))))
        ∧ (UMap.find sys (id.to_uint8_t : Int) = none →
            Interpreter L sys indet vm instr = Except.error (Fault.error
              (lit "Undefined syscall: " ++ natToString id.to_uint8_t))))
    ∧ (∀ (f : Fault) (start : Int) (fuel i : Nat), vm._instructions.get? i = some instr →
        Interpreter L sys indet vm instr = Except.error f →
        Run.loop L sys indet start (fuel + 1) vm i
          = { trace := [i], result := some (Except.error f) }) := by
  have h := Interpreter_sys L sys indet vm instr hc
  refine ⟨fun ha => ?_, fun id args ha => ⟨fun method hm => ⟨fun vm1 h1 => ?_, fun what h1 => ?_⟩,
    fun hm => ?_⟩, fun f start fuel i hi he => Run_loop_error L sys indet start fuel vm i instr f hi he⟩
  · rw [h, ha]
  · rw [h, ha]
    simp only [hm, h1]
  · rw [h, ha]
    simp only [hm, h1]
  · rw [h, ha]
    simp only [hm]

/-- Witness for C18: `sys 7, "hi"` with the sample handler under id 7 appends `hi` to the
output; `sys 7` makes the handler fail and yields `Syscall 7 failed: missing argument`;
`sys 9` yields `Undefined syscall: 9`. -/
theorem sys_invokes_registered_handler_witness :
    Interpreter StdLib.front sample_syscalls false {}
        { code := OpCode.SYS, Args := [sample_int 7, { data := lit "hi" ++ [0] }] }
      = Except.ok (0, { cout := lit "hi" })
    ∧ Interpreter StdLib.front sample_syscalls false {}
        { code := OpCode.SYS, Args := [sample_int 7] }
      = Except.error (Fault.error (lit "Syscall 7 failed: missing argument"))
    ∧ Interpreter StdLib.front sample_syscalls false {}
        { code := OpCode.SYS, Args := [sample_int 9] }
      = Except.error (Fault.error (lit "Undefined syscall: 9")) :=
  ⟨((sys_invokes_registered_handler StdLib.front sample_syscalls false {}
      { code := OpCode.SYS, Args := [sample_int 7, { data := lit "hi" ++ [0] }] } rfl).2.1
      (sample_int 7) [{ data := lit "hi" ++ [0] }] rfl).1 sample_handler rfl |>.1
      { cout := lit "hi" } (by rfl),
   by rfl, by rfl⟩

/-! ## Lookup in a map after an assignment -/

theorem UMap.find_replace {κ ν : Type} [DecidableEq κ] (m : UMap κ ν) (k : κ) (v : ν) (k1 : κ)
    (hk : k ∈ UMap.keys m) :
    UMap.find (UMap.replace m k v) k1 = if k = k1 then some v else UMap.find m k1 := by
  induction m with
  | nil => simp [UMap.keys] at hk
  | cons e m ih =>
    obtain ⟨k0, v0⟩ := e
    by_cases h0 : k0 = k
    · subst h0
      by_cases h1 : k0 = k1
      · simp [UMap.replace, UMap.find, h1]
      · simp [UMap.replace, UMap.find, h1]
    · have hk1 : k ∈ UMap.keys m := by
        simp only [UMap.keys, List.map_cons, List.mem_cons] at hk
        rcases hk with h | h
        · exact absurd h.symm h0
        · exact h
      simp only [UMap.replace, h0, if_false, UMap.find, ih hk1]
      by_cases h1 : k0 = k1
      · have h2 : ¬ k = k1 := fun h => h0 (h1.trans h.symm)
        simp [h1, h2]
      · simp [h1]

theorem UMap.nodup_assign {κ ν : Type} [DecidableEq κ] (L : StdLib) (m : UMap κ ν) (k : κ)
    (v : ν) (hn : (UMap.keys m).Nodup) : (UMap.keys (UMap.assign L m k v)).Nodup := by
  unfold UMap.assign
  by_cases h : UMap.contains m k = true
  · simp only [h, if_true, UMap.keys_replace]
    exact hn
  · have hk : k ∉ UMap.keys m := fun hm => h ((UMap.contains_iff m k).mpr hm)
    rw [if_neg h]
    exact (UMap.keys_link L (k, v) m).nodup_iff.mpr (List.nodup_cons.mpr ⟨hk, hn⟩)

theorem UMap.find_assign {κ ν : Type} [DecidableEq κ] (L : StdLib) (m : UMap κ ν) (k : κ)
    (v : ν) (k1 : κ) (hn : (UMap.keys m).Nodup) :
    UMap.find (UMap.assign L m k v) k1 = if k = k1 then some v else UMap.find m k1 := by
  have hnd := UMap.nodup_assign L m k v hn
  unfold UMap.assign at hnd ⊢
  by_cases h : UMap.contains m k = true
  · simp only [h, if_true]
    exact UMap.find_replace m k v k1 ((UMap.contains_iff m k).mp h)
  · rw [if_neg h] at hnd ⊢
    rw [UMap.find_perm _ _ (L.link_perm (k, v) m) hnd]
    rfl

/-- C19. `RegisterSyscall(0, m)` returns false and leaves the syscall table as it was. For
an id other than 0, `RegisterSyscall(id, m)` returns true, the table afterwards has `m`
under `id` (whatever was registered there before), and the entry of every other id is what
it was. The table is a map: each id occurs in it once, before and after. -/
theorem RegisterSyscall_replaces_handler (L : StdLib) (sys : SyscallTable) (id : Int)
    (method : VirtualMethod) (hn : (UMap.keys sys).Nodup) :
    RegisterSyscall L sys 0 method = (false, sys)
    ∧ (id ≠ 0 →
        (RegisterSyscall L sys id method).1 = true
        ∧ UMap.find (RegisterSyscall L sys id method).2 id = some method
        ∧ (∀ other, other ≠ id →
            UMap.find (RegisterSyscall L sys id method).2 other = UMap.find sys other)
        ∧ (UMap.keys (RegisterSyscall L sys id method).2).Nodup) := by
  refine ⟨rfl, fun hid => ?_⟩
  have e : RegisterSyscall L sys id method = (true, UMap.assign L sys id method) := by
    unfold RegisterSyscall
    rw [if_neg hid]
  rw [e]
  refine ⟨rfl, ?_, fun other ho => ?_, UMap.nodup_assign L sys id method hn⟩
  · rw [UMap.find_assign L sys id method id hn, if_pos rfl]
  · rw [UMap.find_assign L sys id method other hn, if_neg (fun h => ho h.symm)]

/-- Witness for C19: registering a handler under id 7, where `sample_handler` was, and
under the fresh id 8. -/
theorem RegisterSyscall_replaces_handler_witness :
    (UMap.keys sample_syscalls).Nodup ∧ (7 : Int) ≠ 0
    ∧ (RegisterSyscall StdLib.front sample_syscalls 7 (fun vm _ => Except.ok vm)).1 = true
    ∧ UMap.find (RegisterSyscall StdLib.front sample_syscalls 7 (fun vm _ => Except.ok vm)).2 7
        = some (fun vm _ => Except.ok vm)
    ∧ (UMap.find (RegisterSyscall StdLib.back sample_syscalls 8 (fun vm _ => Except.ok vm)).2 7
        = some sample_handler) :=
  ⟨by decide, by decide,
   ((RegisterSyscall_replaces_handler StdLib.front sample_syscalls 7 (fun vm _ => Except.ok vm)
      (by decide)).2 (by decide)).1,
   ((RegisterSyscall_replaces_handler StdLib.front sample_syscalls 7 (fun vm _ => Except.ok vm)
      (by decide)).2 (by decide)).2.1,
   by rfl⟩

/-- C20, the code at the failing input. `SetRegisterValue` and `GetRegisterValue` check the
index and raise `Register index out of range` for index 200. The source `mov 1, 200`
assembles to a `mov` whose second operand is the integer 200; `Execute` interprets it and
evaluates `_regs[200] = src` on the 64-entry register file without any check, which the
language leaves undefined: no error is raised. -/
theorem mov_to_index_200_is_unchecked :
    SetRegisterValue {} 200 (sample_int 1)
      = Except.error (Fault.error (lit "Register index out of range"))
    ∧ GetRegisterValue {} 200 = Except.error (Fault.error (lit "Register index out of range"))
    ∧ (CompileString StdLib.front src_mov_200 {}).toOption.map (fun vm => vm._instructions)
      = some [{ code := OpCode.MOV, Args := [sample_int 1, sample_int 200] }]
    ∧ (CompileString StdLib.front src_mov_200 {}).toOption.map (fun vm => vm._regs.length)
      = some 64
    ∧ (CompileString StdLib.front src_mov_200 {}).toOption.map
        (fun vm => (Execute StdLib.front [] false 5 vm (lit "main")).trace) = some [0]
    ∧ (CompileString StdLib.front src_mov_200 {}).toOption.map
        (fun vm => (Execute StdLib.front [] false 5 vm (lit "main")).fault)
      = some (some Fault.undefined) := by
  refine ⟨rfl, rfl, ?_, ?_, ?_, ?_⟩ <;> decide!


/-! ## The header check of `LoadFromFile` -/

/-- C15. For every image of at least four bytes whose first four bytes are not
`'V' 'M' 'C' 0x01`, `LoadFromFile` returns false and the machine is what it was before the
call. For every image that starts with those four bytes the check passes: the function goes
on to read the tables and the instructions from the bytes after the header, and when it
returns it returns true. -/
theorem LoadFromFile_checks_header (L : StdLib) (indet : Nat → Nat → Bool)
    (vm : VirtualMachine) (file : List Byte) (hlen : 4 ≤ file.length)
    (hbad : file.take 4 ≠ [86, 77, 67, 1]) :
    LoadFromFile L indet vm file = Except.ok (false, vm)
    ∧ (∀ rest : List Byte,
        LoadFromFile L indet vm ([86, 77, 67, 1] ++ rest)
          = (do
              let nt ← file_read 4 rest
              let t ← DeserializeTables L nt.2 (leNat nt.1)
              let ni ← file_read 4 t.2
              let instructions ← LoadInstructions indet (leNat ni.1) 0 ni.2
              pure (true, { vm with _tables := t.1, _instructions := instructions }))
        ∧ ∀ r, LoadFromFile L indet vm ([86, 77, 67, 1] ++ rest) = Except.ok r → r.1 = true) := by
  have hgood : ∀ rest : List Byte,
      LoadFromFile L indet vm ([86, 77, 67, 1] ++ rest)
        = (do
            let nt ← file_read 4 rest
            let t ← DeserializeTables L nt.2 (leNat nt.1)
            let ni ← file_read 4 t.2
            let instructions ← LoadInstructions indet (leNat ni.1) 0 ni.2
            pure (true, { vm with _tables := t.1, _instructions := instructions })) := by
    intro rest
    have e : file_read 4 ([86, 77, 67, 1] ++ rest) = Except.ok ([86, 77, 67, 1], rest) := by
      unfold file_read
      rw [if_pos (by simp)]
      rfl
    unfold LoadFromFile
    simp only [e, bind, Except.bind, header, ne_eq, not_true_eq_false, if_false]
  refine ⟨?_, fun rest => ⟨hgood rest, fun r hr => ?_⟩⟩
  · unfold LoadFromFile file_read
    rw [if_pos hlen]
    simp only [bind, Except.bind, header, ne_eq, hbad, not_false_eq_true, if_true]
    rfl
  · rw [hgood rest] at hr
    simp only [bind, Except.bind, pure, Except.pure] at hr
    repeat' split at hr
    all_goals first
      | (injection hr with hr; rw [← hr])
      | (injection hr)

/-- Witness for C15: an image with the version byte 2 is refused and the machine kept; the
twelve-byte image of the empty program is accepted. -/
theorem LoadFromFile_checks_header_witness :
    4 ≤ ([86, 77, 67, 2, 0, 0, 0, 0, 0, 0, 0, 0] : List Byte).length
    ∧ ([86, 77, 67, 2, 0, 0, 0, 0, 0, 0, 0, 0] : List Byte).take 4 ≠ [86, 77, 67, 1]
    ∧ LoadFromFile StdLib.front (fun _ _ => false) sample_vm
        [86, 77, 67, 2, 0, 0, 0, 0, 0, 0, 0, 0] = Except.ok (false, sample_vm)
    ∧ LoadFromFile StdLib.front (fun _ _ => false) sample_vm
        [86, 77, 67, 1, 0, 0, 0, 0, 0, 0, 0, 0]
        = Except.ok (true, { sample_vm with _tables := [], _instructions := [] }) :=
  ⟨by decide, by decide,
   (LoadFromFile_checks_header StdLib.front (fun _ _ => false) sample_vm
      [86, 77, 67, 2, 0, 0, 0, 0, 0, 0, 0, 0] (by decide) (by decide)).1,
   by rfl⟩

/-! ## The layout of the image written by `SaveToFile` -/

theorem leBytes_mod (w n : Nat) : leBytes w (n % 256 ^ w) = leBytes w n := by
  induction w generalizing n with
  | zero => rfl
  | succ w ih =>
    have h1 : n % 256 ^ (w + 1) % 256 = n % 256 :=
      Nat.mod_mod_of_dvd n (Dvd.intro_left (256 ^ w) rfl)
    have h2 : n % 256 ^ (w + 1) / 256 = n / 256 % 256 ^ w := by
      rw [pow_succ', Nat.mod_mul_right_div_self]
    simp only [leBytes, h1, h2, ih]

theorem leBytes4_mod (n : Nat) : leBytes 4 (n % 2 ^ 32) = leBytes 4 n :=
  leBytes_mod 4 n

theorem WriteSizedData_whole (d : List Byte) (h : d.length < 2 ^ 32) (hne : d ≠ []) :
    WriteSizedData d (d.length % 2 ^ 32) = spec_u32 d.length ++ d := by
  have hm : d.length % 2 ^ 32 = d.length := Nat.mod_eq_of_lt h
  have hp : d.length > 0 := List.length_pos.mpr hne
  unfold WriteSizedData spec_u32
  rw [hm, if_pos hp, List.take_length]

theorem SerializeTables_layout (tables : UMap Str Int)
    (h : ∀ e ∈ tables, e.1.length + 1 < 2 ^ 32) :
    SerializeTables tables = (tables.map spec_table_entry).flatten := by
  induction tables with
  | nil => rfl
  | cons e tables ih =>
    obtain ⟨key, value⟩ := e
    have h1 : (key ++ [0]).length < 2 ^ 32 := by
      simpa using h (key, value) (List.mem_cons_self _ _)
    have e1 := WriteSizedData_whole (key ++ [0]) h1 (by simp)
    simp only [List.length_append, List.length_singleton] at e1
    simp only [SerializeTables, e1, ih (fun x hx => h x (List.mem_cons_of_mem _ hx)),
      List.map_cons, List.flatten_cons, spec_table_entry, List.append_assoc]

theorem SerializeArgs_layout (args : List Value) :
    SerializeArgs args = (args.map spec_argument).flatten := by
  induction args with
  | nil => rfl
  | cons v args ih =>
    simp only [SerializeArgs, SerializeValue, leBytes4_mod, ih, List.map_cons, List.flatten_cons,
      spec_argument, spec_u32]

theorem SerializeInstruction_layout (i : Instruction) :
    SerializeInstruction i = spec_payload i := by
  have e : (Fin.ofNat (i.Args.length % 256) : Byte) = Fin.ofNat i.Args.length :=
    Fin.ext (Nat.mod_mod _ _)
  simp only [SerializeInstruction, SerializeArgs_layout, e, spec_payload]
  rfl

theorem spec_payload_length (i : Instruction) : (spec_payload i).length = spec_size i := by
  have h : ∀ args : List Value,
      ((args.map spec_argument).flatten).length
        = (args.map (fun v => 5 + v.data.length)).sum := by
    intro args
    induction args with
    | nil => rfl
    | cons v args ih =>
      simp only [List.map_cons, List.flatten_cons, List.length_append, ih, List.sum_cons,
        spec_argument, spec_u32, leBytes_length, List.length_singleton]
  simp only [spec_payload, spec_size, List.length_append, h, List.length_cons, List.length_nil]

theorem SaveInstructions_layout (instructions : List Instruction)
    (h : ∀ i ∈ instructions, spec_size i < 2 ^ 32) :
    SaveInstructions instructions = (instructions.map spec_instruction).flatten := by
  induction instructions with
  | nil => rfl
  | cons i instructions ih =>
    have h1 : (spec_payload i).length < 2 ^ 32 := by
      rw [spec_payload_length]
      exact h i (List.mem_cons_self _ _)
    have hne : spec_payload i ≠ [] := by simp [spec_payload]
    have e1 := WriteSizedData_whole (spec_payload i) h1 hne
    rw [spec_payload_length] at e1
    simp only [SaveInstructions, SerializeInstruction_layout, e1,
      ih (fun x hx => h x (List.mem_cons_of_mem _ hx)), List.map_cons, List.flatten_cons,
      spec_instruction, spec_payload_length]

theorem SaveToFile_name_wraps (name : Str) (value : Int)
    (h : (name.length + 1) % 2 ^ 32 = 0) :
    SaveToFile [] [(name, value)]
      = [86, 77, 67, 1, 1, 0, 0, 0, 0, 0, 0, 0] ++ leBytes 8 (toBits 64 value) ++ [0, 0, 0, 0] := by
  have hw : WriteSizedData (name ++ [0]) 0 = [0, 0, 0, 0] := by
    unfold WriteSizedData
    rw [if_neg (lt_irrefl 0)]
    rfl
  unfold SaveToFile
  rw [SerializeTables, h, hw]
  have a1 : leBytes 4 (1 % 2 ^ 32) = [1, 0, 0, 0] := by decide
  have a2 : leBytes 4 (0 % 2 ^ 32) = [0, 0, 0, 0] := by decide
  simp only [SerializeTables, SaveInstructions, List.append_nil, List.append_assoc,
    List.length_cons, List.length_nil, Nat.zero_add, a1, a2, header, List.cons_append,
    List.nil_append]

theorem spec_image_single_length (name : Str) (value : Int) :
    (spec_image [] [(name, value)]).length = name.length + 25 := by
  simp only [spec_image, spec_table_entry, spec_u32, List.map_cons, List.map_nil,
    List.flatten_cons, List.flatten_nil, List.length_append, List.length_cons, List.length_nil,
    leBytes_length]
  omega


/-- C16, amended. For every program whose instructions each have at most 255 arguments and
a payload below `2^32` bytes, and whose table names are shorter than `2^32 - 1` bytes, the
image written by `SaveToFile` is exactly the layout of the specification: the bytes
`'V' 'M' 'C' 0x01`, the table count, per table the name length plus one, the name, a zero
byte and the 8-byte value, the instruction count, and per instruction the size and a payload
of exactly that many bytes, the size being `2 + Σ (5 + datalen)`; the argument-count byte is
the number of arguments. The image of the empty program is `56 4D 43 01` and eight zero
bytes. -/
theorem SaveToFile_writes_the_layout (instructions : List Instruction) (tables : UMap Str Int)
    (hargs : ∀ i ∈ instructions, i.Args.length ≤ 255)
    (hsize : ∀ i ∈ instructions, spec_size i < 2 ^ 32)
    (hname : ∀ e ∈ tables, e.1.length + 1 < 2 ^ 32) :
    SaveToFile instructions tables = spec_image instructions tables
    ∧ (∀ i ∈ instructions, (spec_payload i).length = spec_size i
        ∧ ((Fin.ofNat i.Args.length : Byte) : Nat) = i.Args.length)
    ∧ SaveToFile [] [] = [86, 77, 67, 1, 0, 0, 0, 0, 0, 0, 0, 0] := by
  refine ⟨?_, fun i hi => ⟨spec_payload_length i, ?_⟩, by decide⟩
  · simp only [SaveToFile, header, leBytes4_mod, SerializeTables_layout tables hname,
      SaveInstructions_layout instructions hsize, spec_image, spec_u32]
  · show i.Args.length % 256 = i.Args.length
    exact Nat.mod_eq_of_lt (by have := hargs i hi; omega)

/-- Witness for C16 (amended): the sample program `mov 3, R0 / jmp #main / halt` with the
tables `main → 0`, `done → 2`. -/
theorem SaveToFile_writes_the_layout_witness :
    (∀ i ∈ sample_program, i.Args.length ≤ 255)
    ∧ (∀ i ∈ sample_program, spec_size i < 2 ^ 32)
    ∧ (∀ e ∈ sample_tables, e.1.length + 1 < 2 ^ 32)
    ∧ SaveToFile sample_program sample_tables = spec_image sample_program sample_tables
    ∧ sample_program.map spec_size = [21, 12, 2] :=
  ⟨by decide, by decide!, by decide!,
   (SaveToFile_writes_the_layout sample_program sample_tables (by decide) (by decide!)
      (by decide!)).1, by decide⟩

/-- C16, counterexample. No instruction of the program with no instructions has more than
255 arguments; yet with a table name of `2^32 - 1` bytes the image is 24 bytes long: the
length field of the entry holds 0, not the name length plus one, and neither the name bytes
nor the zero byte are written. The layout of the specification has `2^32 + 24` bytes. -/
theorem image_of_long_name_differs :
    (∀ i ∈ ([] : List Instruction), i.Args.length ≤ 255)
    ∧ SaveToFile [] long_name_tables
        = [86, 77, 67, 1, 1, 0, 0, 0, 0, 0, 0, 0, 0, 0, 0, 0, 0, 0, 0, 0, 0, 0, 0, 0]
    ∧ (spec_image [] long_name_tables).length = 2 ^ 32 + 24
    ∧ SaveToFile [] long_name_tables ≠ spec_image [] long_name_tables := by
  have hl : (List.replicate (2 ^ 32 - 1) (65 : Byte)).length = 2 ^ 32 - 1 :=
    List.length_replicate _ _
  have e1 := SaveToFile_name_wraps (List.replicate (2 ^ 32 - 1) 65) 0 (by rw [hl]; norm_num)
  have e2 := spec_image_single_length (List.replicate (2 ^ 32 - 1) 65) 0
  rw [hl] at e2
  refine ⟨fun i hi => (by cases hi), e1, e2, fun h => ?_⟩
  have h1 := congrArg List.length h
  have e3 : (SaveToFile [] long_name_tables).length = 24 := by
    rw [show SaveToFile [] long_name_tables = _ from e1]
    rfl
  rw [e3, show (spec_image [] long_name_tables).length = _ from e2] at h1
  revert h1
  norm_num


/-! ## What `ProcessLine` does with a line of each kind -/

theorem ProcessLine_effect (L : StdLib) (c c1 : Compiler) (line : Str) (file_idx : Nat)
    (line_num : Int) (icb icb1 : Bool)
    (h : ProcessLine L c line file_idx line_num icb = Except.ok (c1, icb1)) :
    icb1 = (ProcessLine.strip line icb).2 ∧
    match line_kind line icb with
    | LineKind.blank => c1 = c
    | LineKind.directive name => c1 = { c with _tables := UMap.assign L c._tables name 0 }
    | LineKind.label name =>
      c1 = { c with _labels := UMap.assign L c._labels name
                      (LabelInfo.mk c._instructions.length file_idx line_num) }
    | LineKind.instruction text =>
      ∃ instr, ParseInstruction L text = Except.ok instr
        ∧ c1 = { c with _instructions := c._instructions ++ [instr] } := by
  unfold ProcessLine at h
  unfold line_kind
  rcases hs : ProcessLine.strip line icb with ⟨o, b⟩
  rw [hs] at h
  cases o with
  | none =>
    simp only [Except.ok.injEq, Prod.mk.injEq] at h
    obtain ⟨h1, h2⟩ := h
    subst h1 h2
    exact ⟨rfl, rfl⟩
  | some text =>
    simp only [] at h
    by_cases ht : startsWith (lit "#table") text = true
    · simp only [ht, if_true] at h ⊢
      split at h
      · rename_i token htok
        simp only [Except.ok.injEq, Prod.mk.injEq] at h
        obtain ⟨h1, h2⟩ := h
        subst h1 h2
        simp only [htok]
        constructor <;> first | rfl | trivial
      · cases h
    · have ht1 : startsWith (lit "#table") text = false := by simpa using ht
      simp only [ht1, Bool.false_eq_true, if_false] at h ⊢
      by_cases hl : text.getLast? = some 58
      · simp only [hl, if_true] at h ⊢
        simp only [Except.ok.injEq, Prod.mk.injEq] at h
        obtain ⟨h1, h2⟩ := h
        subst h1 h2
        exact ⟨rfl, rfl⟩
      · simp only [hl, if_false] at h ⊢
        split at h
        · rename_i instr hp
          simp only [Except.ok.injEq, Prod.mk.injEq] at h
          obtain ⟨h1, h2⟩ := h
          subst h1 h2
          exact ⟨rfl, instr, hp, rfl⟩
        · cases h
        · cases h

/-! ## The maps of the compiler after a sequence of lines -/

theorem last_label_cons (d : Str × Option Nat) (ds : List (Str × Option Nat)) (name : Str) :
    last_label (d :: ds) name = (last_label ds name).or (if d.1 = name then d.2 else none) := by
  unfold last_label
  rw [List.filterMap_cons]
  cases hd : (if d.1 = name then d.2 else none) with
  | none => simp [Option.or_none]
  | some i =>
    simp only []
    rw [← List.singleton_append, List.getLast?_append]
    rfl

theorem last_label_nil (name : Str) : last_label [] name = none := rfl

theorem ParseLines_bindings (L : StdLib) (file_idx : Nat) (lines : List Str) (c c1 : Compiler)
    (line_num : Int) (icb : Bool)
    (h : ParseLines L file_idx lines c line_num icb = Except.ok c1)
    (hl : (UMap.keys c._labels).Nodup) (ht : (UMap.keys c._tables).Nodup) :
    (UMap.keys c1._labels).Nodup ∧ (UMap.keys c1._tables).Nodup
    ∧ ∀ name,
        (UMap.find c1._labels name).map (fun info => info.instruction_index)
          = (last_label (declarations.go lines icb c._instructions.length) name).or
              ((UMap.find c._labels name).map (fun info => info.instruction_index))
        ∧ UMap.find c1._tables name
          = if (name, none) ∈ declarations.go lines icb c._instructions.length then some 0
            else UMap.find c._tables name := by
  induction lines generalizing c line_num icb with
  | nil =>
    simp only [ParseLines, Except.ok.injEq] at h
    subst h
    refine ⟨hl, ht, fun name => ?_⟩
    simp [declarations.go, last_label_nil]
  | cons line lines ih =>
    simp only [ParseLines, bind, Except.bind] at h
    split at h
    · cases h
    · rename_i r hr
      obtain ⟨c2, icb2⟩ := r
      obtain ⟨e1, e2⟩ := ProcessLine_effect L c c2 line file_idx (line_num + 1) icb icb2 hr
      subst e1
      simp only [] at h
      cases hk : line_kind line icb with
      | blank =>
        rw [hk] at e2
        simp only [] at e2
        subst e2
        obtain ⟨a1, a2, a3⟩ := ih c2 (line_num + 1) _ h hl ht
        refine ⟨a1, a2, fun name => ?_⟩
        simp only [declarations.go, hk]
        exact a3 name
      | directive dname =>
        rw [hk] at e2
        simp only [] at e2
        subst e2
        obtain ⟨a1, a2, a3⟩ := ih _ (line_num + 1) _ h hl (UMap.nodup_assign L _ _ _ ht)
        refine ⟨a1, a2, fun name => ?_⟩
        obtain ⟨b1, b2⟩ := a3 name
        simp only [declarations.go, hk]
        refine ⟨?_, ?_⟩
        · rw [b1, last_label_cons]
          simp [Option.or_none]
        · rw [b2, UMap.find_assign L _ _ _ _ ht]
          by_cases hn : dname = name
          · subst hn
            simp
          · have hn1 : ¬ name = dname := fun h0 => hn h0.symm
            simp [hn, hn1]
      | label lname =>
        rw [hk] at e2
        simp only [] at e2
        subst e2
        obtain ⟨a1, a2, a3⟩ := ih _ (line_num + 1) _ h (UMap.nodup_assign L _ _ _ hl) ht
        refine ⟨a1, a2, fun name => ?_⟩
        obtain ⟨b1, b2⟩ := a3 name
        simp only [declarations.go, hk]
        refine ⟨?_, ?_⟩
        · rw [b1, last_label_cons, UMap.find_assign L _ _ _ _ hl]
          generalize last_label _ name = a
          by_cases hn : lname = name
          · cases a <;> simp [hn]
          · cases a <;> simp [hn]
        · rw [b2]
          simp
      | instruction text =>
        rw [hk] at e2
        simp only [] at e2
        obtain ⟨instr, _, e3⟩ := e2
        subst e3
        obtain ⟨a1, a2, a3⟩ := ih _ (line_num + 1) _ h hl ht
        refine ⟨a1, a2, fun name => ?_⟩
        simp only [declarations.go, hk]
        have := a3 name
        simpa using this

theorem GenerateTables_find (L : StdLib) (labels : UMap Str LabelInfo) (tables : UMap Str Int)
    (hl : (UMap.keys labels).Nodup) (ht : (UMap.keys tables).Nodup) (name : Str) :
    UMap.find (GenerateTables.go L labels tables) name
      = ((UMap.find labels name).map (fun info => (info.instruction_index : Int))).or
          (UMap.find tables name) := by
  induction labels generalizing tables with
  | nil => simp [GenerateTables.go, UMap.find]
  | cons e labels ih =>
    obtain ⟨label, info⟩ := e
    simp only [UMap.keys, List.map_cons, List.nodup_cons] at hl
    simp only [GenerateTables.go]
    rw [ih _ hl.2 (UMap.nodup_assign L _ _ _ ht), UMap.find_assign L _ _ _ _ ht]
    by_cases hn : label = name
    · subst hn
      have : UMap.find labels label = none := UMap.find_eq_none labels label hl.1
      simp [UMap.find, this]
    · simp [UMap.find, hn]

theorem CompileString_ok (L : StdLib) (source : Str) (vm0 vm : VirtualMachine)
    (h : CompileString L source vm0 = Except.ok vm) :
    ∃ c1 : Compiler,
      ParseLines L (2 ^ 64 - 1) (getlines 10 source)
        { _labels := [], _tables := [], _instructions := [], _source_files := [] } 0 false
        = Except.ok c1
      ∧ vm = { vm0 with _instructions := c1._instructions,
                        _tables := GenerateTables.go L c1._labels c1._tables } := by
  unfold CompileString at h
  simp only [bind, Except.bind] at h
  split at h
  · cases h
  · rename_i c1 hc
    simp only [pure, Except.pure, Except.ok.injEq, ResolveReferences_unchanged,
      GenerateTables] at h
    exact ⟨c1, hc, h.symm⟩

/-- The bindings of the tables map, for the lines as `ProcessLine` reads them. For every
source that `CompileString` assembles, a name with a label line that `ProcessLine` reads
is bound to the number of instructions emitted before the last such line, also when a
`#table` directive declares the same name (earlier or later: the index replaces the 0); a
name declared by a directive only is bound to 0; no other name is bound. Names are taken
in lower case. A label that `ProcessLine` skips inside what it takes for a block comment
is not bound. -/
theorem tables_bind_labels_to_next_instruction (L : StdLib) (source : Str)
    (vm0 vm : VirtualMachine) (h : CompileString L source vm0 = Except.ok vm) :
    ∀ name, UMap.find vm._tables name = spec_binding (declarations source) name := by
  obtain ⟨c1, hc, hv⟩ := CompileString_ok L source vm0 vm h
  subst hv
  intro name
  obtain ⟨a1, a2, a3⟩ := ParseLines_bindings L _ _ _ c1 _ _ hc
    (by simp [UMap.keys]) (by simp [UMap.keys])
  obtain ⟨b1, b2⟩ := a3 name
  simp only [UMap.find, Option.map_none', Option.or_none, List.length_nil] at b1 b2
  show UMap.find (GenerateTables.go L c1._labels c1._tables) name = _
  rw [GenerateTables_find L _ _ a1 a2 name, b2]
  have b3 : (UMap.find c1._labels name).map (fun info => (info.instruction_index : Int))
      = (last_label (declarations source) name).map (fun i : Nat => (i : Int)) := by
    have := congrArg (Option.map (fun i : Nat => (i : Int))) b1
    rw [Option.map_map] at this
    exact this
  rw [b3]
  unfold spec_binding declarations
  cases last_label (declarations.go (getlines 10 source) false 0) name <;> rfl

/-- An instance: in `#table Loop / #table data / mov 1, R0 / loop: / add R0, 1, R0 /
LOOP: / halt` the name `loop` is bound to 2, the index after its last label, and `data`
to 0. -/
theorem tables_bind_labels_to_next_instruction_witness :
    CompileString StdLib.front src_bindings {} = Except.ok vm_bindings
    ∧ declarations src_bindings
        = [(lit "loop", none), (lit "data", none), (lit "loop", some 1), (lit "loop", some 2)]
    ∧ UMap.find vm_bindings._tables (lit "loop") = some 2
    ∧ UMap.find vm_bindings._tables (lit "data") = some 0
    ∧ ∀ name, UMap.find vm_bindings._tables name
        = spec_binding (declarations src_bindings) name :=
  ⟨by rfl, by decide!, by decide, by decide,
   tables_bind_labels_to_next_instruction StdLib.front src_bindings {} vm_bindings (by rfl)⟩

/-! ## The values and instructions the assembler produces -/

theorem ParseValue_flags (L : StdLib) (token : Str) (v : Value)
    (h : ParseValue L token = Except.ok v) :
    (v.is_reg = true → ∃ b : Byte, v.data = [b] ∧ b.val ≤ 63 ∧ v.is_table = false)
    ∧ ¬ (v.is_reg = true ∧ v.is_table = true) := by
  unfold ParseValue at h
  simp only [bind, Except.bind, pure, Except.pure] at h
  split at h
  · -- a register
    split at h
    · cases h
    · rename_i n hn
      split at h
      · cases h
      · rename_i hlt
        injection h with h
        subst h
        have hb : (n % 256).toNat < 64 := by omega
        have hv : ((Fin.ofNat ((n % 256).toNat % 256) : Byte) : Nat) = (n % 256).toNat := by
          show (n % 256).toNat % 256 % 256 = (n % 256).toNat
          omega
        refine ⟨fun _ => ⟨Fin.ofNat ((n % 256).toNat % 256), rfl, ?_, rfl⟩, ?_⟩
        · rw [hv]
          omega
        · simp [Value.write_uint8_t]
  · repeat' split at h
    all_goals first
      | (injection h with h; subst h;
         simp [Value.write_string, Value.write_container, Value.write_double, Value.write_long])
      | (injection h)

theorem ParseInstruction_args_iff (L : StdLib) (ts : List Str) (vs : List Value) :
    ParseInstruction.args L ts = Except.ok vs
      ↔ List.Forall₂ (fun t v => ParseValue L t = Except.ok v)
          (ts.filter (fun t => t ≠ [44])) vs := by
  induction ts generalizing vs with
  | nil =>
    simp only [ParseInstruction.args, List.filter_nil, List.forall₂_nil_left_iff,
      Except.ok.injEq]
    exact eq_comm
  | cons t ts ih =>
    by_cases ht : t = [44]
    · subst ht
      rw [ParseInstruction_args_comma]
      simpa using ih vs
    · have hf : (t :: ts).filter (fun t => t ≠ [44]) = t :: ts.filter (fun t => t ≠ [44]) := by
        simp [List.filter, ht]
      rw [hf, ParseInstruction.args]
      simp only [ne_eq, ht, not_false_eq_true, if_true, bind, Except.bind, pure, Except.pure]
      constructor
      · intro h
        split at h
        · cases h
        · rename_i v hv
          split at h
          · cases h
          · rename_i rest hrest
            injection h with h
            subst h
            exact List.Forall₂.cons hv ((ih rest).mp hrest)
      · intro h
        cases h with
        | cons hv hrest =>
          simp only [hv, (ih _).mpr hrest]

theorem ParseInstruction_iff (L : StdLib) (line : Str) (instr : Instruction) :
    ParseInstruction L line = Except.ok instr
      ↔ ∃ t0 ts, Tokenize line = t0 :: ts ∧ opcode_of (ToLower t0) = some instr.code
          ∧ List.Forall₂ (fun t v => ParseValue L t = Except.ok v)
              (ts.filter (fun t => t ≠ [44])) instr.Args := by
  unfold ParseInstruction
  constructor
  · intro h
    split at h
    · cases h
    · rename_i t0 ts htok
      split at h
      · cases h
      · rename_i code hcode
        simp only [bind, Except.bind, pure, Except.pure] at h
        split at h
        · cases h
        · rename_i args hargs
          injection h with h
          subst h
          exact ⟨t0, ts, htok, hcode, (ParseInstruction_args_iff L ts args).mp hargs⟩
  · rintro ⟨t0, ts, htok, hcode, hargs⟩
    rw [htok]
    simp only [hcode, (ParseInstruction_args_iff L ts instr.Args).mpr hargs, bind, Except.bind,
      pure, Except.pure]

theorem ParseLines_instructions (L : StdLib) (file_idx : Nat) (lines : List Str)
    (c c1 : Compiler) (line_num : Int) (icb : Bool)
    (h : ParseLines L file_idx lines c line_num icb = Except.ok c1) :
    ∀ instr ∈ c1._instructions,
      instr ∈ c._instructions ∨ ∃ text, ParseInstruction L text = Except.ok instr := by
  induction lines generalizing c line_num icb with
  | nil =>
    simp only [ParseLines, Except.ok.injEq] at h
    subst h
    exact fun instr hi => Or.inl hi
  | cons line lines ih =>
    simp only [ParseLines, bind, Except.bind] at h
    split at h
    · cases h
    · rename_i r hr
      obtain ⟨c2, icb2⟩ := r
      obtain ⟨_, e2⟩ := ProcessLine_effect L c c2 line file_idx (line_num + 1) icb icb2 hr
      simp only [] at h
      intro instr hi
      rcases ih c2 (line_num + 1) icb2 h instr hi with h1 | h1
      · cases hk : line_kind line icb with
        | blank =>
          rw [hk] at e2
          simp only [] at e2
          subst e2
          exact Or.inl h1
        | directive dname =>
          rw [hk] at e2
          simp only [] at e2
          subst e2
          exact Or.inl h1
        | label lname =>
          rw [hk] at e2
          simp only [] at e2
          subst e2
          exact Or.inl h1
        | instruction text =>
          rw [hk] at e2
          simp only [] at e2
          obtain ⟨i0, hp, e3⟩ := e2
          subst e3
          rcases List.mem_append.mp h1 with h2 | h2
          · exact Or.inl h2
          · simp only [List.mem_singleton] at h2
            subst h2
            exact Or.inr ⟨text, hp⟩
      · exact Or.inr h1

theorem CompileString_instructions (L : StdLib) (source : Str) (vm0 vm : VirtualMachine)
    (h : CompileString L source vm0 = Except.ok vm) :
    ∀ instr ∈ vm._instructions, ∃ text, ParseInstruction L text = Except.ok instr := by
  obtain ⟨c1, hc, hv⟩ := CompileString_ok L source vm0 vm h
  subst hv
  intro instr hi
  rcases ParseLines_instructions L _ _ _ c1 _ _ hc instr hi with h1 | h1
  · simp at h1
  · exact h1

theorem Forall₂_exists_left {α β : Type} (R : α → β → Prop) (l1 : List α) (l2 : List β)
    (h : List.Forall₂ R l1 l2) : ∀ v ∈ l2, ∃ t ∈ l1, R t v := by
  induction h with
  | nil => intro v hv; cases hv
  | cons hr _ ih =>
    intro v hv
    rcases List.mem_cons.mp hv with h1 | h1
    · subst h1
      exact ⟨_, List.mem_cons_self _ _, hr⟩
    · obtain ⟨t, ht, hR⟩ := ih v h1
      exact ⟨t, List.mem_cons_of_mem _ ht, hR⟩

theorem CompileString_values (L : StdLib) (source : Str) (vm0 vm : VirtualMachine)
    (h : CompileString L source vm0 = Except.ok vm) :
    ∀ instr ∈ vm._instructions, ∀ v ∈ instr.Args, ∃ token, ParseValue L token = Except.ok v := by
  intro instr hi v hv
  obtain ⟨text, ht⟩ := CompileString_instructions L source vm0 vm h instr hi
  obtain ⟨t0, ts, _, _, hargs⟩ := (ParseInstruction_iff L text instr).mp ht
  obtain ⟨t, _, hR⟩ := Forall₂_exists_left _ _ _ hargs v hv
  exact ⟨t, hR⟩

/-- C12. Every argument of every instruction that `CompileString` emits, if it has `is_reg`
set, has exactly one data byte, that byte is at most 63, and `is_table` is false; and no
argument has both `is_reg` and `is_table` set. The same holds of every `Value` that
`ParseValue` returns. -/
theorem assembled_register_values_are_in_range (L : StdLib) (source : Str)
    (vm0 vm : VirtualMachine) (h : CompileString L source vm0 = Except.ok vm) :
    (∀ instr ∈ vm._instructions, ∀ v ∈ instr.Args,
      (v.is_reg = true → ∃ b : Byte, v.data = [b] ∧ b.val ≤ 63 ∧ v.is_table = false)
      ∧ ¬ (v.is_reg = true ∧ v.is_table = true))
    ∧ (∀ (token : Str) (v : Value), ParseValue L token = Except.ok v →
      (v.is_reg = true → ∃ b : Byte, v.data = [b] ∧ b.val ≤ 63 ∧ v.is_table = false)
      ∧ ¬ (v.is_reg = true ∧ v.is_table = true)) := by
  refine ⟨fun instr hi v hv => ?_, fun token v hp => ParseValue_flags L token v hp⟩
  obtain ⟨token, hp⟩ := CompileString_values L source vm0 vm h instr hi v hv
  exact ParseValue_flags L token v hp

/-- Witness for C12: the program assembled from `#table Loop / #table data / mov 1, R0 /
loop: / add R0, 1, R0 / LOOP: / halt`. -/
theorem assembled_register_values_are_in_range_witness :
    CompileString StdLib.front src_bindings {} = Except.ok vm_bindings
    ∧ (∀ instr ∈ vm_bindings._instructions, ∀ v ∈ instr.Args,
      (v.is_reg = true → ∃ b : Byte, v.data = [b] ∧ b.val ≤ 63 ∧ v.is_table = false)
      ∧ ¬ (v.is_reg = true ∧ v.is_table = true)) :=
  ⟨by rfl,
   (assembled_register_values_are_in_range StdLib.front src_bindings {} vm_bindings (by rfl)).1⟩

/-- C13, the code at the failing input. `ParseValue` refuses `R64` with the
register-out-of-range error, but it converts the number to `uint8_t` before it compares:
for `R256` the converted index is 0, the check passes, and the token yields the register
Value with data byte 0. The source `mov 1, R256` assembles to `mov 1, R0`. -/
theorem register_256_is_accepted_as_register_0 :
    ParseValue StdLib.front (lit "R64")
      = Except.error (Fault.error (lit "Register index out of range (0-63): R64"))
    ∧ ParseValue StdLib.front (lit "R256") = Except.ok (sample_reg 0)
    ∧ ParseValue StdLib.front (lit "r300") = Except.ok (sample_reg 44)
    ∧ (CompileString StdLib.front src_reg_256 {}).toOption.map (fun vm => vm._instructions)
      = some [{ code := OpCode.MOV, Args := [sample_int 1, sample_reg 0] }] := by
  refine ⟨by rfl, by rfl, by rfl, by decide!⟩

/-- C23, the code at the failing input. The source `mov 1, R0 / halt` assembles to a
program with an empty tables map; `Execute("main")` returns 1 and leaves the instructions
as they were, but the tables map now holds `main → 0`: `_tables[table]` inserts the missing
name. Likewise the `mov #data, R0` of `main: / mov #data, R0 / halt` inserts `data → 0`. -/
theorem execute_inserts_missing_table_names :
    (CompileString StdLib.front src_no_main {}).toOption.map (fun vm => vm._tables) = some []
    ∧ (CompileString StdLib.front src_no_main {}).toOption.map
        (fun vm => (Execute StdLib.front [] false 10 vm (lit "main")).returned) = some (some 1)
    ∧ (CompileString StdLib.front src_no_main {}).toOption.map
        (fun vm => decide ((Execute StdLib.front [] false 10 vm (lit "main")).instructions
          = some vm._instructions)) = some true
    ∧ (CompileString StdLib.front src_no_main {}).toOption.map
        (fun vm => (Execute StdLib.front [] false 10 vm (lit "main")).tables)
      = some (some [(lit "main", 0)])
    ∧ (CompileString StdLib.front src_undeclared_table {}).toOption.map (fun vm => vm._tables)
      = some [(lit "main", 0)]
    ∧ (CompileString StdLib.front src_undeclared_table {}).toOption.map
        (fun vm => (Execute StdLib.front [] false 10 vm (lit "main")).tables)
      = some (some [(lit "data", 0), (lit "main", 0)]) := by
  refine ⟨?_, ?_, ?_, ?_, ?_, ?_⟩ <;> decide!

/-- C24, the code at the failing input. `UnescapeString` decodes `\"` to a double quote, but
`Tokenize` ends a string at the first double quote, escaped or not: the line
`mov "a\"b", R0` is cut into the tokens `mov`, `"a\"`, `b` and `", R0`, and assembling it
fails with `Unfinished escape sequences`. -/
theorem escaped_quote_ends_the_string_token :
    UnescapeString (lit "a\\\"b") = Except.ok (lit "a\"b")
    ∧ Tokenize src_escaped_quote = [lit "mov", lit "\"a\\\"", lit "b", lit "\", R0"]
    ∧ CompileString StdLib.front src_escaped_quote {}
      = Except.error (Fault.error (lit "Unfinished escape sequences")) := by
  refine ⟨by rfl, by decide!, by rfl⟩

/-- C27, the code at the failing input. `ProcessLine` cuts a line at the first `//` before
the line is split into tokens, inside a string literal too: `mov "a//b", R0` assembles to a
`mov` with the single argument `"a` followed by a zero byte. -/
theorem slashes_in_string_start_a_comment :
    (ProcessLine.strip src_slashes_in_string false).1 = some (lit "mov \"a")
    ∧ (CompileString StdLib.front src_slashes_in_string {}).toOption.map
        (fun vm => vm._instructions)
      = some [{ code := OpCode.MOV, Args := [{ data := lit "\"a" ++ [0] }] }] := by
  refine ⟨by decide!, by decide!⟩

/-- C28, the code at the failing input. `ProcessLine` cuts the line at `/*` and then looks
for `*/` in what is left, where it cannot be: the instruction before the comment is dropped
and the block comment stays open. `mov 1, R0 /* c */ / halt` assembles to the empty program,
the same source without the comment to `mov 1, R0 / halt`. -/
theorem block_comment_on_one_line_swallows_the_source :
    ProcessLine.strip (lit "mov 1, R0 /* c */") false = (none, true)
    ∧ (CompileString StdLib.front src_block_comment {}).toOption.map
        (fun vm => vm._instructions) = some []
    ∧ (CompileString StdLib.front src_without_comment {}).toOption.map
        (fun vm => vm._instructions)
      = some [{ code := OpCode.MOV, Args := [sample_int 1, sample_reg 0] },
              { code := OpCode.HALT, Args := [] }] := by
  refine ⟨by decide!, by decide!, by decide!⟩

/-- C29, the code at the failing input. `ParseValue` stores the name of a table reference as
it is written: `#END` yields the data `END` and a zero byte. In
`mov #END, R0 / halt / end: / nop` the tables map binds `end` to 2; the run looks up `END`,
finds nothing and moves 0 into `R0`, where the lower-case spelling `#end` moves 2. -/
theorem table_reference_keeps_its_letter_case :
    ParseValue StdLib.front (lit "#END")
      = Except.ok { is_reg := false, is_table := true, data := lit "END" ++ [0] }
    ∧ (CompileString StdLib.front src_upper_reference {}).toOption.map (fun vm => vm._tables)
      = some [(lit "end", 2)]
    ∧ (CompileString StdLib.front src_upper_reference {}).toOption.map
        (fun vm => (Execute StdLib.front [] false 10 vm (lit "main")).regs.map
          (fun regs => (regs.getD 0 Value.empty).to_long)) = some (some 0)
    ∧ (CompileString StdLib.front src_lower_reference {}).toOption.map
        (fun vm => (Execute StdLib.front [] false 10 vm (lit "main")).regs.map
          (fun regs => (regs.getD 0 Value.empty).to_long)) = some (some 2) := by
  refine ⟨by rfl, by decide!, by decide!, by decide!⟩


/-! ## The target of a taken branch -/

theorem Run_body_taken (L : StdLib) (sys : SyscallTable) (indet : Bool) (start : Int)
    (vm vm1 : VirtualMachine) (i : Nat) (instr : Instruction)
    (hint : Interpreter L sys indet vm instr = Except.ok (0, vm1))
    (htaken : vm1._program_counter ≠ start) :
    Run.body L sys indet start vm i instr
      = if 0 ≤ vm1._program_counter ∧ vm1._program_counter ≤ (vm1._instructions.length : Int)
        then Except.ok (none, vm1._program_counter.toNat, { vm1 with _program_counter := start })
        else Except.error Fault.undefined := by
  unfold Run.body
  simp only [hint, bind, Except.bind, pure, Except.pure, ne_eq, not_true_eq_false, if_false,
    htaken, not_false_eq_true, if_true]

/-- C21, amended. Take an instruction whose interpretation succeeds and leaves a program
counter other than the entry index (a taken branch). If the target is the number of
instructions, the run ends normally with 0, as when it advances past the last instruction.
If the target is negative or greater than the number of instructions, the list iterator is
advanced out of range, which the language leaves undefined: the engine makes no range check
and raises no error. If the target is the index of an instruction, the run goes on there. -/
theorem branch_target_is_not_range_checked (L : StdLib) (sys : SyscallTable) (indet : Bool)
    (start : Int) (fuel : Nat) (vm vm1 : VirtualMachine) (i : Nat) (instr : Instruction)
    (hi : vm._instructions.get? i = some instr)
    (hint : Interpreter L sys indet vm instr = Except.ok (0, vm1))
    (htaken : vm1._program_counter ≠ start) :
    (vm1._program_counter = (vm1._instructions.length : Int) →
      Run.loop L sys indet start (fuel + 2) vm i
        = { trace := [i],
            result := some (Except.ok (0, { vm1 with _program_counter := start })) })
    ∧ (vm1._program_counter < 0 ∨ vm1._program_counter > (vm1._instructions.length : Int) →
      Run.loop L sys indet start (fuel + 1) vm i
        = { trace := [i], result := some (Except.error Fault.undefined) })
    ∧ (0 ≤ vm1._program_counter ∧ vm1._program_counter < (vm1._instructions.length : Int) →
      Run.loop L sys indet start (fuel + 1) vm i
        = { trace := i :: (Run.loop L sys indet start fuel
                            { vm1 with _program_counter := start }
                            vm1._program_counter.toNat).trace,
            result := (Run.loop L sys indet start fuel
                            { vm1 with _program_counter := start }
                            vm1._program_counter.toNat).result }) := by
  have hb := Run_body_taken L sys indet start vm vm1 i instr hint htaken
  refine ⟨fun h => ?_, fun h => ?_, fun h => ?_⟩
  · have hr : 0 ≤ vm1._program_counter
        ∧ vm1._program_counter ≤ (vm1._instructions.length : Int) := by omega
    rw [if_pos hr] at hb
    have hn : vm1._program_counter.toNat = vm1._instructions.length := by omega
    have hg : ({ vm1 with _program_counter := start } : VirtualMachine)._instructions.get?
        vm1._program_counter.toNat = none := by
      rw [hn]
      exact List.get?_eq_none.mpr (le_refl _)
    have he := Run_loop_end L sys indet start fuel { vm1 with _program_counter := start }
      vm1._program_counter.toNat hg
    rw [Run.loop]
    simp only [hi, hb, he]
  · have hr : ¬ (0 ≤ vm1._program_counter
        ∧ vm1._program_counter ≤ (vm1._instructions.length : Int)) := by omega
    rw [if_neg hr] at hb
    rw [Run.loop]
    simp only [hi, hb]
  · have hr : 0 ≤ vm1._program_counter
        ∧ vm1._program_counter ≤ (vm1._instructions.length : Int) := by omega
    rw [if_pos hr] at hb
    rw [Run.loop]
    simp only [hi, hb]

/-- Witness for C21 (amended): the `jmp 2` of the two-instruction program `jmp 2 / halt`
ends the run with 0. -/
theorem branch_target_is_not_range_checked_witness :
    vm_jump_to_end._instructions.get? 0 = some { code := OpCode.JMP, Args := [sample_int 2] }
    ∧ Interpreter StdLib.front [] false vm_jump_to_end
        { code := OpCode.JMP, Args := [sample_int 2] }
      = Except.ok (0, { vm_jump_to_end with _program_counter := 2 })
    ∧ Run.loop StdLib.front [] false 0 2 vm_jump_to_end 0
      = { trace := [0], result := some (Except.ok (0, vm_jump_to_end)) } :=
  ⟨rfl, by rfl,
   (branch_target_is_not_range_checked StdLib.front [] false 0 0 vm_jump_to_end
      { vm_jump_to_end with _program_counter := 2 } 0
      { code := OpCode.JMP, Args := [sample_int 2] } rfl (by rfl) (by decide)).1 (by rfl)⟩

/-- C21, counterexample. In the two-instruction program `jmp 2 / halt` the branch is taken
and its target 2 is the number of instructions, yet `Execute` returns 0 after the `jmp`
without any error. With the target 3 the iterator is advanced past the end of the list:
undefined behaviour, again with no error raised. -/
theorem jump_to_the_end_terminates_normally :
    (CompileString StdLib.front src_jump_to_end {}).toOption.map
        (fun vm => (vm._instructions.length,
          (Execute StdLib.front [] false 10 vm (lit "main")).trace,
          (Execute StdLib.front [] false 10 vm (lit "main")).returned,
          (Execute StdLib.front [] false 10 vm (lit "main")).fault))
      = some (2, [0], some 0, none)
    ∧ (CompileString StdLib.front src_jump_past_end {}).toOption.map
        (fun vm => (vm._instructions.length,
          (Execute StdLib.front [] false 10 vm (lit "main")).trace,
          (Execute StdLib.front [] false 10 vm (lit "main")).returned,
          (Execute StdLib.front [] false 10 vm (lit "main")).fault))
      = some (2, [0], none, some Fault.undefined) := by
  refine ⟨by decide!, by decide!⟩

/-! ## What the register-writing instructions leave alone -/

theorem Interpreter_writes_register_frame (L : StdLib) (sys : SyscallTable) (indet : Bool)
    (vm vm1 : VirtualMachine) (instruction : Instruction) (code : Int)
    (hc : writes_register instruction.code)
    (h : Interpreter L sys indet vm instruction = Except.ok (code, vm1)) :
    code = 0 ∧ vm1._program_counter = vm._program_counter
    ∧ vm1._instructions = vm._instructions ∧ vm1._regs_snap = vm._regs_snap
    ∧ vm1.cout = vm.cout := by
  unfold Interpreter at h
  rcases hc with hc | hc | hc | hc
  all_goals
    rw [hc] at h
    simp only [show ((OpCode.MOV : OpCode) : Nat) = 2 from rfl,
      show ((OpCode.ADD : OpCode) : Nat) = 3 from rfl,
      show ((OpCode.SUB : OpCode) : Nat) = 4 from rfl,
      show ((OpCode.NEG : OpCode) : Nat) = 5 from rfl,
      bind, Except.bind, pure, Except.pure] at h
    repeat' split at h
    all_goals first
      | (injection h with h; simp only [Prod.mk.injEq] at h; obtain ⟨h1, h2⟩ := h;
         subst h1 h2; exact ⟨rfl, rfl, rfl, rfl, rfl⟩)
      | (injection h)

theorem segment_head {α : Type} (l : List α) (i k : Nat) (b : α) (bs : List α)
    (h : (l.drop i).take (k + 1) = b :: bs) :
    l.get? i = some b ∧ (l.drop (i + 1)).take k = bs := by
  induction l generalizing i with
  | nil => simp at h
  | cons x xs ih =>
    cases i with
    | zero =>
      simp only [List.drop_zero, List.take_succ_cons, List.cons.injEq] at h
      obtain ⟨h1, h2⟩ := h
      subst h1
      exact ⟨rfl, by simpa using h2⟩
    | succ i =>
      simp only [List.drop_succ_cons] at h ⊢
      exact ih i h

theorem Run_loop_steps (L : StdLib) (sys : SyscallTable) (indet : Bool) (start : Int)
    (block : List Instruction)
    (hblock : ∀ b ∈ block, ∀ (vm vm1 : VirtualMachine) (c : Int),
      Interpreter L sys indet vm b = Except.ok (c, vm1) →
        c = 0 ∧ vm1._program_counter = vm._program_counter
        ∧ vm1._instructions = vm._instructions)
    (vm vm1 : VirtualMachine) (i fuel : Nat) (hpc : vm._program_counter = start)
    (hseg : (vm._instructions.drop i).take block.length = block)
    (hsteps : steps L sys indet block vm = Except.ok vm1) :
    Run.loop L sys indet start (fuel + block.length) vm i
      = { trace := List.range' i block.length
                    ++ (Run.loop L sys indet start fuel vm1 (i + block.length)).trace,
          result := (Run.loop L sys indet start fuel vm1 (i + block.length)).result } := by
  induction block generalizing vm i with
  | nil =>
    simp only [steps, Except.ok.injEq] at hsteps
    subst hsteps
    simp
  | cons b bs ih =>
    obtain ⟨hg, hrest⟩ := segment_head vm._instructions i bs.length b bs hseg
    simp only [steps] at hsteps
    cases hint : Interpreter L sys indet vm b with
    | error f => simp [hint] at hsteps
    | ok r =>
      obtain ⟨c, vm2⟩ := r
      simp only [hint] at hsteps
      obtain ⟨h0, h1, h2⟩ := hblock b (List.mem_cons_self _ _) vm vm2 c hint
      subst h0
      have hb : Run.body L sys indet start vm i b = Except.ok (none, i + 1, vm2) := by
        unfold Run.body
        simp only [hint, bind, Except.bind, pure, Except.pure, ne_eq, not_true_eq_false,
          if_false, h1, hpc]
      have ih1 := ih (fun x hx => hblock x (List.mem_cons_of_mem _ hx)) vm2 (i + 1)
        (h1.trans hpc) (by rw [h2]; exact hrest) hsteps
      have e : fuel + (b :: bs).length = (fuel + bs.length) + 1 := by
        simp only [List.length_cons]
        omega
      rw [e, Run.loop]
      simp only [hg, hb, ih1, List.length_cons, List.range'_succ, List.cons_append]
      have e2 : i + 1 + bs.length = i + (bs.length + 1) := by omega
      rw [e2]

theorem steps_append (L : StdLib) (sys : SyscallTable) (indet : Bool)
    (a b : List Instruction) (vm vm1 : VirtualMachine)
    (h : steps L sys indet a vm = Except.ok vm1) :
    steps L sys indet (a ++ b) vm = steps L sys indet b vm1 := by
  induction a generalizing vm with
  | nil =>
    simp only [steps, Except.ok.injEq] at h
    subst h
    rfl
  | cons x xs ih =>
    simp only [steps, List.cons_append] at h ⊢
    cases hint : Interpreter L sys indet vm x with
    | error f => simp [hint] at h
    | ok r =>
      simp only [hint] at h ⊢
      exact ih r.2 h

theorem steps_writes_register_frame (L : StdLib) (sys : SyscallTable) (indet : Bool)
    (mid : List Instruction) (hmid : ∀ i ∈ mid, writes_register i.code)
    (vm vm1 : VirtualMachine) (h : steps L sys indet mid vm = Except.ok vm1) :
    vm1._regs_snap = vm._regs_snap ∧ vm1._program_counter = vm._program_counter
    ∧ vm1._instructions = vm._instructions := by
  induction mid generalizing vm with
  | nil =>
    simp only [steps, Except.ok.injEq] at h
    subst h
    exact ⟨rfl, rfl, rfl⟩
  | cons x xs ih =>
    simp only [steps] at h
    cases hint : Interpreter L sys indet vm x with
    | error f => simp [hint] at h
    | ok r =>
      obtain ⟨c, vm2⟩ := r
      simp only [hint] at h
      obtain ⟨_, f1, f2, f3, _⟩ := Interpreter_writes_register_frame L sys indet vm vm2 x c
        (hmid x (List.mem_cons_self _ _)) hint
      obtain ⟨g1, g2, g3⟩ := ih (fun y hy => hmid y (List.mem_cons_of_mem _ hy)) vm2 h
      exact ⟨g1.trans f3, g2.trans f1, g3.trans f2⟩

theorem Interpreter_snap_save (L : StdLib) (sys : SyscallTable) (indet : Bool)
    (vm : VirtualMachine) (instr : Instruction) (hc : instr.code = OpCode.SNAP_SAVE) :
    Interpreter L sys indet vm instr = Except.ok (0, { vm with _regs_snap := vm._regs }) := by
  unfold Interpreter
  rw [hc]
  rfl

theorem Interpreter_snap_swap (L : StdLib) (sys : SyscallTable) (indet : Bool)
    (vm : VirtualMachine) (instr : Instruction) (hc : instr.code = OpCode.SNAP_SWAP) :
    Interpreter L sys indet vm instr
      = Except.ok (0, { vm with _regs := vm._regs_snap, _regs_snap := vm._regs }) := by
  unfold Interpreter
  rw [hc]
  rfl

/-- C22. Let `snap_save` be followed by any sequence of `mov`, `add`, `sub` and `neg`
instructions that execute without a fault, and then by `snap_swap`. After the `snap_swap`
the register file is the one at the time of the `snap_save`, and the snapshot bank holds the
registers as they were just before the swap. The loop of `Run` passes through such a
segment of the program in exactly this way. In particular after
`mov 1, R0 / snap_save / mov 2, R0 / snap_swap` the register `R0` holds the eight
little-endian bytes of the integer 1. -/
theorem snap_swap_restores_saved_registers (L : StdLib) (sys : SyscallTable) (indet : Bool)
    (save swap : Instruction) (mid : List Instruction) (vm vm_mid : VirtualMachine)
    (hsave : save.code = OpCode.SNAP_SAVE) (hswap : swap.code = OpCode.SNAP_SWAP)
    (hmid : ∀ i ∈ mid, writes_register i.code)
    (hsteps : steps L sys indet mid { vm with _regs_snap := vm._regs } = Except.ok vm_mid) :
    steps L sys indet (save :: (mid ++ [swap])) vm
      = Except.ok { vm_mid with _regs := vm._regs, _regs_snap := vm_mid._regs }
    ∧ (∀ (i fuel : Nat),
        (vm._instructions.drop i).take (save :: (mid ++ [swap])).length
          = save :: (mid ++ [swap]) →
        Run.loop L sys indet vm._program_counter (fuel + (save :: (mid ++ [swap])).length) vm i
          = { trace := List.range' i (save :: (mid ++ [swap])).length
                ++ (Run.loop L sys indet vm._program_counter fuel
                      { vm_mid with _regs := vm._regs, _regs_snap := vm_mid._regs }
                      (i + (save :: (mid ++ [swap])).length)).trace,
              result := (Run.loop L sys indet vm._program_counter fuel
                      { vm_mid with _regs := vm._regs, _regs_snap := vm_mid._regs }
                      (i + (save :: (mid ++ [swap])).length)).result })
    ∧ (CompileString StdLib.front src_snapshot {}).toOption.map
        (fun p => (Execute StdLib.front [] false 10 p (lit "main")).regs.map
          (fun regs => (regs.getD 0 Value.empty).data))
      = some (some [1, 0, 0, 0, 0, 0, 0, 0]) := by
  obtain ⟨f1, _, _⟩ := steps_writes_register_frame L sys indet mid hmid _ vm_mid hsteps
  have hall : steps L sys indet (save :: (mid ++ [swap])) vm
      = Except.ok { vm_mid with _regs := vm._regs, _regs_snap := vm_mid._regs } := by
    simp only [steps, Interpreter_snap_save L sys indet vm save hsave]
    rw [steps_append L sys indet mid [swap] _ vm_mid hsteps]
    simp only [steps, Interpreter_snap_swap L sys indet vm_mid swap hswap, f1]
  refine ⟨hall, fun i fuel hseg => ?_, by decide!⟩
  refine Run_loop_steps L sys indet vm._program_counter (save :: (mid ++ [swap])) ?_ vm _ i fuel
    rfl hseg hall
  intro b hb vm0 vm1 c hint
  rcases List.mem_cons.mp hb with h1 | h1
  · subst h1
    rw [Interpreter_snap_save L sys indet vm0 b hsave] at hint
    injection hint with hint
    simp only [Prod.mk.injEq] at hint
    obtain ⟨h2, h3⟩ := hint
    subst h2 h3
    exact ⟨rfl, rfl, rfl⟩
  · rcases List.mem_append.mp h1 with h2 | h2
    · obtain ⟨g0, g1, g2, _, _⟩ := Interpreter_writes_register_frame L sys indet vm0 vm1 b c
        (hmid b h2) hint
      exact ⟨g0, g1, g2⟩
    · simp only [List.mem_singleton] at h2
      subst h2
      rw [Interpreter_snap_swap L sys indet vm0 b hswap] at hint
      injection hint with hint
      simp only [Prod.mk.injEq] at hint
      obtain ⟨h3, h4⟩ := hint
      subst h3 h4
      exact ⟨rfl, rfl, rfl⟩

/-- Witness for C22: `snap_save / mov 2, R0 / snap_swap` on a machine whose `R3` holds 0
and `R5` holds 9. -/
theorem snap_swap_restores_saved_registers_witness :
    steps StdLib.front [] false [{ code := OpCode.MOV, Args := [sample_int 2, sample_reg 0] }]
        { sample_vm with _regs_snap := sample_vm._regs }
      = Except.ok { sample_vm with _regs_snap := sample_vm._regs,
                                   _regs := sample_vm._regs.set 0 (sample_int 2) }
    ∧ steps StdLib.front [] false
        ({ code := OpCode.SNAP_SAVE, Args := [] }
          :: ([{ code := OpCode.MOV, Args := [sample_int 2, sample_reg 0] }]
              ++ [{ code := OpCode.SNAP_SWAP, Args := [] }])) sample_vm
      = Except.ok { sample_vm with _regs := sample_vm._regs,
                                   _regs_snap := sample_vm._regs.set 0 (sample_int 2) } :=
  ⟨by rfl,
   (snap_swap_restores_saved_registers StdLib.front [] false
      { code := OpCode.SNAP_SAVE, Args := [] } { code := OpCode.SNAP_SWAP, Args := [] }
      [{ code := OpCode.MOV, Args := [sample_int 2, sample_reg 0] }] sample_vm
      { sample_vm with _regs_snap := sample_vm._regs,
                       _regs := sample_vm._regs.set 0 (sample_int 2) }
      rfl rfl (by decide) (by rfl)).1⟩


/-! ## Literals that are not closed -/

theorem hexDigit_facts (c : Byte) (h : (hexDigit c).isSome = true) :
    isspace c = false ∧ c ≠ 0 ∧ c ≠ 120 ∧ c ≠ 88 ∧ c ≠ 45 ∧ c ≠ 43 ∧ c ≠ 44
      ∧ (hexDigit c).getD 0 < 16 := by
  revert c
  decide!

theorem hexRun_append (ds rest : Str) (n k : Nat)
    (hds : ds.all (fun c => (hexDigit c).isSome) = true)
    (hr : ∀ c t, rest = c :: t → hexDigit c = none) :
    hexRun (ds ++ rest) n k
      = (ds.foldl (fun n c => 16 * n + (hexDigit c).getD 0) n, k + ds.length, rest) := by
  induction ds generalizing n k with
  | nil =>
    cases rest with
    | nil => rfl
    | cons c t => simp [hexRun, hr c t rfl]
  | cons d ds ih =>
    simp only [List.all_cons, Bool.and_eq_true] at hds
    obtain ⟨hd, hds⟩ := hds
    obtain ⟨v, hv⟩ := Option.isSome_iff_exists.mp hd
    rw [List.cons_append, hexRun]
    simp only [hv]
    rw [ih _ _ hds]
    simp only [List.foldl_cons, hv, Option.getD_some, List.length_cons, Prod.mk.injEq,
      true_and, and_true]
    omega

theorem strtol16_digits_plain (s : Str)
    (h : ∀ z x s1, s = z :: x :: s1 → ¬ (z = 48 ∧ (x = 120 ∨ x = 88))) :
    strtol16.digits s
      = (match hexRun s 0 0 with
         | (_, 0, _) => none
         | (n, _, rest) => some (n, rest)) := by
  match s, h with
  | [], _ => rfl
  | [_], _ => rfl
  | z :: x :: s1, h =>
    unfold strtol16.digits
    simp only [if_neg (h z x s1 rfl)]

theorem run_unprefixed (ds rest : Str)
    (hds : ds.all (fun c => (hexDigit c).isSome) = true)
    (hr : ∀ c t, rest = c :: t → hexDigit c = none)
    (hx : ds = [48] → ∀ c t, rest = c :: t → c ≠ 120 ∧ c ≠ 88) :
    ∀ z x s1, ds ++ rest = z :: x :: s1 → ¬ (z = 48 ∧ (x = 120 ∨ x = 88)) := by
  intro z x s1 hs ⟨hz, hxx⟩
  cases ds with
  | nil =>
    have := hr z (x :: s1) hs
    rw [hz] at this
    revert this
    decide
  | cons d ds =>
    cases ds with
    | nil =>
      simp only [List.cons_append, List.nil_append, List.cons.injEq] at hs
      obtain ⟨h1, h2⟩ := hs
      have := hx (by rw [h1, hz]) x s1 h2
      rcases hxx with h | h
      · exact this.1 h
      · exact this.2 h
    | cons d2 ds =>
      simp only [List.cons_append, List.cons.injEq] at hs
      simp only [List.all_cons, Bool.and_eq_true] at hds
      have := hexDigit_facts d2 hds.2.1
      rw [hs.2.1] at this
      rcases hxx with h | h
      · exact this.2.2.1 h
      · exact this.2.2.2.1 h

theorem startsWith_unprefixed (s : Str)
    (h : ∀ z x s1, s = z :: x :: s1 → ¬ (z = 48 ∧ (x = 120 ∨ x = 88))) :
    (startsWith [48, 120] s || startsWith [48, 88] s) = false := by
  match s, h with
  | [], _ => rfl
  | [z], _ => simp [startsWith]
  | z :: x :: s1, h =>
    have := h z x s1 rfl
    simp only [startsWith, Bool.and_true, Bool.or_eq_false_iff, Bool.and_eq_false_imp,
      decide_eq_true_eq, decide_eq_false_iff_not]
    constructor
    · intro hz hx
      exact this ⟨hz.symm, Or.inl hx.symm⟩
    · intro hz hx
      exact this ⟨hz.symm, Or.inr hx.symm⟩

theorem strtol16_digits_run (ds rest : Str) (hne : ds ≠ [])
    (hds : ds.all (fun c => (hexDigit c).isSome) = true)
    (hr : ∀ c t, rest = c :: t → hexDigit c = none)
    (hx : ds = [48] → ∀ c t, rest = c :: t → c ≠ 120 ∧ c ≠ 88) :
    strtol16.digits (ds ++ rest) = some (hex_value ds, rest) := by
  rw [strtol16_digits_plain _ (run_unprefixed ds rest hds hr hx),
    hexRun_append ds rest 0 0 hds hr]
  cases ds with
  | nil => exact absurd rfl hne
  | cons d ds => simp [hex_value]

theorem strtol16_run (ds rest : Str) (hne : ds ≠ [])
    (hds : ds.all (fun c => (hexDigit c).isSome) = true)
    (hr : ∀ c t, rest = c :: t → hexDigit c = none)
    (hx : ds = [48] → ∀ c t, rest = c :: t → c ≠ 120 ∧ c ≠ 88) :
    strtol16 (ds ++ rest)
      = (if hex_value ds < 2 ^ 63 then (hex_value ds : Int) else (2 : Int) ^ 63 - 1, rest) := by
  have hd := strtol16_digits_run ds rest hne hds hr hx
  cases ds with
  | nil => exact absurd rfl hne
  | cons d ds =>
    simp only [List.all_cons, Bool.and_eq_true] at hds
    obtain ⟨f1, _, _, _, f5, f6, _⟩ := hexDigit_facts d hds.1
    rw [List.cons_append] at hd ⊢
    simp only [strtol16, List.dropWhile, f1, List.head?, Option.some.injEq, f5, f6, or_self,
      if_false, hd, decide_False]

theorem strtol16_foreign (c : Byte) (t : Str) (hc : foreign_char [] c) :
    strtol16 (c :: t) = (0, c :: t) := by
  obtain ⟨h1, h2, h3, h4, h5, h6⟩ := hc
  obtain ⟨h7, h8⟩ := h5 rfl
  have hd : strtol16.digits (c :: t) = none := by
    rw [strtol16_digits_plain]
    · simp [hexRun, h1]
    · intro z x s1 hs ⟨hz, _⟩
      have : c = 48 := by rw [← hz]; exact (List.cons.inj hs).1
      rw [this] at h1
      revert h1
      decide
  simp only [strtol16, List.dropWhile, h2, List.head?, Option.some.injEq, h7, h8, or_self,
    if_false, hd]

theorem cstr_hex (ds rest : Str) (hds : ds.all (fun c => (hexDigit c).isSome) = true) :
    Value.cstr (ds ++ rest) = ds ++ Value.cstr rest := by
  induction ds with
  | nil => rfl
  | cons d ds ih =>
    simp only [List.all_cons, Bool.and_eq_true] at hds
    have h0 := (hexDigit_facts d hds.1).2.1
    have ih1 := ih hds.2
    simp only [Value.cstr] at ih1 ⊢
    simp only [List.cons_append, List.takeWhile, h0, ne_eq, not_false_eq_true, decide_True]
    exact congrArg (List.cons d) ih1

theorem hex_value_le (ds : Str) (hds : ds.all (fun c => (hexDigit c).isSome) = true)
    (hlen : ds.length ≤ 2) : hex_value ds ≤ 255 := by
  match ds, hds, hlen with
  | [], _, _ => simp [hex_value]
  | [a], h, _ =>
    simp only [List.all_cons, List.all_nil, Bool.and_true] at h
    have := (hexDigit_facts a h).2.2.2.2.2.2.2
    simp only [hex_value, List.foldl]
    omega
  | [a, b], h, _ =>
    simp only [List.all_cons, List.all_nil, Bool.and_true, Bool.and_eq_true] at h
    have h1 := (hexDigit_facts a h.1).2.2.2.2.2.2.2
    have h2 := (hexDigit_facts b h.2).2.2.2.2.2.2.2
    simp only [hex_value, List.foldl]
    omega
  | _ :: _ :: _ :: _, _, h => simp at h

theorem ByteText_trim (e : ByteText) (he : e.ok) : Trim e.text = e.pre ++ e.digits := by
  obtain ⟨h1, h2, h3, h4, h5⟩ := he
  have hlast : ∃ c, (e.pre ++ e.digits).getLast? = some c ∧ isspace c = false := by
    obtain ⟨c, hc⟩ : ∃ c, e.digits.getLast? = some c := by
      cases hd : e.digits.getLast? with
      | none => exact absurd (List.getLast?_eq_none_iff.mp hd) h4
      | some c => exact ⟨c, rfl⟩
    refine ⟨c, ?_, ?_⟩
    · rw [List.getLast?_append, hc]
      rfl
    · exact (hexDigit_facts c
        (List.all_eq_true.mp h5 c (List.mem_of_getLast?_eq_some hc))).1
  have hhead : ∃ a, (e.pre ++ e.digits).head? = some a ∧ isspace a = false := by
    rcases h3 with h | h | h
    · rw [h, List.nil_append]
      cases hd : e.digits with
      | nil => exact absurd hd h4
      | cons d ds =>
        refine ⟨d, rfl, (hexDigit_facts d (List.all_eq_true.mp h5 d ?_)).1⟩
        rw [hd]
        exact List.mem_cons_self _ _
    · rw [h]
      exact ⟨48, rfl, by decide⟩
    · rw [h]
      exact ⟨48, rfl, by decide⟩
  have e1 : e.text = e.lead ++ ((e.pre ++ e.digits) ++ e.trail) := by
    simp [ByteText.text]
  rw [e1]
  exact Trim_pad _ _ _ h1 h2 (Or.inr ⟨hhead, hlast⟩)

theorem strip_prefix_digits (pre s : Str)
    (hpre : pre = [] ∨ pre = [48, 120] ∨ pre = [48, 88])
    (h : ∀ z x s1, s = z :: x :: s1 → ¬ (z = 48 ∧ (x = 120 ∨ x = 88))) :
    (if (startsWith [48, 120] (pre ++ s) || startsWith [48, 88] (pre ++ s)) = true
      then (pre ++ s).drop 2 else pre ++ s) = s := by
  rcases hpre with hp | hp | hp
  · rw [hp, List.nil_append, startsWith_unprefixed s h]
    simp
  · rw [hp]
    simp [startsWith]
  · rw [hp]
    simp [startsWith]

theorem ParseByteArray_go_element (e : ByteText) (he : e.ok) (pieces : List Str)
    (bytes : List Byte) :
    ParseByteArray.go (e.text :: pieces) bytes
      = if hex_value e.digits ≤ 255 then ParseByteArray.go pieces (bytes ++ [e.value])
        else Except.error
          (Fault.error (lit "Byte value out of range (0-255): " ++ e.digits)) := by
  have hT := ByteText_trim e he
  obtain ⟨h1, h2, h3, h4, h5⟩ := he
  have hnil : ∀ c t, ([] : Str) = c :: t → hexDigit c = none := fun c t h => by cases h
  have hx : e.digits = [48] → ∀ c t, ([] : Str) = c :: t → c ≠ 120 ∧ c ≠ 88 :=
    fun _ c t h => by cases h
  have hp := run_unprefixed e.digits [] h5 hnil hx
  rw [List.append_nil] at hp
  have hs := strip_prefix_digits e.pre e.digits h3 hp
  have hc : Value.cstr e.digits = e.digits := by
    have := cstr_hex e.digits [] h5
    rw [List.append_nil] at this
    rw [this]
    simp [Value.cstr]
  have hr := strtol16_run e.digits [] h4 h5 hnil hx
  rw [List.append_nil] at hr
  have hne : e.pre ++ e.digits ≠ [] := by simp [h4]
  rw [ParseByteArray.go]
  simp only [hT, hne, if_false, hs, hc, hr, ne_eq, not_true_eq_false]
  by_cases hv : hex_value e.digits ≤ 255
  · have h63 : hex_value e.digits < 2 ^ 63 := by omega
    rw [if_pos h63, if_pos hv, if_neg (by omega)]
    rfl
  · by_cases h63 : hex_value e.digits < 2 ^ 63
    · rw [if_pos h63, if_neg hv, if_pos (by omega)]
    · rw [if_neg h63, if_neg hv, if_pos (by omega)]

theorem ParseByteArray_go_foreign (lead pre ds tail : Str) (c : Byte)
    (hlead : lead.all isspace = true)
    (hpre : pre = [] ∨ pre = [48, 120] ∨ pre = [48, 88])
    (hds : ds.all (fun c => (hexDigit c).isSome) = true)
    (hc : foreign_char ds c) (pieces : List Str) (bytes : List Byte) :
    ParseByteArray.go ((lead ++ (pre ++ (ds ++ c :: tail))) :: pieces) bytes
      = Except.error (Fault.error (lit "Invalid byte format: "
          ++ (ds ++ c :: (tail.reverse.dropWhile isspace).reverse))) := by
  obtain ⟨c1, c2, c3, c4, c5, c6⟩ := hc
  have hhead : ∃ a r, pre ++ (ds ++ c :: tail) = a :: r ∧ isspace a = false := by
    rcases hpre with h | h | h
    · rw [h, List.nil_append]
      cases ds with
      | nil => exact ⟨c, tail, rfl, c2⟩
      | cons d ds =>
        simp only [List.all_cons, Bool.and_eq_true] at hds
        exact ⟨d, _, rfl, (hexDigit_facts d hds.1).1⟩
    · rw [h]
      exact ⟨48, _, rfl, by decide⟩
    · rw [h]
      exact ⟨48, _, rfl, by decide⟩
  have hT : Trim (lead ++ (pre ++ (ds ++ c :: tail)))
      = pre ++ (ds ++ c :: (tail.reverse.dropWhile isspace).reverse) := by
    unfold Trim
    rw [List.dropWhile_append_of_pos (fun a ha => List.all_eq_true.mp hlead a ha)]
    obtain ⟨a, r, e1, e2⟩ := hhead
    have e3 : (pre ++ (ds ++ c :: tail)).dropWhile isspace = pre ++ (ds ++ c :: tail) := by
      rw [e1]
      simp [List.dropWhile, e2]
    rw [e3, ← List.append_assoc, rtrim_keep (pre ++ ds) tail c c2, List.append_assoc]
  have hr : ∀ x t, c :: (tail.reverse.dropWhile isspace).reverse = x :: t
      → hexDigit x = none := by
    intro x t h
    rw [← (List.cons.inj h).1]
    exact c1
  have hx : ds = [48] → ∀ x t, c :: (tail.reverse.dropWhile isspace).reverse = x :: t
      → x ≠ 120 ∧ x ≠ 88 := by
    intro h x t h0
    rw [← (List.cons.inj h0).1]
    exact c6 h
  have hp := run_unprefixed ds _ hds hr hx
  have hs := strip_prefix_digits pre _ hpre hp
  have hcs : Value.cstr (ds ++ c :: (tail.reverse.dropWhile isspace).reverse)
      = ds ++ c :: Value.cstr (tail.reverse.dropWhile isspace).reverse := by
    rw [cstr_hex ds _ hds]
    simp [Value.cstr, List.takeWhile, c3]
  have hne : pre ++ (ds ++ c :: (tail.reverse.dropWhile isspace).reverse) ≠ [] := by simp
  have hrest : (strtol16 (ds ++ c :: Value.cstr (tail.reverse.dropWhile isspace).reverse)).2
      ≠ [] := by
    cases hd : ds with
    | nil =>
      rw [List.nil_append, strtol16_foreign c _ ⟨c1, c2, c3, c4, fun _ => c5 hd, by simp⟩]
      simp
    | cons d ds1 =>
      have hr2 : ∀ x t, c :: Value.cstr (tail.reverse.dropWhile isspace).reverse = x :: t
          → hexDigit x = none := by
        intro x t h
        rw [← (List.cons.inj h).1]
        exact c1
      have hx2 : ds = [48] → ∀ x t,
          c :: Value.cstr (tail.reverse.dropWhile isspace).reverse = x :: t
          → x ≠ 120 ∧ x ≠ 88 := by
        intro h x t h0
        rw [← (List.cons.inj h0).1]
        exact c6 h
      rw [← hd, strtol16_run ds _ (by rw [hd]; simp) hds hr2 hx2]
      simp
  rw [ParseByteArray.go]
  simp only [hT, hne, if_false, hs, hcs]
  rw [if_pos hrest]

theorem getlines_join_cons (p q : Str) (r : List Str) (hp : (44 : Byte) ∉ p) :
    getlines.go 44 (join_commas (p :: q :: r)) []
      = p :: getlines.go 44 (join_commas (q :: r)) [] := by
  rw [join_commas, getlines_go_piece 44 p _ [] hp, List.nil_append]

theorem getlines_join_ok (ps : List Str) (h : ∀ p ∈ ps, (44 : Byte) ∉ p ∧ p ≠ []) :
    getlines 44 (join_commas ps) = ps := by
  unfold getlines
  induction ps with
  | nil => rfl
  | cons p ps ih =>
    have hp := h p (List.mem_cons_self _ _)
    cases ps with
    | nil =>
      rw [join_commas, getlines_go_last 44 p [] hp.1 (by simpa using hp.2), List.nil_append]
    | cons q r =>
      rw [getlines_join_cons p q r hp.1, ih (fun x hx => h x (List.mem_cons_of_mem _ hx))]

theorem getlines_join_prefix (ps : List Str) (bad : Str) (rest : List Str)
    (h : ∀ p ∈ ps, (44 : Byte) ∉ p) (hb : (44 : Byte) ∉ bad) (hne : bad ≠ []) :
    ∃ more, getlines 44 (join_commas (ps ++ bad :: rest)) = ps ++ bad :: more := by
  unfold getlines
  induction ps with
  | nil =>
    cases rest with
    | nil =>
      refine ⟨[], ?_⟩
      rw [List.nil_append, join_commas, getlines_go_last 44 bad [] hb (by simpa using hne),
        List.nil_append]
    | cons q r => exact ⟨_, getlines_join_cons bad q r hb⟩
  | cons p ps ih =>
    obtain ⟨more, hm⟩ := ih (fun x hx => h x (List.mem_cons_of_mem _ hx))
    obtain ⟨q, r, hq⟩ : ∃ q r, ps ++ bad :: rest = q :: r := by
      cases ps with
      | nil => exact ⟨bad, rest, rfl⟩
      | cons a b => exact ⟨a, b ++ bad :: rest, rfl⟩
    refine ⟨more, ?_⟩
    rw [List.cons_append, hq, getlines_join_cons p q r (h p (List.mem_cons_self _ _)), ← hq,
      hm, List.cons_append]

theorem ByteText_no_comma (e : ByteText) (he : e.ok) : (44 : Byte) ∉ e.text ∧ e.text ≠ [] := by
  obtain ⟨h1, h2, h3, h4, h5⟩ := he
  have hsp : ∀ l : Str, l.all isspace = true → (44 : Byte) ∉ l := by
    intro l hl hm
    have := List.all_eq_true.mp hl 44 hm
    revert this
    decide
  have hpre : (44 : Byte) ∉ e.pre := by
    rcases h3 with h | h | h <;> (rw [h]; decide)
  have hdig : (44 : Byte) ∉ e.digits := fun hm =>
    (hexDigit_facts 44 (List.all_eq_true.mp h5 44 hm)).2.2.2.2.2.2.1 rfl
  constructor
  · simp only [ByteText.text, List.mem_append, not_or]
    exact ⟨hsp _ h1, hpre, hdig, hsp _ h2⟩
  · simp [ByteText.text, h4]

theorem ParseByteArray_go_elements (es : List ByteText)
    (hes : ∀ e ∈ es, e.ok ∧ (e.digits.length ≤ 2 ∨ hex_value e.digits ≤ 255))
    (pieces : List Str) (bytes : List Byte) :
    ParseByteArray.go (es.map ByteText.text ++ pieces) bytes
      = ParseByteArray.go pieces (bytes ++ es.map ByteText.value) := by
  induction es generalizing bytes with
  | nil => simp
  | cons e es ih =>
    obtain ⟨he, hv⟩ := hes e (List.mem_cons_self _ _)
    have hle : hex_value e.digits ≤ 255 := by
      rcases hv with h | h
      · exact hex_value_le e.digits he.2.2.2.2 h
      · exact h
    rw [List.map_cons, List.cons_append, ParseByteArray_go_element e he, if_pos hle,
      ih (fun x hx => hes x (List.mem_cons_of_mem _ hx))]
    simp

theorem array_token_content (ps : List Str) :
    ((array_token ps).drop 1).take ((array_token ps).length - 2) = join_commas ps := by
  simp [array_token]

theorem ParseValue_array_token (L : StdLib) (ps : List Str) :
    ParseValue L (array_token ps)
      = (ParseByteArray (array_token ps)).map
          (fun bytes => { is_reg := false, is_table := false, data := bytes }) := by
  have ht : array_token ps = 91 :: (join_commas ps ++ [93]) := rfl
  have e1 : IsRegister (array_token ps) = false := by
    rw [ht]
    exact IsRegister_of_head _ _ (by decide)
  have e2 : IsTableRef (array_token ps) = false := by
    simp [ht, IsTableRef]
  have e3 : IsByteArray (array_token ps) = true := by
    simp [ht, IsByteArray, getLast?_wrap]
  unfold ParseValue
  rw [e1, e2, e3]
  cases ParseByteArray (array_token ps) <;> rfl

/-- C26, amended. Let `es` be elements that are each one or two hexadecimal digits (or any
number of digits with a value of at most 255), with or without a `0x` or `0X` prefix and
with white space only around them. `ParseByteArray` returns for the token `[e1,…,en]`
exactly the n byte values in order, and `ParseValue` a Value whose data is these n bytes
without a terminator. When such elements are followed by an element of the same form whose
value exceeds 255, parsing fails with the range error. When they are followed by an element
in which the optional prefix and zero or more hexadecimal digits are followed by a character
that is not a hexadecimal digit, white space, NUL or a comma, nor a sign directly at the
start of the number, nor `x` or `X` after the single digit `0`, parsing fails with the
format error. -/
theorem byte_array_elements_are_parsed (L : StdLib) (es : List ByteText)
    (hes : ∀ e ∈ es, e.ok ∧ (e.digits.length ≤ 2 ∨ hex_value e.digits ≤ 255)) :
    (ParseByteArray (array_token (es.map ByteText.text)) = Except.ok (es.map ByteText.value)
      ∧ ParseValue L (array_token (es.map ByteText.text))
        = Except.ok { is_reg := false, is_table := false, data := es.map ByteText.value })
    ∧ (∀ (bad : ByteText) (rest : List Str), bad.ok → 255 < hex_value bad.digits →
        ParseByteArray (array_token (es.map ByteText.text ++ bad.text :: rest))
          = Except.error
              (Fault.error (lit "Byte value out of range (0-255): " ++ bad.digits))
        ∧ ParseValue L (array_token (es.map ByteText.text ++ bad.text :: rest))
          = Except.error
              (Fault.error (lit "Byte value out of range (0-255): " ++ bad.digits)))
    ∧ (∀ (lead pre ds tail : Str) (c : Byte) (rest : List Str),
        lead.all isspace = true → (pre = [] ∨ pre = [48, 120] ∨ pre = [48, 88]) →
        ds.all (fun d => (hexDigit d).isSome) = true → foreign_char ds c →
        (44 : Byte) ∉ tail →
        ParseByteArray
            (array_token (es.map ByteText.text ++ (lead ++ (pre ++ (ds ++ c :: tail))) :: rest))
          = Except.error (Fault.error (lit "Invalid byte format: "
              ++ (ds ++ c :: (tail.reverse.dropWhile isspace).reverse)))
        ∧ ParseValue L
            (array_token (es.map ByteText.text ++ (lead ++ (pre ++ (ds ++ c :: tail))) :: rest))
          = Except.error (Fault.error (lit "Invalid byte format: "
              ++ (ds ++ c :: (tail.reverse.dropWhile isspace).reverse)))) := by
  have hno : ∀ p ∈ es.map ByteText.text, (44 : Byte) ∉ p ∧ p ≠ [] := by
    intro p hp
    obtain ⟨e, he, rfl⟩ := List.mem_map.mp hp
    exact ByteText_no_comma e (hes e he).1
  have hA : ParseByteArray (array_token (es.map ByteText.text))
      = Except.ok (es.map ByteText.value) := by
    unfold ParseByteArray
    simp only [array_token_content]
    rw [getlines_join_ok _ hno]
    have := ParseByteArray_go_elements es hes [] []
    rw [List.append_nil, List.nil_append] at this
    rw [this]
    rfl
  refine ⟨⟨hA, ?_⟩, ?_, ?_⟩
  · rw [ParseValue_array_token, hA]
    rfl
  · intro bad rest hb hv
    have hbn := ByteText_no_comma bad hb
    obtain ⟨more, hm⟩ := getlines_join_prefix (es.map ByteText.text) bad.text rest
      (fun p hp => (hno p hp).1) hbn.1 hbn.2
    have hB : ParseByteArray (array_token (es.map ByteText.text ++ bad.text :: rest))
        = Except.error
            (Fault.error (lit "Byte value out of range (0-255): " ++ bad.digits)) := by
      unfold ParseByteArray
      simp only [array_token_content]
      rw [hm, ParseByteArray_go_elements es hes, ParseByteArray_go_element bad hb,
        if_neg (by omega)]
    refine ⟨hB, ?_⟩
    rw [ParseValue_array_token, hB]
    rfl
  · intro lead pre ds tail c rest hlead hpre hds hc htail
    have hsp : (44 : Byte) ∉ lead := by
      intro hm
      have := List.all_eq_true.mp hlead 44 hm
      revert this
      decide
    have hp44 : (44 : Byte) ∉ pre := by
      rcases hpre with h | h | h <;> (rw [h]; decide)
    have hd44 : (44 : Byte) ∉ ds := fun hm =>
      (hexDigit_facts 44 (List.all_eq_true.mp hds 44 hm)).2.2.2.2.2.2.1 rfl
    have hc44 : (44 : Byte) ≠ c := fun h => hc.2.2.2.1 h.symm
    have hbn : (44 : Byte) ∉ lead ++ (pre ++ (ds ++ c :: tail)) := by
      simp only [List.mem_append, List.mem_cons, not_or]
      exact ⟨hsp, hp44, hd44, hc44, htail⟩
    obtain ⟨more, hm⟩ := getlines_join_prefix (es.map ByteText.text)
      (lead ++ (pre ++ (ds ++ c :: tail))) rest (fun p hp => (hno p hp).1) hbn (by simp)
    have hC : ParseByteArray
        (array_token (es.map ByteText.text ++ (lead ++ (pre ++ (ds ++ c :: tail))) :: rest))
        = Except.error (Fault.error (lit "Invalid byte format: "
            ++ (ds ++ c :: (tail.reverse.dropWhile isspace).reverse))) := by
      unfold ParseByteArray
      simp only [array_token_content]
      rw [hm, ParseByteArray_go_elements es hes,
        ParseByteArray_go_foreign lead pre ds tail c hlead hpre hds hc]
    refine ⟨hC, ?_⟩
    rw [ParseValue_array_token, hC]
    rfl

/-- Witness for C26 (amended): the token `[0x1f, A]` gives the bytes 31 and 10; with a
third element `100` the range error is raised, and with a third element `1g` the format
error. -/
theorem byte_array_elements_are_parsed_witness :
    (∀ e ∈ sample_byte_texts, e.ok ∧ (e.digits.length ≤ 2 ∨ hex_value e.digits ≤ 255))
    ∧ ParseByteArray (lit "[0x1f, A]") = Except.ok [31, 10]
    ∧ ParseValue StdLib.front (lit "[0x1f, A]")
        = Except.ok { is_reg := false, is_table := false, data := [31, 10] }
    ∧ ParseByteArray (lit "[0x1f, A,100]")
        = Except.error (Fault.error (lit "Byte value out of range (0-255): 100"))
    ∧ ParseByteArray (lit "[0x1f, A, 0x1g ]")
        = Except.error (Fault.error (lit "Invalid byte format: 1g")) :=
  ⟨by decide,
   (byte_array_elements_are_parsed StdLib.front sample_byte_texts (by decide)).1.1,
   (byte_array_elements_are_parsed StdLib.front sample_byte_texts (by decide)).1.2,
   ((byte_array_elements_are_parsed StdLib.front sample_byte_texts (by decide)).2.1
      { lead := [], pre := [], digits := lit "100", trail := [] } []
      (by decide) (by decide)).1,
   ((byte_array_elements_are_parsed StdLib.front sample_byte_texts (by decide)).2.2
      (lit " ") (lit "0x") (lit "1") (lit " ") 103 [] (by decide) (by decide) (by decide)
      (by decide) (by decide)).1⟩

/-- C26, counterexample. The elements `+1f`, `-0` and `0x0x10` each contain a character
that is not a hexadecimal digit, and the element `0x` has no digit; the token
`[+1f, -0, 0x0x10, 0x]` is parsed without an error, to the bytes 31, 0, 16 and 0. -/
theorem signed_byte_array_is_accepted :
    hexDigit 43 = none ∧ hexDigit 45 = none ∧ hexDigit 120 = none
    ∧ ParseByteArray signed_byte_array = Except.ok [31, 0, 16, 0]
    ∧ ParseValue StdLib.front signed_byte_array
        = Except.ok { is_reg := false, is_table := false, data := [31, 0, 16, 0] } :=
  ⟨by decide, by decide, by decide, by rfl, by rfl⟩


theorem DisassembleInstruction_args_spec (L : StdLib) (d : Disassembler) (arg : Value)
    (args : List Value) (first : Bool) :
    DisassembleInstruction.args L d (arg :: args) first
      = (if first then [] else [44])
        ++ spec_operands ((arg :: args).map (ValueToString L d)) := by
  induction args generalizing arg first with
  | nil => simp [DisassembleInstruction.args, spec_operands]
  | cons a as ih =>
    rw [DisassembleInstruction.args, ih a false]
    simp [spec_operands]

theorem DisassembleInstruction_args_true (L : StdLib) (d : Disassembler) (args : List Value) :
    DisassembleInstruction.args L d args true = spec_operands (args.map (ValueToString L d)) := by
  cases args with
  | nil => rfl
  | cons a as =>
    rw [DisassembleInstruction_args_spec]
    rfl

theorem BuildReverseMaps_labels_find (L : StdLib) (tables : UMap Str Int) (m : UMap Int Str)
    (hn : (UMap.keys m).Nodup) (k : Int) :
    ((∃ name, (name, k) ∈ tables) →
        ∃ name, UMap.find (BuildReverseMaps.labels L tables m) k = some name
          ∧ (name, k) ∈ tables)
    ∧ ((¬ ∃ name, (name, k) ∈ tables) →
        UMap.find (BuildReverseMaps.labels L tables m) k = UMap.find m k) := by
  induction tables generalizing m with
  | nil =>
    constructor
    · rintro ⟨name, h⟩
      cases h
    · intro _
      rfl
  | cons e tables ih =>
    obtain ⟨name0, addr0⟩ := e
    have ih1 := ih (UMap.assign L m addr0 name0) (UMap.nodup_assign L m addr0 name0 hn)
    have hf := UMap.find_assign L m addr0 name0 k hn
    simp only [BuildReverseMaps.labels]
    constructor
    · rintro ⟨name, h⟩
      by_cases ht : ∃ name, (name, k) ∈ tables
      · obtain ⟨n1, h1, h2⟩ := ih1.1 ht
        exact ⟨n1, h1, List.mem_cons_of_mem _ h2⟩
      · rcases List.mem_cons.mp h with h0 | h0
        · have hk : addr0 = k := (Prod.mk.inj h0).2.symm
          refine ⟨name0, ?_, ?_⟩
          · rw [ih1.2 ht, hf, if_pos hk]
          · rw [hk]
            exact List.mem_cons_self _ _
        · exact absurd ⟨name, h0⟩ ht
    · intro hno
      have ht : ¬ ∃ name, (name, k) ∈ tables := fun ⟨n1, h1⟩ =>
        hno ⟨n1, List.mem_cons_of_mem _ h1⟩
      have hk : ¬ addr0 = k := fun h0 => hno ⟨name0, by rw [h0]; exact List.mem_cons_self _ _⟩
      rw [ih1.2 ht, hf, if_neg hk]

theorem get?_map_range' {α : Type} (f : Nat → α) (k n i : Nat) (hi : i < n) :
    ((List.range' k n).map f).get? i = some (f (k + i)) := by
  induction n generalizing k i with
  | zero => omega
  | succ n ih =>
    rw [List.range'_succ, List.map_cons]
    cases i with
    | zero => rfl
    | succ j =>
      rw [List.get?_cons_succ, ih (k + 1) j (by omega)]
      congr 2
      omega

theorem Disassemble_instructions_listing (L : StdLib) (d : Disassembler)
    (instrs : List Instruction) (k : Nat) (hcode : ∀ instr ∈ instrs, instr.code.val < 16) :
    Disassemble.instructions L d instrs (k : Int)
      = (spec_listing (List.zip
          ((List.range' k instrs.length).map (fun i : Nat => UMap.find d._labelMap (i : Int)))
          (instrs.map (fun instr =>
            spec_instruction_line instr.code (instr.Args.map (ValueToString L d))))),
         ((k + instrs.length : Nat) : Int)) := by
  induction instrs generalizing k with
  | nil => rfl
  | cons instr instrs ih =>
    have hm := (opcode_name_facts instr.code (hcode instr (List.mem_cons_self _ _))).2.2.2.1
    have ih1 := ih (k + 1) (fun x hx => hcode x (List.mem_cons_of_mem _ hx))
    have hk : ((k : Int) + 1) = ((k + 1 : Nat) : Int) := by push_cast; rfl
    simp only [Disassemble.instructions, DisassembleInstruction, hk, ih1, List.length_cons,
      List.range'_succ, List.map_cons, List.zip_cons_cons, spec_listing, Prod.mk.injEq]
    constructor
    · simp only [spec_instruction_line, hm, DisassembleInstruction_args_true,
        List.append_assoc]
      rfl
    · congr 1
      omega

/-- The listing of the first call. At the first call of a fresh disassembler, when the
counter of `DisassembleInstruction` is 0, and for a program whose instructions carry the
sixteen opcodes: the text returned by `Disassemble` is, for each instruction in order, an optional
line `name:` directly followed by the line of the instruction (four spaces, the lower-case
mnemonic, the operands each preceded by a space and separated by commas), and after the
last instruction the `#table` lines. The line `name:` before instruction `i` is present,
with a name that the tables map binds to `i`, when `i` is a value in the tables map, and
absent when `i` is not a value in the tables map. -/
theorem disassemble_lists_labels_and_instructions (L : StdLib) (vm : VirtualMachine)
    (hcode : ∀ instr ∈ vm._instructions, instr.code.val < 16) :
    ∃ labels : List (Option Str),
      labels.length = vm._instructions.length
      ∧ (Disassemble L {} 0 vm).1
          = spec_listing (List.zip labels (vm._instructions.map (fun instr =>
              spec_instruction_line instr.code
                (instr.Args.map (ValueToString L (BuildReverseMaps L {} vm))))))
            ++ Disassemble.tables (BuildReverseMaps L {} vm) vm._tables
      ∧ ∀ i : Nat, i < vm._instructions.length →
          ((∃ name, (name, (i : Int)) ∈ vm._tables) →
            ∃ name, labels.get? i = some (some name) ∧ (name, (i : Int)) ∈ vm._tables)
          ∧ ((¬ ∃ name, (name, (i : Int)) ∈ vm._tables) → labels.get? i = some none) := by
  refine ⟨(List.range' 0 vm._instructions.length).map
    (fun i : Nat => UMap.find (BuildReverseMaps L {} vm)._labelMap (i : Int)), by simp, ?_, ?_⟩
  · have h := Disassemble_instructions_listing L (BuildReverseMaps L {} vm) vm._instructions 0
      hcode
    rw [Nat.cast_zero] at h
    simp only [Disassemble, h]
  · intro i hi
    have hf := BuildReverseMaps_labels_find L vm._tables [] List.nodup_nil (i : Int)
    have hg := get?_map_range'
      (fun i : Nat => UMap.find (BuildReverseMaps L {} vm)._labelMap (i : Int)) 0
      vm._instructions.length i hi
    rw [Nat.zero_add] at hg
    have hl : (BuildReverseMaps L {} vm)._labelMap = BuildReverseMaps.labels L vm._tables [] :=
      rfl
    rw [hg, hl]
    constructor
    · intro h
      obtain ⟨name, h1, h2⟩ := hf.1 h
      exact ⟨name, congrArg some h1, h2⟩
    · intro h
      exact congrArg some (hf.2 h)

/-- An instance: the program of `vm_bindings`, whose tables map binds `data` to 0 and
`loop` to 2, is listed with `data:` before the first and `loop:` before the third
instruction. -/
theorem disassemble_lists_labels_and_instructions_witness :
    (∀ instr ∈ vm_bindings._instructions, instr.code.val < 16)
    ∧ (Disassemble StdLib.front {} 0 vm_bindings).1
        = lit "data:\n    mov 1, R0\n    add R0, 1, R0\nloop:\n    halt\n"
    ∧ ∃ labels : List (Option Str),
      labels.length = vm_bindings._instructions.length
      ∧ (Disassemble StdLib.front {} 0 vm_bindings).1
          = spec_listing (List.zip labels (vm_bindings._instructions.map (fun instr =>
              spec_instruction_line instr.code
                (instr.Args.map
                  (ValueToString StdLib.front (BuildReverseMaps StdLib.front {} vm_bindings))))))
            ++ Disassemble.tables (BuildReverseMaps StdLib.front {} vm_bindings)
                vm_bindings._tables
      ∧ ∀ i : Nat, i < vm_bindings._instructions.length →
          ((∃ name, (name, (i : Int)) ∈ vm_bindings._tables) →
            ∃ name, labels.get? i = some (some name)
              ∧ (name, (i : Int)) ∈ vm_bindings._tables)
          ∧ ((¬ ∃ name, (name, (i : Int)) ∈ vm_bindings._tables)
              → labels.get? i = some none) :=
  ⟨by decide, by decide!,
   disassemble_lists_labels_and_instructions StdLib.front vm_bindings (by decide)⟩


theorem leNat_take_succ (d : List Byte) (w : Nat) :
    leNat (d.take (w + 1)) = leNat (d.take w) + (d.getD w 0).val * 256 ^ w := by
  induction d generalizing w with
  | nil => simp [leNat]
  | cons b bs ih =>
    cases w with
    | zero => simp [leNat]
    | succ k =>
      have := ih k
      simp only [List.take_succ_cons, leNat, List.getD_cons_succ] at this ⊢
      rw [this, pow_succ]
      ring

theorem leNat_take_sum (d : List Byte) (w : Nat) :
    leNat (d.take w) = ∑ i ∈ Finset.range w, (d.getD i 0).val * 256 ^ i := by
  induction w with
  | zero => simp [leNat]
  | succ w ih => rw [leNat_take_succ, Finset.sum_range_succ, ih]

theorem take_min_length {α : Type} (d : List α) (w : Nat) : d.take (min d.length w) = d.take w := by
  by_cases h : d.length ≤ w
  · rw [Nat.min_eq_left h, List.take_length, List.take_of_length_le h]
  · rw [Nat.min_eq_right (by omega)]

/-- C34. Typed reads of a Value are total functions and read little-endian with zero
extension: `to<long>()` is the signed reading of the sum of `data[i] * 256^i` over the
first `min(|data|, 8)` bytes, which is the sum over `i < 8` with a missing byte counting as
zero (so 0 for empty data); `to<uint8_t>()` is `data[0]` (0 for empty data); bytes beyond
the width do not matter; and `write<long>(x)` leaves exactly 8 data bytes from which
`to<long>()` reads `x` again. -/
theorem typed_reads_are_zero_extending (v : Value) :
    v.to_long = toSigned 64 (∑ i ∈ Finset.range (min v.data.length 8),
        (v.data.getD i 0).val * 256 ^ i)
    ∧ v.to_long = toSigned 64 (∑ i ∈ Finset.range 8, (v.data.getD i 0).val * 256 ^ i)
    ∧ v.to_uint8_t = (v.data.getD 0 0).val
    ∧ (v.data = [] → v.to_long = 0 ∧ v.to_uint8_t = 0)
    ∧ (∀ extra : List Byte, 8 ≤ v.data.length →
        ({ v with data := v.data ++ extra } : Value).to_long = v.to_long)
    ∧ (∀ extra : List Byte, 1 ≤ v.data.length →
        ({ v with data := v.data ++ extra } : Value).to_uint8_t = v.to_uint8_t)
    ∧ (∀ x : Int, - (2 : Int) ^ 63 ≤ x → x < (2 : Int) ^ 63 →
        (v.write_long x).to_long = x ∧ (v.write_long x).data.length = 8) := by
  refine ⟨?_, ?_, ?_, ?_, ?_, ?_, ?_⟩
  · show toSigned 64 (leNat (v.data.take 8)) = _
    rw [← take_min_length v.data 8, leNat_take_sum]
  · show toSigned 64 (leNat (v.data.take 8)) = _
    rw [leNat_take_sum]
  · show leNat (v.data.take 1) = _
    rw [leNat_take_sum]
    simp
  · intro h
    constructor
    · show toSigned 64 (leNat (v.data.take 8)) = 0
      rw [h]
      rfl
    · show leNat (v.data.take 1) = 0
      rw [h]
      rfl
  · intro extra h
    show toSigned 64 (leNat ((v.data ++ extra).take 8)) = toSigned 64 (leNat (v.data.take 8))
    rw [List.take_append_of_le_length h]
  · intro extra h
    show leNat ((v.data ++ extra).take 1) = leNat (v.data.take 1)
    rw [List.take_append_of_le_length h]
  · intro x h1 h2
    obtain ⟨e1, _, e3⟩ := leBytes8_data (toBits 64 x) (toBits_lt x)
    constructor
    · show toSigned 64 (leNat ((leBytes 8 (toBits 64 x)).take 8)) = x
      rw [e3]
      exact toSigned_toBits x h1 h2
    · exact e1

/-- Witness for C34: the three bytes `01 02 03` read as the `long` 0x030201 and as the
`uint8_t` 1, and `write<long>(-2)` followed by `to<long>()` gives -2. -/
theorem typed_reads_are_zero_extending_witness :
    ({ data := [1, 2, 3] } : Value).to_long = 197121
    ∧ ({ data := [1, 2, 3] } : Value).to_uint8_t = 1
    ∧ (- (2 : Int) ^ 63 ≤ -2 ∧ (-2 : Int) < (2 : Int) ^ 63)
    ∧ ((Value.empty.write_long (-2)).to_long = -2
        ∧ (Value.empty.write_long (-2)).data.length = 8) :=
  ⟨by decide, by decide, by decide,
   (typed_reads_are_zero_extending Value.empty).2.2.2.2.2.2 (-2) (by decide) (by decide)⟩

theorem takeWhile_split (d : List Byte) (h : (0 : Byte) ∈ d) :
    ∃ post, d = d.takeWhile (fun b => b ≠ 0) ++ 0 :: post := by
  induction d with
  | nil => cases h
  | cons b bs ih =>
    by_cases hb : b = 0
    · subst hb
      exact ⟨bs, by simp [List.takeWhile]⟩
    · have hm : (0 : Byte) ∈ bs := by
        rcases List.mem_cons.mp h with h0 | h0
        · exact absurd h0.symm hb
        · exact h0
      obtain ⟨post, hp⟩ := ih hm
      refine ⟨post, ?_⟩
      simp only [List.takeWhile, hb, ne_eq, not_false_eq_true, decide_True, List.cons_append]
      exact congrArg (List.cons b) hp

theorem takeWhile_no_zero (d : List Byte) : (0 : Byte) ∉ d.takeWhile (fun b => b ≠ 0) := by
  intro h
  have := List.mem_takeWhile_imp h
  simp at this

theorem takeWhile_prefix (pre post : List Byte) (h : (0 : Byte) ∉ pre) :
    (pre ++ 0 :: post).takeWhile (fun b => b ≠ 0) = pre := by
  induction pre with
  | nil => simp [List.takeWhile]
  | cons b bs ih =>
    have hb : b ≠ 0 := fun h0 => h (by simp [h0])
    have := ih (fun h0 => h (List.mem_cons_of_mem _ h0))
    simp only [List.cons_append, List.takeWhile, hb, ne_eq, not_false_eq_true, decide_True]
    exact congrArg (List.cons b) this

/-- C35, amended. String read of a Value: for data whose last byte is zero, the result is
the bytes that precede the first zero byte of the data; for non-empty data whose last byte
is not zero it is the whole buffer; for empty data it is the empty string. Consequently
writing a string without a zero byte and reading it back returns the string, and writing a
string with a zero byte and reading it back returns the part before its first zero byte. -/
theorem string_read_stops_at_first_zero (v : Value) :
    (v.data.getLast? = some 0 →
      ∃ pre post, v.data = pre ++ 0 :: post ∧ (0 : Byte) ∉ pre ∧ v.to_string = pre)
    ∧ (∀ b : Byte, v.data.getLast? = some b → b ≠ 0 → v.to_string = v.data)
    ∧ (v.data = [] → v.to_string = [])
    ∧ (∀ s : Str, (0 : Byte) ∉ s → (v.write_string s).to_string = s)
    ∧ (∀ pre post : Str, (0 : Byte) ∉ pre →
        (v.write_string (pre ++ 0 :: post)).to_string = pre) := by
  refine ⟨?_, ?_, ?_, ?_, ?_⟩
  · intro h
    have hm : (0 : Byte) ∈ v.data := List.mem_of_getLast?_eq_some h
    obtain ⟨post, hp⟩ := takeWhile_split v.data hm
    refine ⟨_, post, hp, takeWhile_no_zero v.data, ?_⟩
    simp [Value.to_string, h, Value.cstr]
  · intro b h hb
    simp [Value.to_string, h, hb]
  · intro h
    simp [Value.to_string, h]
  · intro s hs
    show Value.to_string { v with data := s ++ [0] } = s
    have e : (s ++ [(0 : Byte)]).getLast? = some 0 := List.getLast?_concat _
    simp only [Value.to_string, e, if_true]
    exact cstr_append_zero s hs
  · intro pre post hpre
    show Value.to_string { v with data := (pre ++ 0 :: post) ++ [0] } = pre
    have e : ((pre ++ 0 :: post) ++ [(0 : Byte)]).getLast? = some 0 := List.getLast?_concat _
    simp only [Value.to_string, e, if_true, Value.cstr]
    rw [List.append_assoc, List.cons_append]
    exact takeWhile_prefix pre _ hpre

/-- Witness for C35 (amended): the data `61 62 00` reads as `ab`, and `ab` written and read
back is `ab`. -/
theorem string_read_stops_at_first_zero_witness :
    (({ data := [97, 98, 0] } : Value).data.getLast? = some 0
      ∧ ∃ pre post, ({ data := [97, 98, 0] } : Value).data = pre ++ 0 :: post
          ∧ (0 : Byte) ∉ pre ∧ ({ data := [97, 98, 0] } : Value).to_string = pre)
    ∧ ((0 : Byte) ∉ lit "ab" ∧ (Value.empty.write_string (lit "ab")).to_string = lit "ab") :=
  ⟨⟨by decide, (string_read_stops_at_first_zero { data := [97, 98, 0] }).1 (by decide)⟩,
   by decide, (string_read_stops_at_first_zero Value.empty).2.2.2.1 (lit "ab") (by decide)⟩

/-- C35, counterexample. The data `61 00 62 00` ends in a zero byte, and the bytes that
precede that final zero are `61 00 62`; the string read returns `61` only. The string
`a\0b` written with `write(const std::string&)` and read back is `a`. -/
theorem string_with_zero_byte_is_cut :
    (str_with_zero ++ [0]).getLast? = some 0
    ∧ ({ data := str_with_zero ++ [0] } : Value).to_string = [97]
    ∧ (Value.empty.write_string str_with_zero).to_string = [97]
    ∧ (Value.empty.write_string str_with_zero).to_string ≠ str_with_zero := by
  decide

/-- C33. For an immediate Value (neither register nor table reference) whose data is not
eight bytes long and does not end in a zero byte, `ValueToString` returns `[`, the bytes
each written as `0x` and exactly two lower-case hexadecimal digits, joined by `, `, and
`]`; and `ParseByteArray` applied to this text returns the data. -/
theorem byte_array_value_is_rendered_in_hex (L : StdLib) (d : Disassembler) (val : Value)
    (hreg : val.is_reg = false) (htab : val.is_table = false)
    (hlen : val.data.length ≠ 8) (hlast : val.data.getLast? ≠ some 0) :
    ValueToString L d val = [91] ++ join_comma (val.data.map hex_literal) ++ [93]
    ∧ (∀ b : Byte, hex_literal b
        = lit "0x" ++ [hex_digits.getD (b.val / 16) 0, hex_digits.getD (b.val % 16) 0])
    ∧ ParseByteArray (ValueToString L d val) = Except.ok val.data := by
  have h1 : ValueToString L d val = [91] ++ join_comma (val.data.map hex_literal) ++ [93] := by
    unfold ValueToString
    simp only [hreg, htab, Bool.false_eq_true, if_false, hlen, false_and, hlast,
      FormatByteArray_eq]
    rfl
  refine ⟨h1, ?_, ?_⟩
  · decide!
  · rw [h1]
    exact ParseByteArray_text val.data

/-- Witness for C33: the Value with the data `01 02 03` is rendered as
`[0x01, 0x02, 0x03]`, and the source `mov [0x01, 0x02, 0x03], R0` disassembles with this
operand text. -/
theorem byte_array_value_is_rendered_in_hex_witness :
    ValueToString StdLib.front {} { data := [1, 2, 3] } = lit "[0x01, 0x02, 0x03]"
    ∧ ParseByteArray (ValueToString StdLib.front {} { data := [1, 2, 3] })
        = Except.ok [1, 2, 3]
    ∧ (CompileString StdLib.front (lit "mov [0x01, 0x02, 0x03], R0") {}).toOption.map
        (fun vm => (Disassemble StdLib.front {} 0 vm).1)
        = some (lit "    mov [0x01, 0x02, 0x03], R0\n") :=
  ⟨(byte_array_value_is_rendered_in_hex StdLib.front {} { data := [1, 2, 3] } rfl rfl
      (by decide) (by decide)).1,
   (byte_array_value_is_rendered_in_hex StdLib.front {} { data := [1, 2, 3] } rfl rfl
      (by decide) (by decide)).2.2,
   by decide!⟩


theorem small_positive_is_no_sane_double (n : Int) (h0 : 0 < n) (h1 : n < (2 : Int) ^ 52) :
    IsValidDouble (toBits 64 n) = false := by
  obtain ⟨k, rfl⟩ := Int.eq_ofNat_of_zero_le (le_of_lt h0)
  have hk : 0 < k := by exact_mod_cast h0
  have hk1 : k < 2 ^ 52 := by exact_mod_cast h1
  have hb : toBits 64 (k : Int) = k := by
    unfold toBits
    omega
  rw [hb]
  have e1 : k / 2 ^ 52 = 0 := Nat.div_eq_of_lt hk1
  have e2 : k % 2 ^ 52 = k := Nat.mod_eq_of_lt hk1
  have e3 : k / 2 ^ 63 = 0 := Nat.div_eq_of_lt (by omega)
  have e4 : ¬ k > bits_1e300 := by
    unfold bits_1e300
    omega
  simp only [IsValidDouble, isnan, isinf, Bool.or_eq_true, Bool.and_eq_true, decide_eq_true_eq,
    ite_eq_right_iff, Bool.not_eq_true, Bool.or_eq_false_iff, decide_eq_false_iff_not]
  unfold bits_1e300 at *
  split_ifs with i1 i2
  · omega
  · rfl
  · simp only [ne_eq, Bool.or_eq_false_iff, decide_eq_false_iff_not, not_not]
    omega

theorem small_negative_is_nan (n : Int) (h0 : n < 0) (h1 : - (2 : Int) ^ 52 < n) :
    isnan (toBits 64 n) = true := by
  have hb : ((toBits 64 n : Nat) : Int) = 2 ^ 64 + n := by
    unfold toBits
    omega
  have hlo : 2 ^ 64 - 2 ^ 52 < toBits 64 n := by omega
  have hhi : toBits 64 n < 2 ^ 64 := toBits_lt n
  have e1 : toBits 64 n / 2 ^ 52 % 2048 = 2047 := by omega
  have e2 : toBits 64 n % 2 ^ 52 ≠ 0 := by omega
  simp only [isnan, e1, e2, ne_eq, not_false_eq_true, decide_True, Bool.and_self]

theorem ValueToString_int (L : StdLib) (d : Disassembler) (n : Int) :
    ValueToString L d (sample_int n)
      = if IsValidDouble (toBits 64 n) = true then FormatDouble L (toBits 64 n)
        else match UMap.find d._labelMap (toSigned 64 (toBits 64 n)) with
          | some name => name
          | none => intToString (toSigned 64 (toBits 64 n)) := by
  obtain ⟨e1, e2, e3⟩ := leBytes8_data (toBits 64 n) (toBits_lt n)
  have el : (sample_int n).to_long = toSigned 64 (toBits 64 n) := by
    show toSigned 64 (leNat ((leBytes 8 (toBits 64 n)).take 8)) = _
    rw [e3]
  unfold ValueToString
  simp only [show (sample_int n).is_reg = false from rfl,
    show (sample_int n).is_table = false from rfl,
    show (sample_int n).data = leBytes 8 (toBits 64 n) from rfl,
    Bool.false_eq_true, if_false, e1, e2, true_and, if_true, el]

/-- C32, amended. Let `n` be an `int64` and `v` the Value that the assembler writes from
the integer token of `n`, rendered at the first call of a fresh disassembler for the
machine `vm`. `ValueToString` renders `v` as `0` when `n = 0`. When the eight bytes of `n`
do not pass the sane-double test, as for every `0 < n < 2^52`, it renders `v` as a label
name bound to `n` when `n` is a value in the tables map and as the decimal representation
of `n` otherwise. When the eight bytes pass the sane-double test it renders `v` as the
floating-point value with these bytes: as `nan` for every `-2^52 < n < 0`. -/
theorem integer_payload_rendering (L : StdLib) (vm : VirtualMachine) (n : Int)
    (h1 : - (2 : Int) ^ 63 ≤ n) (h2 : n < (2 : Int) ^ 63) :
    ParseValue L (intToString n) = Except.ok (sample_int n)
    ∧ (n = 0 → ValueToString L (BuildReverseMaps L {} vm) (sample_int n) = lit "0")
    ∧ (IsValidDouble (toBits 64 n) = false →
        ((∃ name, (name, n) ∈ vm._tables) →
          ∃ name, (name, n) ∈ vm._tables
            ∧ ValueToString L (BuildReverseMaps L {} vm) (sample_int n) = name)
        ∧ ((¬ ∃ name, (name, n) ∈ vm._tables) →
          ValueToString L (BuildReverseMaps L {} vm) (sample_int n) = intToString n))
    ∧ (0 < n → n < (2 : Int) ^ 52 → IsValidDouble (toBits 64 n) = false)
    ∧ (IsValidDouble (toBits 64 n) = true →
        ValueToString L (BuildReverseMaps L {} vm) (sample_int n)
          = FormatDouble L (toBits 64 n))
    ∧ (- (2 : Int) ^ 52 < n → n < 0 →
        ValueToString L (BuildReverseMaps L {} vm) (sample_int n) = lit "nan") := by
  have hs := toSigned_toBits n h1 h2
  have hv := ValueToString_int L (BuildReverseMaps L {} vm) n
  rw [hs] at hv
  refine ⟨ParseValue_int L n h1 h2, ?_, ?_, small_positive_is_no_sane_double n, ?_, ?_⟩
  · intro h0
    subst h0
    rfl
  · intro hf
    rw [hv, if_neg (by simp [hf])]
    have hl := BuildReverseMaps_labels_find L vm._tables [] List.nodup_nil n
    have hm : (BuildReverseMaps L {} vm)._labelMap = BuildReverseMaps.labels L vm._tables [] :=
      rfl
    rw [hm]
    constructor
    · intro h
      obtain ⟨name, e1, e2⟩ := hl.1 h
      exact ⟨name, e2, by rw [e1]⟩
    · intro h
      rw [hl.2 h]
      rfl
  · intro ht
    rw [hv, if_pos ht]
  · intro hlo hneg
    have hn := small_negative_is_nan n hneg hlo
    have ht : IsValidDouble (toBits 64 n) = true := by simp [IsValidDouble, hn]
    rw [hv, if_pos ht]
    simp [FormatDouble, hn]

/-- Witness for C32 (amended): in the machine of `vm_bindings`, whose tables map binds
`loop` to 2, the integer 7 is rendered as `7` and the integer 2 as `loop`. -/
theorem integer_payload_rendering_witness :
    (- (2 : Int) ^ 63 ≤ 7 ∧ (7 : Int) < (2 : Int) ^ 63)
    ∧ IsValidDouble (toBits 64 7) = false
    ∧ (¬ ∃ name, (name, (7 : Int)) ∈ vm_bindings._tables)
    ∧ ValueToString StdLib.front (BuildReverseMaps StdLib.front {} vm_bindings) (sample_int 7)
        = intToString 7
    ∧ ValueToString StdLib.front (BuildReverseMaps StdLib.front {} vm_bindings) (sample_int 2)
        = lit "loop" :=
  have hno : ¬ ∃ name, (name, (7 : Int)) ∈ vm_bindings._tables := by
    rintro ⟨name, h⟩
    simp [vm_bindings] at h
  ⟨by decide, by decide, hno,
   ((integer_payload_rendering StdLib.front vm_bindings 7 (by decide) (by decide)).2.2.1
      (by decide)).2 hno,
   by decide!⟩

/-- C32, counterexample. The integer -1 is written by the assembler as eight bytes `ff`;
`ValueToString` renders this Value as `nan`, not as `-1`, and the source `mov -1, R0`
disassembles as `mov nan, R0`. -/
theorem minus_one_is_rendered_as_nan :
    ParseValue StdLib.front (lit "-1") = Except.ok (sample_int (-1))
    ∧ ValueToString StdLib.front {} (sample_int (-1)) = lit "nan"
    ∧ (CompileString StdLib.front (lit "mov -1, R0") {}).toOption.map
        (fun vm => (Disassemble StdLib.front {} 0 vm).1)
        = some (lit "    mov nan, R0\n") :=
  ⟨by rfl, by decide!, by decide!⟩


theorem BuildReverseMaps_labels_keys (L : StdLib) (tables : UMap Str Int) (m : UMap Int Str)
    (k : Int) :
    k ∈ UMap.keys (BuildReverseMaps.labels L tables m)
      ↔ k ∈ UMap.keys m ∨ ∃ name, (name, k) ∈ tables := by
  induction tables generalizing m with
  | nil => simp [BuildReverseMaps.labels]
  | cons e tables ih =>
    obtain ⟨name0, addr0⟩ := e
    simp only [BuildReverseMaps.labels, ih, UMap.mem_keys_assign, List.mem_cons,
      Prod.mk.injEq]
    constructor
    · rintro ((h | h) | ⟨name, h⟩)
      · exact Or.inr ⟨name0, Or.inl ⟨rfl, h⟩⟩
      · exact Or.inl h
      · exact Or.inr ⟨name, Or.inr h⟩
    · rintro (h | ⟨name, ⟨_, h⟩ | h⟩)
      · exact Or.inl (Or.inr h)
      · exact Or.inl (Or.inl h)
      · exact Or.inr ⟨name, h⟩

theorem Disassemble_instructions_counter (L : StdLib) (d : Disassembler)
    (instrs : List Instruction) (k : Int) :
    (Disassemble.instructions L d instrs k).2 = k + instrs.length := by
  induction instrs generalizing k with
  | nil => simp [Disassemble.instructions]
  | cons instr instrs ih =>
    simp only [Disassemble.instructions, DisassembleInstruction, ih, List.length_cons]
    push_cast
    ring

/-- C31, code defect. `BuildReverseMaps` enters the index of every entry of the tables map
into the label map, so the test `_labelMap.find(addr) == _labelMap.end()` in the last loop
of `Disassemble` never holds: for every machine, disassembler and counter the returned
text is the text of the instruction loop alone, without any `#table` line. The source
`#table data` / `mov 1, R0` / `halt` declares the table `data` and no label `data:`; it
assembles to the tables map `data ↦ 0`, and the disassembly is `data:`, `mov 1, R0`,
`halt`, with a label line for `data` and no line `#table data`. -/
theorem declared_table_is_listed_as_a_label :
    (∀ (L : StdLib) (d : Disassembler) (k : Int) (vm : VirtualMachine),
      Disassemble.tables (BuildReverseMaps L d vm) vm._tables = []
      ∧ (Disassemble L d k vm).1
          = (Disassemble.instructions L (BuildReverseMaps L d vm) vm._instructions k).1)
    ∧ (CompileString StdLib.front src_table_only {}).toOption.map
        (fun vm => (vm._tables, (Disassemble StdLib.front {} 0 vm).1))
        = some ([(lit "data", 0)], lit "data:\n    mov 1, R0\n    halt\n") := by
  refine ⟨fun L d k vm => ?_, by decide!⟩
  have h : Disassemble.tables (BuildReverseMaps L d vm) vm._tables = [] := by
    apply Disassemble_tables_nil
    intro e he
    apply (UMap.contains_iff _ _).mpr
    exact (BuildReverseMaps_labels_keys L vm._tables d._labelMap e.2).mpr (Or.inr ⟨e.1, he⟩)
  refine ⟨h, ?_⟩
  simp only [Disassemble, h, List.append_nil]

/-- C38, code defect. The counter `instrIndex` of `DisassembleInstruction` is a `static`
local variable: it is 0 only at the first call in the process and keeps its value between
calls, for every `Disassembler` object. After a call of `Disassemble` that started with the
counter `k` the counter is `k` plus the number of instructions. For the program of
`vm_bindings` the first call returns the listing with the lines `data:` and `loop:`; a
second call on the same machine, with the same or with a fresh `Disassembler`, returns the
three instruction lines without any label line. -/
theorem second_disassemble_drops_the_labels :
    (∀ (L : StdLib) (d : Disassembler) (k : Int) (vm : VirtualMachine),
      (Disassemble L d k vm).2.2 = k + vm._instructions.length)
    ∧ (Disassemble StdLib.front {} 0 vm_bindings).1
        = lit "data:\n    mov 1, R0\n    add R0, 1, R0\nloop:\n    halt\n"
    ∧ (Disassemble StdLib.front (Disassemble StdLib.front {} 0 vm_bindings).2.1
          (Disassemble StdLib.front {} 0 vm_bindings).2.2 vm_bindings).1
        = lit "    mov 1, R0\n    add R0, 1, R0\n    halt\n"
    ∧ (Disassemble StdLib.front {} (Disassemble StdLib.front {} 0 vm_bindings).2.2
          vm_bindings).1
        = lit "    mov 1, R0\n    add R0, 1, R0\n    halt\n" := by
  refine ⟨fun L d k vm => ?_, by decide!, by decide!, by decide!⟩
  simp only [Disassemble, Disassemble_instructions_counter]


theorem unchanged_except_set (d : Nat) (vm : VirtualMachine) (r : Value)
    (hregs : vm._regs.length = 64) (hsnap : vm._regs_snap.length = 64) :
    unchanged_except d vm { vm with _regs := vm._regs.set d r } := by
  refine ⟨fun i hi => ?_, rfl, rfl, ?_, hsnap⟩
  · simp only [List.get?_eq_getElem?]
    exact List.getElem?_set_ne (fun h => hi h.symm)
  · simp [hregs]

theorem operand_long_ok (vm : VirtualMachine) (a : Value)
    (ha : a.is_reg = true → a.to_uint8_t < vm._regs.length) :
    ∃ x, operand_long vm a = Except.ok x := by
  unfold operand_long
  by_cases hr : a.is_reg = true
  · simp [hr, reg_read_of_lt _ _ (ha hr), bind, Except.bind, pure, Except.pure]
  · simp [hr, pure, Except.pure]

/-- C40. In a machine whose two banks have 64 entries each: `mov`, `add`, `sub` and `neg`
with register or immediate operands, register indices at most 63 and destination index
`d ≤ 63` return 0 and leave every register other than `R[d]`, the whole snapshot bank and
the tables map unchanged, with 64 entries in both banks afterwards; `snap_save`,
`snap_swap`, `snap_clear` and `regs_clear` return 0 with 64 entries in both banks. The
syscall table is not part of what the interpreter returns: it cannot change. -/
theorem register_write_changes_only_its_destination (L : StdLib) (sys : SyscallTable)
    (indet : Bool) (vm : VirtualMachine)
    (hregs : vm._regs.length = 64) (hsnap : vm._regs_snap.length = 64) :
    (∀ (src dst : Value) (rest : List Value),
      (src.is_reg = true → src.to_uint8_t ≤ 63) → (src.is_reg = false → src.is_table = false) →
      dst.to_uint8_t ≤ 63 →
      ∃ vm1, Interpreter L sys indet vm { code := OpCode.MOV, Args := src :: dst :: rest }
          = Except.ok (0, vm1)
        ∧ unchanged_except dst.to_uint8_t vm vm1)
    ∧ (∀ (code : OpCode) (a b dst : Value) (rest : List Value),
      code = OpCode.ADD ∨ code = OpCode.SUB →
      (a.is_reg = true → a.to_uint8_t ≤ 63) → (b.is_reg = true → b.to_uint8_t ≤ 63) →
      dst.to_uint8_t ≤ 63 →
      ∃ vm1, Interpreter L sys indet vm { code := code, Args := a :: b :: dst :: rest }
          = Except.ok (0, vm1)
        ∧ unchanged_except dst.to_uint8_t vm vm1)
    ∧ (∀ (src dst : Value) (rest : List Value),
      src.to_uint8_t ≤ 63 → dst.to_uint8_t ≤ 63 →
      ∃ vm1, Interpreter L sys indet vm { code := OpCode.NEG, Args := src :: dst :: rest }
          = Except.ok (0, vm1)
        ∧ unchanged_except dst.to_uint8_t vm vm1)
    ∧ (∀ (code : OpCode) (args : List Value),
      code = OpCode.SNAP_SAVE ∨ code = OpCode.SNAP_SWAP ∨ code = OpCode.SNAP_CLEAR
        ∨ code = OpCode.REGS_CLEAR →
      ∃ vm1, Interpreter L sys indet vm { code := code, Args := args } = Except.ok (0, vm1)
        ∧ vm1._regs.length = 64 ∧ vm1._regs_snap.length = 64) := by
  refine ⟨?_, ?_, ?_, ?_⟩
  · intro src dst rest hsrc htab hdst
    have hd : dst.to_uint8_t < vm._regs.length := by omega
    by_cases hr : src.is_reg = true
    · have hs : src.to_uint8_t < vm._regs.length := by have := hsrc hr; omega
      refine ⟨{ vm with _regs := vm._regs.set dst.to_uint8_t
                                    (vm._regs.getD src.to_uint8_t Value.empty) }, ?_,
        unchanged_except_set _ vm _ hregs hsnap⟩
      show (if src.is_reg then _ else _) = _
      simp [hr, reg_read_of_lt _ _ hs, reg_write_of_lt _ _ _ hd, bind, Except.bind, pure,
        Except.pure]
    · have hr1 : src.is_reg = false := by simpa using hr
      refine ⟨{ vm with _regs := vm._regs.set dst.to_uint8_t src }, ?_,
        unchanged_except_set _ vm _ hregs hsnap⟩
      show (if src.is_reg then _ else _) = _
      simp [hr1, htab hr1, reg_write_of_lt _ _ _ hd, bind, Except.bind, pure, Except.pure]
  · intro code a b dst rest hcode ha hb hdst
    have hd : dst.to_uint8_t < vm._regs.length := by omega
    obtain ⟨x, hx⟩ := operand_long_ok vm a (fun h => by have := ha h; omega)
    obtain ⟨y, hy⟩ := operand_long_ok vm b (fun h => by have := hb h; omega)
    rcases hcode with hc | hc
    · subst hc
      refine ⟨{ vm with _regs := vm._regs.set dst.to_uint8_t
                            ((vm._regs.getD dst.to_uint8_t Value.empty).write_long
                              (wrap64 (x + y))) }, ?_,
        unchanged_except_set _ vm _ hregs hsnap⟩
      simp [Interpreter, show ((OpCode.ADD : OpCode) : Nat) = 3 from rfl, Args_at, hx, hy,
        reg_read_of_lt _ _ hd, reg_write_of_lt _ _ _ hd, bind, Except.bind, pure, Except.pure]
    · subst hc
      refine ⟨{ vm with _regs := vm._regs.set dst.to_uint8_t
                            ((vm._regs.getD dst.to_uint8_t Value.empty).write_long
                              (wrap64 (x - y))) }, ?_,
        unchanged_except_set _ vm _ hregs hsnap⟩
      simp [Interpreter, show ((OpCode.SUB : OpCode) : Nat) = 4 from rfl, Args_at, hx, hy,
        reg_read_of_lt _ _ hd, reg_write_of_lt _ _ _ hd, bind, Except.bind, pure, Except.pure]
  · intro src dst rest hsrc hdst
    have hd : dst.to_uint8_t < vm._regs.length := by omega
    have hs : src.to_uint8_t < vm._regs.length := by omega
    refine ⟨{ vm with _regs := vm._regs.set dst.to_uint8_t
                          ((vm._regs.getD dst.to_uint8_t Value.empty).write_long
                            (wrap64 (- (vm._regs.getD src.to_uint8_t Value.empty).to_long))) },
      ?_,
      unchanged_except_set _ vm _ hregs hsnap⟩
    simp [Interpreter, show ((OpCode.NEG : OpCode) : Nat) = 5 from rfl, Args_at,
      reg_read_of_lt _ _ hd, reg_read_of_lt _ _ hs, reg_write_of_lt _ _ _ hd, bind,
      Except.bind, pure, Except.pure]
  · intro code args hcode
    rcases hcode with hc | hc | hc | hc
    · subst hc
      exact ⟨{ vm with _regs_snap := vm._regs }, rfl, hregs, hregs⟩
    · subst hc
      exact ⟨{ vm with _regs := vm._regs_snap, _regs_snap := vm._regs }, rfl, hsnap, hregs⟩
    · subst hc
      exact ⟨{ vm with _regs_snap := List.replicate 64 Value.empty }, rfl, hregs,
        List.length_replicate _ _⟩
    · subst hc
      exact ⟨{ vm with _regs := List.replicate 64 Value.empty }, rfl,
        List.length_replicate _ _, hsnap⟩

/-- Witness for C40: `mov R5, R3` on the sample machine. -/
theorem register_write_changes_only_its_destination_witness :
    sample_vm._regs.length = 64 ∧ sample_vm._regs_snap.length = 64
    ∧ (sample_reg 5).to_uint8_t ≤ 63 ∧ (sample_reg 3).to_uint8_t ≤ 63
    ∧ ∃ vm1, Interpreter StdLib.front [] false sample_vm
          { code := OpCode.MOV, Args := [sample_reg 5, sample_reg 3] } = Except.ok (0, vm1)
        ∧ unchanged_except (sample_reg 3).to_uint8_t sample_vm vm1 :=
  ⟨by decide, by decide, by decide, by decide,
   (register_write_changes_only_its_destination StdLib.front [] false sample_vm
      (by decide) (by decide)).1 (sample_reg 5) (sample_reg 3) [] (fun _ => by decide)
      (fun _ => rfl) (by decide)⟩


theorem loaded_args_same (indet : Nat → Bool) (k : Nat) (args : List Value) :
    List.Forall₂ (fun x y : Value => x.is_reg = y.is_reg ∧ x.data = y.data)
      (loaded_args indet k args) args := by
  induction args generalizing k with
  | nil => exact List.Forall₂.nil
  | cons a as ih => exact List.Forall₂.cons ⟨rfl, rfl⟩ (ih (k + 1))

theorem loaded_instructions_same (indet : Nat → Nat → Bool) (k : Nat)
    (instructions : List Instruction) :
    List.Forall₂ (fun a b : Instruction => a.code = b.code
        ∧ List.Forall₂ (fun x y : Value => x.is_reg = y.is_reg ∧ x.data = y.data) a.Args b.Args)
      (loaded_instructions indet k instructions) instructions := by
  induction instructions generalizing k with
  | nil => exact List.Forall₂.nil
  | cons a as ih => exact List.Forall₂.cons ⟨rfl, loaded_args_same _ 0 a.Args⟩ (ih (k + 1))

theorem loaded_args_is_table (indet : Nat → Bool) (k : Nat) (args : List Value) (j : Nat)
    (arg : Value) (h : (loaded_args indet k args).get? j = some arg) :
    arg.is_table = indet (k + j) := by
  induction args generalizing k j with
  | nil => simp [loaded_args] at h
  | cons a as ih =>
    cases j with
    | zero =>
      simp only [loaded_args, List.get?_cons_zero, Option.some.injEq] at h
      rw [← h]
      rfl
    | succ j =>
      simp only [loaded_args, List.get?_cons_succ] at h
      have := ih (k + 1) j h
      rw [this]
      congr 1
      omega

theorem loaded_instructions_is_table (indet : Nat → Nat → Bool) (k : Nat)
    (instructions : List Instruction) (i j : Nat) (instr : Instruction) (arg : Value)
    (h : (loaded_instructions indet k instructions).get? i = some instr)
    (ha : instr.Args.get? j = some arg) :
    arg.is_table = indet (k + i) j := by
  induction instructions generalizing k i with
  | nil => simp [loaded_instructions] at h
  | cons a as ih =>
    cases i with
    | zero =>
      simp only [loaded_instructions, List.get?_cons_zero, Option.some.injEq] at h
      rw [← h] at ha
      have := loaded_args_is_table (indet k) 0 a.Args j arg ha
      rw [this, Nat.zero_add, Nat.add_zero]
    | succ i =>
      simp only [loaded_instructions, List.get?_cons_succ] at h
      have := ih (k + 1) i h
      rw [this]
      congr 1
      omega

/-- C39, amended. For every program in which each instruction has at most 255 arguments,
no table name contains a zero byte, and every count and length is below `2^32` (each name
once and each table value an `int64`, as in any such map): `LoadFromFile` applied to the
image written by `SaveToFile` returns true and yields the same instruction sequence (same
opcodes, same number of arguments, same `is_reg` flag and data bytes for every argument,
in order) and the same tables map. The field `is_table` is not recovered: the image does
not store it, and in the loaded argument it holds whatever the uninitialised member
holds. -/
theorem saved_image_loads_all_but_is_table (L : StdLib) (indet : Nat → Nat → Bool)
    (vm0 : VirtualMachine) (instructions : List Instruction) (tables : UMap Str Int)
    (h : FitsImage instructions tables) :
    ∃ vm1, LoadFromFile L indet vm0 (SaveToFile instructions tables) = Except.ok (true, vm1)
      ∧ List.Forall₂ (fun a b : Instruction => a.code = b.code
          ∧ List.Forall₂ (fun x y : Value => x.is_reg = y.is_reg ∧ x.data = y.data)
              a.Args b.Args) vm1._instructions instructions
      ∧ (∀ (i j : Nat) (instr : Instruction) (arg : Value),
          vm1._instructions.get? i = some instr → instr.Args.get? j = some arg →
          arg.is_table = indet i j)
      ∧ List.Perm vm1._tables tables
      ∧ ∀ name, UMap.find vm1._tables name = UMap.find tables name := by
  have hp : List.Perm (loaded_tables L [] tables) tables := by
    have := loaded_tables_perm L tables [] (by simpa [UMap.keys] using h.1)
    simpa using this
  refine ⟨_, LoadFromFile_SaveToFile L indet vm0 instructions tables h,
    loaded_instructions_same indet 0 instructions, ?_, hp, fun name => ?_⟩
  · intro i j instr arg hi hj
    have := loaded_instructions_is_table indet 0 instructions i j instr arg hi hj
    rw [this, Nat.zero_add]
  · exact (UMap.find_perm _ _ hp.symm h.1 name).symm

/-- Witness for C39 (amended): the sample program. -/
theorem saved_image_loads_all_but_is_table_witness :
    FitsImage sample_program sample_tables ∧
    ∃ vm1, LoadFromFile StdLib.back (fun _ _ => false) {}
        (SaveToFile sample_program sample_tables) = Except.ok (true, vm1)
      ∧ List.Forall₂ (fun a b : Instruction => a.code = b.code
          ∧ List.Forall₂ (fun x y : Value => x.is_reg = y.is_reg ∧ x.data = y.data)
              a.Args b.Args) vm1._instructions sample_program
      ∧ (∀ (i j : Nat) (instr : Instruction) (arg : Value),
          vm1._instructions.get? i = some instr → instr.Args.get? j = some arg →
          arg.is_table = (fun _ _ => false) i j)
      ∧ List.Perm vm1._tables sample_tables
      ∧ ∀ name, UMap.find vm1._tables name = UMap.find sample_tables name :=
  ⟨sample_fits_image,
    saved_image_loads_all_but_is_table StdLib.back (fun _ _ => false) {} sample_program
      sample_tables sample_fits_image⟩

theorem LoadFromFile_name_wraps (L : StdLib) (indet : Nat → Nat → Bool) (vm0 : VirtualMachine) :
    LoadFromFile L indet vm0
        ([86, 77, 67, 1, 1, 0, 0, 0, 0, 0, 0, 0] ++ leBytes 8 (toBits 64 0) ++ [0, 0, 0, 0])
      = Except.error Fault.undefined := by
  rfl

/-- C39, counterexample. The program with no instructions and one table entry whose name
is `2^32 - 1` bytes `A` has no instruction with more than 255 arguments and no zero byte
in its table name. `SaveToFile` writes the length field 0 for this name and no name bytes,
and `LoadFromFile` on this image builds the key with `std::string(key_data.data())` from
an empty buffer: the behaviour is undefined; the call does not return true with the same
tables map. -/
theorem image_of_long_name_does_not_load :
    (∀ i ∈ ([] : List Instruction), i.Args.length ≤ 255)
    ∧ (∀ e ∈ long_name_tables, (0 : Byte) ∉ e.1)
    ∧ (∀ (L : StdLib) (indet : Nat → Nat → Bool) (vm0 : VirtualMachine),
        LoadFromFile L indet vm0 (SaveToFile [] long_name_tables)
          = Except.error Fault.undefined) := by
  have hl : (List.replicate (2 ^ 32 - 1) (65 : Byte)).length = 2 ^ 32 - 1 :=
    List.length_replicate _ _
  have e1 := SaveToFile_name_wraps (List.replicate (2 ^ 32 - 1) 65) 0 (by rw [hl]; norm_num)
  refine ⟨fun i hi => (by cases hi), ?_, fun L indet vm0 => ?_⟩
  · intro e he hm
    have he1 : e = (List.replicate (2 ^ 32 - 1) 65, 0) := List.mem_singleton.mp he
    rw [he1] at hm
    have := (List.mem_replicate.mp hm).2
    revert this
    decide
  · rw [show SaveToFile [] long_name_tables = _ from e1]
    exact LoadFromFile_name_wraps L indet vm0


theorem conversions_single (c : Byte) : conversions [c] = [] := by
  unfold conversions
  split <;> rfl

theorem conversions_percent (spec : Byte) (rest : Str) :
    conversions (37 :: spec :: rest) = spec :: conversions rest := by
  rw [conversions.eq_def]
  simp

theorem conversions_plain (c : Byte) (fmt : Str) (hc : c ≠ 37) :
    conversions (c :: fmt) = conversions fmt := by
  rw [conversions.eq_def]
  simp [hc]

theorem SysPrint_go_single (L : StdLib) (vm : VirtualMachine) (args : List Value) (c : Byte)
    (i : Nat) (out : Str) : SysPrint.go L vm args [c] i out = Except.ok (out ++ [c]) := by
  unfold SysPrint.go
  split <;> rfl

theorem SysPrint_go_plain (L : StdLib) (vm : VirtualMachine) (args : List Value) (c : Byte)
    (fmt : Str) (i : Nat) (out : Str) (hc : c ≠ 37) :
    SysPrint.go L vm args (c :: fmt) i out = SysPrint.go L vm args fmt i (out ++ [c]) := by
  rw [SysPrint.go.eq_def]
  simp [hc]

theorem SysPrint_go_percent (L : StdLib) (vm : VirtualMachine) (args : List Value)
    (spec : Byte) (rest : Str) (i : Nat) (out : Str) :
    SysPrint.go L vm args (37 :: spec :: rest) i out
      = if i ≥ args.length then
          Except.error (Fault.error (lit "Not enough arguments for format string"))
        else
          match args.get? i with
          | none => Except.error Fault.undefined
          | some arg =>
            match SysPrint.convert L vm spec arg with
            | Except.error f => Except.error f
            | Except.ok text =>
              SysPrint.go L vm args rest (if spec = 37 then i else i + 1) (out ++ text) := by
  rw [SysPrint.go.eq_def]
  simp

theorem SysPrint_convert_ok (L : StdLib) (vm : VirtualMachine) (spec : Byte) (arg : Value)
    (text : Str) (h : SysPrint.convert L vm spec arg = Except.ok text) :
    (spec = 37 ∧ consumes_argument spec = false)
      ∨ (spec ≠ 37 ∧ consumes_argument spec = true) := by
  unfold SysPrint.convert at h
  split_ifs at h with h1 h2 h3 h4 h5 h6
  · right; subst h1; decide
  · right; subst h2; decide
  · right; subst h3; decide
  · right; subst h4; decide
  · right; subst h5; decide
  · left; subst h6; decide

theorem SysPrint_go_fails (L : StdLib) (vm : VirtualMachine) (args : List Value) (fmt : Str) :
    (∀ i out, i ≤ args.length → args.length < i + consuming_specifiers fmt →
      ∃ f, SysPrint.go L vm args fmt i out = Except.error f)
    ∧ (∀ c i out, i ≤ args.length → args.length < i + consuming_specifiers (c :: fmt) →
      ∃ f, SysPrint.go L vm args (c :: fmt) i out = Except.error f) := by
  induction fmt with
  | nil =>
    constructor
    · intro i out hi h
      simp [consuming_specifiers, conversions] at h
      omega
    · intro c i out hi h
      simp [consuming_specifiers, conversions_single] at h
      omega
  | cons x xs ih =>
    refine ⟨ih.2 x, ?_⟩
    intro c i out hle h
    by_cases hc : c = 37
    · subst hc
      rw [SysPrint_go_percent]
      simp only [consuming_specifiers, conversions_percent, List.countP_cons] at h
      by_cases hi : i ≥ args.length
      · rw [if_pos hi]
        exact ⟨_, rfl⟩
      · rw [if_neg hi]
        cases hg : args.get? i with
        | none => exact ⟨_, rfl⟩
        | some arg =>
          dsimp only
          cases hv : SysPrint.convert L vm x arg with
          | error f => exact ⟨f, rfl⟩
          | ok text =>
            dsimp only
            rcases SysPrint_convert_ok L vm x arg text hv with ⟨h1, h2⟩ | ⟨h1, h2⟩
            · rw [if_pos h1]
              simp only [h2, Bool.false_eq_true, if_false] at h
              exact ih.1 _ _ hle h
            · rw [if_neg h1]
              simp only [h2, if_true] at h
              apply ih.1 _ _ (by omega)
              unfold consuming_specifiers
              omega
    · rw [SysPrint_go_plain L vm args c (x :: xs) i out hc]
      apply ih.2 x _ _ hle
      simp only [consuming_specifiers, conversions_plain c (x :: xs) hc] at h ⊢
      exact h

theorem SysPrint_go_more (L : StdLib) (vm : VirtualMachine) (args extra : List Value)
    (fmt : Str) :
    (∀ i out r, SysPrint.go L vm args fmt i out = Except.ok r →
      SysPrint.go L vm (args ++ extra) fmt i out = Except.ok r)
    ∧ (∀ c i out r, SysPrint.go L vm args (c :: fmt) i out = Except.ok r →
      SysPrint.go L vm (args ++ extra) (c :: fmt) i out = Except.ok r) := by
  induction fmt with
  | nil =>
    constructor
    · intro i out r h
      exact h
    · intro c i out r h
      rw [SysPrint_go_single] at h ⊢
      exact h
  | cons x xs ih =>
    refine ⟨ih.2 x, ?_⟩
    intro c i out r h
    by_cases hc : c = 37
    · subst hc
      rw [SysPrint_go_percent] at h ⊢
      by_cases hi : i ≥ args.length
      · rw [if_pos hi] at h
        cases h
      · rw [if_neg hi] at h
        have hi1 : i < args.length := by omega
        have hi2 : ¬ i ≥ (args ++ extra).length := by
          rw [List.length_append]
          omega
        have hg : (args ++ extra).get? i = args.get? i := by
          simp only [List.get?_eq_getElem?]
          exact List.getElem?_append_left hi1
        rw [if_neg hi2, hg]
        cases hga : args.get? i with
        | none =>
          rw [hga] at h
          cases h
        | some arg =>
          rw [hga] at h
          dsimp only at h ⊢
          cases hv : SysPrint.convert L vm x arg with
          | error f =>
            rw [hv] at h
            cases h
          | ok text =>
            rw [hv] at h
            dsimp only at h ⊢
            exact ih.1 _ _ r h
    · rw [SysPrint_go_plain L vm _ c (x :: xs) i out hc] at h ⊢
      exact ih.2 x _ _ r h

/-- C36, amended. Let `fmt` be the format string of a call of the print syscall with the
arguments `rest` after the format. When fewer arguments follow the format than it has
argument-consuming specifiers (`%d`, `%f`, `%s`, `%c`, `%x`), print fails. When print
succeeds, at least as many arguments follow as the format consumes, and print succeeds in
the same way, with the same output, when any further arguments are appended: arguments
that the format does not consume are ignored. -/
theorem print_rejects_missing_arguments_only (L : StdLib) (vm : VirtualMachine)
    (arg0 : Value) (rest : List Value) (fmt : Str)
    (hfmt : SysPrint.fmt vm arg0 = Except.ok fmt) :
    (rest.length < consuming_specifiers fmt →
      ∃ f, SysPrint L vm (arg0 :: rest) = Except.error f)
    ∧ (∀ vm1, SysPrint L vm (arg0 :: rest) = Except.ok vm1 →
        consuming_specifiers fmt ≤ rest.length
        ∧ ∀ extra, SysPrint L vm (arg0 :: (rest ++ extra)) = Except.ok vm1) := by
  have hfail : rest.length < consuming_specifiers fmt →
      ∃ f, SysPrint L vm (arg0 :: rest) = Except.error f := by
    intro h
    obtain ⟨f, hf⟩ := (SysPrint_go_fails L vm (arg0 :: rest) fmt).1 1 []
      (by simp) (by simp only [List.length_cons]; omega)
    exact ⟨f, by simp [SysPrint, hfmt, hf, bind, Except.bind]⟩
  refine ⟨hfail, fun vm1 hok => ⟨?_, fun extra => ?_⟩⟩
  · by_contra hlt
    obtain ⟨f, hf⟩ := hfail (by omega)
    rw [hf] at hok
    cases hok
  · simp only [SysPrint, hfmt, bind, Except.bind] at hok ⊢
    cases hg : SysPrint.go L vm (arg0 :: rest) fmt 1 [] with
    | error f =>
      rw [hg] at hok
      cases hok
    | ok out =>
      rw [hg] at hok
      have := (SysPrint_go_more L vm (arg0 :: rest) extra fmt).1 1 [] out hg
      rw [List.cons_append] at this
      rw [this]
      exact hok

/-- Witness for C36 (amended): `%d %d` with one argument after the format fails; `n=%d`
with one argument succeeds and writes `n=5`, also when a second argument follows. -/
theorem print_rejects_missing_arguments_only_witness :
    SysPrint.fmt {} (string_value (lit "%d %d")) = Except.ok (lit "%d %d")
    ∧ [sample_int 5].length < consuming_specifiers (lit "%d %d")
    ∧ (∃ f, SysPrint StdLib.front {} [string_value (lit "%d %d"), sample_int 5]
        = Except.error f)
    ∧ SysPrint StdLib.front {} [string_value (lit "n=%d"), sample_int 5]
        = Except.ok { cout := lit "n=5" }
    ∧ SysPrint StdLib.front {} [string_value (lit "n=%d"), sample_int 5, sample_int 6]
        = Except.ok { cout := lit "n=5" } :=
  ⟨by rfl, by decide,
   (print_rejects_missing_arguments_only StdLib.front {} (string_value (lit "%d %d"))
      [sample_int 5] (lit "%d %d") (by rfl)).1 (by decide),
   by rfl,
   ((print_rejects_missing_arguments_only StdLib.front {} (string_value (lit "n=%d"))
      [sample_int 5] (lit "n=%d") (by rfl)).2 { cout := lit "n=5" } (by rfl)).2
      [sample_int 6]⟩

/-- C36, counterexample. The format `hi` has no specifier, and one argument follows it:
more arguments than the format consumes. Print succeeds and writes `hi`. -/
theorem print_accepts_surplus_arguments :
    consuming_specifiers (lit "hi") = 0
    ∧ SysPrint StdLib.front {} [string_value (lit "hi"), sample_int 5]
        = Except.ok { cout := lit "hi" } :=
  ⟨by decide, by rfl⟩

/-- C37, code defect. `SysPrint` tests `arg_index >= args.size()` for every conversion
before the `switch`, also for `%%`, whose case then gives the argument back with
`arg_index--`. A `%%` that is met when no argument is left therefore fails with
`Not enough arguments for format string`: in every call whose only argument is the format
string the loop fails where it meets a `%%`, as for the format `100%%`; and so does the
format `%d%%` with one argument. With one more argument `100%%` writes `100%`. -/
theorem percent_literal_needs_a_spare_argument :
    (∀ (L : StdLib) (vm : VirtualMachine) (arg0 : Value) (rest out : Str),
      SysPrint.go L vm [arg0] (37 :: 37 :: rest) 1 out
        = Except.error (Fault.error (lit "Not enough arguments for format string")))
    ∧ SysPrint StdLib.front {} [string_value (lit "100%%")]
        = Except.error (Fault.error (lit "Not enough arguments for format string"))
    ∧ SysPrint StdLib.front {} [string_value (lit "%d%%"), sample_int 5]
        = Except.error (Fault.error (lit "Not enough arguments for format string"))
    ∧ SysPrint StdLib.front {} [string_value (lit "100%%"), sample_int 5]
        = Except.ok { cout := lit "100%" } :=
  ⟨fun L vm arg0 rest out => by rw [SysPrint_go_percent]; rfl, by rfl, by rfl, by rfl⟩


/-- C10, the code at the failing input. The source `/* header */` / `main:` / `mov 1, R0` /
`halt` has the label `main:` after a block comment that is closed on its own line. It
assembles without error, to a machine whose tables map has no key and which has no
instruction: `ProcessLine` cuts the first line at `/*`, does not find the `*/` any more and
leaves the block comment open over the lines that follow (the defect of C28). The same
source without the comment line assembles to the tables map with the one key `main` and
to two instructions. -/
theorem label_after_block_comment_is_no_key :
    ProcessLine.strip (lit "/* header */") false = (none, true)
    ∧ (CompileString StdLib.front src_header_comment {}).toOption.map
        (fun vm => (UMap.keys vm._tables, vm._instructions.length)) = some ([], 0)
    ∧ (CompileString StdLib.front src_header_plain {}).toOption.map
        (fun vm => (UMap.keys vm._tables, vm._instructions.length))
        = some ([lit "main"], 2) := by
  refine ⟨by decide!, by decide!, by decide!⟩

/-- C11, the code at the failing input. In the source `mov 1, R0 /* c */` / `main:` /
`halt` the label `main:` follows one instruction line. The source assembles without error,
and the tables map binds no name: `ProcessLine` drops the first line and leaves the block
comment open over the label line and the `halt` line (the defect of C28). The same source
without the comment binds `main` to 1, the index of the next instruction. -/
theorem label_after_block_comment_is_not_bound :
    (CompileString StdLib.front src_label_after_comment {}).toOption.map
        (fun vm => (vm._tables, UMap.find vm._tables (lit "main"))) = some ([], none)
    ∧ (CompileString StdLib.front src_label_plain {}).toOption.map
        (fun vm => (vm._tables, UMap.find vm._tables (lit "main")))
        = some ([(lit "main", 1)], some 1) := by
  refine ⟨by decide!, by decide!⟩

/-- C30, the code at the failing input. `DisassembleInstruction` looks the label up under
its `static` counter, which a call of `Disassemble` leaves at the number of instructions
listed so far in the process. For the machine `mov 5, R0` / `halt` with the tables map
`y → 1` the first call in the process lists `y:` before instruction 1. After one
instruction has been listed (the counter is 1) the call lists `y:` before instruction 0,
whose index is not a value in the tables map, and no label line before instruction 1; after
two instructions have been listed (a second call on the same machine) it lists no label
line at all. -/
theorem later_disassemble_misplaces_the_label :
    (Disassemble StdLib.front {} 0 vm_late_label).1 = lit "    mov 5, R0\ny:\n    halt\n"
    ∧ (Disassemble StdLib.front {} 0 vm_one_nop).2.2 = 1
    ∧ (Disassemble StdLib.front {} (Disassemble StdLib.front {} 0 vm_one_nop).2.2
          vm_late_label).1
        = lit "y:\n    mov 5, R0\n    halt\n"
    ∧ (Disassemble StdLib.front {} (Disassemble StdLib.front {} 0 vm_late_label).2.2
          vm_late_label).1
        = lit "    mov 5, R0\n    halt\n" := by
  refine ⟨by decide!, by decide!, by decide!, by decide!⟩

end VMAsm
